import Mathlib

/-! Search core of the toy-chess engine (`src/src/engine.cpp`).

A shallow embedding of `Engine::searchImpl`, `Engine::quiescenceSearch`,
`Engine::search`, `Engine::searchWithAspirationWindow`, `Engine::goImpl`,
`Engine::updateKiller`, `Engine::updateHistory`, `Engine::makeMove`,
`Engine::unmakeMove` and `TimeControl::initialize`.

The collaborators that `engine.cpp` only uses (the position, the static
evaluator, the move picker, the transposition table, the clock and the score
constants) are not part of the embedded file; they are the fields of `Env`.
The mutable members of `Engine` that the search touches are the fields of
`Engine`, threaded explicitly through every function.

`TimeControl::initialize` computes in `double`: a `double` is embedded as the
rational it holds, and every conversion and arithmetic result is rounded by
`roundDouble` (round to nearest, ties to even, 53 significant bits).
-/

namespace ToyChess

/-- `Score` of the engine is declared outside `engine.cpp`: a signed 16-bit
integer (`searchWithAspirationWindow` widens its operands to `int32_t` to
prevent overflow). It is embedded as an integer and written `Int` throughout.
The one arithmetic result that the engine stores in a `Score` without a range
check before it, the sum formed by `updateHistory`, is narrowed explicitly
(`wrap16`). -/
abbrev Score := Int

/-- `Move` of the engine: a packed value, here a natural number. -/
abbrev Move := Nat

/-- The distinguished `kNoneMove`. -/
def kNoneMove : Move := 0

/-- `NodeType`: the bound kind stored with a transposition-table entry. -/
inductive NodeType where
  | kPVNode
  | kCutNode
  | kAllNode
  deriving DecidableEq, Repr

/-- `TTEntry`: the five fields that the search writes before each `put`. -/
structure TTEntry where
  node_type : NodeType
  move : Move
  score : Int
  evaluation : Int
  depth : Int
  deriving DecidableEq, Repr

/-- `SearchResultType`. -/
inductive SearchResultType where
  | kSearchResultInfo
  | kSearchResultBestMove
  | kNoSearchResult
  deriving DecidableEq, Repr

/-- `SearchResult` as used by `engine.cpp`. The field `debug` records whether
the debug string is non-empty (its text is not modelled). -/
structure SearchResult where
  type : SearchResultType := SearchResultType.kNoSearchResult
  depth : Int := 0
  score : Int := 0
  pv : List Move := []
  stats_time : Int := 0
  stats_nodes : Int := 0
  stats_tt_hit : Int := 0
  stats_tt_cut : Int := 0
  debug : Bool := false
  deriving DecidableEq, Repr

/-- The external collaborators of the search, over a position type `P`.

* `kScoreInf`, `kScoreNone`, `kMaxDepth`: the constants of the missing headers.
* `key`, `checkers`, `evaluate`, `evaluateLeaf`, `isCaptureOrPromotion`,
  `makeMove`, `unmakeMove`, `makeNullMove`, `unmakeNullMove`: the `Position`
  interface.
* `quietSlot`, `captureSlot`: the history slot that `getQuietScore` /
  `getCaptureScore` address for a move in a position.
* `movePicker position quiet_history capture_history tt_move killers in_check
  quiescence`: the moves that `MovePicker::getNext` yields, in order.
* `ttGet`: the probe of the transposition table, as a function of the
  sequence of entries put so far (most recent first) and the key.
* `limit n`: the answer of the `n`-th call of `checkSearchLimit`
  (`true` = still within the limit).
* `getTime n`: the value of `time_control.getTime()` after `n` limit checks. -/
structure Env (P : Type) where
  kScoreInf : Int
  kScoreNone : Int
  kMaxDepth : Int
  key : P → Nat
  checkers : P → Bool
  evaluate : P → Int
  evaluateLeaf : P → Int → Int
  isCaptureOrPromotion : P → Move → Bool
  makeMove : P → Move → P
  unmakeMove : P → Move → P
  makeNullMove : P → P
  unmakeNullMove : P → P
  quietSlot : P → Move → Nat
  captureSlot : P → Move → Nat
  movePicker : P → (Nat → Int) → (Nat → Int) → Move → Move × Move → Bool → Bool → List Move
  ttGet : List (Nat × TTEntry) → Nat → Option TTEntry
  limit : Nat → Bool
  getTime : Nat → Int

/-- The members of `Engine` that the search reads and writes.

* `state`: the index of the frame `state` points to in `search_state_stack`.
* `killers i`, `pv i`: the killer pair and the principal variation of frame `i`.
* `transposition_table`: every `(key, entry)` passed to `put`, most recent first.
* `clock`: the number of `checkSearchLimit` calls made so far. -/
structure Engine (P : Type) where
  position : P
  state : Int
  killers : Int → Move × Move
  pv : Int → List Move
  transposition_table : List (Nat × TTEntry)
  quiet_history : Nat → Int
  capture_history : Nat → Int
  clock : Nat

/-- What a call of `searchImpl` / `quiescenceSearch` leaves behind: the returned
score, the engine, and the `SearchResult&` it was given. -/
structure Ret (P : Type) where
  score : Int
  eng : Engine P
  result : SearchResult

/-- The local variables of a node at the moment its lambda body is left.
`returned` is set when the body was left by a `return` inside the move loop. -/
structure Node (P : Type) where
  score : Int
  alpha : Int
  node_type : NodeType
  best_move : Move
  evaluation : Int
  interrupted : Bool
  returned : Bool
  move_cnt : Nat
  searched_quiets : List Move
  searched_captures : List Move
  eng : Engine P
  result : SearchResult

variable {P : Type}

/-- Pointwise update of a table. -/
def setAt {α : Type} (f : Int → α) (i : Int) (v : α) : Int → α :=
  fun j => if j = i then v else f j

/-- Pointwise update of a history table. -/
def setSlot (f : Nat → Int) (i : Nat) (v : Int) : Nat → Int :=
  fun j => if j = i then v else f j

/-- `Engine::checkSearchLimit`: the answer, and the engine after the call. -/
def checkSearchLimit (env : Env P) (eng : Engine P) : Bool × Engine P :=
  (env.limit eng.clock, { eng with clock := eng.clock + 1 })

/-- Modelled from the spec: `SearchState::reset` (the header that declares it is
missing) sets the PV length of the frame to 0 and keeps its killers. -/
def resetState (eng : Engine P) : Engine P :=
  { eng with pv := setAt eng.pv eng.state [] }

/-- Modelled from the spec: `SearchState::updatePV` (the header that declares it
is missing) stores `move` followed by the child's PV in the current frame. -/
def updatePV (eng : Engine P) (move : Move) (child_pv : List Move) : Engine P :=
  { eng with pv := setAt eng.pv eng.state (move :: child_pv) }

/-- `Engine::makeMove`. -/
def makeMove (env : Env P) (eng : Engine P) (move : Move) : Engine P :=
  let position := if move = kNoneMove then env.makeNullMove eng.position
    else env.makeMove eng.position move
  resetState { eng with position := position, state := eng.state + 1 }

/-- `Engine::unmakeMove`. -/
def unmakeMove (env : Env P) (eng : Engine P) (move : Move) : Engine P :=
  { eng with
    state := eng.state - 1
    position := if move = kNoneMove then env.unmakeNullMove eng.position
      else env.unmakeMove eng.position move }

/-- `Engine::updateKiller`. -/
def updateKiller (eng : Engine P) (move : Move) : Engine P :=
  if (eng.killers eng.state).1 = move then eng
  else { eng with killers := setAt eng.killers eng.state (move, (eng.killers eng.state).1) }

/-- The constant `kMaxHistoryScore` of `updateHistory`. -/
def kMaxHistoryScore : Int := 2000

/-- The value a 32-bit signed variable holds after an arithmetic result `v`
(two's complement wrap-around). -/
def wrap32 (v : Int) : Int :=
  (v + 2147483648) % 4294967296 - 2147483648

/-- The value a `Score` variable (a signed 16-bit integer) holds after the
`int` value `v` is stored in it (two's complement wrap-around). -/
def wrap16 (v : Int) : Int :=
  (v + 32768) % 65536 - 32768

/-- The lambda `update` of `Engine::updateHistory`, on the value of one slot.
`result += sign * (depth * depth)` computes the product and the sum in `int`
and stores the sum in the `Score` slot, which narrows it to 16 bits; the two
clamps follow. -/
def historyUpdate (depth : Int) (sign : Int) (old : Int) : Int :=
  max (min (wrap16 (wrap32 (old + wrap32 (sign * wrap32 (depth * depth)))))
    kMaxHistoryScore) (-kMaxHistoryScore)

/-- The loop body of `Engine::updateHistory` that lowers a non-best move. -/
def historyDecrease (slot : Move → Nat) (best_move : Move) (depth : Int)
    (table : Nat → Int) (move : Move) : Nat → Int :=
  if move = best_move then table
  else setSlot table (slot move) (historyUpdate depth (-1) (table (slot move)))

/-- `Engine::updateHistory`. -/
def updateHistory (env : Env P) (eng : Engine P) (best_move : Move)
    (quiets captures : List Move) (depth : Int) : Engine P :=
  let pos := eng.position
  let qslot := env.quietSlot pos
  let cslot := env.captureSlot pos
  let eng1 : Engine P :=
    if env.isCaptureOrPromotion pos best_move then
      let c0 := setSlot eng.capture_history (cslot best_move)
        (historyUpdate depth 1 (eng.capture_history (cslot best_move)))
      { eng with capture_history := c0 }
    else
      let q0 := setSlot eng.quiet_history (qslot best_move)
        (historyUpdate depth 1 (eng.quiet_history (qslot best_move)))
      { eng with quiet_history := quiets.foldl (historyDecrease qslot best_move depth) q0 }
  { eng1 with
    capture_history := captures.foldl (historyDecrease cslot best_move depth) eng1.capture_history }

/-- The `put` of the transposition table. -/
def ttPut (eng : Engine P) (key : Nat) (entry : TTEntry) : Engine P :=
  { eng with transposition_table := (key, entry) :: eng.transposition_table }

/-- The value of `tt_hit` as added to `stats_tt_hit`. -/
def hitCount (tt : Option TTEntry) : Int :=
  if tt.isSome = true then 1 else 0

/-- The local variables of a node as initialised before its lambda body. -/
def initNode (env : Env P) (alpha : Int) (eng : Engine P) (result : SearchResult) : Node P :=
  { score := -env.kScoreInf
    alpha := alpha
    node_type := NodeType.kAllNode
    best_move := kNoneMove
    evaluation := env.kScoreNone
    interrupted := false
    returned := false
    move_cnt := 0
    searched_quiets := []
    searched_captures := []
    eng := eng
    result := result }

/-- The statements after the lambda body of `quiescenceSearch`: the cancelled
return, or the transposition-table write (depth 0) and the return of the score. -/
def qFinish (env : Env P) (n : Node P) : Ret P :=
  if n.interrupted = true then ⟨env.kScoreNone, n.eng, n.result⟩
  else
    let entry : TTEntry :=
      { node_type := n.node_type, move := n.best_move, score := n.score,
        evaluation := n.evaluation, depth := 0 }
    ⟨n.score, ttPut n.eng (env.key n.eng.position) entry, n.result⟩

/-- One iteration of the move loop of `quiescenceSearch`; `child alpha beta`
is the recursive call at `depth + 1`. -/
def qStep (env : Env P) (child : Int → Int → Engine P → SearchResult → Ret P)
    (beta : Int) (n : Node P) (move : Move) : Node P :=
  let r := child (-beta) (-n.alpha) (makeMove env n.eng move) n.result
  let score := max n.score (-r.score)
  let chk := checkSearchLimit env (unmakeMove env r.eng move)
  let n1 : Node P :=
    { n with move_cnt := n.move_cnt + 1, score := score, eng := chk.2, result := r.result }
  if chk.1 = false then { n1 with interrupted := true, returned := true }
  else if beta < score then
    { n1 with node_type := NodeType.kCutNode, best_move := move, returned := true }
  else if n.alpha < score then
    { n1 with node_type := NodeType.kPVNode, alpha := score }
  else n1

/-- The `while (move_picker.getNext(move))` loop of `quiescenceSearch`. -/
def qLoop (env : Env P) (child : Int → Int → Engine P → SearchResult → Ret P)
    (beta : Int) : List Move → Node P → Node P
  | [], n => n
  | move :: rest, n =>
    let n1 := qStep env child beta n move
    if n1.returned = true then n1 else qLoop env child beta rest n1

/-- The lambda body of `quiescenceSearch` from the static evaluation on:
stand pat, the move loop and the mate test. `n.evaluation` holds the
evaluation taken from the table, or `kScoreNone`. -/
def qMoves (env : Env P) (child : Int → Int → Engine P → SearchResult → Ret P)
    (beta : Int) (depth : Int) (tt_move : Move) (n : Node P) : Node P :=
  let in_check := env.checkers n.eng.position
  let evaluation :=
    if n.evaluation = env.kScoreNone then env.evaluate n.eng.position else n.evaluation
  let n1 : Node P := { n with evaluation := evaluation, score := evaluation }
  if beta ≤ evaluation then { n1 with node_type := NodeType.kCutNode }
  else
    let n2 : Node P := if n.alpha < evaluation then { n1 with alpha := evaluation } else n1
    let moves := env.movePicker n.eng.position n.eng.quiet_history n.eng.capture_history
      tt_move (n.eng.killers n.eng.state) in_check true
    let n3 := qLoop env child beta moves n2
    if n3.returned = true then n3
    else if in_check = true ∧ n3.move_cnt = 0 then
      { n3 with score := env.evaluateLeaf n3.eng.position depth }
    else n3

/-- The lambda body of `quiescenceSearch`. -/
def qBody (env : Env P) (child : Int → Int → Engine P → SearchResult → Ret P)
    (alpha beta : Int) (depth : Int) (eng : Engine P) (result : SearchResult) : Node P :=
  let tt := env.ttGet eng.transposition_table (env.key eng.position)
  let result1 : SearchResult :=
    { result with stats_tt_hit := result.stats_tt_hit + hitCount tt }
  let n0 := initNode env alpha eng result1
  match tt with
  | some e =>
    if (e.node_type = NodeType.kCutNode ∨ e.node_type = NodeType.kPVNode) ∧ beta ≤ e.score then
      { n0 with score := e.score, node_type := NodeType.kCutNode, best_move := e.move,
                result := { result1 with stats_tt_cut := result1.stats_tt_cut + 1 } }
    else if e.node_type = NodeType.kAllNode ∧ e.score ≤ alpha then
      { n0 with score := e.score, node_type := NodeType.kAllNode,
                result := { result1 with stats_tt_cut := result1.stats_tt_cut + 1 } }
    else qMoves env child beta depth e.move { n0 with evaluation := e.evaluation }
  | none => qMoves env child beta depth kNoneMove n0

/-- `Engine::quiescenceSearch`, by recursion on `fuel`. A call at `depth`
needs `(kMaxDepth - depth).toNat + 1` units; see `quiescenceSearch`. -/
def quiescenceSearchF (env : Env P) :
    Nat → Int → Int → Int → Engine P → SearchResult → Ret P
  | 0, _, _, _, eng, result => ⟨env.kScoreNone, eng, result⟩
  | fuel + 1, alpha, beta, depth, eng, result =>
    let chk := checkSearchLimit env eng
    if chk.1 = false then ⟨env.kScoreNone, chk.2, result⟩
    else
      let result1 : SearchResult := { result with stats_nodes := result.stats_nodes + 1 }
      if env.kMaxDepth ≤ depth then ⟨env.evaluate chk.2.position, chk.2, result1⟩
      else
        qFinish env (qBody env (fun a b e r => quiescenceSearchF env fuel a b (depth + 1) e r)
          alpha beta depth chk.2 result1)

/-- `Engine::quiescenceSearch`. -/
def quiescenceSearch (env : Env P) (alpha beta : Int) (depth : Int)
    (eng : Engine P) (result : SearchResult) : Ret P :=
  quiescenceSearchF env ((env.kMaxDepth - depth).toNat + 1) alpha beta depth eng result

/-- The statements after the lambda body of `searchImpl`: the cancelled return,
or the transposition-table write, the killer and history updates of a cut
node, and the return of the score. -/
def finishNode (env : Env P) (depth_to_go : Int) (n : Node P) : Ret P :=
  if n.interrupted = true then ⟨env.kScoreNone, n.eng, n.result⟩
  else
    let entry : TTEntry :=
      { node_type := n.node_type, move := n.best_move, score := n.score,
        evaluation := n.evaluation, depth := depth_to_go }
    let eng1 := ttPut n.eng (env.key n.eng.position) entry
    let eng2 :=
      if n.node_type = NodeType.kCutNode then
        updateHistory env (updateKiller eng1 n.best_move) n.best_move
          n.searched_quiets n.searched_captures depth_to_go
      else eng1
    ⟨n.score, eng2, n.result⟩

/-- One iteration of the move loop of `searchImpl`; `child alpha beta` is the
recursive call at `depth + 1`. -/
def searchStep (env : Env P) (child : Int → Int → Engine P → SearchResult → Ret P)
    (beta : Int) (n : Node P) (move : Move) : Node P :=
  let is_capture := env.isCaptureOrPromotion n.eng.position move
  let quiets := if is_capture = true then n.searched_quiets else n.searched_quiets ++ [move]
  let captures := if is_capture = true then n.searched_captures ++ [move] else n.searched_captures
  let r := child (-beta) (-n.alpha) (makeMove env n.eng move) n.result
  let score := max n.score (-r.score)
  let chk := checkSearchLimit env (unmakeMove env r.eng move)
  let n1 : Node P :=
    { n with move_cnt := n.move_cnt + 1, searched_quiets := quiets,
             searched_captures := captures, score := score, eng := chk.2, result := r.result }
  if chk.1 = false then { n1 with interrupted := true, returned := true }
  else if beta ≤ score then
    { n1 with node_type := NodeType.kCutNode, best_move := move, returned := true }
  else if n.alpha < score then
    { n1 with node_type := NodeType.kPVNode, alpha := score, best_move := move,
              eng := updatePV chk.2 move (chk.2.pv (chk.2.state + 1)) }
  else n1

/-- The `while (move_picker.getNext(move))` loop of `searchImpl`. -/
def searchLoop (env : Env P) (child : Int → Int → Engine P → SearchResult → Ret P)
    (beta : Int) : List Move → Node P → Node P
  | [], n => n
  | move :: rest, n =>
    let n1 := searchStep env child beta n move
    if n1.returned = true then n1 else searchLoop env child beta rest n1

/-- The lambda body of `searchImpl` from the static evaluation on: the move
loop and the mate/stalemate test. -/
def searchMoves (env : Env P) (child : Int → Int → Engine P → SearchResult → Ret P)
    (beta : Int) (depth : Int) (tt_move : Move) (n : Node P) : Node P :=
  let in_check := env.checkers n.eng.position
  let evaluation :=
    if n.evaluation = env.kScoreNone then env.evaluate n.eng.position else n.evaluation
  let n1 : Node P := { n with evaluation := evaluation }
  let moves := env.movePicker n.eng.position n.eng.quiet_history n.eng.capture_history
    tt_move (n.eng.killers n.eng.state) in_check false
  let n2 := searchLoop env child beta moves n1
  if n2.returned = true then n2
  else if n2.move_cnt = 0 then
    { n2 with score := max n2.score (env.evaluateLeaf n2.eng.position depth) }
  else n2

/-- The lambda body of `searchImpl`. -/
def searchBody (env : Env P) (child : Int → Int → Engine P → SearchResult → Ret P)
    (alpha beta : Int) (depth depth_end : Int) (eng : Engine P) (result : SearchResult) :
    Node P :=
  let tt := env.ttGet eng.transposition_table (env.key eng.position)
  let result1 : SearchResult :=
    { result with stats_tt_hit := result.stats_tt_hit + hitCount tt }
  let depth_to_go := depth_end - depth
  let n0 := initNode env alpha eng result1
  match tt with
  | some e =>
    if depth_to_go ≤ e.depth ∧ beta ≤ e.score ∧
        (e.node_type = NodeType.kCutNode ∨ e.node_type = NodeType.kPVNode) then
      { n0 with score := e.score, node_type := NodeType.kCutNode, best_move := e.move,
                result := { result1 with stats_tt_cut := result1.stats_tt_cut + 1 } }
    else if depth_to_go ≤ e.depth ∧ e.score ≤ alpha ∧ e.node_type = NodeType.kAllNode then
      { n0 with score := e.score, node_type := NodeType.kAllNode,
                result := { result1 with stats_tt_cut := result1.stats_tt_cut + 1 } }
    else searchMoves env child beta depth e.move { n0 with evaluation := e.evaluation }
  | none => searchMoves env child beta depth kNoneMove n0

/-- `Engine::searchImpl`, by recursion on `fuel`. A call at `depth` needs
`(depth_end - depth).toNat + 1` units; see `searchImpl`. -/
def searchImplF (env : Env P) :
    Nat → Int → Int → Int → Int → Engine P → SearchResult → Ret P
  | 0, _, _, _, _, eng, result => ⟨env.kScoreNone, eng, result⟩
  | fuel + 1, alpha, beta, depth, depth_end, eng, result =>
    let chk := checkSearchLimit env eng
    if chk.1 = false then ⟨env.kScoreNone, chk.2, result⟩
    else if depth_end ≤ depth then quiescenceSearch env alpha beta depth chk.2 result
    else
      let result1 : SearchResult := { result with stats_nodes := result.stats_nodes + 1 }
      finishNode env (depth_end - depth)
        (searchBody env (fun a b e r => searchImplF env fuel a b (depth + 1) depth_end e r)
          alpha beta depth depth_end chk.2 result1)

/-- `Engine::searchImpl`. -/
def searchImpl (env : Env P) (alpha beta : Int) (depth depth_end : Int)
    (eng : Engine P) (result : SearchResult) : Ret P :=
  searchImplF env ((depth_end - depth).toNat + 1) alpha beta depth depth_end eng result

/-- `Engine::search`: the full-window root search of one depth. -/
def search (env : Env P) (depth : Int) (eng : Engine P) : SearchResult × Engine P :=
  let res : SearchResult := { depth := depth }
  let r := searchImpl env (-env.kScoreInf) env.kScoreInf 0 depth { eng with state := 0 } res
  ({ r.result with
      score := r.score
      pv := r.eng.pv r.eng.state
      stats_time := env.getTime r.eng.clock + 1 }, r.eng)

/-- The constant `kInitDelta` of `searchWithAspirationWindow`. -/
def kInitDelta : Int := 25

/-- The local variables of `searchWithAspirationWindow` at the `return` that
leaves its loop, next to the returned result `res`: `accepted` tells the
`return res` of an accepted score from the `return {}` of a tripped limit,
`iterations` counts the completed (failed) iterations before the last one. -/
structure AspirationExit (P : Type) where
  res : SearchResult
  eng : Engine P
  accepted : Bool
  score : Int
  alpha : Int
  beta : Int
  target : Int
  delta : Int
  iterations : Nat

/-- The `while (true)` loop of `Engine::searchWithAspirationWindow`, over the
root search `root alpha beta` (in the engine: `state = &search_state_stack[0]`
followed by `searchImpl(alpha, beta, 0, depth, res)` on a fresh `res`).
`fuel` bounds the number of iterations; `none` means the bound was reached.
`delta`, `target`, `alpha`, `beta` are `int32_t`: every arithmetic result is
wrapped by `wrap32`. -/
def aspirationLoop (env : Env P) (root : Int → Int → Engine P → Ret P) :
    Nat → Int → Int → Nat → Engine P → Option (AspirationExit P)
  | 0, _, _, _, _ => none
  | fuel + 1, target, delta, iterations, eng =>
    let kInf : Int := env.kScoreInf
    let alpha := max (wrap32 (target - delta)) (-kInf)
    let beta := min (wrap32 (target + delta)) kInf
    let r := root alpha beta eng
    let score := r.score
    let chk := checkSearchLimit env r.eng
    if chk.1 = false then
      some { res := {}, eng := chk.2, accepted := false, score := score, alpha := alpha,
             beta := beta, target := target, delta := delta, iterations := iterations }
    else if alpha < score ∧ score < beta then
      some { res := { r.result with
                        score := score
                        pv := chk.2.pv chk.2.state
                        stats_time := env.getTime chk.2.clock + 1 },
             eng := chk.2, accepted := true, score := score, alpha := alpha,
             beta := beta, target := target, delta := delta, iterations := iterations }
    else
      let target1 := if score ≤ alpha then wrap32 (target - delta) else target
      let target2 := if beta ≤ alpha then wrap32 (target1 + delta) else target1
      aspirationLoop env root fuel target2 (wrap32 (delta * 2)) (iterations + 1) chk.2

/-- The root search that `searchWithAspirationWindow` runs in each iteration. -/
def aspirationRoot (env : Env P) (depth : Int) (alpha beta : Int) (eng : Engine P) : Ret P :=
  searchImpl env alpha beta 0 depth { eng with state := 0 } { depth := depth }

/-- `Engine::searchWithAspirationWindow`, with at most `fuel` iterations. -/
def searchWithAspirationWindow (env : Env P) (fuel : Nat) (depth : Int) (init_target : Int)
    (eng : Engine P) : Option (SearchResult × Engine P) :=
  (aspirationLoop env (aspirationRoot env depth) fuel init_target kInitDelta 0 eng).map
    (fun x => (x.res, x.eng))

/-- The state of `Engine::goImpl`: the vector `results`, `last_depth`, the
events passed to `search_result_callback` so far (oldest first), the engine. -/
structure Driver (P : Type) where
  results : List SearchResult
  last_depth : Int
  events : List SearchResult
  eng : Engine P

/-- An event whose `debug` string is set (the text is not modelled). -/
def debugInfo : SearchResult :=
  { type := SearchResultType.kSearchResultInfo, debug := true }

/-- The element `results[i]`. -/
def resultAt (results : List SearchResult) (i : Int) : SearchResult :=
  results.getD i.toNat {}

/-- The search that one iteration of the deepening loop runs: full window
below depth 4, aspiration around the score of `results[depth - 1]` from depth
4 on. `none` means the aspiration loop used up `fuel` iterations. -/
def depthSearch (env : Env P) (fuel : Nat) (depth : Int) (prev_score : Int)
    (eng : Engine P) : Option (SearchResult × Engine P) :=
  if depth < 4 then some (search env depth eng)
  else searchWithAspirationWindow env fuel depth prev_score eng

/-- The iterative-deepening `for` loop of `Engine::goImpl`, started at `depth`
with `n` iterations left. Each aspiration search gets `fuel` iterations. -/
def deepen (env : Env P) (fuel : Nat) (depth_end : Int) :
    Nat → Int → Driver P → Option (Driver P)
  | 0, _, d => some d
  | n + 1, depth, d =>
    if depth_end < depth then some d
    else
      match depthSearch env fuel depth (resultAt d.results (depth - 1)).score d.eng with
      | none => none
      | some (res, eng1) =>
        let chk := checkSearchLimit env eng1
        if chk.1 = false then some { d with eng := chk.2 }
        else
          let saved : SearchResult := { res with type := SearchResultType.kSearchResultInfo }
          let results1 := d.results.set depth.toNat saved
          deepen env fuel depth_end n (depth + 1)
            { results := results1 ++ [saved]
              last_depth := depth
              events := d.events ++ [saved, debugInfo]
              eng := chk.2 }

/-- `Engine::goImpl` for `go_parameters.depth = depth_end`. The deadline that
`time_control.initialize` sets is part of `env.limit`; the two `ASSERT`s are
not evaluated. The result is the final driver state; `events` lists what
`search_result_callback` received. -/
def goImpl (env : Env P) (fuel : Nat) (depth_end : Int) (eng : Engine P) :
    Option (Driver P) :=
  let results0 : List SearchResult := List.replicate (depth_end + 1).toNat {}
  let s1 := search env 1 eng
  let first : SearchResult := { s1.1 with type := SearchResultType.kSearchResultInfo }
  let d1 : Driver P :=
    { results := results0.set 1 first
      last_depth := 1
      events := [debugInfo, first]
      eng := s1.2 }
  match deepen env fuel depth_end (depth_end - 1).toNat 2 d1 with
  | none => none
  | some d =>
    let best : SearchResult :=
      { resultAt d.results d.last_depth with type := SearchResultType.kSearchResultBestMove }
    some { d with
           results := d.results.set d.last_depth.toNat best
           events := d.events ++ [best] }

/-- The position's make and unmake are inverse (moves and the null move). -/
def MakeUnmakeInverse (env : Env P) : Prop :=
  (∀ p m, env.unmakeMove (env.makeMove p m) m = p) ∧
  (∀ p, env.unmakeNullMove (env.makeNullMove p) = p)

/-- A call leaves the position and the state pointer as it found them. -/
def Balanced (eng : Engine P) (r : Ret P) : Prop :=
  r.eng.state = eng.state ∧ r.eng.position = eng.position

/-- Every call of `child` is balanced. -/
def ChildBalanced (child : Int → Int → Engine P → SearchResult → Ret P) : Prop :=
  ∀ a b e r, Balanced e (child a b e r)

/-- An example environment: a game given by its move graph. A position is the
path of nodes played so far (the current node first), which is what lets
`unmakeMove` restore the previous position; a move is the node it leads to.
`moves` lists the moves of a node, `qmoves` its quiescence moves, `eval` its
static evaluation, `chk` whether the side to move is in check. The leaf score
is the mate score `-(32000 - depth)` when in check (with `depth` kept within
`0 .. 64`) and 0 (stalemate) otherwise. -/
def treeEnv (moves qmoves : Nat → List Nat) (eval : Nat → Int) (chk : Nat → Bool)
    (limit : Nat → Bool) (ttGet : List (Nat × TTEntry) → Nat → Option TTEntry) :
    Env (List Nat) :=
  { kScoreInf := 32001
    kScoreNone := 32002
    kMaxDepth := 64
    key := fun p => p.headD 0
    checkers := fun p => chk (p.headD 0)
    evaluate := fun p => eval (p.headD 0)
    evaluateLeaf := fun p depth =>
      if chk (p.headD 0) = true then -(32000 - max 0 (min depth 64)) else 0
    isCaptureOrPromotion := fun _ _ => false
    makeMove := fun p m => m :: p
    unmakeMove := fun p _ => p.tail
    makeNullMove := fun p => p
    unmakeNullMove := fun p => p
    quietSlot := fun _ m => m
    captureSlot := fun _ m => m
    movePicker := fun p _ _ _ _ _ q => if q = true then qmoves (p.headD 0) else moves (p.headD 0)
    ttGet := ttGet
    limit := limit
    getTime := fun n => n }

/-- An always-replace table without collisions: the probe returns the entry
most recently put under the key. -/
def ttLookup (log : List (Nat × TTEntry)) (k : Nat) : Option TTEntry :=
  match log.find? (fun x => x.1 == k) with
  | some x => some x.2
  | none => none

/-- An engine before its first search, at the position `[root]`: empty
transposition table, zero history, no killers. -/
def startEngine (root : Nat) : Engine (List Nat) :=
  { position := [root], state := 0, killers := fun _ => (0, 0), pv := fun _ => [],
    transposition_table := [], quiet_history := fun _ => 0, capture_history := fun _ => 0,
    clock := 0 }

/-- A mate in one that is only seen from depth 2 on. Node 1 (the root) has the
moves 2 and 3; node 2 is quiet with static evaluation 0 and one further quiet
move (to node 4); node 3 is checkmate (in check, no move), with static
evaluation +5 for the mated side. The limit never trips. -/
def mateEnv : Env (List Nat) :=
  treeEnv (fun p => if p = 1 then [2, 3] else if p = 2 then [4] else []) (fun _ => [])
    (fun p => if p = 3 then 5 else 0) (fun p => p == 3) (fun _ => true) ttLookup

/-- A score strictly between `-kScoreInf` and `+kScoreInf`. -/
def InRange (env : Env P) (s : Int) : Prop :=
  -env.kScoreInf < s ∧ s < env.kScoreInf

/-- The static evaluator and the leaf evaluator return scores in range. -/
def EvaluatorsInRange (env : Env P) : Prop :=
  (∀ p, InRange env (env.evaluate p)) ∧ (∀ p d, InRange env (env.evaluateLeaf p d))

/-- The search limit, once tripped, stays tripped. -/
def LimitSticky (env : Env P) : Prop :=
  ∀ i j, i ≤ j → env.limit i = false → env.limit j = false

/-- A probe only returns an entry that was put into the table. -/
def ProbeSound (env : Env P) : Prop :=
  ∀ log k e, env.ttGet log k = some e → ∃ k1, (k1, e) ∈ log

/-- The scores an entry stores are in range: its `score`, and its `evaluation`
unless that is `kScoreNone`. -/
def ScoresOK (env : Env P) (e : TTEntry) : Prop :=
  InRange env e.score ∧ (e.evaluation = env.kScoreNone ∨ InRange env e.evaluation)

/-- Every score stored in the table is in range. -/
def TableInRange (env : Env P) (log : List (Nat × TTEntry)) : Prop :=
  ∀ x ∈ log, ScoresOK env x.2

/-- The entries a call has put: the table after the call is `new ++ old`, and
every new entry stores scores in range and a depth-to-go accepted by `dOK`. -/
def Wrote (env : Env P) (dOK : Int → Prop) (old now : List (Nat × TTEntry)) : Prop :=
  ∃ new, now = new ++ old ∧ ∀ x ∈ new, ScoresOK env x.2 ∧ dOK x.2.depth

/-- What holds of a call that started from `eng` and left `r`: it made at least
one limit check; if its last check failed it returned `kScoreNone`; if its
last check passed it returned a score in range; the entries it put are fine. -/
structure CallOK (env : Env P) (dOK : Int → Prop) (eng : Engine P) (r : Ret P) : Prop where
  clock_lt : eng.clock < r.eng.clock
  cancelled : env.limit (r.eng.clock - 1) = false → r.score = env.kScoreNone
  value : env.limit (r.eng.clock - 1) = true → InRange env r.score
  table : Wrote env dOK eng.transposition_table r.eng.transposition_table

/-- Every call of `child` on a table in range is fine. -/
def ChildOK (env : Env P) (dOK : Int → Prop)
    (child : Int → Int → Engine P → SearchResult → Ret P) : Prop :=
  ∀ a b e r, TableInRange env e.transposition_table → CallOK env dOK e (child a b e r)

/-- The invariant of the local variables of a node whose entry check was the
`c0`-th and which started from the table `old`; `q` tells a quiescence node. -/
structure NodeOK (env : Env P) (dOK : Int → Prop) (q : Bool) (c0 : Nat)
    (old : List (Nat × TTEntry)) (n : Node P) : Prop where
  clock_lt : c0 < n.eng.clock
  stopped : n.interrupted = true → env.limit (n.eng.clock - 1) = false
  running : n.interrupted = false → env.limit (n.eng.clock - 1) = true
  table : Wrote env dOK old n.eng.transposition_table
  evaluation : n.evaluation = env.kScoreNone ∨ InRange env n.evaluation
  upper : n.interrupted = false → n.score < env.kScoreInf
  lower : n.interrupted = false → -env.kScoreInf ≤ n.score
  strict : n.interrupted = false → (q = true ∨ 0 < n.move_cnt) → -env.kScoreInf < n.score

/-- The game of `mateEnv` under a limit that trips after the first check: only
the entry check of the root passes. -/
def tripEnv : Env (List Nat) :=
  treeEnv (fun p => if p = 1 then [2, 3] else if p = 2 then [4] else []) (fun _ => [])
    (fun p => if p = 3 then 5 else 0) (fun p => p == 3) (fun n => decide (n < 1)) ttLookup

/-- The local variables of the root node of `tripEnv` when its move loop starts. -/
def tripNode : Node (List Nat) :=
  initNode tripEnv (-32001) (checkSearchLimit tripEnv (startEngine 1)).2 {}

/-- The condition under which an interior node with depth-to-go
`depth_to_go` and window `(alpha, beta)` may return the score of the entry `e`:
the stored depth suffices and the bound direction fits the window. -/
def ttScoreCut (alpha beta : Int) (depth_to_go : Int) (e : TTEntry) : Prop :=
  depth_to_go ≤ e.depth ∧
  ((beta ≤ e.score ∧ (e.node_type = NodeType.kCutNode ∨ e.node_type = NodeType.kPVNode)) ∨
   (e.score ≤ alpha ∧ e.node_type = NodeType.kAllNode))

/-- An engine at the position `[1]` whose table holds one entry for key 1:
a CUT entry of depth 5 with score 100 and best move 2. -/
def probeEngine : Engine (List Nat) :=
  { startEngine 1 with
    transposition_table :=
      [(1, { node_type := NodeType.kCutNode, move := 2, score := 100, evaluation := 0,
             depth := 5 })] }

/-- The game of `mateEnv` when the limit is already tripped at the first check
(for instance `go movetime 1`, for which `TimeControl::initialize` computes
`finish = start + int64_t(0.8 * 1) = start`, or a stop flag set at once). -/
def flaggedEnv : Env (List Nat) :=
  treeEnv (fun p => if p = 1 then [2, 3] else if p = 2 then [4] else []) (fun _ => [])
    (fun p => if p = 3 then 5 else 0) (fun p => p == 3) (fun _ => false) ttLookup

/-- The least `k` with `25 * 2 ^ k ≥ 2 * kScoreInf`: the binary logarithm,
rounded up, of `2 * kScoreInf / 25` rounded up. -/
def aspirationBound (env : Env P) : Nat :=
  Nat.clog 2 ((2 * env.kScoreInf.toNat + 24) / 25)

/-- A root-search oracle that always answers 31999 and leaves the engine alone. -/
def oracleRoot (_ _ : Int) (eng : Engine (List Nat)) : Ret (List Nat) :=
  ⟨31999, eng, {}⟩

/-- The exit of the aspiration loop of depth 4 on `mateEnv`, started with
target 0 (the true score is the mate score 31999, so the loop fails high
until the window is unbounded). -/
def mateAspirationExit : AspirationExit (List Nat) :=
  match aspirationLoop mateEnv (aspirationRoot mateEnv 4) 13 0 kInitDelta 0 (startEngine 1) with
  | some x => x
  | none =>
    { res := {}, eng := startEngine 1, accepted := false, score := 0, alpha := 0, beta := 0,
      target := 0, delta := 0, iterations := 0 }

/-- The non-debug info events among `events`, in order. -/
def infoEvents (events : List SearchResult) : List SearchResult :=
  events.filter (fun e => decide (e.type = SearchResultType.kSearchResultInfo ∧ e.debug = false))

/-- The best-move events among `events`, in order. -/
def bestMoveEvents (events : List SearchResult) : List SearchResult :=
  events.filter (fun e => decide (e.type = SearchResultType.kSearchResultBestMove))

/-- The depths `1, 2, ..., n`. -/
def depthsUpTo (n : Nat) : List Int :=
  (List.range' 1 n).map (fun k : Nat => (k : Int))

/-- Reference, from the words of the specification: the result of depth `d`
and the engine after it,
provided the searches of the depths `2 .. d` all returned with the limit not
tripped at the check that follows them. Depth 1 is the unconditional first
search; depth `d + 2` is searched from the engine left by depth `d + 1`, with
the score of depth `d + 1` as aspiration target from depth 4 on, and counts
only if the limit check after it passes. -/
def completedDepth (env : Env P) (fuel : Nat) (eng : Engine P) :
    Nat → Option (SearchResult × Engine P)
  | 0 => none
  | 1 => some (search env 1 eng)
  | d + 2 =>
    match completedDepth env fuel eng (d + 1) with
    | none => none
    | some (prev, eng1) =>
      match depthSearch env fuel ((d + 2 : Nat) : Int) prev.score eng1 with
      | none => none
      | some (res, eng2) =>
        if (checkSearchLimit env eng2).1 = true then some (res, (checkSearchLimit env eng2).2)
        else none

/-- The result `b` has the depth, type and debug flag of `a` (a search only
changes the statistics of the `SearchResult&` it is given). -/
def SameHeader (a b : SearchResult) : Prop :=
  b.depth = a.depth ∧ b.type = a.type ∧ b.debug = a.debug

/-- The info event that `goImpl` emits for a completed depth. -/
def infoOf (p : SearchResult × Engine P) : SearchResult :=
  { p.1 with type := SearchResultType.kSearchResultInfo }

/-- The state of the deepening loop when the depths `1 .. k` are completed and
depth `k + 1` is about to be searched. -/
structure DriverInv (env : Env P) (fuel : Nat) (eng0 : Engine P) (depth_end : Int) (k : Nat)
    (d : Driver P) : Prop where
  last : d.last_depth = (k : Int)
  len : (depth_end + 1).toNat ≤ d.results.length
  completed : ∃ res, completedDepth env fuel eng0 k = some (res, d.eng) ∧
    resultAt d.results k = infoOf (res, d.eng)
  all_info : ∀ e ∈ d.events, e.type = SearchResultType.kSearchResultInfo
  infos : infoEvents d.events =
    (List.range' 1 k).filterMap (fun j => (completedDepth env fuel eng0 j).map infoOf)
  depths : (infoEvents d.events).map (fun e => e.depth) = depthsUpTo k

/-- The state of the deepening loop when it is left with `last_depth = k`. -/
structure DriverDone (env : Env P) (fuel : Nat) (eng0 : Engine P) (depth_end : Int) (k : Nat)
    (d : Driver P) : Prop where
  last : d.last_depth = (k : Int)
  le : (k : Int) ≤ depth_end
  completed : ∃ res e, completedDepth env fuel eng0 k = some (res, e) ∧
    resultAt d.results k = infoOf (res, e)
  stopped : (k : Int) < depth_end → completedDepth env fuel eng0 (k + 1) = none
  all_info : ∀ e ∈ d.events, e.type = SearchResultType.kSearchResultInfo
  infos : infoEvents d.events =
    (List.range' 1 k).filterMap (fun j => (completedDepth env fuel eng0 j).map infoOf)
  depths : (infoEvents d.events).map (fun e => e.depth) = depthsUpTo k

/-- The run of `goImpl` on `mateEnv` with depth limit 3. -/
def mateRun : Driver (List Nat) :=
  match goImpl mateEnv 13 3 (startEngine 1) with
  | some d => d
  | none => { results := [], last_depth := 0, events := [], eng := startEngine 1 }

/-- The position after `move`, as `Engine::makeMove` plays it. -/
def play (env : Env P) (pos : P) (move : Move) : P :=
  if move = kNoneMove then env.makeNullMove pos else env.makeMove pos move

/-- The moves of a position as the reference sees them: what the move picker
yields when it is given no hints (zero history, no table move, no killers). -/
def referenceMoves (env : Env P) (pos : P) (quiescence : Bool) : List Move :=
  env.movePicker pos (fun _ => 0) (fun _ => 0) kNoneMove (kNoneMove, kNoneMove)
    (env.checkers pos) quiescence

/-- Reference, from the words of the specification: the quiescence rule
evaluated without any cutoff.
At `kMaxDepth` the static evaluation; for a position in check without a
quiescence move the leaf (mate) score; otherwise the maximum of the static
evaluation (stand pat) and the negated values of the quiescence moves. -/
def quiescenceValueF (env : Env P) : Nat → Int → P → Int
  | 0, _, pos => env.evaluate pos
  | fuel + 1, depth, pos =>
    if env.kMaxDepth ≤ depth then env.evaluate pos
    else if env.checkers pos = true ∧ referenceMoves env pos true = [] then
      env.evaluateLeaf pos depth
    else
      (referenceMoves env pos true).foldl
        (fun best move =>
          max best (-(quiescenceValueF env fuel (depth + 1) (play env pos move))))
        (env.evaluate pos)

/-- The quiescence value of a position at `depth`. -/
def quiescenceValue (env : Env P) (depth : Int) (pos : P) : Int :=
  quiescenceValueF env ((env.kMaxDepth - depth).toNat + 1) depth pos

/-- Reference, from the words of the specification: exhaustive, unpruned
negamax to `depth_end`. At
`depth_end` the quiescence value; for a position without a move the leaf
(mate or stalemate) score; otherwise the maximum, starting from `-kScoreInf`,
of the negated values of all moves. -/
def negamaxF (env : Env P) : Nat → Int → Int → P → Int
  | 0, _, _, pos => env.evaluate pos
  | fuel + 1, depth, depth_end, pos =>
    if depth_end ≤ depth then quiescenceValue env depth pos
    else if referenceMoves env pos false = [] then env.evaluateLeaf pos depth
    else
      (referenceMoves env pos false).foldl
        (fun best move =>
          max best (-(negamaxF env fuel (depth + 1) depth_end (play env pos move))))
        (-env.kScoreInf)

/-- The negamax value of depth `depth_end` of a position (searched from ply 0). -/
def negamax (env : Env P) (depth_end : Int) (pos : P) : Int :=
  negamaxF env ((depth_end - 0).toNat + 1) 0 depth_end pos

/-- The guarantee of a fail-soft alpha-beta result `v` for a node of value
`V` searched with the window `(alpha, beta)`: below `beta` it is an upper
bound, above `alpha` a lower bound (so inside the window it is exact). -/
def Bound (alpha beta v V : Int) : Prop :=
  (v < beta → V ≤ v) ∧ (alpha < v → v ≤ V)

/-- Every probe of the table misses. -/
def ProbeMisses (env : Env P) : Prop :=
  ∀ log k, env.ttGet log k = none

/-- The hints given to the move picker (history, table move, killers) only
change the order of the moves, not which moves it yields. -/
def PickerHintsReorder (env : Env P) : Prop :=
  ∀ pos qh ch tt_move killers quiescence move,
    move ∈ env.movePicker pos qh ch tt_move killers (env.checkers pos) quiescence ↔
    move ∈ referenceMoves env pos quiescence

/-- The static evaluator does not rate a position that is in check and has no
quiescence move above its leaf (mate) score. -/
def StandPatBelowMate (env : Env P) : Prop :=
  ∀ pos depth, env.checkers pos = true → referenceMoves env pos true = [] →
    env.evaluate pos ≤ env.evaluateLeaf pos depth

/-- A game with a transposition: node 2 is reached from the root 1 in one ply
and again after five plies (1, 7, 8, 9, 10, 2); every other node has a single
move along the chain 2, 3, 4, 5, 6. Node 6 has the static evaluation 10, every
other node 0; nobody is in check; there is no quiescence move. The table is
`ttLookup` (a probe returns what was put under that key), the limit never trips. -/
def transEnv : Env (List Nat) :=
  treeEnv
    (fun p =>
      if p = 1 then [2, 7] else if p = 2 then [3] else if p = 3 then [4]
      else if p = 4 then [5] else if p = 5 then [6] else if p = 6 then [11]
      else if p = 7 then [8] else if p = 8 then [9] else if p = 9 then [10]
      else if p = 10 then [2] else [])
    (fun _ => []) (fun p => if p = 6 then 10 else 0) (fun _ => false) (fun _ => true) ttLookup

/-- The invariant of a move loop searched with the window `(alpha0, beta)`:
`W` is the maximum of the start value and the negated values of the moves
searched so far. -/
structure LoopInv (alpha0 beta : Int) (pos : P) (n : Node P) (W : Int) : Prop where
  alpha_le : n.alpha ≤ max alpha0 n.score
  lower : alpha0 < n.score → n.score ≤ W
  upper : n.score < beta → W ≤ n.score
  running : n.interrupted = false
  position : n.eng.position = pos

/-- Every call of `child` returns a score that bounds the value `V` of the
position it is called on, and restores that position. -/
def ChildSound (child : Int → Int → Engine P → SearchResult → Ret P) (V : P → Int) : Prop :=
  ∀ a b e r, Bound a b (child a b e r).score (V e.position) ∧ Balanced e (child a b e r)

/-- What a move loop leaves when it ends in the node `n1` after the moves
whose negated values have the maximum `W1` (together with the start value). -/
structure LoopOut (alpha0 beta : Int) (pos : P) (n1 : Node P) (W1 : Int) : Prop where
  running : n1.interrupted = false
  position : n1.eng.position = pos
  lower : alpha0 < n1.score → n1.score ≤ W1
  cut : n1.returned = true → beta ≤ n1.score
  upper : n1.returned = false → n1.score < beta → W1 ≤ n1.score

/-- The game of `mateEnv` for an evaluator that rates the mated position 3 at
-32000 and a table on which every probe misses. -/
def soundEnv : Env (List Nat) :=
  treeEnv (fun p => if p = 1 then [2, 3] else if p = 2 then [4] else []) (fun _ => [])
    (fun p => if p = 3 then -32000 else 0) (fun p => p == 3) (fun _ => true) (fun _ _ => none)

/-- The integer `v` is a value of the 16-bit `Score`: storing it in a `Score`
does not change it. -/
def FitsScore (v : Int) : Prop :=
  -32768 ≤ v ∧ v ≤ 32767

/-- Every entry of the quiet history and of the capture history lies in
`[-kMaxHistoryScore, +kMaxHistoryScore]`. -/
def HistoryInRange (eng : Engine P) : Prop :=
  (∀ i, -kMaxHistoryScore ≤ eng.quiet_history i ∧ eng.quiet_history i ≤ kMaxHistoryScore) ∧
  (∀ i, -kMaxHistoryScore ≤ eng.capture_history i ∧ eng.capture_history i ≤ kMaxHistoryScore)

/-- The arguments of one call of `updateHistory`, together with the position
the engine is at when the call is made. -/
structure HistoryCall (P : Type) where
  position : P
  best_move : Move
  quiets : List Move
  captures : List Move
  depth : Int

/-- A sequence of calls of `updateHistory`, oldest first, each made at its own
position. -/
def runHistoryUpdates (env : Env P) (eng : Engine P) (calls : List (HistoryCall P)) : Engine P :=
  calls.foldl
    (fun e c => updateHistory env { e with position := c.position } c.best_move c.quiets
      c.captures c.depth)
    eng

/-- The moves `best_move` and the non-best moves of `moves` address pairwise
distinct slots (in particular no non-best move is listed twice). -/
def DistinctSlots (slot : Move → Nat) (best_move : Move) (moves : List Move) : Prop :=
  ((best_move :: moves.filter (fun m => decide (m ≠ best_move))).map slot).Nodup

/-- An engine at the position `[1]` with the killer pair `(3, 5)` in frame 0 and
the value 1990 in slot 4 of both history tables. -/
def heuristicEngine : Engine (List Nat) :=
  { startEngine 1 with
    killers := fun _ => (3, 5)
    quiet_history := fun i => if i = 4 then 1990 else 0
    capture_history := fun i => if i = 4 then 1990 else 0 }

/-- The game of `mateEnv` in which the moves `10, 11, ...` count as captures or
promotions and the moves below 10 as quiet. -/
def captureEnv : Env (List Nat) :=
  { mateEnv with isCaptureOrPromotion := fun _ m => decide (10 ≤ m) }

/-- The game of `mateEnv` under a limit that lets the first eight checks pass:
the first root search of an aspiration search of depth 4 (seven checks) and the
check that follows it. -/
def failHighEnv : Env (List Nat) :=
  treeEnv (fun p => if p = 1 then [2, 3] else if p = 2 then [4] else []) (fun _ => [])
    (fun p => if p = 3 then 5 else 0) (fun p => p == 3) (fun n => decide (n < 8)) ttLookup

/-- The static evaluation of a node: the evaluation stored with the entry that
the probe hits, unless that is `kScoreNone`; the evaluator's otherwise. -/
def nodeEvaluation (env : Env P) (eng : Engine P) : Int :=
  match env.ttGet eng.transposition_table (env.key eng.position) with
  | some e => if e.evaluation = env.kScoreNone then env.evaluate eng.position else e.evaluation
  | none => env.evaluate eng.position

/-- The moves that the move picker of a quiescence node yields (it is given
the move of the entry that the probe hits, or `kNoneMove`). -/
def quiescenceMoves (env : Env P) (eng : Engine P) : List Move :=
  env.movePicker eng.position eng.quiet_history eng.capture_history
    (match env.ttGet eng.transposition_table (env.key eng.position) with
      | some e => e.move
      | none => kNoneMove)
    (eng.killers eng.state) (env.checkers eng.position) true

/-- The condition under which a quiescence node with the window `(alpha, beta)`
returns the score of the entry `e` (no depth is compared). -/
def qScoreCut (alpha beta : Int) (e : TTEntry) : Prop :=
  ((e.node_type = NodeType.kCutNode ∨ e.node_type = NodeType.kPVNode) ∧ beta ≤ e.score) ∨
  (e.node_type = NodeType.kAllNode ∧ e.score ≤ alpha)

/-- A game for the stand-pat rule, without table hits and with a limit that
never trips. Node 1 is quiet (static evaluation 30, not in check, no quiescence
move). Node 2 (static evaluation 10) has the quiescence moves 3 and 4, which
lead to quiet nodes with static evaluations -50 and 20. -/
def standPatEnv : Env (List Nat) :=
  treeEnv (fun _ => []) (fun p => if p = 2 then [3, 4] else [])
    (fun p => if p = 1 then 30 else if p = 2 then 10 else if p = 3 then -50
      else if p = 4 then 20 else 0)
    (fun _ => false) (fun _ => true) (fun _ _ => none)

/-- The record of one call of `searchImpl` (`quiescence = false`) or of
`quiescenceSearch` (`quiescence = true`) at its entry: the window, the depth
argument and the index of the frame that `state` points to. -/
structure CallRecord where
  quiescence : Bool
  alpha : Int
  beta : Int
  depth : Int
  frame : Int
  deriving DecidableEq, Repr

/-- The calls made by a move loop (`step` is `searchStep` or `qStep` with its
`child`): for each move that is reached, the calls of the recursive call
`child (-beta) (-alpha)` made after `makeMove`, as listed by `sub`; the loop
goes on as long as the step does not leave the lambda body. -/
def loopCalls (env : Env P) (step : Node P → Move → Node P)
    (sub : Int → Int → Engine P → SearchResult → List CallRecord) (beta : Int) :
    List Move → Node P → List CallRecord
  | [], _ => []
  | move :: rest, n =>
    let calls := sub (-beta) (-n.alpha) (makeMove env n.eng move) n.result
    let n1 := step n move
    if n1.returned = true then calls else calls ++ loopCalls env step sub beta rest n1

/-- The calls made by the lambda body of `quiescenceSearch` from the static
evaluation on: none after a stand-pat cut, those of the move loop otherwise. -/
def qMovesCalls (env : Env P) (child : Int → Int → Engine P → SearchResult → Ret P)
    (sub : Int → Int → Engine P → SearchResult → List CallRecord)
    (beta : Int) (tt_move : Move) (n : Node P) : List CallRecord :=
  let in_check := env.checkers n.eng.position
  let evaluation :=
    if n.evaluation = env.kScoreNone then env.evaluate n.eng.position else n.evaluation
  let n1 : Node P := { n with evaluation := evaluation, score := evaluation }
  if beta ≤ evaluation then []
  else
    let n2 : Node P := if n.alpha < evaluation then { n1 with alpha := evaluation } else n1
    let moves := env.movePicker n.eng.position n.eng.quiet_history n.eng.capture_history
      tt_move (n.eng.killers n.eng.state) in_check true
    loopCalls env (qStep env child beta) sub beta moves n2

/-- The calls made by the lambda body of `quiescenceSearch`: none after a table
score cut. -/
def qBodyCalls (env : Env P) (child : Int → Int → Engine P → SearchResult → Ret P)
    (sub : Int → Int → Engine P → SearchResult → List CallRecord)
    (alpha beta : Int) (eng : Engine P) (result : SearchResult) : List CallRecord :=
  let tt := env.ttGet eng.transposition_table (env.key eng.position)
  let result1 : SearchResult :=
    { result with stats_tt_hit := result.stats_tt_hit + hitCount tt }
  let n0 := initNode env alpha eng result1
  match tt with
  | some e =>
    if (e.node_type = NodeType.kCutNode ∨ e.node_type = NodeType.kPVNode) ∧ beta ≤ e.score then []
    else if e.node_type = NodeType.kAllNode ∧ e.score ≤ alpha then []
    else qMovesCalls env child sub beta e.move { n0 with evaluation := e.evaluation }
  | none => qMovesCalls env child sub beta kNoneMove n0

/-- The calls of `quiescenceSearch` made by one call of it, itself included,
in the order in which they are entered (by recursion on `fuel`, as
`quiescenceSearchF`). -/
def quiescenceCallsF (env : Env P) :
    Nat → Int → Int → Int → Engine P → SearchResult → List CallRecord
  | 0, _, _, _, _, _ => []
  | fuel + 1, alpha, beta, depth, eng, result =>
    let entry : CallRecord :=
      { quiescence := true, alpha := alpha, beta := beta, depth := depth, frame := eng.state }
    let chk := checkSearchLimit env eng
    if chk.1 = false then [entry]
    else
      let result1 : SearchResult := { result with stats_nodes := result.stats_nodes + 1 }
      if env.kMaxDepth ≤ depth then [entry]
      else
        entry :: qBodyCalls env (fun a b e r => quiescenceSearchF env fuel a b (depth + 1) e r)
          (fun a b e r => quiescenceCallsF env fuel a b (depth + 1) e r)
          alpha beta chk.2 result1

/-- The calls made by one call of `quiescenceSearch`, itself included. -/
def quiescenceCalls (env : Env P) (alpha beta : Int) (depth : Int)
    (eng : Engine P) (result : SearchResult) : List CallRecord :=
  quiescenceCallsF env ((env.kMaxDepth - depth).toNat + 1) alpha beta depth eng result

/-- The calls made by the lambda body of `searchImpl` from the static
evaluation on: those of the move loop. -/
def searchMovesCalls (env : Env P) (child : Int → Int → Engine P → SearchResult → Ret P)
    (sub : Int → Int → Engine P → SearchResult → List CallRecord)
    (beta : Int) (tt_move : Move) (n : Node P) : List CallRecord :=
  let in_check := env.checkers n.eng.position
  let evaluation :=
    if n.evaluation = env.kScoreNone then env.evaluate n.eng.position else n.evaluation
  let n1 : Node P := { n with evaluation := evaluation }
  let moves := env.movePicker n.eng.position n.eng.quiet_history n.eng.capture_history
    tt_move (n.eng.killers n.eng.state) in_check false
  loopCalls env (searchStep env child beta) sub beta moves n1

/-- The calls made by the lambda body of `searchImpl`: none after a table score
cut. -/
def searchBodyCalls (env : Env P) (child : Int → Int → Engine P → SearchResult → Ret P)
    (sub : Int → Int → Engine P → SearchResult → List CallRecord)
    (alpha beta : Int) (depth depth_end : Int) (eng : Engine P) (result : SearchResult) :
    List CallRecord :=
  let tt := env.ttGet eng.transposition_table (env.key eng.position)
  let result1 : SearchResult :=
    { result with stats_tt_hit := result.stats_tt_hit + hitCount tt }
  let depth_to_go := depth_end - depth
  let n0 := initNode env alpha eng result1
  match tt with
  | some e =>
    if depth_to_go ≤ e.depth ∧ beta ≤ e.score ∧
        (e.node_type = NodeType.kCutNode ∨ e.node_type = NodeType.kPVNode) then []
    else if depth_to_go ≤ e.depth ∧ e.score ≤ alpha ∧ e.node_type = NodeType.kAllNode then []
    else searchMovesCalls env child sub beta e.move { n0 with evaluation := e.evaluation }
  | none => searchMovesCalls env child sub beta kNoneMove n0

/-- The calls of `searchImpl` and `quiescenceSearch` made by one call of
`searchImpl`, itself included, in the order in which they are entered (by
recursion on `fuel`, as `searchImplF`). -/
def searchCallsF (env : Env P) :
    Nat → Int → Int → Int → Int → Engine P → SearchResult → List CallRecord
  | 0, _, _, _, _, _, _ => []
  | fuel + 1, alpha, beta, depth, depth_end, eng, result =>
    let entry : CallRecord :=
      { quiescence := false, alpha := alpha, beta := beta, depth := depth, frame := eng.state }
    let chk := checkSearchLimit env eng
    if chk.1 = false then [entry]
    else if depth_end ≤ depth then entry :: quiescenceCalls env alpha beta depth chk.2 result
    else
      let result1 : SearchResult := { result with stats_nodes := result.stats_nodes + 1 }
      entry :: searchBodyCalls env
        (fun a b e r => searchImplF env fuel a b (depth + 1) depth_end e r)
        (fun a b e r => searchCallsF env fuel a b (depth + 1) depth_end e r)
        alpha beta depth depth_end chk.2 result1

/-- The calls made by `Engine::search`: those of
`searchImpl(-kScoreInf, kScoreInf, 0, depth, res)` entered at frame 0. -/
def searchCalls (env : Env P) (depth : Int) (eng : Engine P) : List CallRecord :=
  searchCallsF env ((depth - 0).toNat + 1) (-env.kScoreInf) env.kScoreInf 0 depth
    { eng with state := 0 } { depth := depth }

/-- A game for the window of quiescence calls; nobody is in check, the limit
never trips, the table starts empty. The root 1 has the moves 2 and 3. Node 2
is quiet with static evaluation 5. Node 3 has static evaluation 0 and the
quiescence moves 4 and 5; node 4 is quiet with static evaluation -5, node 5
quiet with static evaluation 0. -/
def windowEnv : Env (List Nat) :=
  treeEnv (fun p => if p = 1 then [2, 3] else []) (fun p => if p = 3 then [4, 5] else [])
    (fun p => if p = 2 then 5 else if p = 4 then -5 else 0)
    (fun _ => false) (fun _ => true) ttLookup

/-- A game that is a single line of moves: node `p` has the one move to node
`p + 1`; nobody is in check, every static evaluation is 0, there is no
quiescence move, the limit never trips, the table starts empty. -/
def lineEnv : Env (List Nat) :=
  treeEnv (fun p => [p + 1]) (fun _ => []) (fun _ => 0) (fun _ => false) (fun _ => true) ttLookup

/-- Rounding of a rational to the nearest integer, ties to the even integer. -/
def roundHalfEven (x : ℚ) : ℤ :=
  if 2 * Int.fract x < 1 then ⌊x⌋
  else if 1 < 2 * Int.fract x then ⌊x⌋ + 1
  else if ⌊x⌋ % 2 = 0 then ⌊x⌋ else ⌊x⌋ + 1

/-- Rounding of a positive rational to 53 significant bits (round to nearest,
ties to even): with `2 ^ e ≤ q < 2 ^ (e + 1)` the result is the multiple of
`2 ^ (e - 52)` nearest to `q`. -/
def roundPos (q : ℚ) : ℚ :=
  (roundHalfEven (q / 2 ^ (Int.log 2 q - 52)) : ℚ) * 2 ^ (Int.log 2 q - 52)

/-- The value of type `double` that an exact result `q` is rounded to (IEEE 754
binary64, round to nearest, ties to even). A `double` is embedded as the
rational it holds. The exponent range is not modelled: the finite values of
`TimeControl::initialize` stay far inside it. -/
def roundDouble (q : ℚ) : ℚ :=
  if q = 0 then 0 else if 0 < q then roundPos q else -roundPos (-q)

/-- A rational that a `double` holds exactly: `m * 2 ^ k` with `|m| < 2 ^ 53`. -/
def Representable (z : ℚ) : Prop :=
  ∃ (m k : ℤ), z = (m : ℚ) * 2 ^ k ∧ |m| < 2 ^ 53

/-- `std::min(a, b)` on `double`: `b` if `b < a`, else `a`. -/
def stdMin (a b : ℚ) : ℚ :=
  if b < a then b else a

/-- The conversion `int64_t(x)` of a `double`: truncation toward zero; undefined
(`none`) when the truncated value does not fit 64 bits. -/
def toInt64 (x : ℚ) : Option Int :=
  let t : Int := if 0 ≤ x then ⌊x⌋ else ⌈x⌉
  if -9223372036854775808 ≤ t ∧ t < 9223372036854775808 then some t else none

/-- `GoParameters` (times in milliseconds); `time` and `inc` are indexed by the
colour, 0 or 1. -/
structure GoParameters where
  time : Nat → Int
  inc : Nat → Int
  movestogo : Int
  movetime : Int
  depth : Int

/-- `TimeControl::kSafeFactor`: the literal `0.8` as a `double`. -/
def TimeControl.kSafeFactor : ℚ := roundDouble (4 / 5)

/-- `TimeControl::kInfDuration`: the literal `1e12` as a `double`. -/
def TimeControl.kInfDuration : ℚ := roundDouble 1000000000000

/-- `TimeControl::initialize`: the number of milliseconds `finish - start` that
the call allots, `none` where the C++ computation is undefined.

The integer inputs are converted to `double` by `roundDouble`, and so is every
arithmetic result; `cnt` is an `int` (`wrap32`). For `cnt == 0` the division
yields `+inf` or `NaN` when the numerator is not negative, and `std::min`
then keeps `duration`; a negative numerator yields `-inf`, which ends in an
undefined conversion to `int64_t`. -/
def TimeControl.initialize (go : GoParameters) (own : Nat) (ply : Int) : Option Int :=
  let duration0 : ℚ := TimeControl.kInfDuration
  let duration1 : ℚ :=
    if go.movetime ≠ 0 then stdMin duration0 (roundDouble go.movetime) else duration0
  let duration3 : Option ℚ :=
    if go.time own ≠ 0 then
      let time : ℚ := roundDouble (go.time own)
      let inc : ℚ := roundDouble (go.inc own)
      let cnt : Int :=
        wrap32 (if go.movestogo ≠ 0 then go.movestogo else max 10 (32 - Int.tdiv ply 2))
      let numerator : ℚ := roundDouble (time + roundDouble (inc * ((wrap32 (cnt - 1) : Int) : ℚ)))
      let duration2 : Option ℚ :=
        if cnt = 0 then (if 0 ≤ numerator then some duration1 else none)
        else some (stdMin duration1 (roundDouble (numerator / (cnt : ℚ))))
      if ply ≤ 8 then
        let opening_time : ℚ :=
          roundDouble (1000 + roundDouble (roundDouble (1000 / 8) * (ply : ℚ)))
        duration2.map (fun duration => stdMin duration opening_time)
      else duration2
    else some duration1
  duration3.bind (fun duration => toInt64 (roundDouble (TimeControl.kSafeFactor * duration)))

/-- The value of `cnt` in `TimeControl::initialize`. -/
def moveCount (go : GoParameters) (ply : Int) : Int :=
  wrap32 (if go.movestogo ≠ 0 then go.movestogo else max 10 (32 - Int.tdiv ply 2))

/-- The budget share `(time + inc * (cnt - 1)) / cnt` in `double` arithmetic. -/
def budgetShare (go : GoParameters) (own : Nat) (ply : Int) : ℚ :=
  roundDouble
    (roundDouble (roundDouble (go.time own) +
        roundDouble (roundDouble (go.inc own) * ((wrap32 (moveCount go ply - 1) : Int) : ℚ))) /
      (moveCount go ply : ℚ))

/-- The opening cap `1000.0 + (1000. / 8.) * ply` in `double` arithmetic. -/
def openingCap (ply : Int) : ℚ :=
  roundDouble (1000 + roundDouble (roundDouble (1000 / 8) * (ply : ℚ)))

/-- The terms whose minimum bounds the duration: `movetime` when it is not
zero and, only when `time[own]` is not zero, the budget share and, if
`ply ≤ 8`, the opening cap. -/
def deadlineTerms (go : GoParameters) (own : Nat) (ply : Int) : List ℚ :=
  (if go.movetime ≠ 0 then [roundDouble go.movetime] else []) ++
  (if go.time own ≠ 0 then
    budgetShare go own ply :: (if ply ≤ 8 then [openingCap ply] else [])
   else [])

/-- Reference, from the words of the specification, in exact arithmetic: 0.8
times the minimum of `movetime` when it is not zero, the budget share
`(time + inc * (cnt - 1)) / cnt` (when `time[own]` is given) with
`cnt = movestogo` if specified, else `max(10, 32 - ply / 2)`, and, whenever
`ply ≤ 8`, the opening cap `1000 + 125 * ply`; `1e12` stands for no term. -/
def claimedDeadline (go : GoParameters) (own : Nat) (ply : Int) : ℚ :=
  let cnt : Int := if go.movestogo ≠ 0 then go.movestogo else max 10 (32 - ply / 2)
  let terms : List ℚ :=
    (if go.movetime ≠ 0 then [(go.movetime : ℚ)] else []) ++
    (if go.time own ≠ 0 then
      [((go.time own : ℚ) + (go.inc own : ℚ) * ((cnt : ℚ) - 1)) / (cnt : ℚ)] else []) ++
    (if ply ≤ 8 then [(1000 : ℚ) + 125 * (ply : ℚ)] else [])
  4 / 5 * terms.foldl min 1000000000000

/-- The parameters of `go movetime 5000`: no clock times, five seconds per move. -/
def movetimeOnly : GoParameters :=
  { time := fun _ => 0, inc := fun _ => 0, movestogo := 0, movetime := 5000, depth := 64 }

/-- The parameters of `go wtime 60000 winc 1000 movestogo 40 movetime 30000`. -/
def clockGo : GoParameters :=
  { time := fun _ => 60000, inc := fun _ => 1000, movestogo := 40, movetime := 30000,
    depth := 64 }

/-- The parameters of `go wtime 1000 movestogo 4294967296`: the number of moves
to go is `2 ^ 32`. -/
def hugeMovesToGo : GoParameters :=
  { time := fun _ => 1000, inc := fun _ => 0, movestogo := 4294967296, movetime := 0,
    depth := 64 }

/-- Reference, from the words of the specification with the opening cap bound
to `time[own]`, in exact arithmetic: the minimum of `1e12` (no limit), of
`movetime` when it is not zero and, only when `time[own]` is not zero, of the
budget share `(time + inc * (cnt - 1)) / cnt` with `cnt = movestogo` if
specified, else `max(10, 32 - ply / 2)`, and, if `ply ≤ 8`, of the opening cap
`1000 + 125 * ply`. -/
def deadlineMinimum (go : GoParameters) (own : Nat) (ply : Int) : ℚ :=
  let cnt : Int := if go.movestogo ≠ 0 then go.movestogo else max 10 (32 - ply / 2)
  let terms : List ℚ :=
    (if go.movetime ≠ 0 then [(go.movetime : ℚ)] else []) ++
    (if go.time own ≠ 0 then
      ((go.time own : ℚ) + (go.inc own : ℚ) * ((cnt : ℚ) - 1)) / (cnt : ℚ) ::
        (if ply ≤ 8 then [(1000 : ℚ) + 125 * (ply : ℚ)] else [])
     else [])
  terms.foldl min 1000000000000

/-- Whether a recorded call counts a node in `stats_nodes` when its entry check
passes: every call of `quiescenceSearch`, and a call of `searchImpl` below
`depth_end` (at `depth_end` it only hands over to `quiescenceSearch`). -/
def countsNode (depth_end : Int) (c : CallRecord) : Bool :=
  c.quiescence || decide (c.depth < depth_end)

/-- The moves that the move picker of an interior node yields when it is given
the hint `tt_move`: `MovePicker(position, history, tt_move, killers, in_check,
false)`. -/
def interiorMoves (env : Env P) (eng : Engine P) (tt_move : Move) : List Move :=
  env.movePicker eng.position eng.quiet_history eng.capture_history tt_move
    (eng.killers eng.state) (env.checkers eng.position) false

/-! ## Properties -/

section Projections

variable (env : Env P) (eng : Engine P) (move : Move)

@[simp] theorem checkSearchLimit_fst : (checkSearchLimit env eng).1 = env.limit eng.clock := rfl
@[simp] theorem checkSearchLimit_clock :
    (checkSearchLimit env eng).2.clock = eng.clock + 1 := rfl
@[simp] theorem checkSearchLimit_state : (checkSearchLimit env eng).2.state = eng.state := rfl
@[simp] theorem checkSearchLimit_position :
    (checkSearchLimit env eng).2.position = eng.position := rfl
@[simp] theorem checkSearchLimit_tt :
    (checkSearchLimit env eng).2.transposition_table = eng.transposition_table := rfl
@[simp] theorem checkSearchLimit_killers :
    (checkSearchLimit env eng).2.killers = eng.killers := rfl
@[simp] theorem checkSearchLimit_quiet :
    (checkSearchLimit env eng).2.quiet_history = eng.quiet_history := rfl
@[simp] theorem checkSearchLimit_capture :
    (checkSearchLimit env eng).2.capture_history = eng.capture_history := rfl

@[simp] theorem makeMove_state : (makeMove env eng move).state = eng.state + 1 := rfl
@[simp] theorem makeMove_position :
    (makeMove env eng move).position =
      if move = kNoneMove then env.makeNullMove eng.position
      else env.makeMove eng.position move := rfl
@[simp] theorem makeMove_tt :
    (makeMove env eng move).transposition_table = eng.transposition_table := rfl
@[simp] theorem makeMove_clock : (makeMove env eng move).clock = eng.clock := rfl
@[simp] theorem makeMove_killers : (makeMove env eng move).killers = eng.killers := rfl
@[simp] theorem makeMove_quiet : (makeMove env eng move).quiet_history = eng.quiet_history := rfl
@[simp] theorem makeMove_capture :
    (makeMove env eng move).capture_history = eng.capture_history := rfl

@[simp] theorem unmakeMove_state : (unmakeMove env eng move).state = eng.state - 1 := rfl
@[simp] theorem unmakeMove_position :
    (unmakeMove env eng move).position =
      if move = kNoneMove then env.unmakeNullMove eng.position
      else env.unmakeMove eng.position move := rfl
@[simp] theorem unmakeMove_tt :
    (unmakeMove env eng move).transposition_table = eng.transposition_table := rfl
@[simp] theorem unmakeMove_clock : (unmakeMove env eng move).clock = eng.clock := rfl
@[simp] theorem unmakeMove_killers : (unmakeMove env eng move).killers = eng.killers := rfl
@[simp] theorem unmakeMove_quiet :
    (unmakeMove env eng move).quiet_history = eng.quiet_history := rfl
@[simp] theorem unmakeMove_capture :
    (unmakeMove env eng move).capture_history = eng.capture_history := rfl

end Projections

theorem unmake_make_state (env : Env P) (child : Int → Int → Engine P → SearchResult → Ret P)
    (hc : ChildBalanced child) (a b : Int) (eng : Engine P) (res : SearchResult) (move : Move) :
    (checkSearchLimit env (unmakeMove env (child a b (makeMove env eng move) res).eng move)).2.state
      = eng.state := by
  have h := (hc a b (makeMove env eng move) res).1
  simp [h]

theorem unmake_make_position (env : Env P) (hinv : MakeUnmakeInverse env)
    (child : Int → Int → Engine P → SearchResult → Ret P)
    (hc : ChildBalanced child) (a b : Int) (eng : Engine P) (res : SearchResult) (move : Move) :
    (checkSearchLimit env (unmakeMove env (child a b (makeMove env eng move) res).eng move)).2.position
      = eng.position := by
  have h := (hc a b (makeMove env eng move) res).2
  by_cases hm : move = kNoneMove
  · subst hm
    simp [h, hinv.2]
  · simp [h, hm, hinv.1]

theorem qStep_balanced (env : Env P) (hinv : MakeUnmakeInverse env)
    (child : Int → Int → Engine P → SearchResult → Ret P) (hc : ChildBalanced child)
    (beta : Int) (n : Node P) (move : Move) :
    (qStep env child beta n move).eng.state = n.eng.state ∧
    (qStep env child beta n move).eng.position = n.eng.position := by
  have hs := unmake_make_state env child hc (-beta) (-n.alpha) n.eng n.result move
  have hp := unmake_make_position env hinv child hc (-beta) (-n.alpha) n.eng n.result move
  unfold qStep
  simp only
  split_ifs <;> exact ⟨hs, hp⟩

theorem qLoop_balanced (env : Env P) (hinv : MakeUnmakeInverse env)
    (child : Int → Int → Engine P → SearchResult → Ret P) (hc : ChildBalanced child)
    (beta : Int) (moves : List Move) (n : Node P) :
    (qLoop env child beta moves n).eng.state = n.eng.state ∧
    (qLoop env child beta moves n).eng.position = n.eng.position := by
  induction moves generalizing n with
  | nil => simp [qLoop]
  | cons move rest ih =>
    have h1 := qStep_balanced env hinv child hc beta n move
    unfold qLoop
    simp only
    split_ifs
    · exact h1
    · exact ⟨(ih _).1.trans h1.1, (ih _).2.trans h1.2⟩

theorem qMoves_balanced (env : Env P) (hinv : MakeUnmakeInverse env)
    (child : Int → Int → Engine P → SearchResult → Ret P) (hc : ChildBalanced child)
    (beta : Int) (depth : Int) (tt_move : Move) (n : Node P) :
    (qMoves env child beta depth tt_move n).eng.state = n.eng.state ∧
    (qMoves env child beta depth tt_move n).eng.position = n.eng.position := by
  unfold qMoves
  simp only
  split_ifs <;>
    first
      | exact ⟨rfl, rfl⟩
      | exact qLoop_balanced env hinv child hc beta _ _

theorem qBody_balanced (env : Env P) (hinv : MakeUnmakeInverse env)
    (child : Int → Int → Engine P → SearchResult → Ret P) (hc : ChildBalanced child)
    (alpha beta : Int) (depth : Int) (eng : Engine P) (result : SearchResult) :
    (qBody env child alpha beta depth eng result).eng.state = eng.state ∧
    (qBody env child alpha beta depth eng result).eng.position = eng.position := by
  unfold qBody
  simp only
  split
  · split_ifs <;>
      first
        | exact ⟨rfl, rfl⟩
        | exact qMoves_balanced env hinv child hc beta depth _ _
  · exact qMoves_balanced env hinv child hc beta depth _ _

theorem qFinish_frame (env : Env P) (n : Node P) :
    (qFinish env n).eng.state = n.eng.state ∧ (qFinish env n).eng.position = n.eng.position := by
  unfold qFinish
  split_ifs <;> exact ⟨rfl, rfl⟩

theorem quiescenceSearchF_balanced (env : Env P) (hinv : MakeUnmakeInverse env) (fuel : Nat) :
    ∀ (alpha beta : Int) (depth : Int) (eng : Engine P) (result : SearchResult),
      Balanced eng (quiescenceSearchF env fuel alpha beta depth eng result) := by
  induction fuel with
  | zero => intro alpha beta depth eng result; exact ⟨rfl, rfl⟩
  | succ fuel ih =>
    intro alpha beta depth eng result
    unfold quiescenceSearchF
    simp only
    split_ifs
    · exact ⟨rfl, rfl⟩
    · exact ⟨rfl, rfl⟩
    · have hb := qBody_balanced env hinv
        (fun a b e r => quiescenceSearchF env fuel a b (depth + 1) e r)
        (fun a b e r => ih a b (depth + 1) e r) alpha beta depth
        (checkSearchLimit env eng).2 { result with stats_nodes := result.stats_nodes + 1 }
      have hf := qFinish_frame env (qBody env
        (fun a b e r => quiescenceSearchF env fuel a b (depth + 1) e r) alpha beta depth
        (checkSearchLimit env eng).2 { result with stats_nodes := result.stats_nodes + 1 })
      exact ⟨hf.1.trans hb.1, hf.2.trans hb.2⟩

section Projections2

variable (env : Env P) (eng : Engine P) (move : Move)

@[simp] theorem updatePV_state (pv : List Move) : (updatePV eng move pv).state = eng.state := rfl
@[simp] theorem updatePV_position (pv : List Move) :
    (updatePV eng move pv).position = eng.position := rfl
@[simp] theorem updatePV_tt (pv : List Move) :
    (updatePV eng move pv).transposition_table = eng.transposition_table := rfl
@[simp] theorem updatePV_clock (pv : List Move) : (updatePV eng move pv).clock = eng.clock := rfl
@[simp] theorem updatePV_killers (pv : List Move) :
    (updatePV eng move pv).killers = eng.killers := rfl
@[simp] theorem updatePV_quiet (pv : List Move) :
    (updatePV eng move pv).quiet_history = eng.quiet_history := rfl
@[simp] theorem updatePV_capture (pv : List Move) :
    (updatePV eng move pv).capture_history = eng.capture_history := rfl

@[simp] theorem ttPut_state (k : Nat) (e : TTEntry) : (ttPut eng k e).state = eng.state := rfl
@[simp] theorem ttPut_position (k : Nat) (e : TTEntry) :
    (ttPut eng k e).position = eng.position := rfl
@[simp] theorem ttPut_clock (k : Nat) (e : TTEntry) : (ttPut eng k e).clock = eng.clock := rfl
@[simp] theorem ttPut_tt (k : Nat) (e : TTEntry) :
    (ttPut eng k e).transposition_table = (k, e) :: eng.transposition_table := rfl
@[simp] theorem ttPut_killers (k : Nat) (e : TTEntry) :
    (ttPut eng k e).killers = eng.killers := rfl

@[simp] theorem updateKiller_state : (updateKiller eng move).state = eng.state := by
  unfold updateKiller; split_ifs <;> rfl
@[simp] theorem updateKiller_position : (updateKiller eng move).position = eng.position := by
  unfold updateKiller; split_ifs <;> rfl
@[simp] theorem updateKiller_clock : (updateKiller eng move).clock = eng.clock := by
  unfold updateKiller; split_ifs <;> rfl
@[simp] theorem updateKiller_tt :
    (updateKiller eng move).transposition_table = eng.transposition_table := by
  unfold updateKiller; split_ifs <;> rfl

@[simp] theorem updateHistory_state (qs cs : List Move) (d : Int) :
    (updateHistory env eng move qs cs d).state = eng.state := by
  unfold updateHistory; simp only; split_ifs <;> rfl
@[simp] theorem updateHistory_position (qs cs : List Move) (d : Int) :
    (updateHistory env eng move qs cs d).position = eng.position := by
  unfold updateHistory; simp only; split_ifs <;> rfl
@[simp] theorem updateHistory_clock (qs cs : List Move) (d : Int) :
    (updateHistory env eng move qs cs d).clock = eng.clock := by
  unfold updateHistory; simp only; split_ifs <;> rfl
@[simp] theorem updateHistory_tt (qs cs : List Move) (d : Int) :
    (updateHistory env eng move qs cs d).transposition_table = eng.transposition_table := by
  unfold updateHistory; simp only; split_ifs <;> rfl
@[simp] theorem updateHistory_killers (qs cs : List Move) (d : Int) :
    (updateHistory env eng move qs cs d).killers = eng.killers := by
  unfold updateHistory; simp only; split_ifs <;> rfl

end Projections2

theorem searchStep_balanced (env : Env P) (hinv : MakeUnmakeInverse env)
    (child : Int → Int → Engine P → SearchResult → Ret P) (hc : ChildBalanced child)
    (beta : Int) (n : Node P) (move : Move) :
    (searchStep env child beta n move).eng.state = n.eng.state ∧
    (searchStep env child beta n move).eng.position = n.eng.position := by
  have hs := unmake_make_state env child hc (-beta) (-n.alpha) n.eng n.result move
  have hp := unmake_make_position env hinv child hc (-beta) (-n.alpha) n.eng n.result move
  unfold searchStep
  simp only
  split_ifs <;> exact ⟨hs, hp⟩

theorem searchLoop_balanced (env : Env P) (hinv : MakeUnmakeInverse env)
    (child : Int → Int → Engine P → SearchResult → Ret P) (hc : ChildBalanced child)
    (beta : Int) (moves : List Move) (n : Node P) :
    (searchLoop env child beta moves n).eng.state = n.eng.state ∧
    (searchLoop env child beta moves n).eng.position = n.eng.position := by
  induction moves generalizing n with
  | nil => simp [searchLoop]
  | cons move rest ih =>
    have h1 := searchStep_balanced env hinv child hc beta n move
    unfold searchLoop
    simp only
    split_ifs
    · exact h1
    · exact ⟨(ih _).1.trans h1.1, (ih _).2.trans h1.2⟩

theorem searchMoves_balanced (env : Env P) (hinv : MakeUnmakeInverse env)
    (child : Int → Int → Engine P → SearchResult → Ret P) (hc : ChildBalanced child)
    (beta : Int) (depth : Int) (tt_move : Move) (n : Node P) :
    (searchMoves env child beta depth tt_move n).eng.state = n.eng.state ∧
    (searchMoves env child beta depth tt_move n).eng.position = n.eng.position := by
  unfold searchMoves
  simp only
  split_ifs <;> exact searchLoop_balanced env hinv child hc beta _ _

theorem searchBody_balanced (env : Env P) (hinv : MakeUnmakeInverse env)
    (child : Int → Int → Engine P → SearchResult → Ret P) (hc : ChildBalanced child)
    (alpha beta : Int) (depth depth_end : Int) (eng : Engine P) (result : SearchResult) :
    (searchBody env child alpha beta depth depth_end eng result).eng.state = eng.state ∧
    (searchBody env child alpha beta depth depth_end eng result).eng.position = eng.position := by
  unfold searchBody
  simp only
  split
  · split_ifs <;>
      first
        | exact ⟨rfl, rfl⟩
        | exact searchMoves_balanced env hinv child hc beta depth _ _
  · exact searchMoves_balanced env hinv child hc beta depth _ _

theorem finishNode_frame (env : Env P) (d : Int) (n : Node P) :
    (finishNode env d n).eng.state = n.eng.state ∧
    (finishNode env d n).eng.position = n.eng.position := by
  unfold finishNode
  simp only
  split_ifs <;> simp

theorem quiescenceSearch_balanced (env : Env P) (hinv : MakeUnmakeInverse env)
    (alpha beta : Int) (depth : Int) (eng : Engine P) (result : SearchResult) :
    Balanced eng (quiescenceSearch env alpha beta depth eng result) :=
  quiescenceSearchF_balanced env hinv _ alpha beta depth eng result

theorem searchImplF_balanced (env : Env P) (hinv : MakeUnmakeInverse env) (fuel : Nat) :
    ∀ (alpha beta : Int) (depth depth_end : Int) (eng : Engine P) (result : SearchResult),
      Balanced eng (searchImplF env fuel alpha beta depth depth_end eng result) := by
  induction fuel with
  | zero => intro alpha beta depth depth_end eng result; exact ⟨rfl, rfl⟩
  | succ fuel ih =>
    intro alpha beta depth depth_end eng result
    unfold searchImplF
    simp only
    split_ifs
    · exact ⟨rfl, rfl⟩
    · exact quiescenceSearch_balanced env hinv alpha beta depth (checkSearchLimit env eng).2 result
    · have hb := searchBody_balanced env hinv
        (fun a b e r => searchImplF env fuel a b (depth + 1) depth_end e r)
        (fun a b e r => ih a b (depth + 1) depth_end e r) alpha beta depth depth_end
        (checkSearchLimit env eng).2 { result with stats_nodes := result.stats_nodes + 1 }
      have hf := finishNode_frame env (depth_end - depth) (searchBody env
        (fun a b e r => searchImplF env fuel a b (depth + 1) depth_end e r) alpha beta depth
        depth_end (checkSearchLimit env eng).2
        { result with stats_nodes := result.stats_nodes + 1 })
      exact ⟨hf.1.trans hb.1, hf.2.trans hb.2⟩

/-- C9 (make/unmake balance): if the position's make and unmake are inverse,
every call of `searchImpl` and of `quiescenceSearch` (with any amount of fuel,
so every recursive call too), whatever it returns, leaves the state pointer
and the position as they were on entry; after `search` the state pointer is
at the base frame 0 and the position is the one searched. -/
theorem make_unmake_balance (env : Env P) (hinv : MakeUnmakeInverse env) :
    (∀ fuel alpha beta depth depth_end eng result,
      (searchImplF env fuel alpha beta depth depth_end eng result).eng.state = eng.state ∧
      (searchImplF env fuel alpha beta depth depth_end eng result).eng.position = eng.position) ∧
    (∀ fuel alpha beta depth eng result,
      (quiescenceSearchF env fuel alpha beta depth eng result).eng.state = eng.state ∧
      (quiescenceSearchF env fuel alpha beta depth eng result).eng.position = eng.position) ∧
    (∀ alpha beta depth depth_end eng result,
      (searchImpl env alpha beta depth depth_end eng result).eng.state = eng.state ∧
      (searchImpl env alpha beta depth depth_end eng result).eng.position = eng.position) ∧
    (∀ alpha beta depth eng result,
      (quiescenceSearch env alpha beta depth eng result).eng.state = eng.state ∧
      (quiescenceSearch env alpha beta depth eng result).eng.position = eng.position) ∧
    (∀ depth eng, (search env depth eng).2.state = 0 ∧
      (search env depth eng).2.position = eng.position) := by
  refine ⟨?_, ?_, ?_, ?_, ?_⟩
  · intro fuel alpha beta depth depth_end eng result
    exact searchImplF_balanced env hinv fuel alpha beta depth depth_end eng result
  · intro fuel alpha beta depth eng result
    exact quiescenceSearchF_balanced env hinv fuel alpha beta depth eng result
  · intro alpha beta depth depth_end eng result
    exact searchImplF_balanced env hinv _ alpha beta depth depth_end eng result
  · intro alpha beta depth eng result
    exact quiescenceSearchF_balanced env hinv _ alpha beta depth eng result
  · intro depth eng
    exact searchImplF_balanced env hinv _ (-env.kScoreInf) env.kScoreInf 0 depth
      { eng with state := 0 } { depth := depth }

theorem treeEnv_inverse (moves qmoves : Nat → List Nat) (eval : Nat → Int) (chk : Nat → Bool)
    (limit : Nat → Bool) (ttGet : List (Nat × TTEntry) → Nat → Option TTEntry) :
    MakeUnmakeInverse (treeEnv moves qmoves eval chk limit ttGet) :=
  ⟨fun _ _ => rfl, fun _ => rfl⟩

theorem make_unmake_balance_witness :
    MakeUnmakeInverse mateEnv ∧
    (search mateEnv 2 (startEngine 1)).2.state = 0 ∧
    (search mateEnv 2 (startEngine 1)).2.position = [1] :=
  ⟨treeEnv_inverse _ _ _ _ _ _,
   ((make_unmake_balance mateEnv (treeEnv_inverse _ _ _ _ _ _)).2.2.2.2 2 (startEngine 1))⟩

theorem Wrote.refl (env : Env P) (dOK : Int → Prop) (old : List (Nat × TTEntry)) :
    Wrote env dOK old old := ⟨[], rfl, by simp⟩

theorem Wrote.andThen {env : Env P} {dOK : Int → Prop} {a b c : List (Nat × TTEntry)}
    (h1 : Wrote env dOK a b) (h2 : Wrote env dOK b c) : Wrote env dOK a c := by
  obtain ⟨n1, rfl, g1⟩ := h1
  obtain ⟨n2, rfl, g2⟩ := h2
  refine ⟨n2 ++ n1, by simp, ?_⟩
  intro x hx
  rcases List.mem_append.1 hx with h | h
  · exact g2 x h
  · exact g1 x h

theorem Wrote.put {env : Env P} {dOK : Int → Prop} {a b : List (Nat × TTEntry)}
    (h : Wrote env dOK a b) (k : Nat) (e : TTEntry) (he : ScoresOK env e) (hd : dOK e.depth) :
    Wrote env dOK a ((k, e) :: b) := by
  obtain ⟨n1, rfl, g1⟩ := h
  refine ⟨(k, e) :: n1, by simp, ?_⟩
  intro x hx
  rcases List.mem_cons.1 hx with h | h
  · subst h; exact ⟨he, hd⟩
  · exact g1 x h

theorem Wrote.relax {env : Env P} {dOK dOK1 : Int → Prop} (hd : ∀ d, dOK d → dOK1 d)
    {a b : List (Nat × TTEntry)} (h : Wrote env dOK a b) : Wrote env dOK1 a b := by
  obtain ⟨n1, rfl, g1⟩ := h
  exact ⟨n1, rfl, fun x hx => ⟨(g1 x hx).1, hd _ (g1 x hx).2⟩⟩

theorem Wrote.inRange {env : Env P} {dOK : Int → Prop} {a b : List (Nat × TTEntry)}
    (h : Wrote env dOK a b) (ha : TableInRange env a) : TableInRange env b := by
  obtain ⟨n1, rfl, g1⟩ := h
  intro x hx
  rcases List.mem_append.1 hx with h | h
  · exact (g1 x h).1
  · exact ha x h

theorem inRange_max_neg {env : Env P} {s c : Int} (hu : s < env.kScoreInf)
    (hc : InRange env c) : InRange env (max s (-c)) := by
  unfold InRange at *
  constructor
  · exact lt_of_lt_of_le (by linarith [hc.2]) (le_max_right _ _)
  · exact max_lt hu (by linarith [hc.1])

/-- One loop iteration keeps the invariant (quiescence). -/
theorem qStep_ok (env : Env P) (hsticky : LimitSticky env) (dOK : Int → Prop)
    (child : Int → Int → Engine P → SearchResult → Ret P) (hc : ChildOK env dOK child)
    (beta : Int) (c0 : Nat) (old : List (Nat × TTEntry)) (hold : TableInRange env old)
    (n : Node P) (move : Move) (hn : NodeOK env dOK true c0 old n)
    (hrun : n.interrupted = false) :
    NodeOK env dOK true c0 old (qStep env child beta n move) := by
  have hin : TableInRange env (makeMove env n.eng move).transposition_table := by
    simpa using hn.table.inRange hold
  have hcall := hc (-beta) (-n.alpha) (makeMove env n.eng move) n.result hin
  have hclk : n.eng.clock < (child (-beta) (-n.alpha) (makeMove env n.eng move) n.result).eng.clock := by
    simpa using hcall.clock_lt
  have htab : Wrote env dOK old
      (child (-beta) (-n.alpha) (makeMove env n.eng move) n.result).eng.transposition_table := by
    have := hcall.table
    simp only [makeMove_tt] at this
    exact hn.table.andThen this
  have hval : env.limit (child (-beta) (-n.alpha) (makeMove env n.eng move) n.result).eng.clock = true →
      InRange env (max n.score (-(child (-beta) (-n.alpha) (makeMove env n.eng move) n.result).score)) := by
    intro hl
    have hprev : env.limit ((child (-beta) (-n.alpha) (makeMove env n.eng move) n.result).eng.clock - 1)
        = true := by
      by_contra hne
      have hf := hsticky _ (child (-beta) (-n.alpha) (makeMove env n.eng move) n.result).eng.clock
        (Nat.sub_le _ 1) (by simpa using hne)
      rw [hf] at hl
      exact Bool.noConfusion hl
    exact inRange_max_neg (hn.upper hrun) (hcall.value hprev)
  have hc0 : c0 < (child (-beta) (-n.alpha) (makeMove env n.eng move) n.result).eng.clock + 1 := by
    have := hn.clock_lt
    omega
  unfold qStep
  simp only
  by_cases hchk : (checkSearchLimit env (unmakeMove env
      (child (-beta) (-n.alpha) (makeMove env n.eng move) n.result).eng move)).1 = false
  · rw [if_pos hchk]
    refine ⟨by simpa using hc0, ?_, ?_, by simpa using htab, hn.evaluation, ?_, ?_, ?_⟩
    · intro _; simpa using hchk
    · intro h; simp at h
    · intro h; simp at h
    · intro h; simp at h
    · intro h; simp at h
  · rw [if_neg hchk]
    have hl : env.limit (child (-beta) (-n.alpha) (makeMove env n.eng move) n.result).eng.clock
        = true := by simpa using hchk
    have hr := hval hl
    split_ifs
    · refine ⟨by simpa using hc0, ?_, ?_, by simpa using htab, hn.evaluation, ?_, ?_, ?_⟩
      · intro h; simp [hrun] at h
      · intro _; simpa using hl
      · intro _; exact hr.2
      · intro _; exact le_of_lt hr.1
      · intro _ _; exact hr.1
    · refine ⟨by simpa using hc0, ?_, ?_, by simpa using htab, hn.evaluation, ?_, ?_, ?_⟩
      · intro h; simp [hrun] at h
      · intro _; simpa using hl
      · intro _; exact hr.2
      · intro _; exact le_of_lt hr.1
      · intro _ _; exact hr.1
    · refine ⟨by simpa using hc0, ?_, ?_, by simpa using htab, hn.evaluation, ?_, ?_, ?_⟩
      · intro h; simp [hrun] at h
      · intro _; simpa using hl
      · intro _; exact hr.2
      · intro _; exact le_of_lt hr.1
      · intro _ _; exact hr.1

theorem qStep_running (env : Env P) (child : Int → Int → Engine P → SearchResult → Ret P)
    (beta : Int) (n : Node P) (move : Move) (hrun : n.interrupted = false)
    (hret : ¬ (qStep env child beta n move).returned = true) :
    (qStep env child beta n move).interrupted = false := by
  unfold qStep at hret ⊢
  simp only at hret ⊢
  split_ifs at hret ⊢ <;> simp_all

theorem qLoop_ok (env : Env P) (hsticky : LimitSticky env) (dOK : Int → Prop)
    (child : Int → Int → Engine P → SearchResult → Ret P) (hc : ChildOK env dOK child)
    (beta : Int) (c0 : Nat) (old : List (Nat × TTEntry)) (hold : TableInRange env old)
    (moves : List Move) (n : Node P) (hn : NodeOK env dOK true c0 old n)
    (hrun : n.interrupted = false) :
    NodeOK env dOK true c0 old (qLoop env child beta moves n) := by
  induction moves generalizing n with
  | nil => simpa [qLoop] using hn
  | cons move rest ih =>
    have h1 := qStep_ok env hsticky dOK child hc beta c0 old hold n move hn hrun
    unfold qLoop
    simp only
    split_ifs with hret
    · exact h1
    · exact ih _ h1 (qStep_running env child beta n move hrun hret)

theorem qMoves_ok (env : Env P) (hsticky : LimitSticky env) (heval : EvaluatorsInRange env)
    (dOK : Int → Prop)
    (child : Int → Int → Engine P → SearchResult → Ret P) (hc : ChildOK env dOK child)
    (beta : Int) (depth : Int) (tt_move : Move) (c0 : Nat) (old : List (Nat × TTEntry))
    (hold : TableInRange env old) (n : Node P)
    (hclk : c0 < n.eng.clock) (hlim : env.limit (n.eng.clock - 1) = true)
    (htab : Wrote env dOK old n.eng.transposition_table)
    (hev : n.evaluation = env.kScoreNone ∨ InRange env n.evaluation)
    (hrun : n.interrupted = false) :
    NodeOK env dOK true c0 old (qMoves env child beta depth tt_move n) := by
  have he : InRange env
      (if n.evaluation = env.kScoreNone then env.evaluate n.eng.position else n.evaluation) := by
    split_ifs with h
    · exact heval.1 _
    · rcases hev with h1 | h1
      · exact absurd h1 h
      · exact h1
  unfold qMoves
  simp only
  generalize (if n.evaluation = env.kScoreNone then env.evaluate n.eng.position
    else n.evaluation) = ev at he ⊢
  have hn1 : ∀ a : Int, NodeOK env dOK true c0 old
      { n with evaluation := ev, score := ev, alpha := a } := by
    intro a
    exact ⟨hclk, fun h => by simp [hrun] at h, fun _ => hlim, htab, Or.inr he,
      fun _ => he.2, fun _ => le_of_lt he.1, fun _ _ => he.1⟩
  have hleaf : ∀ m : Node P, NodeOK env dOK true c0 old m → ∀ p,
      NodeOK env dOK true c0 old { m with score := env.evaluateLeaf p depth } := by
    intro m h p
    exact ⟨h.clock_lt, h.stopped, h.running, h.table, h.evaluation,
      fun _ => (heval.2 _ _).2, fun _ => le_of_lt (heval.2 _ _).1, fun _ _ => (heval.2 _ _).1⟩
  split_ifs
  · exact ⟨hclk, fun h => by simp [hrun] at h, fun _ => hlim, htab, Or.inr he,
      fun _ => he.2, fun _ => le_of_lt he.1, fun _ _ => he.1⟩
  all_goals
    first
      | exact qLoop_ok env hsticky dOK child hc beta c0 old hold _ _ (hn1 _) hrun
      | exact hleaf _ (qLoop_ok env hsticky dOK child hc beta c0 old hold _ _ (hn1 _) hrun) _

theorem probe_scoresOK (env : Env P) (hprobe : ProbeSound env) (log : List (Nat × TTEntry))
    (hlog : TableInRange env log) (k : Nat) (e : TTEntry) (h : env.ttGet log k = some e) :
    ScoresOK env e := by
  obtain ⟨k1, hk⟩ := hprobe log k e h
  exact hlog _ hk

theorem qBody_ok (env : Env P) (hsticky : LimitSticky env) (heval : EvaluatorsInRange env)
    (hprobe : ProbeSound env) (dOK : Int → Prop)
    (child : Int → Int → Engine P → SearchResult → Ret P) (hc : ChildOK env dOK child)
    (alpha beta : Int) (depth : Int) (c0 : Nat) (eng : Engine P) (result : SearchResult)
    (hold : TableInRange env eng.transposition_table)
    (hclk : c0 < eng.clock) (hlim : env.limit (eng.clock - 1) = true) :
    NodeOK env dOK true c0 eng.transposition_table
      (qBody env child alpha beta depth eng result) := by
  unfold qBody
  simp only
  split
  · rename_i e he
    have hs := probe_scoresOK env hprobe _ hold _ e he
    split_ifs
    · exact ⟨hclk, fun h => by simp [initNode] at h, fun _ => hlim, Wrote.refl _ _ _,
        Or.inl rfl, fun _ => hs.1.2, fun _ => le_of_lt hs.1.1, fun _ _ => hs.1.1⟩
    · exact ⟨hclk, fun h => by simp [initNode] at h, fun _ => hlim, Wrote.refl _ _ _,
        Or.inl rfl, fun _ => hs.1.2, fun _ => le_of_lt hs.1.1, fun _ _ => hs.1.1⟩
    · exact qMoves_ok env hsticky heval dOK child hc beta depth _ c0 _ hold
        { initNode env alpha eng _ with evaluation := e.evaluation } hclk hlim
        (Wrote.refl _ _ _) hs.2 rfl
  · exact qMoves_ok env hsticky heval dOK child hc beta depth _ c0 _ hold
      (initNode env alpha eng _) hclk hlim (Wrote.refl _ _ _) (Or.inl rfl) rfl

theorem qFinish_ok (env : Env P) (dOK : Int → Prop) (hd : dOK 0) (eng : Engine P)
    (n : Node P) (hn : NodeOK env dOK true eng.clock eng.transposition_table n) :
    CallOK env dOK eng (qFinish env n) := by
  unfold qFinish
  simp only
  by_cases hi : n.interrupted = true
  · rw [if_pos hi]
    exact ⟨hn.clock_lt, fun _ => rfl, fun h => by
      have := hn.stopped hi
      simp_all, hn.table⟩
  · rw [if_neg hi]
    have hi' : n.interrupted = false := by simpa using hi
    have hr : InRange env n.score := ⟨hn.strict hi' (Or.inl rfl), hn.upper hi'⟩
    refine ⟨hn.clock_lt, fun h => ?_, fun _ => hr, ?_⟩
    · have := hn.running hi'
      simp only [ttPut_clock] at h
      rw [this] at h
      exact Bool.noConfusion h
    · simp only [ttPut_tt]
      exact hn.table.put _ _ ⟨hr, hn.evaluation⟩ hd

theorem quiescenceSearchF_ok (env : Env P) (hsticky : LimitSticky env)
    (heval : EvaluatorsInRange env) (hprobe : ProbeSound env) (fuel : Nat) :
    ∀ (alpha beta : Int) (depth : Int) (eng : Engine P) (result : SearchResult),
      (env.kMaxDepth - depth).toNat < fuel → TableInRange env eng.transposition_table →
      CallOK env (fun d => d = 0) eng (quiescenceSearchF env fuel alpha beta depth eng result) := by
  induction fuel with
  | zero => intro _ _ _ _ _ h; omega
  | succ fuel ih =>
    intro alpha beta depth eng result hfuel hold
    unfold quiescenceSearchF
    simp only
    by_cases hchk : (checkSearchLimit env eng).1 = false
    · rw [if_pos hchk]
      refine ⟨by simp, fun _ => rfl, fun h => ?_, Wrote.refl _ _ _⟩
      simp only [checkSearchLimit_fst] at hchk
      simp [hchk] at h
    · rw [if_neg hchk]
      have hl : env.limit eng.clock = true := by simpa using hchk
      by_cases hmax : env.kMaxDepth ≤ depth
      · rw [if_pos hmax]
        refine ⟨by simp, fun h => ?_, fun _ => heval.1 _, Wrote.refl _ _ _⟩
        simp [hl] at h
      · rw [if_neg hmax]
        have hchild : ChildOK env (fun d => d = 0)
            (fun a b e r => quiescenceSearchF env fuel a b (depth + 1) e r) := by
          intro a b e r he
          exact ih a b (depth + 1) e r (by omega) he
        have hb := qBody_ok env hsticky heval hprobe (fun d => d = 0) _ hchild alpha beta depth
          eng.clock (checkSearchLimit env eng).2
          { result with stats_nodes := result.stats_nodes + 1 } hold (by simp)
          (by simpa using hl)
        exact qFinish_ok env (fun d => d = 0) rfl eng _ hb

/-- One loop iteration keeps the invariant (interior node). -/
theorem searchStep_ok (env : Env P) (hsticky : LimitSticky env) (dOK : Int → Prop)
    (child : Int → Int → Engine P → SearchResult → Ret P) (hc : ChildOK env dOK child)
    (beta : Int) (c0 : Nat) (old : List (Nat × TTEntry)) (hold : TableInRange env old)
    (n : Node P) (move : Move) (hn : NodeOK env dOK false c0 old n)
    (hrun : n.interrupted = false) :
    NodeOK env dOK false c0 old (searchStep env child beta n move) := by
  have hin : TableInRange env (makeMove env n.eng move).transposition_table := by
    simpa using hn.table.inRange hold
  have hcall := hc (-beta) (-n.alpha) (makeMove env n.eng move) n.result hin
  have hclk : n.eng.clock < (child (-beta) (-n.alpha) (makeMove env n.eng move) n.result).eng.clock := by
    simpa using hcall.clock_lt
  have htab : Wrote env dOK old
      (child (-beta) (-n.alpha) (makeMove env n.eng move) n.result).eng.transposition_table := by
    have := hcall.table
    simp only [makeMove_tt] at this
    exact hn.table.andThen this
  have hval : env.limit (child (-beta) (-n.alpha) (makeMove env n.eng move) n.result).eng.clock = true →
      InRange env (max n.score (-(child (-beta) (-n.alpha) (makeMove env n.eng move) n.result).score)) := by
    intro hl
    have hprev : env.limit ((child (-beta) (-n.alpha) (makeMove env n.eng move) n.result).eng.clock - 1)
        = true := by
      by_contra hne
      have hf := hsticky _ (child (-beta) (-n.alpha) (makeMove env n.eng move) n.result).eng.clock
        (Nat.sub_le _ 1) (by simpa using hne)
      rw [hf] at hl
      exact Bool.noConfusion hl
    exact inRange_max_neg (hn.upper hrun) (hcall.value hprev)
  have hc0 : c0 < (child (-beta) (-n.alpha) (makeMove env n.eng move) n.result).eng.clock + 1 := by
    have := hn.clock_lt
    omega
  unfold searchStep
  simp only
  by_cases hchk : (checkSearchLimit env (unmakeMove env
      (child (-beta) (-n.alpha) (makeMove env n.eng move) n.result).eng move)).1 = false
  · rw [if_pos hchk]
    refine ⟨by simpa using hc0, ?_, ?_, by simpa using htab, hn.evaluation, ?_, ?_, ?_⟩
    · intro _; simpa using hchk
    · intro h; simp at h
    · intro h; simp at h
    · intro h; simp at h
    · intro h; simp at h
  · rw [if_neg hchk]
    have hl : env.limit (child (-beta) (-n.alpha) (makeMove env n.eng move) n.result).eng.clock
        = true := by simpa using hchk
    have hr := hval hl
    split_ifs <;>
      exact ⟨by simpa using hc0, fun h => by simp [hrun] at h, fun _ => by simpa using hl,
        by simpa using htab, hn.evaluation, fun _ => hr.2, fun _ => le_of_lt hr.1,
        fun _ _ => hr.1⟩

theorem searchStep_running (env : Env P) (child : Int → Int → Engine P → SearchResult → Ret P)
    (beta : Int) (n : Node P) (move : Move) (hrun : n.interrupted = false)
    (hret : ¬ (searchStep env child beta n move).returned = true) :
    (searchStep env child beta n move).interrupted = false := by
  unfold searchStep at hret ⊢
  simp only at hret ⊢
  split_ifs at hret ⊢ <;> simp_all

theorem searchStep_move_cnt (env : Env P)
    (child : Int → Int → Engine P → SearchResult → Ret P)
    (beta : Int) (n : Node P) (move : Move) :
    (searchStep env child beta n move).move_cnt = n.move_cnt + 1 := by
  unfold searchStep
  simp only
  split_ifs <;> rfl

theorem searchLoop_move_cnt (env : Env P)
    (child : Int → Int → Engine P → SearchResult → Ret P)
    (beta : Int) (moves : List Move) (n : Node P)
    (h : (searchLoop env child beta moves n).returned = true) :
    n.returned = true ∨ 0 < (searchLoop env child beta moves n).move_cnt := by
  induction moves generalizing n with
  | nil => left; simpa [searchLoop] using h
  | cons move rest ih =>
    unfold searchLoop at h ⊢
    simp only at h ⊢
    split_ifs at h ⊢ with hret
    · right
      rw [searchStep_move_cnt]
      omega
    · rcases ih _ h with h1 | h1
      · exact absurd h1 hret
      · exact Or.inr h1

theorem searchLoop_ok (env : Env P) (hsticky : LimitSticky env) (dOK : Int → Prop)
    (child : Int → Int → Engine P → SearchResult → Ret P) (hc : ChildOK env dOK child)
    (beta : Int) (c0 : Nat) (old : List (Nat × TTEntry)) (hold : TableInRange env old)
    (moves : List Move) (n : Node P) (hn : NodeOK env dOK false c0 old n)
    (hrun : n.interrupted = false) :
    NodeOK env dOK false c0 old (searchLoop env child beta moves n) := by
  induction moves generalizing n with
  | nil => simpa [searchLoop] using hn
  | cons move rest ih =>
    have h1 := searchStep_ok env hsticky dOK child hc beta c0 old hold n move hn hrun
    unfold searchLoop
    simp only
    split_ifs with hret
    · exact h1
    · exact ih _ h1 (searchStep_running env child beta n move hrun hret)

theorem NodeOK.strengthen {env : Env P} {dOK : Int → Prop} {c0 : Nat}
    {old : List (Nat × TTEntry)} {n : Node P} (h : NodeOK env dOK false c0 old n)
    (hs : n.interrupted = false → -env.kScoreInf < n.score) :
    NodeOK env dOK true c0 old n :=
  ⟨h.clock_lt, h.stopped, h.running, h.table, h.evaluation, h.upper, h.lower, fun hi _ => hs hi⟩

theorem searchMoves_ok (env : Env P) (hsticky : LimitSticky env) (heval : EvaluatorsInRange env)
    (dOK : Int → Prop)
    (child : Int → Int → Engine P → SearchResult → Ret P) (hc : ChildOK env dOK child)
    (beta : Int) (depth : Int) (tt_move : Move) (c0 : Nat) (old : List (Nat × TTEntry))
    (hold : TableInRange env old) (n : Node P)
    (hclk : c0 < n.eng.clock) (hlim : env.limit (n.eng.clock - 1) = true)
    (htab : Wrote env dOK old n.eng.transposition_table)
    (hev : n.evaluation = env.kScoreNone ∨ InRange env n.evaluation)
    (hrun : n.interrupted = false) (hret : n.returned = false) (hcnt : n.move_cnt = 0)
    (hscore : n.score = -env.kScoreInf) :
    NodeOK env dOK true c0 old (searchMoves env child beta depth tt_move n) := by
  have he : InRange env
      (if n.evaluation = env.kScoreNone then env.evaluate n.eng.position else n.evaluation) := by
    split_ifs with h
    · exact heval.1 _
    · rcases hev with h1 | h1
      · exact absurd h1 h
      · exact h1
  have hpos : -env.kScoreInf < env.kScoreInf := lt_trans he.1 he.2
  unfold searchMoves
  simp only
  generalize (if n.evaluation = env.kScoreNone then env.evaluate n.eng.position
    else n.evaluation) = ev at he ⊢
  have hn1 : NodeOK env dOK false c0 old { n with evaluation := ev } :=
    ⟨hclk, fun h => by simp [hrun] at h, fun _ => hlim, htab, Or.inr he,
      fun _ => by simpa [hscore] using hpos, fun _ => by simp [hscore],
      fun _ h => by simp [hcnt] at h⟩
  generalize hms : env.movePicker n.eng.position n.eng.quiet_history n.eng.capture_history
    tt_move (n.eng.killers n.eng.state) (env.checkers n.eng.position) false = moves
  have h2 := searchLoop_ok env hsticky dOK child hc beta c0 old hold moves _ hn1 hrun
  split_ifs with hr hz
  · refine h2.strengthen (fun hi => ?_)
    rcases searchLoop_move_cnt env child beta moves _ hr with h | h
    · simp [hret] at h
    · exact h2.strict hi (Or.inr h)
  · exact ⟨h2.clock_lt, h2.stopped, h2.running, h2.table, h2.evaluation,
      fun hi => max_lt (h2.upper hi) (heval.2 _ _).2,
      fun hi => le_trans (h2.lower hi) (le_max_left _ _),
      fun _ _ => lt_of_lt_of_le (heval.2 _ _).1 (le_max_right _ _)⟩
  · exact h2.strengthen (fun hi => h2.strict hi (Or.inr (Nat.pos_of_ne_zero hz)))

theorem searchBody_ok (env : Env P) (hsticky : LimitSticky env) (heval : EvaluatorsInRange env)
    (hprobe : ProbeSound env) (dOK : Int → Prop)
    (child : Int → Int → Engine P → SearchResult → Ret P) (hc : ChildOK env dOK child)
    (alpha beta : Int) (depth depth_end : Int) (c0 : Nat) (eng : Engine P)
    (result : SearchResult)
    (hold : TableInRange env eng.transposition_table)
    (hclk : c0 < eng.clock) (hlim : env.limit (eng.clock - 1) = true) :
    NodeOK env dOK true c0 eng.transposition_table
      (searchBody env child alpha beta depth depth_end eng result) := by
  unfold searchBody
  simp only
  split
  · rename_i e he
    have hs := probe_scoresOK env hprobe _ hold _ e he
    split_ifs
    · exact ⟨hclk, fun h => by simp [initNode] at h, fun _ => hlim, Wrote.refl _ _ _,
        Or.inl rfl, fun _ => hs.1.2, fun _ => le_of_lt hs.1.1, fun _ _ => hs.1.1⟩
    · exact ⟨hclk, fun h => by simp [initNode] at h, fun _ => hlim, Wrote.refl _ _ _,
        Or.inl rfl, fun _ => hs.1.2, fun _ => le_of_lt hs.1.1, fun _ _ => hs.1.1⟩
    · exact searchMoves_ok env hsticky heval dOK child hc beta depth _ c0 _ hold
        { initNode env alpha eng _ with evaluation := e.evaluation } hclk hlim
        (Wrote.refl _ _ _) hs.2 rfl rfl rfl rfl
  · exact searchMoves_ok env hsticky heval dOK child hc beta depth _ c0 _ hold
      (initNode env alpha eng _) hclk hlim (Wrote.refl _ _ _) (Or.inl rfl) rfl rfl rfl rfl

theorem finishNode_ok (env : Env P) (dOK : Int → Prop) (d : Int) (hd : dOK d) (eng : Engine P)
    (n : Node P) (hn : NodeOK env dOK true eng.clock eng.transposition_table n) :
    CallOK env dOK eng (finishNode env d n) := by
  unfold finishNode
  simp only
  by_cases hi : n.interrupted = true
  · rw [if_pos hi]
    exact ⟨hn.clock_lt, fun _ => rfl, fun h => by
      have := hn.stopped hi
      simp_all, hn.table⟩
  · rw [if_neg hi]
    have hi' : n.interrupted = false := by simpa using hi
    have hr : InRange env n.score := ⟨hn.strict hi' (Or.inl rfl), hn.upper hi'⟩
    have hrun := hn.running hi'
    have hw := hn.table.put (env.key n.eng.position)
      { node_type := n.node_type, move := n.best_move, score := n.score,
        evaluation := n.evaluation, depth := d } ⟨hr, hn.evaluation⟩ hd
    split_ifs
    · refine ⟨by simpa using hn.clock_lt, fun h => ?_, fun _ => hr, by simpa using hw⟩
      simp only [updateHistory_clock, updateKiller_clock, ttPut_clock] at h
      rw [hrun] at h
      exact Bool.noConfusion h
    · refine ⟨by simpa using hn.clock_lt, fun h => ?_, fun _ => hr, by simpa using hw⟩
      simp only [ttPut_clock] at h
      rw [hrun] at h
      exact Bool.noConfusion h

theorem CallOK.relaxDepth {env : Env P} {dOK dOK1 : Int → Prop} (hd : ∀ d, dOK d → dOK1 d)
    {eng : Engine P} {r : Ret P} (h : CallOK env dOK eng r) : CallOK env dOK1 eng r :=
  ⟨h.clock_lt, h.cancelled, h.value, h.table.relax hd⟩

theorem quiescenceSearch_ok (env : Env P) (hsticky : LimitSticky env)
    (heval : EvaluatorsInRange env) (hprobe : ProbeSound env)
    (alpha beta : Int) (depth : Int) (eng : Engine P) (result : SearchResult)
    (hold : TableInRange env eng.transposition_table) :
    CallOK env (fun d => d = 0) eng (quiescenceSearch env alpha beta depth eng result) :=
  quiescenceSearchF_ok env hsticky heval hprobe _ alpha beta depth eng result (by omega) hold

theorem searchImplF_ok (env : Env P) (hsticky : LimitSticky env)
    (heval : EvaluatorsInRange env) (hprobe : ProbeSound env) (fuel : Nat) :
    ∀ (alpha beta : Int) (depth depth_end : Int) (eng : Engine P) (result : SearchResult),
      (depth_end - depth).toNat < fuel → TableInRange env eng.transposition_table →
      CallOK env (fun d => 0 ≤ d) eng
        (searchImplF env fuel alpha beta depth depth_end eng result) := by
  induction fuel with
  | zero => intro _ _ _ _ _ _ h; omega
  | succ fuel ih =>
    intro alpha beta depth depth_end eng result hfuel hold
    unfold searchImplF
    simp only
    by_cases hchk : (checkSearchLimit env eng).1 = false
    · rw [if_pos hchk]
      refine ⟨by simp, fun _ => rfl, fun h => ?_, Wrote.refl _ _ _⟩
      simp only [checkSearchLimit_fst] at hchk
      simp [hchk] at h
    · rw [if_neg hchk]
      have hl : env.limit eng.clock = true := by simpa using hchk
      by_cases hend : depth_end ≤ depth
      · rw [if_pos hend]
        have hq : CallOK env (fun d => 0 ≤ d) (checkSearchLimit env eng).2
            (quiescenceSearch env alpha beta depth (checkSearchLimit env eng).2 result) :=
          (quiescenceSearch_ok env hsticky heval hprobe alpha beta depth
            (checkSearchLimit env eng).2 result hold).relaxDepth (fun d hd => by simp [hd])
        refine ⟨?_, hq.cancelled, hq.value, hq.table⟩
        have := hq.clock_lt
        simp only [checkSearchLimit_clock] at this
        omega
      · rw [if_neg hend]
        have hchild : ChildOK env (fun d => 0 ≤ d)
            (fun a b e r => searchImplF env fuel a b (depth + 1) depth_end e r) := by
          intro a b e r he
          exact ih a b (depth + 1) depth_end e r (by omega) he
        have hb := searchBody_ok env hsticky heval hprobe (fun d => 0 ≤ d) _ hchild alpha beta
          depth depth_end eng.clock (checkSearchLimit env eng).2
          { result with stats_nodes := result.stats_nodes + 1 } hold (by simp)
          (by simpa using hl)
        exact finishNode_ok env (fun d => 0 ≤ d) (depth_end - depth) (by omega) eng _ hb

theorem finishNode_own_entry (env : Env P) (d : Int) (n : Node P)
    (h : n.interrupted = false) :
    (finishNode env d n).score = n.score ∧
    (finishNode env d n).eng.transposition_table =
      (env.key n.eng.position,
        { node_type := n.node_type, move := n.best_move, score := n.score,
          evaluation := n.evaluation, depth := d }) :: n.eng.transposition_table := by
  unfold finishNode
  simp only
  rw [if_neg (by simp [h])]
  split_ifs <;> simp

/-- A completed interior node has put its own entry last, with the depth-to-go
`depth_end - depth` and the score it returns. -/
theorem searchImplF_own_entry (env : Env P) (hsticky : LimitSticky env)
    (heval : EvaluatorsInRange env) (hprobe : ProbeSound env) (fuel : Nat)
    (alpha beta : Int) (depth depth_end : Int) (eng : Engine P) (result : SearchResult)
    (hfuel : (depth_end - depth).toNat < fuel) (hold : TableInRange env eng.transposition_table)
    (hint : depth < depth_end)
    (hlast : env.limit ((searchImplF env fuel alpha beta depth depth_end eng result).eng.clock - 1)
      = true) :
    ∃ k e rest,
      (searchImplF env fuel alpha beta depth depth_end eng result).eng.transposition_table
        = (k, e) :: rest ∧
      e.depth = depth_end - depth ∧
      e.score = (searchImplF env fuel alpha beta depth depth_end eng result).score := by
  cases fuel with
  | zero => omega
  | succ fuel =>
    unfold searchImplF at hlast ⊢
    simp only at hlast ⊢
    by_cases hchk : (checkSearchLimit env eng).1 = false
    · rw [if_pos hchk] at hlast
      simp only [checkSearchLimit_fst] at hchk
      simp [hchk] at hlast
    · rw [if_neg hchk, if_neg (not_le.2 hint)] at hlast ⊢
      have hl : env.limit eng.clock = true := by simpa using hchk
      have hchild : ChildOK env (fun d => 0 ≤ d)
          (fun a b e r => searchImplF env fuel a b (depth + 1) depth_end e r) := by
        intro a b e r he
        exact searchImplF_ok env hsticky heval hprobe fuel a b (depth + 1) depth_end e r
          (by omega) he
      have hb := searchBody_ok env hsticky heval hprobe (fun d => 0 ≤ d) _ hchild alpha beta
        depth depth_end eng.clock (checkSearchLimit env eng).2
        { result with stats_nodes := result.stats_nodes + 1 } hold (by simp)
        (by simpa using hl)
      generalize searchBody env (fun a b e r => searchImplF env fuel a b (depth + 1) depth_end e r)
        alpha beta depth depth_end (checkSearchLimit env eng).2
        { result with stats_nodes := result.stats_nodes + 1 } = n at hb hlast ⊢
      have hi : n.interrupted = false := by
        by_contra hne
        have hi1 : n.interrupted = true := by simpa using hne
        have h1 := hb.stopped hi1
        have h2 : (finishNode env (depth_end - depth) n).eng.clock = n.eng.clock := by
          unfold finishNode
          simp [hi1]
        rw [h2, h1] at hlast
        exact Bool.noConfusion hlast
      have ho := finishNode_own_entry env (depth_end - depth) n hi
      exact ⟨_, _, _, ho.2, rfl, ho.1.symm⟩

/-- C10 (transposition-table entries are self-consistent, the range assertion
holds): if the static and the leaf evaluator return scores strictly between
`-kScoreInf` and `+kScoreInf`, every score stored in the table at the start is
in that range (a probe only returning stored entries), and the limit stays
tripped once tripped, then for `searchImpl` and `quiescenceSearch`:
every entry put during the call has a node type among PV, CUT, ALL, a
depth-to-go `≥ 0` (exactly 0 for every entry put by `quiescenceSearch`) and a
score strictly in range, which is what the `ASSERT` before the write tests;
a call whose last limit check passed (it was not cancelled), and any call
returning something else than `kScoreNone`, returns a score strictly in range;
and a completed interior node (`depth < depth_end`) has put its own entry
last, with depth-to-go `depth_end - depth ≥ 1` and the returned score. -/
theorem tt_entries_self_consistent (env : Env P) (hsticky : LimitSticky env)
    (heval : EvaluatorsInRange env) (hprobe : ProbeSound env) :
    (∀ alpha beta depth depth_end eng result, TableInRange env eng.transposition_table →
      (∃ new, (searchImpl env alpha beta depth depth_end eng result).eng.transposition_table
            = new ++ eng.transposition_table ∧
          ∀ x ∈ new, 0 ≤ x.2.depth ∧ InRange env x.2.score ∧
            (x.2.node_type = NodeType.kPVNode ∨ x.2.node_type = NodeType.kCutNode ∨
              x.2.node_type = NodeType.kAllNode)) ∧
      (env.limit ((searchImpl env alpha beta depth depth_end eng result).eng.clock - 1) = true →
        InRange env (searchImpl env alpha beta depth depth_end eng result).score) ∧
      ((searchImpl env alpha beta depth depth_end eng result).score ≠ env.kScoreNone →
        InRange env (searchImpl env alpha beta depth depth_end eng result).score) ∧
      (depth < depth_end →
        env.limit ((searchImpl env alpha beta depth depth_end eng result).eng.clock - 1) = true →
        ∃ k e rest,
          (searchImpl env alpha beta depth depth_end eng result).eng.transposition_table
            = (k, e) :: rest ∧
          e.depth = depth_end - depth ∧ 1 ≤ e.depth ∧
          e.score = (searchImpl env alpha beta depth depth_end eng result).score)) ∧
    (∀ alpha beta depth eng result, TableInRange env eng.transposition_table →
      (∃ new, (quiescenceSearch env alpha beta depth eng result).eng.transposition_table
            = new ++ eng.transposition_table ∧
          ∀ x ∈ new, x.2.depth = 0 ∧ InRange env x.2.score ∧
            (x.2.node_type = NodeType.kPVNode ∨ x.2.node_type = NodeType.kCutNode ∨
              x.2.node_type = NodeType.kAllNode)) ∧
      (env.limit ((quiescenceSearch env alpha beta depth eng result).eng.clock - 1) = true →
        InRange env (quiescenceSearch env alpha beta depth eng result).score) ∧
      ((quiescenceSearch env alpha beta depth eng result).score ≠ env.kScoreNone →
        InRange env (quiescenceSearch env alpha beta depth eng result).score)) := by
  have hnt : ∀ t : NodeType, t = NodeType.kPVNode ∨ t = NodeType.kCutNode ∨
      t = NodeType.kAllNode := by
    intro t; cases t <;> simp
  have hval : ∀ (dOK : Int → Prop) (eng : Engine P) (r : Ret P), CallOK env dOK eng r →
      r.score ≠ env.kScoreNone → InRange env r.score := by
    intro dOK eng r h hne
    apply h.value
    by_contra hl
    exact hne (h.cancelled (by simpa using hl))
  constructor
  · intro alpha beta depth depth_end eng result hold
    have h := searchImplF_ok env hsticky heval hprobe ((depth_end - depth).toNat + 1)
      alpha beta depth depth_end eng result (by omega) hold
    refine ⟨?_, h.value, hval _ _ _ h, ?_⟩
    · obtain ⟨new, hnew, hall⟩ := h.table
      exact ⟨new, hnew, fun x hx => ⟨(hall x hx).2, (hall x hx).1.1, hnt _⟩⟩
    · intro hint hlast
      obtain ⟨k, e, rest, h1, h2, h3⟩ := searchImplF_own_entry env hsticky heval hprobe
        ((depth_end - depth).toNat + 1) alpha beta depth depth_end eng result (by omega) hold
        hint hlast
      exact ⟨k, e, rest, h1, h2, by omega, h3⟩
  · intro alpha beta depth eng result hold
    have h := quiescenceSearch_ok env hsticky heval hprobe alpha beta depth eng result hold
    refine ⟨?_, h.value, hval _ _ _ h⟩
    obtain ⟨new, hnew, hall⟩ := h.table
    exact ⟨new, hnew, fun x hx => ⟨(hall x hx).2, (hall x hx).1.1, hnt _⟩⟩

theorem ttLookup_sound (log : List (Nat × TTEntry)) (k : Nat) (e : TTEntry)
    (h : ttLookup log k = some e) : ∃ k1, (k1, e) ∈ log := by
  unfold ttLookup at h
  split at h
  · rename_i x hx
    have hm := List.mem_of_find?_eq_some hx
    simp only [Option.some.injEq] at h
    subst h
    exact ⟨x.1, hm⟩
  · exact Option.noConfusion h

theorem mateEnv_limitSticky : LimitSticky mateEnv := by
  intro i j _ h
  simp [mateEnv, treeEnv] at h

theorem treeEnv_evaluatorsInRange (moves qmoves : Nat → List Nat) (eval : Nat → Int)
    (chk : Nat → Bool) (limit : Nat → Bool)
    (ttGet : List (Nat × TTEntry) → Nat → Option TTEntry)
    (h : ∀ p, -32001 < eval p ∧ eval p < 32001) :
    EvaluatorsInRange (treeEnv moves qmoves eval chk limit ttGet) := by
  constructor
  · intro p
    exact h _
  · intro p d
    show -(32001 : Int) < (if chk (p.headD 0) = true then -(32000 - max 0 (min d 64)) else 0) ∧
      (if chk (p.headD 0) = true then -(32000 - max 0 (min d 64)) else 0) < (32001 : Int)
    have h1 : (0 : Int) ≤ max 0 (min d 64) := le_max_left _ _
    have h2 : max 0 (min d 64) ≤ (64 : Int) := max_le (by norm_num) (min_le_right _ _)
    split_ifs <;> constructor <;> omega

theorem mateEnv_evaluatorsInRange : EvaluatorsInRange mateEnv := by
  apply treeEnv_evaluatorsInRange
  intro p
  split_ifs <;> constructor <;> norm_num

theorem mateEnv_probeSound : ProbeSound mateEnv := fun log k e h => ttLookup_sound log k e h

theorem tt_entries_self_consistent_witness :
    LimitSticky mateEnv ∧ EvaluatorsInRange mateEnv ∧ ProbeSound mateEnv ∧
    ((searchImpl mateEnv (-32001) 32001 0 2 (startEngine 1) {}).score ≠ mateEnv.kScoreNone →
      InRange mateEnv (searchImpl mateEnv (-32001) 32001 0 2 (startEngine 1) {}).score) :=
  ⟨mateEnv_limitSticky, mateEnv_evaluatorsInRange, mateEnv_probeSound,
    ((tt_entries_self_consistent mateEnv mateEnv_limitSticky mateEnv_evaluatorsInRange
      mateEnv_probeSound).1 (-32001) 32001 0 2 (startEngine 1) {}
      (fun x hx => by simp [startEngine] at hx)).2.2.1⟩

theorem CallOK.none_cancelled {env : Env P} {dOK : Int → Prop} {eng : Engine P} {r : Ret P}
    (h : CallOK env dOK eng r) (hnone : ¬ InRange env env.kScoreNone)
    (hr : r.score = env.kScoreNone) : env.limit (r.eng.clock - 1) = false := by
  by_contra hl
  have hv := h.value (by simpa using hl)
  rw [hr] at hv
  exact hnone hv

/-- After a child that returned `kScoreNone`, the limit check of the caller fails. -/
theorem check_after_none (env : Env P) (hsticky : LimitSticky env)
    (hnone : ¬ InRange env env.kScoreNone) (dOK : Int → Prop)
    (child : Int → Int → Engine P → SearchResult → Ret P) (hc : ChildOK env dOK child)
    (a b : Int) (eng : Engine P) (result : SearchResult) (move : Move)
    (hin : TableInRange env eng.transposition_table)
    (h : (child a b (makeMove env eng move) result).score = env.kScoreNone) :
    (checkSearchLimit env (unmakeMove env (child a b (makeMove env eng move) result).eng move)).1
      = false := by
  have hcall := hc a b (makeMove env eng move) result (by simpa using hin)
  have h1 := hcall.none_cancelled hnone h
  simpa using hsticky _ (child a b (makeMove env eng move) result).eng.clock (Nat.sub_le _ 1) h1

theorem searchLoop_child_none (env : Env P) (hsticky : LimitSticky env)
    (hnone : ¬ InRange env env.kScoreNone) (dOK : Int → Prop)
    (child : Int → Int → Engine P → SearchResult → Ret P) (hc : ChildOK env dOK child)
    (beta : Int) (n : Node P) (move : Move) (rest : List Move)
    (hin : TableInRange env n.eng.transposition_table)
    (h : (child (-beta) (-n.alpha) (makeMove env n.eng move) n.result).score = env.kScoreNone) :
    (searchLoop env child beta (move :: rest) n).interrupted = true ∧
    (searchLoop env child beta (move :: rest) n).eng =
      (checkSearchLimit env (unmakeMove env
        (child (-beta) (-n.alpha) (makeMove env n.eng move) n.result).eng move)).2 := by
  have hchk := check_after_none env hsticky hnone dOK child hc (-beta) (-n.alpha) n.eng n.result
    move hin h
  have hs : searchStep env child beta n move =
      { n with
        move_cnt := n.move_cnt + 1
        searched_quiets :=
          if env.isCaptureOrPromotion n.eng.position move = true then n.searched_quiets
          else n.searched_quiets ++ [move]
        searched_captures :=
          if env.isCaptureOrPromotion n.eng.position move = true then n.searched_captures ++ [move]
          else n.searched_captures
        score := max n.score (-(child (-beta) (-n.alpha) (makeMove env n.eng move) n.result).score)
        eng := (checkSearchLimit env (unmakeMove env
          (child (-beta) (-n.alpha) (makeMove env n.eng move) n.result).eng move)).2
        result := (child (-beta) (-n.alpha) (makeMove env n.eng move) n.result).result
        interrupted := true
        returned := true } := by
    unfold searchStep
    simp only
    rw [if_pos hchk]
  unfold searchLoop
  simp only
  rw [hs]
  simp

theorem qLoop_child_none (env : Env P) (hsticky : LimitSticky env)
    (hnone : ¬ InRange env env.kScoreNone) (dOK : Int → Prop)
    (child : Int → Int → Engine P → SearchResult → Ret P) (hc : ChildOK env dOK child)
    (beta : Int) (n : Node P) (move : Move) (rest : List Move)
    (hin : TableInRange env n.eng.transposition_table)
    (h : (child (-beta) (-n.alpha) (makeMove env n.eng move) n.result).score = env.kScoreNone) :
    (qLoop env child beta (move :: rest) n).interrupted = true ∧
    (qLoop env child beta (move :: rest) n).eng =
      (checkSearchLimit env (unmakeMove env
        (child (-beta) (-n.alpha) (makeMove env n.eng move) n.result).eng move)).2 := by
  have hchk := check_after_none env hsticky hnone dOK child hc (-beta) (-n.alpha) n.eng n.result
    move hin h
  have hs : qStep env child beta n move =
      { n with
        move_cnt := n.move_cnt + 1
        score := max n.score (-(child (-beta) (-n.alpha) (makeMove env n.eng move) n.result).score)
        eng := (checkSearchLimit env (unmakeMove env
          (child (-beta) (-n.alpha) (makeMove env n.eng move) n.result).eng move)).2
        result := (child (-beta) (-n.alpha) (makeMove env n.eng move) n.result).result
        interrupted := true
        returned := true } := by
    unfold qStep
    simp only
    rw [if_pos hchk]
  unfold qLoop
  simp only
  rw [hs]
  simp

theorem finishNode_interrupted (env : Env P) (d : Int) (n : Node P)
    (h : n.interrupted = true) : finishNode env d n = ⟨env.kScoreNone, n.eng, n.result⟩ := by
  unfold finishNode
  simp [h]

theorem qFinish_interrupted (env : Env P) (n : Node P)
    (h : n.interrupted = true) : qFinish env n = ⟨env.kScoreNone, n.eng, n.result⟩ := by
  unfold qFinish
  simp [h]

theorem finishNode_none (env : Env P) (hnone : ¬ InRange env env.kScoreNone)
    (dOK : Int → Prop) (d : Int) (c0 : Nat) (old : List (Nat × TTEntry)) (n : Node P)
    (hn : NodeOK env dOK true c0 old n)
    (h : (finishNode env d n).score = env.kScoreNone) : n.interrupted = true := by
  by_contra hi
  have hi' : n.interrupted = false := by simpa using hi
  have hs := (finishNode_own_entry env d n hi').1
  rw [h] at hs
  exact hnone (hs ▸ ⟨hn.strict hi' (Or.inl rfl), hn.upper hi'⟩)

theorem qFinish_none (env : Env P) (hnone : ¬ InRange env env.kScoreNone)
    (dOK : Int → Prop) (c0 : Nat) (old : List (Nat × TTEntry)) (n : Node P)
    (hn : NodeOK env dOK true c0 old n)
    (h : (qFinish env n).score = env.kScoreNone) : n.interrupted = true := by
  by_contra hi
  have hi' : n.interrupted = false := by simpa using hi
  have hs : (qFinish env n).score = n.score := by
    unfold qFinish
    simp [hi']
  rw [h] at hs
  exact hnone (hs ▸ ⟨hn.strict hi' (Or.inl rfl), hn.upper hi'⟩)

/-- The call of an interior node whose entry check passes is its lambda body
followed by the statements after it. -/
theorem searchImplF_interior (env : Env P) (fuel : Nat) (alpha beta : Int)
    (depth depth_end : Int) (eng : Engine P) (result : SearchResult)
    (hl : env.limit eng.clock = true) (hint : depth < depth_end) :
    searchImplF env (fuel + 1) alpha beta depth depth_end eng result =
      finishNode env (depth_end - depth)
        (searchBody env (fun a b e r => searchImplF env fuel a b (depth + 1) depth_end e r)
          alpha beta depth depth_end (checkSearchLimit env eng).2
          { result with stats_nodes := result.stats_nodes + 1 }) := by
  rw [searchImplF]
  simp only [checkSearchLimit_fst, hl]
  rw [if_neg (by simp), if_neg (not_le.2 hint)]

/-- The call of a quiescence node below `kMaxDepth` whose entry check passes is
its lambda body followed by the statements after it. -/
theorem quiescenceSearchF_node (env : Env P) (fuel : Nat) (alpha beta : Int)
    (depth : Int) (eng : Engine P) (result : SearchResult)
    (hl : env.limit eng.clock = true) (hint : depth < env.kMaxDepth) :
    quiescenceSearchF env (fuel + 1) alpha beta depth eng result =
      qFinish env
        (qBody env (fun a b e r => quiescenceSearchF env fuel a b (depth + 1) e r)
          alpha beta depth (checkSearchLimit env eng).2
          { result with stats_nodes := result.stats_nodes + 1 }) := by
  rw [quiescenceSearchF]
  simp only [checkSearchLimit_fst, hl]
  rw [if_neg (by simp), if_neg (not_le.2 hint)]

/-- C3 (cancellation propagation): assume the limit, once tripped, stays
tripped, and that `kScoreNone` is a sentinel: the evaluators and the scores
stored in the table are strictly between `-kScoreInf` and `+kScoreInf` and
`kScoreNone` is not. Then
(1) at the call site of `searchImpl`: if the recursive call for `move`
returns `kScoreNone`, the move loop ends there with `interrupted` set and the
engine exactly as the child, `unmakeMove` and the limit check left it, and the
statements after the body return `kScoreNone` with that same engine (no table
write, no killer or history update);
(2) the same at the call site of `quiescenceSearch`;
(3) every call of `searchImpl` that returns `kScoreNone` was cancelled (its
last limit check failed), and if it got past its entry check at an interior
node, its body was interrupted and the engine it returns is the engine its
body left;
(4) the same for `quiescenceSearch`. -/
theorem cancellation_propagates (env : Env P) (hsticky : LimitSticky env)
    (heval : EvaluatorsInRange env) (hprobe : ProbeSound env)
    (hnone : ¬ InRange env env.kScoreNone) :
    (∀ fuel beta depth depth_end (n : Node P) move rest,
      (depth_end - (depth + 1)).toNat < fuel → TableInRange env n.eng.transposition_table →
      (searchImplF env fuel (-beta) (-n.alpha) (depth + 1) depth_end (makeMove env n.eng move)
        n.result).score = env.kScoreNone →
      (searchLoop env (fun a b e r => searchImplF env fuel a b (depth + 1) depth_end e r) beta
        (move :: rest) n).interrupted = true ∧
      (searchLoop env (fun a b e r => searchImplF env fuel a b (depth + 1) depth_end e r) beta
        (move :: rest) n).eng =
        (checkSearchLimit env (unmakeMove env
          (searchImplF env fuel (-beta) (-n.alpha) (depth + 1) depth_end (makeMove env n.eng move)
            n.result).eng move)).2 ∧
      ∀ d, finishNode env d
          (searchLoop env (fun a b e r => searchImplF env fuel a b (depth + 1) depth_end e r) beta
            (move :: rest) n) =
        ⟨env.kScoreNone,
          (checkSearchLimit env (unmakeMove env
            (searchImplF env fuel (-beta) (-n.alpha) (depth + 1) depth_end
              (makeMove env n.eng move) n.result).eng move)).2,
          (searchLoop env (fun a b e r => searchImplF env fuel a b (depth + 1) depth_end e r) beta
            (move :: rest) n).result⟩) ∧
    (∀ fuel beta depth (n : Node P) move rest,
      (env.kMaxDepth - (depth + 1)).toNat < fuel →
      TableInRange env n.eng.transposition_table →
      (quiescenceSearchF env fuel (-beta) (-n.alpha) (depth + 1) (makeMove env n.eng move)
        n.result).score = env.kScoreNone →
      (qLoop env (fun a b e r => quiescenceSearchF env fuel a b (depth + 1) e r) beta
        (move :: rest) n).interrupted = true ∧
      (qLoop env (fun a b e r => quiescenceSearchF env fuel a b (depth + 1) e r) beta
        (move :: rest) n).eng =
        (checkSearchLimit env (unmakeMove env
          (quiescenceSearchF env fuel (-beta) (-n.alpha) (depth + 1) (makeMove env n.eng move)
            n.result).eng move)).2 ∧
      qFinish env
          (qLoop env (fun a b e r => quiescenceSearchF env fuel a b (depth + 1) e r) beta
            (move :: rest) n) =
        ⟨env.kScoreNone,
          (checkSearchLimit env (unmakeMove env
            (quiescenceSearchF env fuel (-beta) (-n.alpha) (depth + 1)
              (makeMove env n.eng move) n.result).eng move)).2,
          (qLoop env (fun a b e r => quiescenceSearchF env fuel a b (depth + 1) e r) beta
            (move :: rest) n).result⟩) ∧
    (∀ fuel alpha beta depth depth_end eng result,
      (depth_end - depth).toNat < fuel + 1 → TableInRange env eng.transposition_table →
      (searchImplF env (fuel + 1) alpha beta depth depth_end eng result).score = env.kScoreNone →
      env.limit ((searchImplF env (fuel + 1) alpha beta depth depth_end eng result).eng.clock - 1)
        = false ∧
      (env.limit eng.clock = true → depth < depth_end →
        (searchBody env (fun a b e r => searchImplF env fuel a b (depth + 1) depth_end e r)
          alpha beta depth depth_end (checkSearchLimit env eng).2
          { result with stats_nodes := result.stats_nodes + 1 }).interrupted = true ∧
        (searchImplF env (fuel + 1) alpha beta depth depth_end eng result).eng =
          (searchBody env (fun a b e r => searchImplF env fuel a b (depth + 1) depth_end e r)
            alpha beta depth depth_end (checkSearchLimit env eng).2
            { result with stats_nodes := result.stats_nodes + 1 }).eng)) ∧
    (∀ fuel alpha beta depth eng result,
      (env.kMaxDepth - depth).toNat < fuel + 1 → TableInRange env eng.transposition_table →
      (quiescenceSearchF env (fuel + 1) alpha beta depth eng result).score = env.kScoreNone →
      env.limit ((quiescenceSearchF env (fuel + 1) alpha beta depth eng result).eng.clock - 1)
        = false ∧
      (env.limit eng.clock = true → depth < env.kMaxDepth →
        (qBody env (fun a b e r => quiescenceSearchF env fuel a b (depth + 1) e r)
          alpha beta depth (checkSearchLimit env eng).2
          { result with stats_nodes := result.stats_nodes + 1 }).interrupted = true ∧
        (quiescenceSearchF env (fuel + 1) alpha beta depth eng result).eng =
          (qBody env (fun a b e r => quiescenceSearchF env fuel a b (depth + 1) e r)
            alpha beta depth (checkSearchLimit env eng).2
            { result with stats_nodes := result.stats_nodes + 1 }).eng)) := by
  have hcS : ∀ fuel depth depth_end, (depth_end - (depth + 1)).toNat < fuel →
      ChildOK env (fun d => 0 ≤ d)
        (fun a b e r => searchImplF env fuel a b (depth + 1) depth_end e r) := by
    intro fuel depth depth_end hf a b e r he
    exact searchImplF_ok env hsticky heval hprobe fuel a b (depth + 1) depth_end e r hf he
  have hcQ : ∀ fuel depth, (env.kMaxDepth - (depth + 1)).toNat < fuel →
      ChildOK env (fun d => d = 0)
        (fun a b e r => quiescenceSearchF env fuel a b (depth + 1) e r) := by
    intro fuel depth hf a b e r he
    exact quiescenceSearchF_ok env hsticky heval hprobe fuel a b (depth + 1) e r hf he
  refine ⟨?_, ?_, ?_, ?_⟩
  · intro fuel beta depth depth_end n move rest hf hin h
    have hl := searchLoop_child_none env hsticky hnone _ _ (hcS fuel depth depth_end hf) beta n
      move rest hin h
    refine ⟨hl.1, hl.2, fun d => ?_⟩
    rw [finishNode_interrupted env d _ hl.1, hl.2]
  · intro fuel beta depth n move rest hf hin h
    have hl := qLoop_child_none env hsticky hnone _ _ (hcQ fuel depth hf) beta n
      move rest hin h
    refine ⟨hl.1, hl.2, ?_⟩
    rw [qFinish_interrupted env _ hl.1, hl.2]
  · intro fuel alpha beta depth depth_end eng result hf hin h
    have hok := searchImplF_ok env hsticky heval hprobe (fuel + 1) alpha beta depth depth_end
      eng result hf hin
    refine ⟨hok.none_cancelled hnone h, fun hl hint => ?_⟩
    have hb := searchBody_ok env hsticky heval hprobe (fun d => 0 ≤ d) _
      (hcS fuel depth depth_end (by omega)) alpha beta
      depth depth_end eng.clock (checkSearchLimit env eng).2
      { result with stats_nodes := result.stats_nodes + 1 } hin (by simp)
      (by simpa using hl)
    rw [searchImplF_interior env fuel alpha beta depth depth_end eng result hl hint] at h ⊢
    have hi := finishNode_none env hnone _ _ _ _ _ hb h
    refine ⟨hi, ?_⟩
    rw [finishNode_interrupted env _ _ hi]
  · intro fuel alpha beta depth eng result hf hin h
    have hok := quiescenceSearchF_ok env hsticky heval hprobe (fuel + 1) alpha beta depth
      eng result hf hin
    refine ⟨hok.none_cancelled hnone h, fun hl hint => ?_⟩
    have hb := qBody_ok env hsticky heval hprobe (fun d => d = 0) _
      (hcQ fuel depth (by omega)) alpha beta
      depth eng.clock (checkSearchLimit env eng).2
      { result with stats_nodes := result.stats_nodes + 1 } hin (by simp)
      (by simpa using hl)
    rw [quiescenceSearchF_node env fuel alpha beta depth eng result hl hint] at h ⊢
    have hi := qFinish_none env hnone _ _ _ _ hb h
    refine ⟨hi, ?_⟩
    rw [qFinish_interrupted env _ hi]

theorem tripEnv_limitSticky : LimitSticky tripEnv := by
  intro i j hij h
  simp only [tripEnv, treeEnv, decide_eq_false_iff_not, not_lt] at h ⊢
  omega

theorem tripEnv_evaluatorsInRange : EvaluatorsInRange tripEnv := by
  apply treeEnv_evaluatorsInRange
  intro p
  split_ifs <;> constructor <;> norm_num

theorem tripEnv_probeSound : ProbeSound tripEnv := fun log k e h => ttLookup_sound log k e h

theorem tripEnv_none : ¬ InRange tripEnv tripEnv.kScoreNone := by
  simp [InRange, tripEnv, treeEnv]

theorem cancellation_propagates_witness :
    LimitSticky tripEnv ∧ EvaluatorsInRange tripEnv ∧ ProbeSound tripEnv ∧
    ¬ InRange tripEnv tripEnv.kScoreNone ∧
    (searchLoop tripEnv (fun a b e r => searchImplF tripEnv 2 a b (0 + 1) 2 e r) 32001
      (2 :: [3]) tripNode).interrupted = true :=
  ⟨tripEnv_limitSticky, tripEnv_evaluatorsInRange, tripEnv_probeSound, tripEnv_none,
    ((cancellation_propagates tripEnv tripEnv_limitSticky tripEnv_evaluatorsInRange
      tripEnv_probeSound tripEnv_none).1 2 32001 0 2 tripNode 2 [3] (by decide)
      (fun x hx => by simp [tripNode, initNode, startEngine] at hx) (by decide)).1⟩

theorem searchBody_hit (env : Env P) (child : Int → Int → Engine P → SearchResult → Ret P)
    (alpha beta : Int) (depth depth_end : Int) (eng : Engine P) (result : SearchResult)
    (e : TTEntry) (hhit : env.ttGet eng.transposition_table (env.key eng.position) = some e) :
    (ttScoreCut alpha beta (depth_end - depth) e →
      (searchBody env child alpha beta depth depth_end eng result).score = e.score ∧
      (searchBody env child alpha beta depth depth_end eng result).interrupted = false ∧
      (searchBody env child alpha beta depth depth_end eng result).eng = eng ∧
      (searchBody env child alpha beta depth depth_end eng result).move_cnt = 0 ∧
      (searchBody env child alpha beta depth depth_end eng result).result =
        { result with stats_tt_hit := result.stats_tt_hit + 1
                      stats_tt_cut := result.stats_tt_cut + 1 }) ∧
    (¬ ttScoreCut alpha beta (depth_end - depth) e →
      searchBody env child alpha beta depth depth_end eng result =
        searchMoves env child beta depth e.move
          { initNode env alpha eng { result with stats_tt_hit := result.stats_tt_hit + 1 } with
            evaluation := e.evaluation }) := by
  unfold searchBody
  simp only [hhit]
  have hc : hitCount (some e) = 1 := rfl
  rw [hc]
  unfold ttScoreCut
  constructor
  · intro hcut
    rcases hcut with ⟨hd, h | h⟩
    · rw [if_pos ⟨hd, h.1, h.2⟩]
      exact ⟨rfl, rfl, rfl, rfl, rfl⟩
    · by_cases h1 : depth_end - depth ≤ e.depth ∧ beta ≤ e.score ∧
          (e.node_type = NodeType.kCutNode ∨ e.node_type = NodeType.kPVNode)
      · rw [if_pos h1]
        exact ⟨rfl, rfl, rfl, rfl, rfl⟩
      · rw [if_neg h1, if_pos ⟨hd, h.1, h.2⟩]
        exact ⟨rfl, rfl, rfl, rfl, rfl⟩
  · intro hno
    rw [if_neg (fun h => hno ⟨h.1, Or.inl h.2⟩), if_neg (fun h => hno ⟨h.1, Or.inr h.2⟩)]

theorem wrap32_of_bounds (v : Int) (h1 : -2147483648 ≤ v) (h2 : v < 2147483648) :
    wrap32 v = v := by
  unfold wrap32
  omega

/-- C7 helper: what holds at any exit of the aspiration loop. -/
theorem aspirationLoop_exit (env : Env P) (root : Int → Int → Engine P → Ret P)
    (fuel : Nat) :
    ∀ (target delta : Int) (iterations : Nat) (eng : Engine P) (x : AspirationExit P),
      aspirationLoop env root fuel target delta iterations eng = some x →
      x.alpha = max (wrap32 (x.target - x.delta)) (-env.kScoreInf) ∧
      x.beta = min (wrap32 (x.target + x.delta)) env.kScoreInf ∧
      (∃ eng1, x.score = (root x.alpha x.beta eng1).score ∧
        x.eng = (checkSearchLimit env (root x.alpha x.beta eng1).eng).2 ∧
        x.accepted = env.limit (root x.alpha x.beta eng1).eng.clock ∧
        (x.accepted = true → x.res.depth = (root x.alpha x.beta eng1).result.depth)) ∧
      (x.accepted = true → x.alpha < x.score ∧ x.score < x.beta ∧ x.res.score = x.score) ∧
      (x.accepted = false → x.res = {}) ∧
      iterations ≤ x.iterations := by
  induction fuel with
  | zero => intro _ _ _ _ x h; simp [aspirationLoop] at h
  | succ fuel ih =>
    intro target delta iterations eng x h
    unfold aspirationLoop at h
    simp only at h
    split_ifs at h with h1 h2
    · simp only [Option.some.injEq] at h
      subst h
      simp only [checkSearchLimit_fst] at h1
      exact ⟨rfl, rfl, ⟨eng, rfl, rfl, by simp [h1], by simp⟩, by simp, by simp, le_refl _⟩
    · simp only [Option.some.injEq] at h
      subst h
      simp only [checkSearchLimit_fst, Bool.not_eq_false] at h1
      exact ⟨rfl, rfl, ⟨eng, rfl, rfl, by simp [h1], by simp⟩, fun _ => ⟨h2.1, h2.2, rfl⟩,
        by simp, le_refl _⟩
    all_goals
      obtain ⟨a, b, c, d, e, f⟩ := ih _ _ _ _ x h
      exact ⟨a, b, c, d, e, by omega⟩

/-- C6 helper: with root scores in range whenever the check after the root
search passes (on engines satisfying an invariant `I` that the root search and
the check keep), the loop started at iteration `i ≤ k` leaves at iteration
`≤ k` when `25 * 2 ^ k ≥ 2 * kScoreInf`, and no 32-bit value wraps on the way. -/
theorem aspirationLoop_terminates (env : Env P) (root : Int → Int → Engine P → Ret P)
    (k : Nat) (hInf : 0 < env.kScoreInf) (hk : 2 * env.kScoreInf ≤ 25 * 2 ^ k)
    (hfit : 25 * 2 ^ k + env.kScoreInf < 2147483648)
    (I : Engine P → Prop)
    (hI : ∀ a b e, I e → I (checkSearchLimit env (root a b e).eng).2)
    (hroot : ∀ a b e, I e → env.limit (root a b e).eng.clock = true →
      InRange env (root a b e).score) (fuel : Nat) :
    ∀ (i : Nat) (target : Int) (eng : Engine P), I eng → i ≤ k → k - i < fuel →
      -env.kScoreInf ≤ target → target ≤ env.kScoreInf →
      ∃ x, aspirationLoop env root fuel target (25 * 2 ^ i) i eng = some x ∧
        x.iterations ≤ k ∧ x.delta = 25 * 2 ^ x.iterations ∧
        -env.kScoreInf ≤ x.target ∧ x.target ≤ env.kScoreInf ∧
        x.alpha = max (x.target - x.delta) (-env.kScoreInf) ∧
        x.beta = min (x.target + x.delta) env.kScoreInf ∧ I x.eng := by
  induction fuel with
  | zero => intro i _ _ _ _ h; omega
  | succ fuel ih =>
    intro i target eng hIe hik hfuel ht1 ht2
    have hpow : (2 : Int) ^ i ≤ 2 ^ k := pow_le_pow_right₀ (by norm_num) hik
    have hpos : (0 : Int) < 2 ^ i := by positivity
    obtain ⟨M, hM⟩ : ∃ M : Int, 25 * 2 ^ k = M := ⟨_, rfl⟩
    rw [hM] at hk hfit
    obtain ⟨D, hD⟩ : ∃ D : Int, 25 * 2 ^ i = D := ⟨_, rfl⟩
    rw [hD]
    have hDM : D ≤ M := by rw [← hD, ← hM]; omega
    have hD0 : 0 < D := by rw [← hD]; omega
    have hw1 : wrap32 (target - D) = target - D := wrap32_of_bounds _ (by omega) (by omega)
    have hw2 : wrap32 (target + D) = target + D := wrap32_of_bounds _ (by omega) (by omega)
    unfold aspirationLoop
    simp only [hw1, hw2]
    by_cases hchk : (checkSearchLimit env (root (max (target - D) (-env.kScoreInf))
        (min (target + D) env.kScoreInf) eng).eng).1 = false
    · rw [if_pos hchk]
      exact ⟨_, rfl, hik, hD.symm, ht1, ht2, rfl, rfl, hI _ _ _ hIe⟩
    · rw [if_neg hchk]
      have hl : env.limit (root (max (target - D) (-env.kScoreInf))
          (min (target + D) env.kScoreInf) eng).eng.clock = true := by simpa using hchk
      have hs := hroot _ _ _ hIe hl
      unfold InRange at hs
      by_cases hacc : max (target - D) (-env.kScoreInf) <
            (root (max (target - D) (-env.kScoreInf)) (min (target + D) env.kScoreInf) eng).score ∧
          (root (max (target - D) (-env.kScoreInf)) (min (target + D) env.kScoreInf) eng).score <
            min (target + D) env.kScoreInf
      · rw [if_pos hacc]
        exact ⟨_, rfl, hik, hD.symm, ht1, ht2, rfl, rfl, hI _ _ _ hIe⟩
      · rw [if_neg hacc]
        generalize (root (max (target - D) (-env.kScoreInf))
          (min (target + D) env.kScoreInf) eng).score = s at hs hacc ⊢
        have hlt : i < k := by
          by_contra hge
          have hik' : i = k := by omega
          subst hik'
          have hDM' : D = M := by rw [← hD, ← hM]
          apply hacc
          rw [max_eq_right (by omega), min_eq_right (by omega)]
          exact hs
        have hab : ¬ (min (target + D) env.kScoreInf ≤ max (target - D) (-env.kScoreInf)) := by
          rw [not_le]
          exact lt_min (max_lt (by omega) (by omega)) (max_lt (by omega) (by omega))
        rw [if_neg hab]
        have hpow2 : (2 : Int) ^ (i + 1) ≤ 2 ^ k := pow_le_pow_right₀ (by norm_num) hlt
        have hD2 : D * 2 = 25 * 2 ^ (i + 1) := by rw [← hD, pow_succ]; ring
        have hw3 : wrap32 (D * 2) = 25 * 2 ^ (i + 1) := by
          rw [wrap32_of_bounds _ (by omega) (by rw [hD2]; omega), hD2]
        rw [hw3]
        by_cases hlow : s ≤ max (target - D) (-env.kScoreInf)
        · rw [if_pos hlow]
          have hgt : -env.kScoreInf < target - D := by
            by_contra hle
            rw [max_eq_right (by omega)] at hlow
            omega
          exact ih (i + 1) (target - D) _ (hI _ _ _ hIe) hlt (by omega) (by omega) (by omega)
        · rw [if_neg hlow]
          exact ih (i + 1) target _ (hI _ _ _ hIe) hlt (by omega) ht1 ht2

theorem aspirationBound_reaches (env : Env P) (hInf : 0 < env.kScoreInf) :
    2 * env.kScoreInf ≤ 25 * 2 ^ aspirationBound env := by
  unfold aspirationBound
  have h1 := Nat.le_pow_clog (b := 2) (by norm_num) ((2 * env.kScoreInf.toNat + 24) / 25)
  have h2 : 2 * env.kScoreInf.toNat ≤ 25 * ((2 * env.kScoreInf.toNat + 24) / 25) := by omega
  have h3 : 2 * env.kScoreInf.toNat ≤
      25 * 2 ^ Nat.clog 2 ((2 * env.kScoreInf.toNat + 24) / 25) :=
    le_trans h2 (Nat.mul_le_mul_left 25 h1)
  have h4 : (env.kScoreInf.toNat : Int) = env.kScoreInf := Int.toNat_of_nonneg (le_of_lt hInf)
  have h5 : ((2 * env.kScoreInf.toNat : Nat) : Int) ≤
      ((25 * 2 ^ Nat.clog 2 ((2 * env.kScoreInf.toNat + 24) / 25) : Nat) : Int) :=
    Int.ofNat_le.2 h3
  push_cast at h5
  rw [h4] at h5
  exact h5

theorem aspirationBound_fits (env : Env P) (hInf : 0 < env.kScoreInf)
    (hInf28 : env.kScoreInf ≤ 268435456) :
    25 * 2 ^ aspirationBound env + env.kScoreInf < 2147483648 := by
  unfold aspirationBound
  have h4 : (env.kScoreInf.toNat : Int) = env.kScoreInf := Int.toNat_of_nonneg (le_of_lt hInf)
  generalize hn : (2 * env.kScoreInf.toNat + 24) / 25 = n
  have hn1 : 25 * n ≤ 2 * env.kScoreInf.toNat + 24 := by omega
  suffices h : 25 * 2 ^ Nat.clog 2 n ≤ 50 * n + 25 by
    have h5 : ((25 * 2 ^ Nat.clog 2 n : Nat) : Int) ≤ ((50 * n + 25 : Nat) : Int) :=
      Int.ofNat_le.2 h
    have h6 : ((25 * n : Nat) : Int) ≤ ((2 * env.kScoreInf.toNat + 24 : Nat) : Int) :=
      Int.ofNat_le.2 hn1
    push_cast at h5 h6
    omega
  by_cases h1 : 1 < n
  · have h2 := Nat.pow_pred_clog_lt_self (b := 2) (by norm_num) h1
    have h3 : 0 < Nat.clog 2 n := Nat.clog_pos (by norm_num) (by omega)
    have h5 : 2 ^ Nat.clog 2 n = 2 ^ (Nat.clog 2 n).pred * 2 := by
      rw [← pow_succ]
      congr 1
      rw [Nat.pred_eq_sub_one]
      omega
    omega
  · have h2 : Nat.clog 2 n = 0 := Nat.clog_of_right_le_one (by omega) 2
    rw [h2]
    omega

/-- C6 (aspiration termination): for `0 < kScoreInf ≤ 2 ^ 28`, an initial
target in `[-kScoreInf, +kScoreInf]`, a limit that never trips and any root
search returning scores strictly between `-kScoreInf` and `+kScoreInf`, the
loop of `searchWithAspirationWindow` returns an accepted result as soon as it
is given more than `aspirationBound env` iterations: the number of failed
iterations is at most `aspirationBound env`, the rounded-up binary logarithm
of `2 * kScoreInf / 25`. At the exit `delta` is exactly `25 * 2 ^ iterations`,
below `2 ^ 31`: no 32-bit value wrapped (the window is the unwrapped
`max (target - delta) (-kScoreInf)`, `min (target + delta) kScoreInf`, and
`target` is still within `[-kScoreInf, +kScoreInf]`). -/
theorem aspiration_terminates (env : Env P) (root : Int → Int → Engine P → Ret P)
    (hInf : 0 < env.kScoreInf) (hInf28 : env.kScoreInf ≤ 268435456)
    (hlimit : ∀ n, env.limit n = true)
    (hroot : ∀ a b e, InRange env (root a b e).score)
    (target : Int) (ht1 : -env.kScoreInf ≤ target) (ht2 : target ≤ env.kScoreInf)
    (eng : Engine P) (fuel : Nat) (hfuel : aspirationBound env < fuel) :
    ∃ x, aspirationLoop env root fuel target kInitDelta 0 eng = some x ∧
      x.accepted = true ∧
      x.iterations ≤ aspirationBound env ∧
      x.delta = 25 * 2 ^ x.iterations ∧ x.delta < 2147483648 ∧
      -env.kScoreInf ≤ x.target ∧ x.target ≤ env.kScoreInf ∧
      x.alpha = max (x.target - x.delta) (-env.kScoreInf) ∧
      x.beta = min (x.target + x.delta) env.kScoreInf ∧
      x.alpha < x.score ∧ x.score < x.beta := by
  have hk := aspirationBound_reaches env hInf
  have hfit := aspirationBound_fits env hInf hInf28
  obtain ⟨x, hx, hit, hd, h1, h2, ha, hb, _⟩ := aspirationLoop_terminates env root
    (aspirationBound env) hInf hk hfit (fun _ => True) (fun _ _ _ _ => trivial)
    (fun a b e _ _ => hroot a b e) fuel 0 target eng trivial
    (Nat.zero_le _) (by omega) ht1 ht2
  have hx' : aspirationLoop env root fuel target kInitDelta 0 eng = some x := by
    simpa [kInitDelta] using hx
  obtain ⟨_, _, ⟨eng1, _, _, hacc, _⟩, hwin, _, _⟩ :=
    aspirationLoop_exit env root fuel target kInitDelta 0 eng x hx'
  have hacc' : x.accepted = true := by rw [hacc]; exact hlimit _
  have hpow : (2 : Int) ^ x.iterations ≤ 2 ^ aspirationBound env :=
    pow_le_pow_right₀ (by norm_num) hit
  refine ⟨x, hx', hacc', hit, hd, ?_, h1, h2, ha, hb, (hwin hacc').1, (hwin hacc').2.1⟩
  rw [hd]
  omega

/-- C7 (aspiration acceptance): whenever the loop of
`searchWithAspirationWindow` returns an accepted result (the `return res`
taken when the limit check after the root search passed), then with `target`
and `delta` as they are in that final iteration: the window is
`alpha = max (target - delta) (-kScoreInf)`, `beta = min (target + delta)
kScoreInf` (in 32-bit arithmetic), the score lies strictly between `alpha` and
`beta`, it is the score of the returned result, and it is the score that the
root search of that iteration returned for that window. -/
theorem aspiration_accepts_inside_window (env : Env P) (root : Int → Int → Engine P → Ret P)
    (fuel : Nat) (target delta : Int) (iterations : Nat) (eng : Engine P)
    (x : AspirationExit P)
    (h : aspirationLoop env root fuel target delta iterations eng = some x)
    (hacc : x.accepted = true) :
    x.alpha = max (wrap32 (x.target - x.delta)) (-env.kScoreInf) ∧
    x.beta = min (wrap32 (x.target + x.delta)) env.kScoreInf ∧
    x.alpha < x.score ∧ x.score < x.beta ∧ x.res.score = x.score ∧
    ∃ eng1, x.score = (root x.alpha x.beta eng1).score ∧
      env.limit (root x.alpha x.beta eng1).eng.clock = true ∧
      x.eng = (checkSearchLimit env (root x.alpha x.beta eng1).eng).2 := by
  obtain ⟨ha, hb, ⟨eng1, hs, he, hl, _⟩, hwin, _, _⟩ :=
    aspirationLoop_exit env root fuel target delta iterations eng x h
  exact ⟨ha, hb, (hwin hacc).1, (hwin hacc).2.1, (hwin hacc).2.2, eng1, hs,
    by rw [← hl]; exact hacc, he⟩

theorem mateEnv_aspirationBound : aspirationBound mateEnv < 13 := by
  have h : Nat.clog 2 ((2 * (32001 : Int).toNat + 24) / 25) ≤ 12 :=
    (Nat.le_pow_iff_clog_le (by norm_num)).1 (by decide)
  exact Nat.lt_succ_of_le h

theorem oracleRoot_inRange (a b : Int) (e : Engine (List Nat)) :
    InRange mateEnv (oracleRoot a b e).score := by
  constructor
  · show (-32001 : Int) < 31999
    decide
  · show (31999 : Int) < 32001
    decide

theorem aspiration_terminates_witness :
    (0 : Int) < mateEnv.kScoreInf ∧ mateEnv.kScoreInf ≤ 268435456 ∧
    (∀ n, mateEnv.limit n = true) ∧
    (∀ a b e, InRange mateEnv (oracleRoot a b e).score) ∧
    aspirationBound mateEnv < 13 ∧
    ∃ x, aspirationLoop mateEnv oracleRoot 13 0 kInitDelta 0 (startEngine 1) = some x ∧
      x.accepted = true ∧ x.iterations ≤ aspirationBound mateEnv :=
  ⟨by decide, by decide, fun _ => rfl, oracleRoot_inRange,
    mateEnv_aspirationBound,
    (aspiration_terminates mateEnv oracleRoot (by decide) (by decide) (fun _ => rfl)
      oracleRoot_inRange 0 (by decide) (by decide) (startEngine 1) 13
      mateEnv_aspirationBound).imp (fun _ h => ⟨h.1, h.2.1, h.2.2.1⟩)⟩

theorem aspiration_accepts_inside_window_witness :
    aspirationLoop mateEnv (aspirationRoot mateEnv 4) 13 0 kInitDelta 0 (startEngine 1)
      = some mateAspirationExit ∧
    mateAspirationExit.accepted = true ∧
    mateAspirationExit.alpha < mateAspirationExit.score ∧
    mateAspirationExit.score < mateAspirationExit.beta :=
  ⟨rfl, rfl,
    (aspiration_accepts_inside_window mateEnv (aspirationRoot mateEnv 4) 13 0 kInitDelta 0
      (startEngine 1) mateAspirationExit rfl rfl).2.2.1,
    (aspiration_accepts_inside_window mateEnv (aspirationRoot mateEnv 4) 13 0 kInitDelta 0
      (startEngine 1) mateAspirationExit rfl rfl).2.2.2.1⟩

/-- C2 (depth 1 is not protected from cancellation): in `tripEnv` the limit
trips while the depth-1 search runs (after the entry check of its root), in
`flaggedEnv` it is tripped from the first check on. In both runs of `goImpl`
the depth-1 result that is stored and emitted carries the score `kScoreNone`
(32002) and an empty PV, and the best-move event is made from it. -/
theorem depth_one_can_be_cancelled :
    tripEnv.kScoreNone = 32002 ∧
    (goImpl tripEnv 13 5 (startEngine 1)).map
        (fun d => d.events.map (fun e => (e.type, e.depth, e.score, e.pv, e.debug))) =
      some [(SearchResultType.kSearchResultInfo, 0, 0, [], true),
            (SearchResultType.kSearchResultInfo, 1, 32002, [], false),
            (SearchResultType.kSearchResultBestMove, 1, 32002, [], false)] ∧
    (goImpl flaggedEnv 13 5 (startEngine 1)).map
        (fun d => d.events.map (fun e => (e.type, e.depth, e.score, e.pv, e.debug))) =
      some [(SearchResultType.kSearchResultInfo, 0, 0, [], true),
            (SearchResultType.kSearchResultInfo, 1, 32002, [], false),
            (SearchResultType.kSearchResultBestMove, 1, 32002, [], false)] ∧
    (search tripEnv 1 (startEngine 1)).1.score = tripEnv.kScoreNone := by
  exact ⟨rfl, rfl, rfl, rfl⟩

theorem SameHeader.chain {a b c : SearchResult} (h1 : SameHeader a b) (h2 : SameHeader b c) :
    SameHeader a c :=
  ⟨h2.1.trans h1.1, h2.2.1.trans h1.2.1, h2.2.2.trans h1.2.2⟩

theorem qStep_header (env : Env P) (child : Int → Int → Engine P → SearchResult → Ret P)
    (hc : ∀ a b e r, SameHeader r (child a b e r).result)
    (beta : Int) (n : Node P) (move : Move) :
    SameHeader n.result (qStep env child beta n move).result := by
  have h := hc (-beta) (-n.alpha) (makeMove env n.eng move) n.result
  unfold qStep
  simp only
  split_ifs <;> exact h

theorem qLoop_header (env : Env P) (child : Int → Int → Engine P → SearchResult → Ret P)
    (hc : ∀ a b e r, SameHeader r (child a b e r).result)
    (beta : Int) (moves : List Move) (n : Node P) :
    SameHeader n.result (qLoop env child beta moves n).result := by
  induction moves generalizing n with
  | nil => exact ⟨rfl, rfl, rfl⟩
  | cons move rest ih =>
    have h1 := qStep_header env child hc beta n move
    unfold qLoop
    simp only
    split_ifs
    · exact h1
    · exact h1.chain (ih _)

theorem qMoves_header (env : Env P) (child : Int → Int → Engine P → SearchResult → Ret P)
    (hc : ∀ a b e r, SameHeader r (child a b e r).result)
    (beta : Int) (depth : Int) (tt_move : Move) (n : Node P) :
    SameHeader n.result (qMoves env child beta depth tt_move n).result := by
  unfold qMoves
  simp only
  split_ifs <;>
    first
      | exact ⟨rfl, rfl, rfl⟩
      | exact qLoop_header env child hc beta _ _

theorem qBody_header (env : Env P) (child : Int → Int → Engine P → SearchResult → Ret P)
    (hc : ∀ a b e r, SameHeader r (child a b e r).result)
    (alpha beta : Int) (depth : Int) (eng : Engine P) (result : SearchResult) :
    SameHeader result (qBody env child alpha beta depth eng result).result := by
  unfold qBody
  simp only
  split
  · split_ifs <;>
      first
        | exact ⟨rfl, rfl, rfl⟩
        | exact SameHeader.chain ⟨rfl, rfl, rfl⟩ (qMoves_header env child hc beta depth _ _)
  · exact SameHeader.chain ⟨rfl, rfl, rfl⟩ (qMoves_header env child hc beta depth _ _)

theorem qFinish_result (env : Env P) (n : Node P) : (qFinish env n).result = n.result := by
  unfold qFinish
  split_ifs <;> rfl

theorem finishNode_result (env : Env P) (d : Int) (n : Node P) :
    (finishNode env d n).result = n.result := by
  unfold finishNode
  split_ifs <;> rfl

theorem quiescenceSearchF_header (env : Env P) (fuel : Nat) :
    ∀ (alpha beta : Int) (depth : Int) (eng : Engine P) (result : SearchResult),
      SameHeader result (quiescenceSearchF env fuel alpha beta depth eng result).result := by
  induction fuel with
  | zero => intro _ _ _ _ _; exact ⟨rfl, rfl, rfl⟩
  | succ fuel ih =>
    intro alpha beta depth eng result
    unfold quiescenceSearchF
    simp only
    split_ifs
    · exact ⟨rfl, rfl, rfl⟩
    · exact ⟨rfl, rfl, rfl⟩
    · rw [qFinish_result]
      exact SameHeader.chain ⟨rfl, rfl, rfl⟩
        (qBody_header env _ (fun a b e r => ih a b (depth + 1) e r) alpha beta depth _ _)

theorem searchStep_header (env : Env P) (child : Int → Int → Engine P → SearchResult → Ret P)
    (hc : ∀ a b e r, SameHeader r (child a b e r).result)
    (beta : Int) (n : Node P) (move : Move) :
    SameHeader n.result (searchStep env child beta n move).result := by
  have h := hc (-beta) (-n.alpha) (makeMove env n.eng move) n.result
  unfold searchStep
  simp only
  split_ifs <;> exact h

theorem searchLoop_header (env : Env P) (child : Int → Int → Engine P → SearchResult → Ret P)
    (hc : ∀ a b e r, SameHeader r (child a b e r).result)
    (beta : Int) (moves : List Move) (n : Node P) :
    SameHeader n.result (searchLoop env child beta moves n).result := by
  induction moves generalizing n with
  | nil => exact ⟨rfl, rfl, rfl⟩
  | cons move rest ih =>
    have h1 := searchStep_header env child hc beta n move
    unfold searchLoop
    simp only
    split_ifs
    · exact h1
    · exact h1.chain (ih _)

theorem searchMoves_header (env : Env P) (child : Int → Int → Engine P → SearchResult → Ret P)
    (hc : ∀ a b e r, SameHeader r (child a b e r).result)
    (beta : Int) (depth : Int) (tt_move : Move) (n : Node P) :
    SameHeader n.result (searchMoves env child beta depth tt_move n).result := by
  unfold searchMoves
  simp only
  split_ifs <;> exact searchLoop_header env child hc beta _ _

theorem searchBody_header (env : Env P) (child : Int → Int → Engine P → SearchResult → Ret P)
    (hc : ∀ a b e r, SameHeader r (child a b e r).result)
    (alpha beta : Int) (depth depth_end : Int) (eng : Engine P) (result : SearchResult) :
    SameHeader result (searchBody env child alpha beta depth depth_end eng result).result := by
  unfold searchBody
  simp only
  split
  · split_ifs <;>
      first
        | exact ⟨rfl, rfl, rfl⟩
        | exact SameHeader.chain ⟨rfl, rfl, rfl⟩ (searchMoves_header env child hc beta depth _ _)
  · exact SameHeader.chain ⟨rfl, rfl, rfl⟩ (searchMoves_header env child hc beta depth _ _)

theorem searchImplF_header (env : Env P) (fuel : Nat) :
    ∀ (alpha beta : Int) (depth depth_end : Int) (eng : Engine P) (result : SearchResult),
      SameHeader result (searchImplF env fuel alpha beta depth depth_end eng result).result := by
  induction fuel with
  | zero => intro _ _ _ _ _ _; exact ⟨rfl, rfl, rfl⟩
  | succ fuel ih =>
    intro alpha beta depth depth_end eng result
    unfold searchImplF
    simp only
    split_ifs
    · exact ⟨rfl, rfl, rfl⟩
    · exact quiescenceSearchF_header env _ alpha beta depth _ result
    · rw [finishNode_result]
      exact SameHeader.chain ⟨rfl, rfl, rfl⟩
        (searchBody_header env _ (fun a b e r => ih a b (depth + 1) depth_end e r) alpha beta
          depth depth_end _ _)

theorem search_header (env : Env P) (depth : Int) (eng : Engine P) :
    (search env depth eng).1.depth = depth ∧ (search env depth eng).1.debug = false := by
  have h := searchImplF_header env ((depth - 0).toNat + 1) (-env.kScoreInf) env.kScoreInf 0 depth
    { eng with state := 0 } { depth := depth }
  exact ⟨h.1, h.2.2⟩

theorem aspirationLoop_exit_debug (env : Env P) (root : Int → Int → Engine P → Ret P)
    (hroot : ∀ a b e, (root a b e).result.debug = false) (fuel : Nat) :
    ∀ (target delta : Int) (iterations : Nat) (eng : Engine P) (x : AspirationExit P),
      aspirationLoop env root fuel target delta iterations eng = some x →
      x.res.debug = false := by
  induction fuel with
  | zero => intro _ _ _ _ x h; simp [aspirationLoop] at h
  | succ fuel ih =>
    intro target delta iterations eng x h
    unfold aspirationLoop at h
    simp only at h
    split_ifs at h with h1 h2
    · simp only [Option.some.injEq] at h
      subst h
      rfl
    · simp only [Option.some.injEq] at h
      subst h
      exact hroot _ _ _
    all_goals exact ih _ _ _ _ x h

theorem aspirationRoot_header (env : Env P) (depth : Int) (a b : Int) (e : Engine P) :
    (aspirationRoot env depth a b e).result.depth = depth ∧
    (aspirationRoot env depth a b e).result.debug = false := by
  have h := searchImplF_header env ((depth - 0).toNat + 1) a b 0 depth
    { e with state := 0 } { depth := depth }
  exact ⟨h.1, h.2.2⟩

/-- A per-depth search that is followed by a passing limit check has produced
a result of that depth (under a sticky limit: an aspiration search that gave
up on a tripped limit is followed by a failing check). -/
theorem depthSearch_header (env : Env P) (hsticky : LimitSticky env) (fuel : Nat)
    (depth prev : Int) (eng : Engine P) (res : SearchResult) (eng1 : Engine P)
    (h : depthSearch env fuel depth prev eng = some (res, eng1)) :
    res.debug = false ∧ ((checkSearchLimit env eng1).1 = true → res.depth = depth) := by
  unfold depthSearch at h
  split_ifs at h
  · simp only [Option.some.injEq] at h
    have h1 : res = (search env depth eng).1 := by rw [h]
    rw [h1]
    exact ⟨(search_header env depth eng).2, fun _ => (search_header env depth eng).1⟩
  · unfold searchWithAspirationWindow at h
    rw [Option.map_eq_some'] at h
    obtain ⟨x, hx, hxe⟩ := h
    simp only [Prod.mk.injEq] at hxe
    obtain ⟨hr, he⟩ := hxe
    subst hr
    subst he
    obtain ⟨_, _, ⟨eng0, _, he, hacc, hdep⟩, _, _, _⟩ :=
      aspirationLoop_exit env (aspirationRoot env depth) fuel prev kInitDelta 0 eng x hx
    refine ⟨aspirationLoop_exit_debug env _ (fun a b e => (aspirationRoot_header env depth a b e).2)
      fuel _ _ _ _ x hx, fun hchk => ?_⟩
    have hl : env.limit (aspirationRoot env depth x.alpha x.beta eng0).eng.clock = true := by
      by_contra hne
      have hf := hsticky _ ((aspirationRoot env depth x.alpha x.beta eng0).eng.clock + 1)
        (Nat.le_succ _) (by simpa using hne)
      rw [he] at hchk
      simp only [checkSearchLimit_fst, checkSearchLimit_clock] at hchk
      rw [hf] at hchk
      exact Bool.noConfusion hchk
    rw [hdep (by rw [hacc]; exact hl)]
    exact (aspirationRoot_header env depth _ _ _).1

theorem resultAt_set_append (results : List SearchResult) (i : Nat) (v : SearchResult)
    (h : i < results.length) : resultAt (results.set i v ++ [v]) (i : Int) = v := by
  unfold resultAt
  simp only [Int.toNat_ofNat, List.getD_eq_getElem?_getD]
  rw [List.getElem?_append_left (by simpa using h)]
  simp [h]

theorem completedDepth_succ (env : Env P) (fuel : Nat) (eng0 : Engine P) (j : Nat)
    (prev : SearchResult) (eng1 : Engine P)
    (h : completedDepth env fuel eng0 (j + 1) = some (prev, eng1)) :
    completedDepth env fuel eng0 (j + 2) =
      match depthSearch env fuel ((j + 2 : Nat) : Int) prev.score eng1 with
      | none => none
      | some (res, eng2) =>
        if (checkSearchLimit env eng2).1 = true then some (res, (checkSearchLimit env eng2).2)
        else none := by
  rw [completedDepth]
  simp only [h]

theorem deepen_spec (env : Env P) (hsticky : LimitSticky env) (fuel : Nat) (eng0 : Engine P)
    (depth_end : Int) (n : Nat) :
    ∀ (j : Nat) (d d1 : Driver P), DriverInv env fuel eng0 depth_end (j + 1) d →
      ((j + 1 : Nat) : Int) ≤ depth_end → (depth_end - ((j + 1 : Nat) : Int)).toNat ≤ n →
      deepen env fuel depth_end n ((j + 2 : Nat) : Int) d = some d1 →
      ∃ k, 1 ≤ k ∧ DriverDone env fuel eng0 depth_end k d1 := by
  induction n with
  | zero =>
    intro j d d1 hinv hle hn h
    simp only [deepen, Option.some.injEq] at h
    subst h
    exact ⟨j + 1, by omega, hinv.last, hle, ⟨_, _, hinv.completed.choose_spec⟩,
      fun hlt => by omega, hinv.all_info, hinv.infos, hinv.depths⟩
  | succ n ih =>
    intro j d d1 hinv hle hn h
    obtain ⟨prev, hprev, hres⟩ := hinv.completed
    unfold deepen at h
    simp only at h
    by_cases hend : depth_end < ((j + 2 : Nat) : Int)
    · rw [if_pos hend] at h
      simp only [Option.some.injEq] at h
      subst h
      exact ⟨j + 1, by omega, hinv.last, hle, ⟨_, _, hprev, hres⟩,
        fun hlt => by omega, hinv.all_info, hinv.infos, hinv.depths⟩
    · rw [if_neg hend] at h
      have hidx : ((j + 2 : Nat) : Int) - 1 = ((j + 1 : Nat) : Int) := by push_cast; ring
      have hscore : (resultAt d.results (((j + 2 : Nat) : Int) - 1)).score = prev.score := by
        rw [hidx, hres]
        rfl
      rw [hscore] at h
      have hsucc := completedDepth_succ env fuel eng0 j prev d.eng hprev
      cases hds : depthSearch env fuel ((j + 2 : Nat) : Int) prev.score d.eng with
      | none => rw [hds] at h; exact Option.noConfusion h
      | some p =>
        obtain ⟨res, eng1⟩ := p
        rw [hds] at h hsucc
        simp only at h hsucc
        have hhead := depthSearch_header env hsticky fuel _ _ _ res eng1 hds
        by_cases hchk : (checkSearchLimit env eng1).1 = false
        · rw [if_pos hchk] at h
          simp only [Option.some.injEq] at h
          subst h
          refine ⟨j + 1, by omega, hinv.last, hle, ⟨_, _, hprev, hres⟩, fun _ => ?_,
            hinv.all_info, hinv.infos, hinv.depths⟩
          rw [hsucc, if_neg (by rw [hchk]; decide)]
        · rw [if_neg hchk] at h
          have hchk' : (checkSearchLimit env eng1).1 = true := by simpa using hchk
          rw [if_pos hchk'] at hsucc
          have hlen : j + 2 < d.results.length := by
            have := hinv.len
            omega
          have hdepth := hhead.2 hchk'
          have hsaved : infoEvents [{ res with type := SearchResultType.kSearchResultInfo },
              debugInfo] = [{ res with type := SearchResultType.kSearchResultInfo }] := by
            simp [infoEvents, debugInfo, hhead.1]
          have hr : List.range' 1 (j + 1 + 1) = List.range' 1 (j + 1) ++ [j + 2] := by
            rw [List.range'_concat]
            simp only [Nat.one_mul]
            rw [Nat.add_comm 1 (j + 1)]
          have h2 : ((j + 2 : Nat) : Int) + 1 = ((j + 1 + 2 : Nat) : Int) := by push_cast; ring
          have h3 : (((j + 2 : Nat) : Int)).toNat = j + 2 := Int.toNat_ofNat _
          rw [h2, h3] at h
          refine ih (j + 1) _ d1 ?_ (by push_cast at hend ⊢; omega)
            (by push_cast at hn ⊢; omega) h
          refine ⟨rfl, ?_, ⟨res, hsucc, ?_⟩, ?_, ?_, ?_⟩
          · simp only [List.length_append, List.length_set, List.length_singleton]
            have := hinv.len
            omega
          · have := resultAt_set_append d.results (j + 2)
              { res with type := SearchResultType.kSearchResultInfo } hlen
            simpa [infoOf] using this
          · intro e he
            simp only [List.mem_append, List.mem_cons, List.mem_singleton,
              List.not_mem_nil, or_false] at he
            rcases he with he | he | he
            · exact hinv.all_info e he
            · rw [he]
            · rw [he]; rfl
          · show infoEvents (d.events ++ _) = _
            unfold infoEvents at hsaved ⊢
            rw [List.filter_append, hsaved]
            have hi := hinv.infos
            unfold infoEvents at hi
            rw [hi, hr, List.filterMap_append]
            simp [hsucc, infoOf]
          · show (infoEvents (d.events ++ _)).map _ = _
            unfold infoEvents at hsaved ⊢
            rw [List.filter_append, hsaved, List.map_append]
            have hi := hinv.depths
            unfold infoEvents at hi
            rw [hi]
            unfold depthsUpTo
            rw [hr, List.map_append]
            simp [hdepth]

theorem resultAt_set (results : List SearchResult) (i : Nat) (v : SearchResult)
    (h : i < results.length) : resultAt (results.set i v) (i : Int) = v := by
  unfold resultAt
  simp [List.getD_eq_getElem?_getD, h]

/-- What a completed run of `goImpl` leaves: the last depth `k`, the results
of the depths `1 .. k` as `completedDepth` describes them, and the
events. -/
theorem goImpl_spec (env : Env P) (hsticky : LimitSticky env) (fuel : Nat) (depth_end : Int)
    (hd : 1 ≤ depth_end) (eng : Engine P) (d : Driver P)
    (h : goImpl env fuel depth_end eng = some d) :
    ∃ (k : Nat) (res : SearchResult) (e : Engine P) (pre : List SearchResult),
      1 ≤ k ∧ (k : Int) ≤ depth_end ∧ d.last_depth = (k : Int) ∧
      completedDepth env fuel eng k = some (res, e) ∧
      ((k : Int) < depth_end → completedDepth env fuel eng (k + 1) = none) ∧
      d.events = pre ++ [{ res with type := SearchResultType.kSearchResultBestMove }] ∧
      (∀ ev ∈ pre, ev.type = SearchResultType.kSearchResultInfo) ∧
      infoEvents pre =
        (List.range' 1 k).filterMap (fun j => (completedDepth env fuel eng j).map infoOf) ∧
      (infoEvents pre).map (fun ev => ev.depth) = depthsUpTo k := by
  unfold goImpl at h
  simp only at h
  have hlen0 : (List.replicate (depth_end + 1).toNat ({} : SearchResult)).length
      = (depth_end + 1).toNat := List.length_replicate _ _
  have hinv : DriverInv env fuel eng depth_end (0 + 1)
      { results := (List.replicate (depth_end + 1).toNat ({} : SearchResult)).set 1
          { (search env 1 eng).1 with type := SearchResultType.kSearchResultInfo }
        last_depth := 1
        events := [debugInfo,
          { (search env 1 eng).1 with type := SearchResultType.kSearchResultInfo }]
        eng := (search env 1 eng).2 } := by
    refine ⟨rfl, by simp, ⟨(search env 1 eng).1, rfl, ?_⟩, ?_, ?_, ?_⟩
    · have := resultAt_set (List.replicate (depth_end + 1).toNat ({} : SearchResult)) 1
        { (search env 1 eng).1 with type := SearchResultType.kSearchResultInfo }
        (by rw [hlen0]; omega)
      simpa [infoOf] using this
    · intro ev hev
      simp only [List.mem_cons, List.mem_singleton, List.not_mem_nil, or_false] at hev
      rcases hev with hev | hev
      · rw [hev]; rfl
      · rw [hev]
    · simp [infoEvents, debugInfo, (search_header env 1 eng).2, completedDepth, infoOf]
    · simp [infoEvents, debugInfo, (search_header env 1 eng).2, (search_header env 1 eng).1,
        depthsUpTo]
  cases hdeep : deepen env fuel depth_end (depth_end - 1).toNat 2
      { results := (List.replicate (depth_end + 1).toNat ({} : SearchResult)).set 1
          { (search env 1 eng).1 with type := SearchResultType.kSearchResultInfo }
        last_depth := 1
        events := [debugInfo,
          { (search env 1 eng).1 with type := SearchResultType.kSearchResultInfo }]
        eng := (search env 1 eng).2 } with
  | none => rw [hdeep] at h; exact Option.noConfusion h
  | some dd =>
    rw [hdeep] at h
    simp only [Option.some.injEq] at h
    obtain ⟨k, hk1, hdone⟩ := deepen_spec env hsticky fuel eng depth_end (depth_end - 1).toNat
      0 _ dd hinv (by simpa using hd) (by simp) hdeep
    obtain ⟨res, e, hres, hat⟩ := hdone.completed
    refine ⟨k, res, e, dd.events, hk1, hdone.le, ?_, hres, hdone.stopped, ?_, hdone.all_info,
      hdone.infos, hdone.depths⟩
    · rw [← h]
      exact hdone.last
    · rw [← h]
      simp only [hdone.last, hat, infoOf]

theorem LimitSticky.prev {env : Env P} (hsticky : LimitSticky env) {i j : Nat} (hij : i ≤ j)
    (h : env.limit j = true) : env.limit i = true := by
  by_contra hne
  have hf := hsticky i j hij (by simpa using hne)
  rw [hf] at h
  exact Bool.noConfusion h

theorem aspirationRoot_ok (env : Env P) (hsticky : LimitSticky env)
    (heval : EvaluatorsInRange env) (hprobe : ProbeSound env) (depth : Int) (a b : Int)
    (e : Engine P) (he : TableInRange env e.transposition_table) :
    TableInRange env (aspirationRoot env depth a b e).eng.transposition_table ∧
    (env.limit (aspirationRoot env depth a b e).eng.clock = true →
      InRange env (aspirationRoot env depth a b e).score) := by
  have hok := searchImplF_ok env hsticky heval hprobe ((depth - 0).toNat + 1) a b 0 depth
    { e with state := 0 } { depth := depth } (by omega) he
  exact ⟨hok.table.inRange he, fun hl => hok.value (hsticky.prev (Nat.sub_le _ 1) hl)⟩

/-- The search of one depth returns (given more than `aspirationBound env`
aspiration iterations), keeps the table in range, and its score is in range
whenever the limit check that follows it passes. -/
theorem depthSearch_completes (env : Env P) (hsticky : LimitSticky env)
    (heval : EvaluatorsInRange env) (hprobe : ProbeSound env)
    (hInf28 : env.kScoreInf ≤ 268435456) (fuel : Nat) (hfuel : aspirationBound env < fuel)
    (depth prev : Int) (eng : Engine P) (he : TableInRange env eng.transposition_table)
    (hprev : 4 ≤ depth → InRange env prev) :
    ∃ res eng1, depthSearch env fuel depth prev eng = some (res, eng1) ∧
      TableInRange env eng1.transposition_table ∧
      ((checkSearchLimit env eng1).1 = true → InRange env res.score) := by
  have hInf : 0 < env.kScoreInf := by
    have := heval.1 eng.position
    unfold InRange at this
    omega
  unfold depthSearch
  by_cases h4 : depth < 4
  · rw [if_pos h4]
    have hr := aspirationRoot_ok env hsticky heval hprobe depth (-env.kScoreInf) env.kScoreInf
      eng he
    exact ⟨_, _, rfl, hr.1, fun hl => hr.2 (by simpa using hl)⟩
  · rw [if_neg h4]
    have hp := hprev (by omega)
    obtain ⟨x, hx, _, _, _, _, ha, hb, hI⟩ := aspirationLoop_terminates env
      (aspirationRoot env depth) (aspirationBound env) hInf (aspirationBound_reaches env hInf)
      (aspirationBound_fits env hInf hInf28)
      (fun e => TableInRange env e.transposition_table)
      (fun a b e hIe => by
        simpa using (aspirationRoot_ok env hsticky heval hprobe depth a b e hIe).1)
      (fun a b e hIe => (aspirationRoot_ok env hsticky heval hprobe depth a b e hIe).2)
      fuel 0 prev eng he (Nat.zero_le _) (by omega) (le_of_lt hp.1) (le_of_lt hp.2)
    have hx' : aspirationLoop env (aspirationRoot env depth) fuel prev kInitDelta 0 eng
        = some x := by simpa [kInitDelta] using hx
    obtain ⟨_, _, ⟨eng0, _, hxe, hacc, _⟩, hwin, _, _⟩ :=
      aspirationLoop_exit env (aspirationRoot env depth) fuel prev kInitDelta 0 eng x hx'
    refine ⟨x.res, x.eng, by simp [searchWithAspirationWindow, hx'], hI, fun hl => ?_⟩
    rw [hxe] at hl
    simp only [checkSearchLimit_fst, checkSearchLimit_clock] at hl
    have hacc' : x.accepted = true := by
      rw [hacc]
      exact hsticky.prev (Nat.le_succ _) hl
    obtain ⟨h1, h2, h3⟩ := hwin hacc'
    rw [h3]
    constructor
    · exact lt_of_le_of_lt (by rw [ha]; exact le_max_right _ _) h1
    · exact lt_of_lt_of_le h2 (by rw [hb]; exact min_le_right _ _)

theorem deepen_completes (env : Env P) (hsticky : LimitSticky env)
    (heval : EvaluatorsInRange env) (hprobe : ProbeSound env)
    (hInf28 : env.kScoreInf ≤ 268435456) (fuel : Nat) (hfuel : aspirationBound env < fuel)
    (depth_end : Int) (n : Nat) :
    ∀ (depth : Int) (d : Driver P), 2 ≤ depth →
      TableInRange env d.eng.transposition_table →
      (depth_end + 1).toNat ≤ d.results.length →
      (4 ≤ depth → InRange env (resultAt d.results (depth - 1)).score) →
      ∃ d1, deepen env fuel depth_end n depth d = some d1 := by
  induction n with
  | zero => intro depth d _ _ _ _; exact ⟨d, rfl⟩
  | succ n ih =>
    intro depth d h2 htab hlen hprev
    unfold deepen
    simp only
    by_cases hend : depth_end < depth
    · rw [if_pos hend]
      exact ⟨d, rfl⟩
    · rw [if_neg hend]
      obtain ⟨res, eng1, hds, htab1, hval⟩ := depthSearch_completes env hsticky heval hprobe
        hInf28 fuel hfuel depth (resultAt d.results (depth - 1)).score d.eng htab hprev
      rw [hds]
      simp only
      by_cases hchk : (checkSearchLimit env eng1).1 = false
      · rw [if_pos hchk]
        exact ⟨_, rfl⟩
      · rw [if_neg hchk]
        have hchk' : (checkSearchLimit env eng1).1 = true := by simpa using hchk
        apply ih (depth + 1) _ (by omega) (by simpa using htab1)
        · simp only [List.length_append, List.length_set, List.length_singleton]
          omega
        · intro _
          have hidx : depth + 1 - 1 = ((depth.toNat : Nat) : Int) := by
            rw [Int.toNat_of_nonneg (by omega)]
            ring
          rw [hidx, resultAt_set_append _ _ _ (by omega)]
          exact hval hchk'

theorem goImpl_completes (env : Env P) (hsticky : LimitSticky env)
    (heval : EvaluatorsInRange env) (hprobe : ProbeSound env)
    (hInf28 : env.kScoreInf ≤ 268435456) (fuel : Nat) (hfuel : aspirationBound env < fuel)
    (depth_end : Int) (eng : Engine P)
    (he : TableInRange env eng.transposition_table) :
    ∃ d, goImpl env fuel depth_end eng = some d := by
  have hr := aspirationRoot_ok env hsticky heval hprobe 1 (-env.kScoreInf) env.kScoreInf eng he
  obtain ⟨d1, hd1⟩ := deepen_completes env hsticky heval hprobe hInf28 fuel hfuel depth_end
    (depth_end - 1).toNat 2
    { results := (List.replicate (depth_end + 1).toNat ({} : SearchResult)).set 1
        { (search env 1 eng).1 with type := SearchResultType.kSearchResultInfo }
      last_depth := 1
      events := [debugInfo,
        { (search env 1 eng).1 with type := SearchResultType.kSearchResultInfo }]
      eng := (search env 1 eng).2 } (le_refl _) hr.1 (by simp) (fun h => by omega)
  unfold goImpl
  simp only
  rw [hd1]
  exact ⟨_, rfl⟩

theorem completedDepth_none_succ (env : Env P) (fuel : Nat) (eng : Engine P) (j : Nat)
    (h : completedDepth env fuel eng (j + 1) = none) :
    completedDepth env fuel eng (j + 2) = none := by
  rw [completedDepth]
  simp only [h]

theorem completedDepth_none_of_le (env : Env P) (fuel : Nat) (eng : Engine P) (j : Nat)
    (h : completedDepth env fuel eng (j + 1) = none) (i : Nat) :
    completedDepth env fuel eng (j + 1 + i) = none := by
  induction i with
  | zero => exact h
  | succ i ih =>
    have h1 : j + 1 + i = j + i + 1 := by omega
    have h2 : j + 1 + (i + 1) = j + i + 2 := by omega
    rw [h1] at ih
    rw [h2]
    exact completedDepth_none_succ env fuel eng (j + i) ih

theorem infoEvents_append_best (pre : List SearchResult) (best : SearchResult)
    (hb : best.type = SearchResultType.kSearchResultBestMove) :
    infoEvents (pre ++ [best]) = infoEvents pre := by
  unfold infoEvents
  rw [List.filter_append]
  simp [hb]

theorem bestMoveEvents_append_best (pre : List SearchResult) (best : SearchResult)
    (hpre : ∀ ev ∈ pre, ev.type = SearchResultType.kSearchResultInfo)
    (hb : best.type = SearchResultType.kSearchResultBestMove) :
    bestMoveEvents (pre ++ [best]) = [best] := by
  unfold bestMoveEvents
  rw [List.filter_append]
  have h1 : pre.filter (fun e => decide (e.type = SearchResultType.kSearchResultBestMove))
      = [] := by
    rw [List.filter_eq_nil_iff]
    intro ev hev
    simp [hpre ev hev]
  rw [h1]
  simp [hb]

theorem depthsUpTo_pairwise (k : Nat) : List.Pairwise (fun a b : Int => a < b) (depthsUpTo k) := by
  unfold depthsUpTo
  rw [List.pairwise_map]
  exact (List.pairwise_lt_range' 1 k).imp (fun h => by exact_mod_cast h)

/-- C4 (event ordering): under a limit that stays tripped once tripped and a
depth limit `≥ 1`, every completed run of `goImpl` has called the result
callback with a sequence `pre ++ [best]` in which `best` is the only
best-move event and the last event, every event of `pre` is an info event,
and the non-debug info events have the depths `1, 2, ..., last_depth` in this
order (strictly increasing, one event per depth). The run does complete when
the evaluators and the stored scores are in range, `kScoreInf ≤ 2 ^ 28` and
each aspiration loop may take more than `aspirationBound env` iterations. -/
theorem event_ordering (env : Env P) (hsticky : LimitSticky env) (depth_end : Int)
    (hd : 1 ≤ depth_end) :
    (∀ fuel eng d, goImpl env fuel depth_end eng = some d →
      ∃ pre best, d.events = pre ++ [best] ∧
        best.type = SearchResultType.kSearchResultBestMove ∧
        (∀ ev ∈ pre, ev.type = SearchResultType.kSearchResultInfo) ∧
        bestMoveEvents d.events = [best] ∧
        d.events.getLast? = some best ∧
        1 ≤ d.last_depth ∧ d.last_depth ≤ depth_end ∧
        (infoEvents d.events).map (fun ev => ev.depth) = depthsUpTo d.last_depth.toNat ∧
        List.Pairwise (fun a b : Int => a < b)
          ((infoEvents d.events).map (fun ev => ev.depth))) ∧
    (EvaluatorsInRange env → ProbeSound env → env.kScoreInf ≤ 268435456 →
      ∀ fuel eng, aspirationBound env < fuel → TableInRange env eng.transposition_table →
      ∃ d, goImpl env fuel depth_end eng = some d) := by
  constructor
  · intro fuel eng d h
    obtain ⟨k, res, e, pre, hk1, hk2, hlast, _, _, hev, hpre, _, hdepths⟩ :=
      goImpl_spec env hsticky fuel depth_end hd eng d h
    have hinfo := infoEvents_append_best pre
      { res with type := SearchResultType.kSearchResultBestMove } rfl
    refine ⟨pre, _, hev, rfl, hpre, ?_, ?_, ?_, ?_, ?_, ?_⟩
    · rw [hev]
      exact bestMoveEvents_append_best pre _ hpre rfl
    · rw [hev]
      simp
    · rw [hlast]
      exact_mod_cast hk1
    · rw [hlast]
      exact hk2
    · rw [hev, hinfo, hdepths, hlast, Int.toNat_ofNat]
    · rw [hev, hinfo, hdepths]
      exact depthsUpTo_pairwise k
  · intro heval hprobe hInf28 fuel eng hfuel he
    exact goImpl_completes env hsticky heval hprobe hInf28 fuel hfuel depth_end eng he

/-- C5 (best move from the deepest completed depth): under a limit that stays
tripped once tripped, a completed run of `goImpl` with depth limit `≥ 1` ends
with `last_depth = k` where `1 ≤ k ≤ depth_end`, the searches of the depths
`2 .. k` all returned with the limit not tripped (`completedDepth` is defined
up to `k`) and, unless `k = depth_end`, the search of depth `k + 1` was
followed by a tripped limit (`completedDepth` is undefined from `k + 1` on).
The last event is the best-move event and carries the result of depth `k`
(depth, score, PV, statistics) with the type set to best move; the non-debug
info events are exactly the results of the depths `1 .. k`, in order: a
result whose search was followed by a tripped limit is not emitted. -/
theorem best_move_from_deepest_completed (env : Env P) (hsticky : LimitSticky env)
    (fuel : Nat) (depth_end : Int) (hd : 1 ≤ depth_end) (eng : Engine P) (d : Driver P)
    (h : goImpl env fuel depth_end eng = some d) :
    ∃ (k : Nat) (res : SearchResult) (e : Engine P),
      d.last_depth = (k : Int) ∧ 1 ≤ k ∧ (k : Int) ≤ depth_end ∧
      completedDepth env fuel eng k = some (res, e) ∧
      ((k : Int) < depth_end → ∀ j, k < j → completedDepth env fuel eng j = none) ∧
      d.events.getLast? = some { res with type := SearchResultType.kSearchResultBestMove } ∧
      res.depth = (k : Int) ∧
      infoEvents d.events =
        (List.range' 1 k).filterMap (fun j => (completedDepth env fuel eng j).map infoOf) := by
  obtain ⟨k, res, e, pre, hk1, hk2, hlast, hres, hstop, hev, hpre, hinfos, hdepths⟩ :=
    goImpl_spec env hsticky fuel depth_end hd eng d h
  have hinfo := infoEvents_append_best pre
    { res with type := SearchResultType.kSearchResultBestMove } rfl
  refine ⟨k, res, e, hlast, hk1, hk2, hres, ?_, ?_, ?_, ?_⟩
  · intro hlt j hj
    have hn := completedDepth_none_of_le env fuel eng k (hstop hlt) (j - (k + 1))
    have hjk : k + 1 + (j - (k + 1)) = j := by omega
    rw [hjk] at hn
    exact hn
  · rw [hev]
    simp
  · obtain ⟨k0, rfl⟩ : ∃ k0, k = k0 + 1 := ⟨k - 1, by omega⟩
    have h1 : List.range' 1 (k0 + 1) = List.range' 1 k0 ++ [k0 + 1] := by
      rw [List.range'_concat]
      simp only [Nat.one_mul]
      rw [Nat.add_comm 1 k0]
    have h2 := hdepths
    rw [hinfos, h1, List.filterMap_append] at h2
    unfold depthsUpTo at h2
    rw [h1, List.map_append, List.map_append] at h2
    simp only [List.filterMap_cons, hres, Option.map_some', List.filterMap_nil, List.map_cons,
      List.map_nil] at h2
    have h3 := List.append_inj_right' h2 (by simp)
    simpa [infoOf] using h3
  · rw [hev, hinfo, hinfos]

theorem event_ordering_witness :
    LimitSticky mateEnv ∧ (1 : Int) ≤ 3 ∧
    goImpl mateEnv 13 3 (startEngine 1) = some mateRun ∧
    ∃ pre best, mateRun.events = pre ++ [best] ∧
      best.type = SearchResultType.kSearchResultBestMove ∧
      bestMoveEvents mateRun.events = [best] :=
  ⟨mateEnv_limitSticky, by decide, rfl,
    ((event_ordering mateEnv mateEnv_limitSticky 3 (by decide)).1 13 (startEngine 1) mateRun
      rfl).imp (fun _ h => h.imp (fun _ h1 => ⟨h1.1, h1.2.1, h1.2.2.2.1⟩))⟩

theorem best_move_from_deepest_completed_witness :
    LimitSticky mateEnv ∧ (1 : Int) ≤ 3 ∧
    goImpl mateEnv 13 3 (startEngine 1) = some mateRun ∧
    ∃ (k : Nat) (res : SearchResult), mateRun.last_depth = (k : Int) ∧
      mateRun.events.getLast? =
        some { res with type := SearchResultType.kSearchResultBestMove } :=
  ⟨mateEnv_limitSticky, by decide, rfl,
    (best_move_from_deepest_completed mateEnv mateEnv_limitSticky 13 3 (by decide)
      (startEngine 1) mateRun rfl).imp
      (fun _ h => h.imp (fun _ h1 => h1.elim (fun _ h2 => ⟨h2.1, h2.2.2.2.2.2.1⟩)))⟩

theorem foldl_max_ge {α : Type} (f : α → Int) (l : List α) (a : Int) :
    a ≤ l.foldl (fun w m => max w (f m)) a := by
  induction l generalizing a with
  | nil => exact le_refl _
  | cons m rest ih => exact le_trans (le_max_left _ _) (ih _)

theorem foldl_max_le_iff {α : Type} (f : α → Int) (l : List α) (a x : Int) :
    l.foldl (fun w m => max w (f m)) a ≤ x ↔ a ≤ x ∧ ∀ m ∈ l, f m ≤ x := by
  induction l generalizing a with
  | nil => simp
  | cons m rest ih =>
    simp only [List.foldl_cons, ih, max_le_iff, List.mem_cons, forall_eq_or_imp]
    tauto

theorem foldl_max_congr {α : Type} (f : α → Int) (l1 l2 : List α) (a : Int)
    (h : ∀ m, m ∈ l1 ↔ m ∈ l2) :
    l1.foldl (fun w m => max w (f m)) a = l2.foldl (fun w m => max w (f m)) a := by
  apply le_antisymm
  · rw [foldl_max_le_iff]
    have h2 := (foldl_max_le_iff f l2 a _).1 (le_refl _)
    exact ⟨h2.1, fun m hm => h2.2 m ((h m).1 hm)⟩
  · rw [foldl_max_le_iff]
    have h2 := (foldl_max_le_iff f l1 a _).1 (le_refl _)
    exact ⟨h2.1, fun m hm => h2.2 m ((h m).2 hm)⟩

/-- The arithmetic of one loop iteration: `s` is the negated score of the
child, `fm` the negated value of the child position. -/
theorem loopInv_arith (alpha0 beta alpha score W s fm : Int)
    (h1 : alpha ≤ max alpha0 score) (h2 : alpha0 < score → score ≤ W)
    (h3 : score < beta → W ≤ score)
    (hc1 : alpha < s → s ≤ fm) (hc2 : s < beta → fm ≤ s) :
    (alpha0 < max score s → max score s ≤ max W fm) ∧
    (max score s < beta → max W fm ≤ max score s) ∧
    (max alpha (max score s) ≤ max alpha0 (max score s)) := by
  refine ⟨fun h => ?_, fun h => ?_, ?_⟩
  · rcases le_total s score with hs | hs
    · rw [max_eq_left hs] at h ⊢
      exact le_trans (h2 h) (le_max_left _ _)
    · rw [max_eq_right hs] at h ⊢
      by_cases hlt : alpha < s
      · exact le_trans (hc1 hlt) (le_max_right _ _)
      · have : s ≤ score := by omega
        have hss : s = score := le_antisymm this hs
        rw [hss] at h ⊢
        exact le_trans (h2 h) (le_max_left _ _)
  · have hs1 : score < beta := lt_of_le_of_lt (le_max_left _ _) h
    have hs2 : s < beta := lt_of_le_of_lt (le_max_right _ _) h
    exact max_le (le_trans (h3 hs1) (le_max_left _ _)) (le_trans (hc2 hs2) (le_max_right _ _))
  · omega

theorem child_bound_neg {a b c V : Int} (h : Bound (-b) (-a) c V) :
    (a < -c → -c ≤ -V) ∧ (-c < b → -V ≤ -c) := by
  unfold Bound at h
  constructor
  · intro h1
    have := h.1 (by omega)
    omega
  · intro h1
    have := h.2 (by omega)
    omega

theorem makeMove_position_play (env : Env P) (eng : Engine P) (move : Move) :
    (makeMove env eng move).position = play env eng.position move := rfl

theorem qStep_sound (env : Env P) (hlimit : ∀ n, env.limit n = true)
    (hinv : MakeUnmakeInverse env)
    (child : Int → Int → Engine P → SearchResult → Ret P) (V : P → Int)
    (hc : ChildSound child V) (alpha0 beta : Int) (pos : P) (n : Node P) (W : Int) (move : Move)
    (hn : LoopInv alpha0 beta pos n W) :
    (qStep env child beta n move).move_cnt = n.move_cnt + 1 ∧
    (((qStep env child beta n move).returned = true ∧
        LoopOut alpha0 beta pos (qStep env child beta n move) (max W (-(V (play env pos move))))) ∨
     ((qStep env child beta n move).returned = n.returned ∧
        LoopInv alpha0 beta pos (qStep env child beta n move)
          (max W (-(V (play env pos move)))))) := by
  have hcs := hc (-beta) (-n.alpha) (makeMove env n.eng move) n.result
  have hb := child_bound_neg hcs.1
  rw [makeMove_position_play, hn.position] at hb
  have hpos := unmake_make_position env hinv child (fun a b e r => (hc a b e r).2) (-beta)
    (-n.alpha) n.eng n.result move
  rw [hn.position] at hpos
  have ha := loopInv_arith alpha0 beta n.alpha n.score W
    (-(child (-beta) (-n.alpha) (makeMove env n.eng move) n.result).score)
    (-(V (play env pos move))) hn.alpha_le hn.lower hn.upper hb.1 hb.2
  unfold qStep
  simp only [checkSearchLimit_fst, hlimit]
  rw [if_neg (by simp)]
  generalize (child (-beta) (-n.alpha) (makeMove env n.eng move) n.result) = c at *
  split_ifs with h1 h2
  · exact ⟨rfl, Or.inl ⟨rfl, hn.running, hpos, ha.1, fun _ => le_of_lt h1,
      fun h => by simp at h⟩⟩
  · exact ⟨rfl, Or.inr ⟨rfl, le_max_right _ _, ha.1, ha.2.1, hn.running, hpos⟩⟩
  · refine ⟨rfl, Or.inr ⟨rfl, ?_, ha.1, ha.2.1, hn.running, hpos⟩⟩
    show n.alpha ≤ _
    exact le_trans hn.alpha_le (max_le_max (le_refl _) (le_max_left _ _))

theorem searchStep_sound (env : Env P) (hlimit : ∀ n, env.limit n = true)
    (hinv : MakeUnmakeInverse env)
    (child : Int → Int → Engine P → SearchResult → Ret P) (V : P → Int)
    (hc : ChildSound child V) (alpha0 beta : Int) (pos : P) (n : Node P) (W : Int) (move : Move)
    (hn : LoopInv alpha0 beta pos n W) :
    (searchStep env child beta n move).move_cnt = n.move_cnt + 1 ∧
    (((searchStep env child beta n move).returned = true ∧
        LoopOut alpha0 beta pos (searchStep env child beta n move)
          (max W (-(V (play env pos move))))) ∨
     ((searchStep env child beta n move).returned = n.returned ∧
        LoopInv alpha0 beta pos (searchStep env child beta n move)
          (max W (-(V (play env pos move)))))) := by
  have hcs := hc (-beta) (-n.alpha) (makeMove env n.eng move) n.result
  have hb := child_bound_neg hcs.1
  rw [makeMove_position_play, hn.position] at hb
  have hpos := unmake_make_position env hinv child (fun a b e r => (hc a b e r).2) (-beta)
    (-n.alpha) n.eng n.result move
  rw [hn.position] at hpos
  have ha := loopInv_arith alpha0 beta n.alpha n.score W
    (-(child (-beta) (-n.alpha) (makeMove env n.eng move) n.result).score)
    (-(V (play env pos move))) hn.alpha_le hn.lower hn.upper hb.1 hb.2
  unfold searchStep
  simp only [checkSearchLimit_fst, hlimit]
  rw [if_neg (by simp)]
  generalize (child (-beta) (-n.alpha) (makeMove env n.eng move) n.result) = c at *
  by_cases h1 : beta ≤ max n.score (-c.score)
  · rw [if_pos h1]
    exact ⟨rfl, Or.inl ⟨rfl, hn.running, hpos, ha.1, fun _ => h1, fun h => by simp at h⟩⟩
  · rw [if_neg h1]
    by_cases h2 : n.alpha < max n.score (-c.score)
    · rw [if_pos h2]
      exact ⟨rfl, Or.inr ⟨rfl, le_max_right _ _, ha.1, ha.2.1, hn.running, hpos⟩⟩
    · rw [if_neg h2]
      refine ⟨rfl, Or.inr ⟨rfl, ?_, ha.1, ha.2.1, hn.running, hpos⟩⟩
      show n.alpha ≤ _
      exact le_trans hn.alpha_le (max_le_max (le_refl _) (le_max_left _ _))

theorem LoopOut.weaken {alpha0 beta : Int} {pos : P} {n1 : Node P} {W1 W2 : Int}
    (h : LoopOut alpha0 beta pos n1 W1) (hret : n1.returned = true) (hW : W1 ≤ W2) :
    LoopOut alpha0 beta pos n1 W2 :=
  ⟨h.running, h.position, fun ha => le_trans (h.lower ha) hW, h.cut,
    fun hr => by rw [hret] at hr; exact Bool.noConfusion hr⟩

theorem qLoop_sound (env : Env P) (hlimit : ∀ n, env.limit n = true)
    (hinv : MakeUnmakeInverse env)
    (child : Int → Int → Engine P → SearchResult → Ret P) (V : P → Int)
    (hc : ChildSound child V) (alpha0 beta : Int) (pos : P) (moves : List Move) :
    ∀ (n : Node P) (W : Int), LoopInv alpha0 beta pos n W → n.returned = false →
      LoopOut alpha0 beta pos (qLoop env child beta moves n)
        (moves.foldl (fun w m => max w (-(V (play env pos m)))) W) ∧
      ((qLoop env child beta moves n).returned = false →
        (qLoop env child beta moves n).move_cnt = n.move_cnt + moves.length) ∧
      ((qLoop env child beta moves n).returned = true → moves ≠ []) := by
  induction moves with
  | nil =>
    intro n W hn hret
    exact ⟨⟨hn.running, hn.position, hn.lower,
      fun h => by rw [qLoop, hret] at h; exact Bool.noConfusion h, fun _ => hn.upper⟩,
      fun _ => rfl, fun h => by rw [qLoop, hret] at h; exact Bool.noConfusion h⟩
  | cons move rest ih =>
    intro n W hn hret
    obtain ⟨hcnt, hstep⟩ := qStep_sound env hlimit hinv child V hc alpha0 beta pos n W move hn
    rw [qLoop, List.foldl_cons]
    rcases hstep with ⟨hr, hout⟩ | ⟨hr, hinv1⟩
    · rw [if_pos hr]
      exact ⟨hout.weaken hr (foldl_max_ge _ _ _),
        fun h => by rw [hr] at h; exact Bool.noConfusion h, fun _ => List.cons_ne_nil _ _⟩
    · rw [hret] at hr
      rw [if_neg (by simp [hr])]
      obtain ⟨h1, h2, _⟩ := ih _ _ hinv1 hr
      refine ⟨h1, fun h => ?_, fun _ => List.cons_ne_nil _ _⟩
      rw [h2 h, hcnt, List.length_cons]
      omega

theorem searchLoop_sound (env : Env P) (hlimit : ∀ n, env.limit n = true)
    (hinv : MakeUnmakeInverse env)
    (child : Int → Int → Engine P → SearchResult → Ret P) (V : P → Int)
    (hc : ChildSound child V) (alpha0 beta : Int) (pos : P) (moves : List Move) :
    ∀ (n : Node P) (W : Int), LoopInv alpha0 beta pos n W → n.returned = false →
      LoopOut alpha0 beta pos (searchLoop env child beta moves n)
        (moves.foldl (fun w m => max w (-(V (play env pos m)))) W) ∧
      ((searchLoop env child beta moves n).returned = false →
        (searchLoop env child beta moves n).move_cnt = n.move_cnt + moves.length) ∧
      ((searchLoop env child beta moves n).returned = true → moves ≠ []) := by
  induction moves with
  | nil =>
    intro n W hn hret
    exact ⟨⟨hn.running, hn.position, hn.lower,
      fun h => by rw [searchLoop, hret] at h; exact Bool.noConfusion h, fun _ => hn.upper⟩,
      fun _ => rfl, fun h => by rw [searchLoop, hret] at h; exact Bool.noConfusion h⟩
  | cons move rest ih =>
    intro n W hn hret
    obtain ⟨hcnt, hstep⟩ := searchStep_sound env hlimit hinv child V hc alpha0 beta pos n W
      move hn
    rw [searchLoop, List.foldl_cons]
    rcases hstep with ⟨hr, hout⟩ | ⟨hr, hinv1⟩
    · rw [if_pos hr]
      exact ⟨hout.weaken hr (foldl_max_ge _ _ _),
        fun h => by rw [hr] at h; exact Bool.noConfusion h, fun _ => List.cons_ne_nil _ _⟩
    · rw [hret] at hr
      rw [if_neg (by simp [hr])]
      obtain ⟨h1, h2, _⟩ := ih _ _ hinv1 hr
      refine ⟨h1, fun h => ?_, fun _ => List.cons_ne_nil _ _⟩
      rw [h2 h, hcnt, List.length_cons]
      omega

theorem qBody_miss (env : Env P)
    (child : Int → Int → Engine P → SearchResult → Ret P)
    (alpha beta depth : Int) (eng : Engine P) (result : SearchResult)
    (hm : env.ttGet eng.transposition_table (env.key eng.position) = none) :
    qBody env child alpha beta depth eng result =
      qMoves env child beta depth kNoneMove
        (initNode env alpha eng
          { result with stats_tt_hit := result.stats_tt_hit + hitCount none }) := by
  unfold qBody
  simp only [hm]

theorem searchBody_miss (env : Env P)
    (child : Int → Int → Engine P → SearchResult → Ret P)
    (alpha beta depth depth_end : Int) (eng : Engine P) (result : SearchResult)
    (hm : env.ttGet eng.transposition_table (env.key eng.position) = none) :
    searchBody env child alpha beta depth depth_end eng result =
      searchMoves env child beta depth kNoneMove
        (initNode env alpha eng
          { result with stats_tt_hit := result.stats_tt_hit + hitCount none }) := by
  unfold searchBody
  simp only [hm]

theorem nil_iff_of_mem_iff {l1 l2 : List Move} (h : ∀ m, m ∈ l1 ↔ m ∈ l2) :
    l1 = [] ↔ l2 = [] := by
  constructor
  · intro h1
    apply List.eq_nil_iff_forall_not_mem.2
    intro m hm
    have := (h m).2 hm
    rw [h1] at this
    exact List.not_mem_nil _ this
  · intro h1
    apply List.eq_nil_iff_forall_not_mem.2
    intro m hm
    have := (h m).1 hm
    rw [h1] at this
    exact List.not_mem_nil _ this

theorem qFinish_score (env : Env P) (n : Node P) (h : n.interrupted = false) :
    (qFinish env n).score = n.score := by
  unfold qFinish
  simp [h]

/-- The quiescence body from the static evaluation on is sound when the
children are. -/
theorem qMoves_sound (env : Env P) (hlimit : ∀ n, env.limit n = true)
    (hinv : MakeUnmakeInverse env) (hpick : PickerHintsReorder env)
    (hmate : StandPatBelowMate env)
    (child : Int → Int → Engine P → SearchResult → Ret P) (V : P → Int)
    (hc : ChildSound child V) (beta depth : Int) (tt_move : Move) (n : Node P)
    (hev : n.evaluation = env.kScoreNone) (hrun : n.interrupted = false)
    (hret : n.returned = false) (hcnt : n.move_cnt = 0) :
    Bound n.alpha beta (qFinish env (qMoves env child beta depth tt_move n)).score
      (if env.checkers n.eng.position = true ∧ referenceMoves env n.eng.position true = [] then
        env.evaluateLeaf n.eng.position depth
      else (referenceMoves env n.eng.position true).foldl
        (fun w m => max w (-(V (play env n.eng.position m)))) (env.evaluate n.eng.position)) := by
  unfold qMoves
  simp only [hev, if_true]
  generalize hms : env.movePicker n.eng.position n.eng.quiet_history n.eng.capture_history
    tt_move (n.eng.killers n.eng.state) (env.checkers n.eng.position) true = ms
  have hmem : ∀ m, m ∈ ms ↔ m ∈ referenceMoves env n.eng.position true := by
    intro m
    rw [← hms]
    exact hpick _ _ _ _ _ _ m
  have hnil := nil_iff_of_mem_iff hmem
  have hfold := foldl_max_congr (fun m => -(V (play env n.eng.position m))) ms
    (referenceMoves env n.eng.position true) (env.evaluate n.eng.position) hmem
  by_cases hcut : beta ≤ env.evaluate n.eng.position
  · rw [if_pos hcut, qFinish_score]
    · refine ⟨fun h => ?_, fun _ => ?_⟩
      · have h1 : env.evaluate n.eng.position < beta := h
        omega
      · show env.evaluate n.eng.position ≤ _
        split_ifs with hm
        · exact hmate _ _ hm.1 hm.2
        · exact foldl_max_ge _ _ _
    · exact hrun
  · rw [if_neg hcut]
    obtain ⟨n2, hn2⟩ : ∃ n2 : Node P, n2 =
        (if n.alpha < env.evaluate n.eng.position then
          { n with evaluation := env.evaluate n.eng.position,
                   score := env.evaluate n.eng.position,
                   alpha := env.evaluate n.eng.position }
         else { n with evaluation := env.evaluate n.eng.position,
                       score := env.evaluate n.eng.position }) := ⟨_, rfl⟩
    rw [← hn2]
    have hscore : n2.score = env.evaluate n.eng.position := by
      rw [hn2]; split_ifs <;> rfl
    have halpha : n2.alpha = max n.alpha (env.evaluate n.eng.position) := by
      rw [hn2]
      split_ifs with h
      · exact (max_eq_right (le_of_lt h)).symm
      · exact (max_eq_left (not_lt.1 h)).symm
    have hrun2 : n2.interrupted = false := by rw [hn2]; split_ifs <;> exact hrun
    have hret2 : n2.returned = false := by rw [hn2]; split_ifs <;> exact hret
    have hcnt2 : n2.move_cnt = 0 := by rw [hn2]; split_ifs <;> exact hcnt
    have hpos2 : n2.eng.position = n.eng.position := by rw [hn2]; split_ifs <;> rfl
    have hinv2 : LoopInv n.alpha beta n.eng.position n2 (env.evaluate n.eng.position) :=
      ⟨by rw [halpha, hscore], fun _ => by rw [hscore], fun _ => by rw [hscore], hrun2, hpos2⟩
    obtain ⟨hout, hlen, hne3⟩ := qLoop_sound env hlimit hinv child V hc n.alpha beta
      n.eng.position ms n2 _ hinv2 hret2
    rw [hfold] at hout
    generalize qLoop env child beta ms n2 = n3 at hout hlen hne3 ⊢
    by_cases hr3 : n3.returned = true
    · rw [if_pos hr3, qFinish_score env n3 hout.running]
      have hc3 := hout.cut hr3
      refine ⟨fun h => by omega, fun h => ?_⟩
      split_ifs with hm
      · exact absurd (hnil.2 hm.2) (hne3 hr3)
      · exact hout.lower h
    · rw [if_neg hr3]
      have hr3' : n3.returned = false := by simpa using hr3
      have hl := hlen hr3'
      rw [hcnt2, Nat.zero_add] at hl
      by_cases hm : env.checkers n.eng.position = true ∧ n3.move_cnt = 0
      · rw [if_pos hm]
        have hms0 : ms = [] := List.length_eq_zero.1 (by omega)
        rw [if_pos ⟨hm.1, hnil.1 hms0⟩, qFinish_score]
        · rw [hout.position]
          exact ⟨fun _ => le_refl _, fun _ => le_refl _⟩
        · exact hout.running
      · rw [if_neg hm, qFinish_score env n3 hout.running]
        have hne : ¬ (env.checkers n.eng.position = true ∧
            referenceMoves env n.eng.position true = []) := by
          intro h
          apply hm
          refine ⟨h.1, ?_⟩
          rw [hl, hnil.2 h.2]
          rfl
        rw [if_neg hne]
        exact ⟨hout.upper hr3', hout.lower⟩

theorem quiescenceSearchF_sound (env : Env P) (hlimit : ∀ n, env.limit n = true)
    (hmiss : ProbeMisses env) (hinv : MakeUnmakeInverse env) (hpick : PickerHintsReorder env)
    (hmate : StandPatBelowMate env) (fuel : Nat) :
    ∀ (alpha beta depth : Int) (eng : Engine P) (result : SearchResult),
      (env.kMaxDepth - depth).toNat < fuel →
      Bound alpha beta (quiescenceSearchF env fuel alpha beta depth eng result).score
        (quiescenceValueF env fuel depth eng.position) := by
  induction fuel with
  | zero => intro _ _ _ _ _ h; omega
  | succ fuel ih =>
    intro alpha beta depth eng result hfuel
    rw [quiescenceSearchF, quiescenceValueF]
    simp only [checkSearchLimit_fst, hlimit]
    rw [if_neg (by simp)]
    by_cases hmax : env.kMaxDepth ≤ depth
    · rw [if_pos hmax, if_pos hmax]
      exact ⟨fun _ => le_refl _, fun _ => le_refl _⟩
    · rw [if_neg hmax, if_neg hmax]
      have hchild : ChildSound (fun a b e r => quiescenceSearchF env fuel a b (depth + 1) e r)
          (fun p => quiescenceValueF env fuel (depth + 1) p) := by
        intro a b e r
        exact ⟨ih a b (depth + 1) e r (by omega),
          quiescenceSearchF_balanced env hinv fuel a b (depth + 1) e r⟩
      rw [qBody_miss env _ alpha beta depth _ _ (hmiss _ _)]
      exact qMoves_sound env hlimit hinv hpick hmate _ _ hchild beta depth kNoneMove
        (initNode env alpha (checkSearchLimit env eng).2 _) rfl rfl rfl rfl

theorem finishNode_score (env : Env P) (d : Int) (n : Node P) (h : n.interrupted = false) :
    (finishNode env d n).score = n.score :=
  (finishNode_own_entry env d n h).1

/-- The interior body from the static evaluation on is sound when the
children are. -/
theorem searchMoves_sound (env : Env P) (hlimit : ∀ n, env.limit n = true)
    (hinv : MakeUnmakeInverse env) (hpick : PickerHintsReorder env)
    (heval : EvaluatorsInRange env)
    (child : Int → Int → Engine P → SearchResult → Ret P) (V : P → Int)
    (hc : ChildSound child V) (beta depth d : Int) (tt_move : Move) (n : Node P)
    (hrun : n.interrupted = false) (hret : n.returned = false) (hcnt : n.move_cnt = 0)
    (hscore : n.score = -env.kScoreInf) :
    Bound n.alpha beta (finishNode env d (searchMoves env child beta depth tt_move n)).score
      (if referenceMoves env n.eng.position false = [] then
        env.evaluateLeaf n.eng.position depth
      else (referenceMoves env n.eng.position false).foldl
        (fun w m => max w (-(V (play env n.eng.position m)))) (-env.kScoreInf)) := by
  unfold searchMoves
  simp only
  generalize hms : env.movePicker n.eng.position n.eng.quiet_history n.eng.capture_history
    tt_move (n.eng.killers n.eng.state) (env.checkers n.eng.position) false = ms
  have hmem : ∀ m, m ∈ ms ↔ m ∈ referenceMoves env n.eng.position false := by
    intro m
    rw [← hms]
    exact hpick _ _ _ _ _ _ m
  have hnil := nil_iff_of_mem_iff hmem
  have hfold := foldl_max_congr (fun m => -(V (play env n.eng.position m))) ms
    (referenceMoves env n.eng.position false) (-env.kScoreInf) hmem
  obtain ⟨n1, hn1⟩ : ∃ n1 : Node P, n1 =
      { n with evaluation :=
          if n.evaluation = env.kScoreNone then env.evaluate n.eng.position
          else n.evaluation } := ⟨_, rfl⟩
  rw [← hn1]
  have hinv1 : LoopInv n.alpha beta n.eng.position n1 (-env.kScoreInf) := by
    rw [hn1]
    exact ⟨by show n.alpha ≤ max n.alpha n.score; exact le_max_left _ _,
      fun h => by show n.score ≤ _; rw [hscore],
      fun _ => by show _ ≤ n.score; rw [hscore], hrun, rfl⟩
  have hret1 : n1.returned = false := by rw [hn1]; exact hret
  have hcnt1 : n1.move_cnt = 0 := by rw [hn1]; exact hcnt
  obtain ⟨hout, hlen, hne2⟩ := searchLoop_sound env hlimit hinv child V hc n.alpha beta
    n.eng.position ms n1 _ hinv1 hret1
  rw [hfold] at hout
  have hnil2 : ms = [] → searchLoop env child beta ms n1 = n1 := by
    intro h
    rw [h, searchLoop]
  generalize searchLoop env child beta ms n1 = n2 at hout hlen hne2 hnil2 ⊢
  by_cases hr2 : n2.returned = true
  · rw [if_pos hr2, finishNode_score env d n2 hout.running]
    have hc2 := hout.cut hr2
    rw [if_neg (fun h => hne2 hr2 (hnil.2 h))]
    exact ⟨fun h => by omega, hout.lower⟩
  · rw [if_neg hr2]
    have hr2' : n2.returned = false := by simpa using hr2
    have hl := hlen hr2'
    rw [hcnt1, Nat.zero_add] at hl
    by_cases hz : n2.move_cnt = 0
    · rw [if_pos hz]
      have hms0 : ms = [] := List.length_eq_zero.1 (by omega)
      rw [if_pos (hnil.1 hms0), finishNode_score]
      · have h21 := hnil2 hms0
        have hs2 : n2.score = -env.kScoreInf := by rw [h21, hn1]; exact hscore
        have hleaf := (heval.2 n.eng.position depth).1
        show Bound _ _ (max n2.score (env.evaluateLeaf n2.eng.position depth)) _
        rw [hs2, hout.position, max_eq_right (le_of_lt hleaf)]
        exact ⟨fun _ => le_refl _, fun _ => le_refl _⟩
      · exact hout.running
    · rw [if_neg hz, finishNode_score env d n2 hout.running]
      have hne : ¬ referenceMoves env n.eng.position false = [] := by
        intro h
        apply hz
        rw [hl, hnil.2 h]
        rfl
      rw [if_neg hne]
      exact ⟨hout.upper hr2', hout.lower⟩

theorem searchImplF_sound (env : Env P) (hlimit : ∀ n, env.limit n = true)
    (hmiss : ProbeMisses env) (hinv : MakeUnmakeInverse env) (hpick : PickerHintsReorder env)
    (hmate : StandPatBelowMate env) (heval : EvaluatorsInRange env) (fuel : Nat) :
    ∀ (alpha beta depth depth_end : Int) (eng : Engine P) (result : SearchResult),
      (depth_end - depth).toNat < fuel →
      Bound alpha beta (searchImplF env fuel alpha beta depth depth_end eng result).score
        (negamaxF env fuel depth depth_end eng.position) := by
  induction fuel with
  | zero => intro _ _ _ _ _ _ h; omega
  | succ fuel ih =>
    intro alpha beta depth depth_end eng result hfuel
    rw [searchImplF, negamaxF]
    simp only [checkSearchLimit_fst, hlimit]
    rw [if_neg (by simp)]
    by_cases hend : depth_end ≤ depth
    · rw [if_pos hend, if_pos hend]
      exact quiescenceSearchF_sound env hlimit hmiss hinv hpick hmate _ alpha beta depth
        (checkSearchLimit env eng).2 result (by omega)
    · rw [if_neg hend, if_neg hend]
      have hchild : ChildSound
          (fun a b e r => searchImplF env fuel a b (depth + 1) depth_end e r)
          (fun p => negamaxF env fuel (depth + 1) depth_end p) := by
        intro a b e r
        exact ⟨ih a b (depth + 1) depth_end e r (by omega),
          searchImplF_balanced env hinv fuel a b (depth + 1) depth_end e r⟩
      rw [searchBody_miss env _ alpha beta depth depth_end _ _ (hmiss _ _)]
      exact searchMoves_sound env hlimit hinv hpick heval _ _ hchild beta depth
        (depth_end - depth) kNoneMove
        (initNode env alpha (checkSearchLimit env eng).2 _) rfl rfl rfl rfl

theorem foldl_max_inRange (env : Env P) {α : Type} (f : α → Int) (l : List α) (a : Int)
    (ha2 : a < env.kScoreInf) (hf : ∀ m ∈ l, InRange env (f m))
    (hne : -env.kScoreInf < a ∨ l ≠ []) :
    InRange env (l.foldl (fun w m => max w (f m)) a) := by
  constructor
  · rcases hne with h | h
    · exact lt_of_lt_of_le h (foldl_max_ge f l a)
    · obtain ⟨m, hm⟩ := List.exists_mem_of_ne_nil l h
      have h1 := ((foldl_max_le_iff f l a _).1 (le_refl _)).2 m hm
      exact lt_of_lt_of_le (hf m hm).1 h1
  · have h1 : l.foldl (fun w m => max w (f m)) a ≤ env.kScoreInf - 1 := by
      rw [foldl_max_le_iff]
      exact ⟨by omega, fun m hm => by have := (hf m hm).2; omega⟩
    omega

theorem InRange.neg {env : Env P} {x : Int} (h : InRange env x) : InRange env (-x) := by
  unfold InRange at *
  omega

theorem quiescenceValueF_inRange (env : Env P) (heval : EvaluatorsInRange env) (fuel : Nat) :
    ∀ (depth : Int) (pos : P), InRange env (quiescenceValueF env fuel depth pos) := by
  induction fuel with
  | zero => intro _ pos; exact heval.1 pos
  | succ fuel ih =>
    intro depth pos
    rw [quiescenceValueF]
    split_ifs
    · exact heval.1 pos
    · exact heval.2 pos depth
    · exact foldl_max_inRange env _ _ _ (heval.1 pos).2
        (fun m _ => (ih _ _).neg) (Or.inl (heval.1 pos).1)

theorem negamaxF_inRange (env : Env P) (heval : EvaluatorsInRange env) (fuel : Nat) :
    ∀ (depth depth_end : Int) (pos : P), InRange env (negamaxF env fuel depth depth_end pos) := by
  induction fuel with
  | zero => intro _ _ pos; exact heval.1 pos
  | succ fuel ih =>
    intro depth depth_end pos
    have hpos : -env.kScoreInf < env.kScoreInf := lt_trans (heval.1 pos).1 (heval.1 pos).2
    rw [negamaxF]
    split_ifs with h1 h2
    · exact quiescenceValueF_inRange env heval _ depth pos
    · exact heval.2 pos depth
    · exact foldl_max_inRange env _ _ _ hpos (fun m _ => (ih _ _ _).neg) (Or.inr h2)

/-- C1, as amended (minimax value): with a table on which every probe misses,
a limit that never trips, a position whose make and unmake are inverse, a move
picker whose hints only reorder the moves, evaluators with scores strictly
between `-kScoreInf` and `+kScoreInf`, and a static evaluator that does not
rate an in-check position without quiescence move above its mate score, the
score that `search(depth)` returns is the value of the exhaustive, unpruned
negamax of that depth with the quiescence rule at the leaves. -/
theorem search_equals_negamax (env : Env P) (hlimit : ∀ n, env.limit n = true)
    (hmiss : ProbeMisses env) (hinv : MakeUnmakeInverse env) (hpick : PickerHintsReorder env)
    (hmate : StandPatBelowMate env) (heval : EvaluatorsInRange env)
    (depth : Int) (eng : Engine P) :
    (search env depth eng).1.score = negamax env depth eng.position := by
  have hb := searchImplF_sound env hlimit hmiss hinv hpick hmate heval ((depth - 0).toNat + 1)
    (-env.kScoreInf) env.kScoreInf 0 depth { eng with state := 0 } { depth := depth } (by omega)
  have hr := negamaxF_inRange env heval ((depth - 0).toNat + 1) 0 depth eng.position
  show (searchImplF env ((depth - 0).toNat + 1) (-env.kScoreInf) env.kScoreInf 0 depth
    { eng with state := 0 } { depth := depth }).score =
    negamaxF env ((depth - 0).toNat + 1) 0 depth eng.position
  generalize (searchImplF env ((depth - 0).toNat + 1) (-env.kScoreInf) env.kScoreInf 0 depth
    { eng with state := 0 } { depth := depth }).score = v at hb
  generalize negamaxF env ((depth - 0).toNat + 1) 0 depth eng.position = V at hb hr
  unfold Bound at hb
  unfold InRange at hr
  have hv : v < env.kScoreInf := by
    by_contra h
    have := hb.2 (by omega)
    omega
  have h1 := hb.1 hv
  have h2 := hb.2 (by omega)
  omega

theorem treeEnv_pickerHintsReorder (moves qmoves : Nat → List Nat) (eval : Nat → Int)
    (chk : Nat → Bool) (limit : Nat → Bool)
    (ttGet : List (Nat × TTEntry) → Nat → Option TTEntry) :
    PickerHintsReorder (treeEnv moves qmoves eval chk limit ttGet) :=
  fun _ _ _ _ _ _ _ => Iff.rfl

theorem soundEnv_standPat : StandPatBelowMate soundEnv := by
  intro pos depth hchk _
  have h3 : pos.headD 0 = 3 := by
    simpa [soundEnv, treeEnv] using hchk
  show (if pos.headD 0 = 3 then (-32000 : Int) else 0) ≤
    (if (pos.headD 0 == 3) = true then -(32000 - max 0 (min depth 64)) else 0)
  rw [h3]
  simp only [if_true, beq_self_eq_true]
  have h1 : (0 : Int) ≤ max 0 (min depth 64) := le_max_left _ _
  omega

theorem soundEnv_evaluatorsInRange : EvaluatorsInRange soundEnv := by
  apply treeEnv_evaluatorsInRange
  intro p
  split_ifs <;> constructor <;> norm_num

theorem search_equals_negamax_witness :
    (∀ n, soundEnv.limit n = true) ∧ ProbeMisses soundEnv ∧ MakeUnmakeInverse soundEnv ∧
    PickerHintsReorder soundEnv ∧ StandPatBelowMate soundEnv ∧ EvaluatorsInRange soundEnv ∧
    (search soundEnv 1 (startEngine 1)).1.score = negamax soundEnv 1 [1] ∧
    negamax soundEnv 1 [1] = 31999 :=
  ⟨fun _ => rfl, fun _ _ => rfl, treeEnv_inverse _ _ _ _ _ _,
    treeEnv_pickerHintsReorder _ _ _ _ _ _, soundEnv_standPat, soundEnv_evaluatorsInRange,
    search_equals_negamax soundEnv (fun _ => rfl) (fun _ _ => rfl) (treeEnv_inverse _ _ _ _ _ _)
      (treeEnv_pickerHintsReorder _ _ _ _ _ _) soundEnv_standPat soundEnv_evaluatorsInRange 1
      (startEngine 1), rfl⟩

/-- C1, as stated, fails. In `mateEnv` (empty table, no transposition, limit
never tripping) `search(1)` returns 0 while the negamax value of depth 1 is
the mate score 31999: the quiescence node of the mated position stands pat on
its static evaluation 5 against `beta = 0` before the mate test is reached.
In `transEnv` (empty table, limit never tripping) `search(5)` returns -10
while the negamax value of depth 5 is 0: the entry written for node 2 at
depth-to-go 4 is reused when node 2 is reached again at the horizon. -/
theorem search_differs_from_negamax :
    ((search mateEnv 1 (startEngine 1)).1.score = 0 ∧ negamax mateEnv 1 [1] = 31999 ∧
      (search mateEnv 1 (startEngine 1)).1.score ≠ negamax mateEnv 1 (startEngine 1).position) ∧
    ((search transEnv 5 (startEngine 1)).1.score = -10 ∧ negamax transEnv 5 [1] = 0 ∧
      (search transEnv 5 (startEngine 1)).1.score ≠
        negamax transEnv 5 (startEngine 1).position) := by
  refine ⟨⟨rfl, rfl, ?_⟩, ⟨rfl, rfl, ?_⟩⟩
  · decide
  · decide

/-- The recursion equation of `Engine::quiescenceSearch`: the fuel supplied by
the wrapper is enough for every recursive call, so the wrapper satisfies the
equation of the source function at every depth. -/
theorem quiescenceSearch_unfold (env : Env P) (alpha beta depth : Int)
    (eng : Engine P) (result : SearchResult) :
    quiescenceSearch env alpha beta depth eng result =
      if (checkSearchLimit env eng).1 = false then
        ⟨env.kScoreNone, (checkSearchLimit env eng).2, result⟩
      else if env.kMaxDepth ≤ depth then
        ⟨env.evaluate (checkSearchLimit env eng).2.position, (checkSearchLimit env eng).2,
          { result with stats_nodes := result.stats_nodes + 1 }⟩
      else
        qFinish env (qBody env (fun a b e r => quiescenceSearch env a b (depth + 1) e r)
          alpha beta depth (checkSearchLimit env eng).2
          { result with stats_nodes := result.stats_nodes + 1 }) := by
  by_cases hd : env.kMaxDepth ≤ depth
  · simp only [quiescenceSearch, quiescenceSearchF, if_pos hd]
  · have hf : (env.kMaxDepth - depth).toNat + 1
        = ((env.kMaxDepth - (depth + 1)).toNat + 1) + 1 := by omega
    simp only [quiescenceSearch]
    rw [hf]
    simp only [quiescenceSearchF, if_neg hd]

/-- The recursion equation of `Engine::searchImpl`: the fuel supplied by the
wrapper is enough for every recursive call, so the wrapper satisfies the
equation of the source function at every depth. -/
theorem searchImpl_unfold (env : Env P) (alpha beta depth depth_end : Int)
    (eng : Engine P) (result : SearchResult) :
    searchImpl env alpha beta depth depth_end eng result =
      if (checkSearchLimit env eng).1 = false then
        ⟨env.kScoreNone, (checkSearchLimit env eng).2, result⟩
      else if depth_end ≤ depth then
        quiescenceSearch env alpha beta depth (checkSearchLimit env eng).2 result
      else
        finishNode env (depth_end - depth)
          (searchBody env (fun a b e r => searchImpl env a b (depth + 1) depth_end e r)
            alpha beta depth depth_end (checkSearchLimit env eng).2
            { result with stats_nodes := result.stats_nodes + 1 }) := by
  by_cases hd : depth_end ≤ depth
  · simp only [searchImpl, searchImplF, if_pos hd]
  · have hf : (depth_end - depth).toNat + 1
        = ((depth_end - (depth + 1)).toNat + 1) + 1 := by omega
    simp only [searchImpl]
    rw [hf]
    simp only [searchImplF, if_neg hd]

theorem historyUpdate_inRange (depth sign old : Int) :
    -kMaxHistoryScore ≤ historyUpdate depth sign old ∧
    historyUpdate depth sign old ≤ kMaxHistoryScore := by
  unfold historyUpdate kMaxHistoryScore
  constructor
  · exact le_max_right _ _
  · exact max_le (min_le_right _ _) (by norm_num)

theorem wrap16_of_bounds (v : Int) (h : FitsScore v) : wrap16 v = v := by
  unfold FitsScore at h
  unfold wrap16
  omega

/-- The lambda `update` with `sign = +1`: the clamp of the sum narrowed to 16
bits. -/
theorem historyUpdate_increase (depth old : Int) :
    historyUpdate depth 1 old = max (min (wrap16 (old + depth * depth)) 2000) (-2000) := by
  have h : wrap16 (wrap32 (old + wrap32 (1 * wrap32 (depth * depth)))) =
      wrap16 (old + depth * depth) := by
    unfold wrap16 wrap32
    omega
  unfold historyUpdate kMaxHistoryScore
  rw [h]

/-- The lambda `update` with `sign = -1`: the clamp of the difference narrowed
to 16 bits. -/
theorem historyUpdate_decrease (depth old : Int) :
    historyUpdate depth (-1) old = max (min (wrap16 (old - depth * depth)) 2000) (-2000) := by
  have h : wrap16 (wrap32 (old + wrap32 (-1 * wrap32 (depth * depth)))) =
      wrap16 (old - depth * depth) := by
    unfold wrap16 wrap32
    omega
  unfold historyUpdate kMaxHistoryScore
  rw [h]

/-- Within the operating range of the engine (`|old| ≤ 2000`, `0 ≤ depth ≤ 175`)
the sum that the lambda `update` forms fits a signed 16-bit `Score`, so the
narrowing does not change it. -/
theorem historyUpdate_no_overflow (depth sign old : Int)
    (hold : -kMaxHistoryScore ≤ old ∧ old ≤ kMaxHistoryScore)
    (hd : 0 ≤ depth ∧ depth ≤ 175) (hs : sign = 1 ∨ sign = -1) :
    FitsScore (old + sign * (depth * depth)) ∧
    historyUpdate depth sign old =
      max (min (old + sign * (depth * depth)) kMaxHistoryScore) (-kMaxHistoryScore) := by
  unfold kMaxHistoryScore at hold
  have h1 : depth * depth ≤ 175 * 175 := by nlinarith
  have h2 : 0 ≤ depth * depth := by nlinarith
  have hfit : FitsScore (old + sign * (depth * depth)) := by
    unfold FitsScore
    rcases hs with hs | hs <;> subst hs <;> constructor <;> omega
  refine ⟨hfit, ?_⟩
  rcases hs with hs | hs
  · subst hs
    rw [historyUpdate_increase, one_mul, wrap16_of_bounds _ (by simpa using hfit)]
    rfl
  · subst hs
    have hfit2 : FitsScore (old - depth * depth) := by
      have : old + -1 * (depth * depth) = old - depth * depth := by ring
      rwa [this] at hfit
    have e : old + -1 * (depth * depth) = old - depth * depth := by ring
    rw [historyUpdate_decrease, e, wrap16_of_bounds _ hfit2]
    rfl

theorem setSlot_inRange (table : Nat → Int) (i : Nat) (v : Int)
    (ht : ∀ j, -kMaxHistoryScore ≤ table j ∧ table j ≤ kMaxHistoryScore)
    (hv : -kMaxHistoryScore ≤ v ∧ v ≤ kMaxHistoryScore) :
    ∀ j, -kMaxHistoryScore ≤ setSlot table i v j ∧ setSlot table i v j ≤ kMaxHistoryScore := by
  intro j
  unfold setSlot
  split_ifs
  · exact hv
  · exact ht j

theorem historyDecrease_inRange (slot : Move → Nat) (best_move : Move) (depth : Int)
    (table : Nat → Int) (move : Move)
    (ht : ∀ j, -kMaxHistoryScore ≤ table j ∧ table j ≤ kMaxHistoryScore) :
    ∀ j, -kMaxHistoryScore ≤ historyDecrease slot best_move depth table move j ∧
      historyDecrease slot best_move depth table move j ≤ kMaxHistoryScore := by
  unfold historyDecrease
  split_ifs
  · exact ht
  · exact setSlot_inRange _ _ _ ht (historyUpdate_inRange _ _ _)

theorem foldl_historyDecrease_inRange (slot : Move → Nat) (best_move : Move) (depth : Int)
    (moves : List Move) (table : Nat → Int)
    (ht : ∀ j, -kMaxHistoryScore ≤ table j ∧ table j ≤ kMaxHistoryScore) :
    ∀ j, -kMaxHistoryScore ≤ moves.foldl (historyDecrease slot best_move depth) table j ∧
      moves.foldl (historyDecrease slot best_move depth) table j ≤ kMaxHistoryScore := by
  induction moves generalizing table with
  | nil => exact ht
  | cons m rest ih =>
    simp only [List.foldl_cons]
    exact ih _ (historyDecrease_inRange slot best_move depth table m ht)

theorem updateHistory_inRange (env : Env P) (eng : Engine P) (best_move : Move)
    (quiets captures : List Move) (depth : Int) (h : HistoryInRange eng) :
    HistoryInRange (updateHistory env eng best_move quiets captures depth) := by
  unfold updateHistory
  by_cases hc : env.isCaptureOrPromotion eng.position best_move = true
  · simp only [hc, if_true]
    exact ⟨h.1, foldl_historyDecrease_inRange _ _ _ _ _
      (setSlot_inRange _ _ _ h.2 (historyUpdate_inRange _ _ _))⟩
  · simp only [hc]
    exact ⟨foldl_historyDecrease_inRange _ _ _ _ _
        (setSlot_inRange _ _ _ h.1 (historyUpdate_inRange _ _ _)),
      foldl_historyDecrease_inRange _ _ _ _ _ h.2⟩

theorem runHistoryUpdates_inRange (env : Env P) (calls : List (HistoryCall P)) (eng : Engine P)
    (h : HistoryInRange eng) : HistoryInRange (runHistoryUpdates env eng calls) := by
  unfold runHistoryUpdates
  induction calls generalizing eng with
  | nil => exact h
  | cons c rest ih =>
    simp only [List.foldl_cons]
    exact ih _ (updateHistory_inRange env _ _ _ _ _ h)

/-- C11 (history bounds): if every quiet-history and capture-history entry is
in `[-2000, +2000]` before a call of `updateHistory`, then, for every best
move, every list of searched quiets and captures and every depth argument,
every entry is in `[-2000, +2000]` after the call; hence, starting from
all-zero tables, the bound holds after any sequence of calls. -/
theorem history_bounds (env : Env P) :
    (∀ (eng : Engine P) (best_move : Move) (quiets captures : List Move) (depth : Int),
      HistoryInRange eng →
      HistoryInRange (updateHistory env eng best_move quiets captures depth)) ∧
    (∀ (eng : Engine P) (calls : List (HistoryCall P)),
      (∀ i, eng.quiet_history i = 0) → (∀ i, eng.capture_history i = 0) →
      HistoryInRange (runHistoryUpdates env eng calls)) := by
  refine ⟨fun eng best_move quiets captures depth h =>
    updateHistory_inRange env eng best_move quiets captures depth h, ?_⟩
  intro eng calls hq hc
  apply runHistoryUpdates_inRange
  refine ⟨fun i => ?_, fun i => ?_⟩
  · rw [hq i]; unfold kMaxHistoryScore; omega
  · rw [hc i]; unfold kMaxHistoryScore; omega

theorem heuristicEngine_historyInRange : HistoryInRange heuristicEngine := by
  refine ⟨fun i => ?_, fun i => ?_⟩ <;>
    simp only [heuristicEngine, startEngine, kMaxHistoryScore] <;>
    split_ifs <;> omega

theorem history_bounds_witness :
    HistoryInRange heuristicEngine ∧
    HistoryInRange (updateHistory mateEnv heuristicEngine 4 [2, 4] [3] 64) ∧
    HistoryInRange (runHistoryUpdates mateEnv (startEngine 1)
      [⟨[1], 4, [2, 4], [3], 64⟩, ⟨[2, 1], 4, [4], [], 50⟩]) :=
  ⟨heuristicEngine_historyInRange,
   (history_bounds mateEnv).1 heuristicEngine 4 [2, 4] [3] 64 heuristicEngine_historyInRange,
   (history_bounds mateEnv).2 (startEngine 1) _ (fun _ => rfl) (fun _ => rfl)⟩

theorem updateKiller_of_ne (eng : Engine P) (m : Move) (h : ¬ (eng.killers eng.state).1 = m) :
    updateKiller eng m =
      { eng with killers := setAt eng.killers eng.state (m, (eng.killers eng.state).1) } := by
  unfold updateKiller
  rw [if_neg h]

/-- C12 (killer invariant): for every killer pair `(k0, k1)` of the current
frame and every move `m`, after `updateKiller(m)` the first killer is `m`; if
`m ≠ k0` the second killer is the old `k0` (also when `m` is the old `k1`); if
`m = k0` the pair is unchanged; so an update with `m` followed by an update
with a distinct move `m'` leaves the pair `(m', m)`. -/
theorem killer_invariant (eng : Engine P) (m : Move) :
    ((updateKiller eng m).killers eng.state).1 = m ∧
    (m ≠ (eng.killers eng.state).1 →
      ((updateKiller eng m).killers eng.state).2 = (eng.killers eng.state).1) ∧
    (m = (eng.killers eng.state).1 →
      (updateKiller eng m).killers eng.state = eng.killers eng.state) ∧
    (∀ m', m' ≠ m →
      (updateKiller (updateKiller eng m) m').killers eng.state = (m', m)) := by
  have h1 : ((updateKiller eng m).killers eng.state).1 = m := by
    unfold updateKiller
    split_ifs with h
    · exact h
    · simp [setAt]
  have hs : (updateKiller eng m).state = eng.state := by
    unfold updateKiller
    split_ifs <;> rfl
  refine ⟨h1, ?_, ?_, ?_⟩
  · intro hne
    unfold updateKiller
    rw [if_neg (fun h => hne h.symm)]
    simp [setAt]
  · intro he
    unfold updateKiller
    rw [if_pos he.symm]
  · intro m' hne
    have h2 : ¬ ((updateKiller eng m).killers (updateKiller eng m).state).1 = m' := by
      rw [hs, h1]
      exact fun h => hne h.symm
    rw [updateKiller_of_ne _ _ h2, hs, h1]
    simp [setAt]

theorem killer_invariant_witness :
    (updateKiller (updateKiller heuristicEngine 5) 7).killers 0 = (7, 5) ∧
    (updateKiller heuristicEngine 5).killers 0 = (5, 3) ∧
    (updateKiller heuristicEngine 3).killers 0 = (3, 5) :=
  ⟨(killer_invariant heuristicEngine 5).2.2.2 7 (by decide),
   Prod.ext (killer_invariant heuristicEngine 5).1
     ((killer_invariant heuristicEngine 5).2.1 (by decide)),
   (killer_invariant heuristicEngine 3).2.2.1 rfl⟩

theorem foldl_historyDecrease_apply (slot : Move → Nat) (best_move : Move) (depth : Int)
    (moves : List Move) (table : Nat → Int)
    (hnd : ((moves.filter (fun m => decide (m ≠ best_move))).map slot).Nodup) (j : Nat) :
    moves.foldl (historyDecrease slot best_move depth) table j =
      if j ∈ (moves.filter (fun m => decide (m ≠ best_move))).map slot then
        historyUpdate depth (-1) (table j)
      else table j := by
  induction moves generalizing table with
  | nil => simp
  | cons m rest ih =>
    simp only [List.foldl_cons]
    by_cases hm : m = best_move
    · have hf : (m :: rest).filter (fun m => decide (m ≠ best_move)) =
          rest.filter (fun m => decide (m ≠ best_move)) := by
        simp [List.filter_cons, hm]
      rw [hf] at hnd ⊢
      rw [ih _ hnd]
      simp [historyDecrease, hm]
    · have hf : (m :: rest).filter (fun m => decide (m ≠ best_move)) =
          m :: rest.filter (fun m => decide (m ≠ best_move)) := by
        simp [List.filter_cons, hm]
      rw [hf] at hnd ⊢
      rw [List.map_cons, List.nodup_cons] at hnd
      rw [ih _ hnd.2]
      simp only [historyDecrease, if_neg hm, List.map_cons, List.mem_cons]
      by_cases hj : j = slot m
      · subst hj
        rw [if_neg hnd.1]
        simp [setSlot]
      · have hs : setSlot table (slot m) (historyUpdate depth (-1) (table (slot m))) j = table j := by
          simp [setSlot, hj]
        rw [hs]
        simp only [hj, false_or]

/-- C17, as amended (the sum is formed in the 16-bit `Score`): for a call
`updateHistory(best, quiets, captures, d)` in which the moves involved address
distinct history slots: if `best` is a capture or promotion its capture entry
becomes `clamp(old + d*d)` and no quiet entry changes; if `best` is quiet its
quiet entry becomes `clamp(old + d*d)` and the quiet entry of every other
searched quiet becomes `clamp(old - d*d)`; in both cases the capture entry of
every non-best searched capture becomes `clamp(old - d*d)`; each of these
provided the sum `old + d*d`, respectively `old - d*d`, is a value of `Score`
(lies in `[-32768, 32767]`); every entry that belongs neither to `best` nor to
a searched move is unchanged. `clamp v` is `max (min v 2000) (-2000)`. -/
theorem history_update_rule (env : Env P) (eng : Engine P) (best : Move)
    (quiets captures : List Move) (d : Int)
    (hq : DistinctSlots (env.quietSlot eng.position) best quiets)
    (hc : DistinctSlots (env.captureSlot eng.position) best captures) :
    (env.isCaptureOrPromotion eng.position best = true →
      (FitsScore (eng.capture_history (env.captureSlot eng.position best) + d * d) →
        (updateHistory env eng best quiets captures d).capture_history
            (env.captureSlot eng.position best) =
          max (min (eng.capture_history (env.captureSlot eng.position best) + d * d) 2000)
            (-2000)) ∧
      (updateHistory env eng best quiets captures d).quiet_history = eng.quiet_history ∧
      (∀ j, j ≠ env.captureSlot eng.position best →
        (∀ m ∈ captures, m ≠ best → j ≠ env.captureSlot eng.position m) →
        (updateHistory env eng best quiets captures d).capture_history j =
          eng.capture_history j)) ∧
    (env.isCaptureOrPromotion eng.position best = false →
      (FitsScore (eng.quiet_history (env.quietSlot eng.position best) + d * d) →
        (updateHistory env eng best quiets captures d).quiet_history
            (env.quietSlot eng.position best) =
          max (min (eng.quiet_history (env.quietSlot eng.position best) + d * d) 2000)
            (-2000)) ∧
      (∀ m ∈ quiets, m ≠ best →
        FitsScore (eng.quiet_history (env.quietSlot eng.position m) - d * d) →
        (updateHistory env eng best quiets captures d).quiet_history
            (env.quietSlot eng.position m) =
          max (min (eng.quiet_history (env.quietSlot eng.position m) - d * d) 2000) (-2000)) ∧
      (∀ j, j ≠ env.quietSlot eng.position best →
        (∀ m ∈ quiets, m ≠ best → j ≠ env.quietSlot eng.position m) →
        (updateHistory env eng best quiets captures d).quiet_history j = eng.quiet_history j) ∧
      (∀ j, (∀ m ∈ captures, m ≠ best → j ≠ env.captureSlot eng.position m) →
        (updateHistory env eng best quiets captures d).capture_history j =
          eng.capture_history j)) ∧
    (∀ m ∈ captures, m ≠ best →
      FitsScore (eng.capture_history (env.captureSlot eng.position m) - d * d) →
      (updateHistory env eng best quiets captures d).capture_history
          (env.captureSlot eng.position m) =
        max (min (eng.capture_history (env.captureSlot eng.position m) - d * d) 2000) (-2000)) := by
  unfold DistinctSlots at hq hc
  rw [List.map_cons, List.nodup_cons] at hq hc
  have hup : ∀ old : Int, FitsScore (old + d * d) →
      historyUpdate d 1 old = max (min (old + d * d) 2000) (-2000) := by
    intro old hfit
    rw [historyUpdate_increase, wrap16_of_bounds _ hfit]
  have hdn : ∀ old : Int, FitsScore (old - d * d) →
      historyUpdate d (-1) old = max (min (old - d * d) 2000) (-2000) := by
    intro old hfit
    rw [historyUpdate_decrease, wrap16_of_bounds _ hfit]
  have hmemq : ∀ m ∈ quiets, m ≠ best → env.quietSlot eng.position m ∈
      (quiets.filter (fun m => decide (m ≠ best))).map (env.quietSlot eng.position) :=
    fun m hm hne => List.mem_map_of_mem _ (List.mem_filter.2 ⟨hm, by simpa using hne⟩)
  have hmemc : ∀ m ∈ captures, m ≠ best → env.captureSlot eng.position m ∈
      (captures.filter (fun m => decide (m ≠ best))).map (env.captureSlot eng.position) :=
    fun m hm hne => List.mem_map_of_mem _ (List.mem_filter.2 ⟨hm, by simpa using hne⟩)
  have hnotq : ∀ j, (∀ m ∈ quiets, m ≠ best → j ≠ env.quietSlot eng.position m) →
      j ∉ (quiets.filter (fun m => decide (m ≠ best))).map (env.quietSlot eng.position) := by
    intro j hj hmem
    obtain ⟨m, hm, rfl⟩ := List.mem_map.1 hmem
    rw [List.mem_filter] at hm
    exact hj m hm.1 (by simpa using hm.2) rfl
  have hnotc : ∀ j, (∀ m ∈ captures, m ≠ best → j ≠ env.captureSlot eng.position m) →
      j ∉ (captures.filter (fun m => decide (m ≠ best))).map (env.captureSlot eng.position) := by
    intro j hj hmem
    obtain ⟨m, hm, rfl⟩ := List.mem_map.1 hmem
    rw [List.mem_filter] at hm
    exact hj m hm.1 (by simpa using hm.2) rfl
  refine ⟨?_, ?_, ?_⟩
  · intro hcap
    simp only [updateHistory, hcap, if_true]
    refine ⟨?_, trivial, ?_⟩
    · intro hfit
      rw [foldl_historyDecrease_apply _ _ _ _ _ hc.2, if_neg hc.1]
      simp [setSlot, hup _ hfit]
    · intro j hj hjm
      rw [foldl_historyDecrease_apply _ _ _ _ _ hc.2, if_neg (hnotc j hjm)]
      simp [setSlot, hj]
  · intro hcap
    simp only [updateHistory, hcap]
    refine ⟨?_, ?_, ?_, ?_⟩
    · intro hfit
      simp only [Bool.false_eq_true, if_false]
      rw [foldl_historyDecrease_apply _ _ _ _ _ hq.2, if_neg hq.1]
      simp [setSlot, hup _ hfit]
    · intro m hm hne hfit
      simp only [Bool.false_eq_true, if_false]
      have hne2 : env.quietSlot eng.position m ≠ env.quietSlot eng.position best :=
        fun h => hq.1 (h ▸ hmemq m hm hne)
      have hold : setSlot eng.quiet_history (env.quietSlot eng.position best)
          (historyUpdate d 1 (eng.quiet_history (env.quietSlot eng.position best)))
          (env.quietSlot eng.position m) = eng.quiet_history (env.quietSlot eng.position m) := by
        simp [setSlot, hne2]
      rw [foldl_historyDecrease_apply _ _ _ _ _ hq.2, if_pos (hmemq m hm hne), hold,
        hdn _ hfit]
    · intro j hj hjm
      simp only [Bool.false_eq_true, if_false]
      rw [foldl_historyDecrease_apply _ _ _ _ _ hq.2, if_neg (hnotq j hjm)]
      simp [setSlot, hj]
    · intro j hjm
      simp only [Bool.false_eq_true, if_false]
      rw [foldl_historyDecrease_apply _ _ _ _ _ hc.2, if_neg (hnotc j hjm)]
  · intro m hm hne hfit
    have hne2 : env.captureSlot eng.position m ≠ env.captureSlot eng.position best :=
      fun h => hc.1 (h ▸ hmemc m hm hne)
    by_cases hcap : env.isCaptureOrPromotion eng.position best = true
    · simp only [updateHistory, hcap, if_true]
      have hold : setSlot eng.capture_history (env.captureSlot eng.position best)
          (historyUpdate d 1 (eng.capture_history (env.captureSlot eng.position best)))
          (env.captureSlot eng.position m) =
            eng.capture_history (env.captureSlot eng.position m) := by
        simp [setSlot, hne2]
      rw [foldl_historyDecrease_apply _ _ _ _ _ hc.2, if_pos (hmemc m hm hne), hold,
        hdn _ hfit]
    · simp only [updateHistory, hcap]
      simp only [Bool.false_eq_true, if_false]
      rw [foldl_historyDecrease_apply _ _ _ _ _ hc.2, if_pos (hmemc m hm hne), hdn _ hfit]

theorem captureEnv_distinct_quiets :
    DistinctSlots (captureEnv.quietSlot heuristicEngine.position) 4 [2, 4, 6] := by
  unfold DistinctSlots; decide

theorem captureEnv_distinct_captures :
    DistinctSlots (captureEnv.captureSlot heuristicEngine.position) 4 [11, 12] := by
  unfold DistinctSlots; decide

theorem history_update_rule_witness :
    DistinctSlots (captureEnv.quietSlot heuristicEngine.position) 4 [2, 4, 6] ∧
    DistinctSlots (captureEnv.captureSlot heuristicEngine.position) 4 [11, 12] ∧
    (updateHistory captureEnv heuristicEngine 4 [2, 4, 6] [11, 12] 5).quiet_history 4 = 2000 ∧
    (updateHistory captureEnv heuristicEngine 4 [2, 4, 6] [11, 12] 5).quiet_history 6 = -25 ∧
    (updateHistory captureEnv heuristicEngine 4 [2, 4, 6] [11, 12] 5).capture_history 12 = -25 ∧
    (updateHistory captureEnv heuristicEngine 4 [2, 4, 6] [11, 12] 5).capture_history 4 = 1990 :=
  ⟨captureEnv_distinct_quiets, captureEnv_distinct_captures,
   ((history_update_rule captureEnv heuristicEngine 4 [2, 4, 6] [11, 12] 5
      captureEnv_distinct_quiets captureEnv_distinct_captures).2.1 rfl).1
      ⟨by decide, by decide⟩,
   ((history_update_rule captureEnv heuristicEngine 4 [2, 4, 6] [11, 12] 5
      captureEnv_distinct_quiets captureEnv_distinct_captures).2.1 rfl).2.1 6 (by decide)
      (by decide) ⟨by decide, by decide⟩,
   (history_update_rule captureEnv heuristicEngine 4 [2, 4, 6] [11, 12] 5
      captureEnv_distinct_quiets captureEnv_distinct_captures).2.2 12 (by decide) (by decide)
      ⟨by decide, by decide⟩,
   ((history_update_rule captureEnv heuristicEngine 4 [2, 4, 6] [11, 12] 5
      captureEnv_distinct_quiets captureEnv_distinct_captures).2.1 rfl).2.2.2 4 (by decide)⟩

/-- C17, as stated, fails: the call `updateHistory(4, [2, 4, 6], [11, 12], 182)`
at all-zero tables, with the quiet best move 4, forms `0 + 182 * 182 = 33124`,
which a `Score` holds as `-32412`: the entry of the best move becomes `-2000`,
not `clamp(0 + 33124) = 2000`, and the entries of the other searched moves
become `+2000`, not `clamp(0 - 33124) = -2000`. -/
theorem history_sum_wraps :
    DistinctSlots (captureEnv.quietSlot (startEngine 1).position) 4 [2, 4, 6] ∧
    DistinctSlots (captureEnv.captureSlot (startEngine 1).position) 4 [11, 12] ∧
    captureEnv.isCaptureOrPromotion (startEngine 1).position 4 = false ∧
    wrap16 (0 + 182 * 182) = -32412 ∧
    (updateHistory captureEnv (startEngine 1) 4 [2, 4, 6] [11, 12] 182).quiet_history 4
      = -2000 ∧
    max (min ((startEngine 1).quiet_history 4 + 182 * 182) 2000) (-2000) = 2000 ∧
    (updateHistory captureEnv (startEngine 1) 4 [2, 4, 6] [11, 12] 182).quiet_history 6
      = 2000 ∧
    max (min ((startEngine 1).quiet_history 6 - 182 * 182) 2000) (-2000) = -2000 ∧
    (updateHistory captureEnv (startEngine 1) 4 [2, 4, 6] [11, 12] 182).capture_history 12
      = 2000 ∧
    max (min ((startEngine 1).capture_history 12 - 182 * 182) 2000) (-2000) = -2000 :=
  ⟨captureEnv_distinct_quiets, captureEnv_distinct_captures, rfl, rfl, rfl, rfl, rfl, rfl,
    rfl, rfl⟩

/-- What the loop of `searchWithAspirationWindow` does after a fail high: when
the limit check passes, the window is not empty and the root score is at least
`beta`, the next iteration runs with the same target and the doubled delta. -/
theorem aspirationLoop_fail_high (env : Env P) (root : Int → Int → Engine P → Ret P)
    (fuel : Nat) (target delta : Int) (iterations : Nat) (eng : Engine P)
    (hwin : max (wrap32 (target - delta)) (-env.kScoreInf) <
      min (wrap32 (target + delta)) env.kScoreInf)
    (hlimit : env.limit (root (max (wrap32 (target - delta)) (-env.kScoreInf))
      (min (wrap32 (target + delta)) env.kScoreInf) eng).eng.clock = true)
    (hhigh : min (wrap32 (target + delta)) env.kScoreInf ≤
      (root (max (wrap32 (target - delta)) (-env.kScoreInf))
        (min (wrap32 (target + delta)) env.kScoreInf) eng).score) :
    aspirationLoop env root (fuel + 1) target delta iterations eng =
      aspirationLoop env root fuel target (wrap32 (delta * 2)) (iterations + 1)
        (checkSearchLimit env (root (max (wrap32 (target - delta)) (-env.kScoreInf))
          (min (wrap32 (target + delta)) env.kScoreInf) eng).eng).2 := by
  conv_lhs => unfold aspirationLoop
  simp only [checkSearchLimit_fst, hlimit]
  rw [if_neg (by simp), if_neg (fun h => absurd h.2 (not_lt.2 hhigh)),
    if_neg (fun h => absurd (lt_of_lt_of_le hwin hhigh) (not_lt.2 h)),
    if_neg (not_le.2 hwin)]

/-- C14 (the fail-high step does not shift the target): in the aspiration
search of depth 4 on `failHighEnv`, started with target 0, the first root
search, with the window `(-25, 25)`, returns the mate score 31999 (a fail
high); the second iteration runs with target 0, delta 50 and the window
`(-50, 50)`, not with target 25. On `mateEnv`, where the limit never trips, the
search is accepted after 11 failed iterations, all of them fail highs, with the
target still 0. -/
theorem fail_high_keeps_target :
    (aspirationRoot failHighEnv 4 (-25) 25 (startEngine 1)).score = 31999 ∧
    (aspirationLoop failHighEnv (aspirationRoot failHighEnv 4) 2 0 kInitDelta 0
        (startEngine 1)).map
      (fun x => (x.accepted, x.iterations, x.target, x.delta, x.alpha, x.beta)) =
      some (false, 1, 0, 50, -50, 50) ∧
    mateAspirationExit.accepted = true ∧
    mateAspirationExit.score = 31999 ∧
    mateAspirationExit.iterations = 11 ∧
    mateAspirationExit.target = 0 ∧
    mateAspirationExit.delta = 51200 :=
  ⟨rfl, rfl, rfl, rfl, rfl, rfl, rfl⟩

/-- C16, as amended (a table score cut stores like every other exit): at an
interior node (`depth < depth_end`, entry check passed) whose probe hits an
entry `e` with stored depth at least the depth-to-go, stored score at least
`beta` and stored type CUT or PV, `searchImpl` returns the stored score and
then runs the statements after the lambda body: it puts one entry under the
key of the node (type CUT, the stored move, the stored score, evaluation
`kScoreNone`, depth = depth-to-go) and, the node being a CUT node, updates the
killers and the history with the stored move and empty searched lists. -/
theorem tt_cut_stores (env : Env P) (alpha beta depth depth_end : Int) (eng : Engine P)
    (result : SearchResult) (e : TTEntry)
    (hlimit : env.limit eng.clock = true) (hdepth : depth < depth_end)
    (hhit : env.ttGet eng.transposition_table (env.key eng.position) = some e)
    (hcut : depth_end - depth ≤ e.depth ∧ beta ≤ e.score ∧
      (e.node_type = NodeType.kCutNode ∨ e.node_type = NodeType.kPVNode)) :
    (searchImpl env alpha beta depth depth_end eng result).score = e.score ∧
    (searchImpl env alpha beta depth depth_end eng result).eng.transposition_table =
      (env.key eng.position,
        { node_type := NodeType.kCutNode, move := e.move, score := e.score,
          evaluation := env.kScoreNone, depth := depth_end - depth }) ::
        eng.transposition_table ∧
    (searchImpl env alpha beta depth depth_end eng result).eng =
      updateHistory env
        (updateKiller
          (ttPut (checkSearchLimit env eng).2 (env.key eng.position)
            { node_type := NodeType.kCutNode, move := e.move, score := e.score,
              evaluation := env.kScoreNone, depth := depth_end - depth })
          e.move)
        e.move [] [] (depth_end - depth) := by
  have hbody : searchBody env
      (fun a b e r => searchImpl env a b (depth + 1) depth_end e r) alpha beta depth depth_end
      (checkSearchLimit env eng).2 { result with stats_nodes := result.stats_nodes + 1 } =
      { initNode env alpha (checkSearchLimit env eng).2
          { result with stats_nodes := result.stats_nodes + 1
                        stats_tt_hit := result.stats_tt_hit + 1 } with
        score := e.score, node_type := NodeType.kCutNode, best_move := e.move,
        result := { result with stats_nodes := result.stats_nodes + 1
                                stats_tt_hit := result.stats_tt_hit + 1
                                stats_tt_cut := result.stats_tt_cut + 1 } } := by
    unfold searchBody
    simp only [checkSearchLimit_tt, checkSearchLimit_position, hhit]
    rw [if_pos hcut]
    rfl
  rw [searchImpl_unfold]
  simp only [checkSearchLimit_fst, hlimit]
  rw [if_neg (by simp), if_neg (not_le.2 hdepth), hbody]
  refine ⟨rfl, ?_, ?_⟩
  · simp [finishNode, initNode]
  · simp [finishNode, initNode]

theorem tt_cut_stores_witness :
    mateEnv.limit probeEngine.clock = true ∧ (0 : Int) < 2 ∧
    mateEnv.ttGet probeEngine.transposition_table (mateEnv.key probeEngine.position) =
      some { node_type := NodeType.kCutNode, move := 2, score := 100, evaluation := 0,
             depth := 5 } ∧
    (searchImpl mateEnv (-10) 10 0 2 probeEngine {}).score = 100 :=
  ⟨rfl, by decide, rfl,
   (tt_cut_stores mateEnv (-10) 10 0 2 probeEngine {}
      { node_type := NodeType.kCutNode, move := 2, score := 100, evaluation := 0, depth := 5 }
      rfl (by decide) rfl (by decide)).1⟩

/-- C16, as stated, fails: on `probeEngine`, whose table holds for the root a
CUT entry of depth 5 with score 100, static evaluation 0 and best move 2, the
call `searchImpl(-10, 10, 0, 2)` is decided by a score cut (depth-to-go 2 ≤ 5,
100 ≥ 10) and returns 100, but it does write an entry: afterwards the table
differs, and the entry found under the key of the root has depth 2 and
evaluation `kScoreNone` (32002) instead of depth 5 and evaluation 0; the
killers of frame 0 and the history slot of move 2 changed as well. -/
theorem tt_cut_overwrites_entry :
    ttLookup probeEngine.transposition_table 1 =
      some { node_type := NodeType.kCutNode, move := 2, score := 100, evaluation := 0,
             depth := 5 } ∧
    (searchImpl mateEnv (-10) 10 0 2 probeEngine {}).score = 100 ∧
    (searchImpl mateEnv (-10) 10 0 2 probeEngine {}).eng.transposition_table ≠
      probeEngine.transposition_table ∧
    ttLookup (searchImpl mateEnv (-10) 10 0 2 probeEngine {}).eng.transposition_table 1 =
      some { node_type := NodeType.kCutNode, move := 2, score := 100, evaluation := 32002,
             depth := 2 } ∧
    probeEngine.killers 0 = (0, 0) ∧
    (searchImpl mateEnv (-10) 10 0 2 probeEngine {}).eng.killers 0 = (2, 0) ∧
    probeEngine.quiet_history 2 = 0 ∧
    (searchImpl mateEnv (-10) 10 0 2 probeEngine {}).eng.quiet_history 2 = 4 :=
  ⟨rfl, rfl, by decide, rfl, rfl, rfl, rfl, rfl⟩

theorem qStep_score_ge (env : Env P) (child : Int → Int → Engine P → SearchResult → Ret P)
    (beta : Int) (n : Node P) (move : Move) :
    n.score ≤ (qStep env child beta n move).score := by
  unfold qStep
  simp only
  split_ifs <;> exact le_max_left _ _

theorem qStep_move_cnt (env : Env P) (child : Int → Int → Engine P → SearchResult → Ret P)
    (beta : Int) (n : Node P) (move : Move) :
    (qStep env child beta n move).move_cnt = n.move_cnt + 1 := by
  unfold qStep
  simp only
  split_ifs <;> rfl

theorem qStep_live (env : Env P) (hlimit : ∀ n, env.limit n = true)
    (child : Int → Int → Engine P → SearchResult → Ret P)
    (beta : Int) (n : Node P) (move : Move) (hrun : n.interrupted = false) :
    (qStep env child beta n move).interrupted = false := by
  unfold qStep
  simp only [checkSearchLimit_fst, hlimit]
  split_ifs <;> simp_all

theorem qLoop_stand (env : Env P) (hlimit : ∀ n, env.limit n = true)
    (child : Int → Int → Engine P → SearchResult → Ret P)
    (beta : Int) (moves : List Move) (n : Node P) (hrun : n.interrupted = false) :
    (qLoop env child beta moves n).interrupted = false ∧
    n.score ≤ (qLoop env child beta moves n).score ∧
    (moves ≠ [] → 0 < (qLoop env child beta moves n).move_cnt) := by
  induction moves generalizing n with
  | nil => exact ⟨hrun, le_refl _, fun h => absurd rfl h⟩
  | cons move rest ih =>
    have h1 := qStep_live env hlimit child beta n move hrun
    have h2 := qStep_score_ge env child beta n move
    have h3 := qStep_move_cnt env child beta n move
    unfold qLoop
    simp only
    split_ifs with hret
    · exact ⟨h1, h2, fun _ => by omega⟩
    · obtain ⟨i1, i2, _⟩ := ih _ h1
      refine ⟨i1, le_trans h2 i2, fun _ => ?_⟩
      cases rest with
      | nil => simp only [qLoop]; omega
      | cons m r =>
        exact (ih _ h1).2.2 (by simp)

theorem qMoves_stand (env : Env P) (hlimit : ∀ n, env.limit n = true)
    (child : Int → Int → Engine P → SearchResult → Ret P)
    (beta depth : Int) (tt_move : Move) (n : Node P) (hrun : n.interrupted = false) :
    (qMoves env child beta depth tt_move n).interrupted = false ∧
    (¬ (env.checkers n.eng.position = true ∧
        env.movePicker n.eng.position n.eng.quiet_history n.eng.capture_history tt_move
          (n.eng.killers n.eng.state) (env.checkers n.eng.position) true = []) →
      (if n.evaluation = env.kScoreNone then env.evaluate n.eng.position else n.evaluation) ≤
        (qMoves env child beta depth tt_move n).score) := by
  obtain ⟨ev, hev⟩ : ∃ ev,
      (if n.evaluation = env.kScoreNone then env.evaluate n.eng.position else n.evaluation) = ev :=
    ⟨_, rfl⟩
  obtain ⟨moves, hmoves⟩ : ∃ moves,
      env.movePicker n.eng.position n.eng.quiet_history n.eng.capture_history tt_move
          (n.eng.killers n.eng.state) (env.checkers n.eng.position) true = moves := ⟨_, rfl⟩
  unfold qMoves
  simp only [hev, hmoves]
  by_cases hb : beta ≤ ev
  · rw [if_pos hb]
    exact ⟨hrun, fun _ => le_refl _⟩
  · rw [if_neg hb]
    obtain ⟨n2, hn2⟩ : ∃ n2 : Node P,
        (if n.alpha < ev then
          { n with evaluation := ev, score := ev, alpha := ev }
        else { n with evaluation := ev, score := ev }) = n2 := ⟨_, rfl⟩
    rw [hn2]
    have hrun2 : n2.interrupted = false := by
      rw [← hn2]; split_ifs <;> exact hrun
    have hsc2 : n2.score = ev := by
      rw [← hn2]; split_ifs <;> rfl
    obtain ⟨l1, l2, l3⟩ := qLoop_stand env hlimit child beta moves n2 hrun2
    rw [hsc2] at l2
    split_ifs with hret hleaf
    · exact ⟨l1, fun _ => l2⟩
    · refine ⟨l1, fun hno => ?_⟩
      exfalso
      apply hno
      refine ⟨hleaf.1, ?_⟩
      by_contra hne
      have := l3 hne
      omega
    · exact ⟨l1, fun _ => l2⟩

/-- C18 (quiescence stand pat): a quiescence node at `depth < kMaxDepth` whose
entry check passes, whose probe misses, that is not in check and whose move
picker yields no quiescence move returns exactly the static evaluation of the
position, for every window; more generally, while the limit does not trip, a
quiescence node at `depth < kMaxDepth` that is not decided by a table score
cut and is not an in-check node without moves returns a score that is at least
the static evaluation of the node (`nodeEvaluation`: the evaluation adopted
from the table entry, or the evaluator's); at `depth ≥ kMaxDepth` the node
returns the static evaluation of the position. -/
theorem quiescence_stand_pat (env : Env P) (alpha beta depth : Int) (eng : Engine P)
    (result : SearchResult) :
    (env.limit eng.clock = true → depth < env.kMaxDepth →
      env.ttGet eng.transposition_table (env.key eng.position) = none →
      env.checkers eng.position = false → quiescenceMoves env eng = [] →
      (quiescenceSearch env alpha beta depth eng result).score = env.evaluate eng.position) ∧
    ((∀ n, env.limit n = true) → depth < env.kMaxDepth →
      (∀ e, env.ttGet eng.transposition_table (env.key eng.position) = some e →
        ¬ qScoreCut alpha beta e) →
      ¬ (env.checkers eng.position = true ∧ quiescenceMoves env eng = []) →
      nodeEvaluation env eng ≤ (quiescenceSearch env alpha beta depth eng result).score) ∧
    (env.limit eng.clock = true → env.kMaxDepth ≤ depth →
      (quiescenceSearch env alpha beta depth eng result).score = env.evaluate eng.position) := by
  refine ⟨?_, ?_, ?_⟩
  · intro hl hd hm hchk hmoves
    rw [quiescenceSearch_unfold]
    simp only [checkSearchLimit_fst, hl]
    rw [if_neg (by simp), if_neg (not_le.2 hd),
      qBody_miss _ _ _ _ _ _ _ (by simpa using hm)]
    simp only [quiescenceMoves, hm, hchk] at hmoves
    unfold qMoves
    simp only [initNode, checkSearchLimit_position, checkSearchLimit_quiet,
      checkSearchLimit_capture, checkSearchLimit_killers, checkSearchLimit_state, hchk, hmoves]
    simp only [if_true, qLoop, Bool.false_eq_true, false_and, if_false]
    split_ifs <;> simp [qFinish]
  · intro hl hd hcut hleaf
    rw [quiescenceSearch_unfold]
    simp only [checkSearchLimit_fst, hl]
    rw [if_neg (by simp), if_neg (not_le.2 hd)]
    unfold qBody
    simp only [checkSearchLimit_tt, checkSearchLimit_position]
    cases hm : env.ttGet eng.transposition_table (env.key eng.position) with
    | none =>
      simp only [nodeEvaluation, quiescenceMoves, hm] at hleaf ⊢
      obtain ⟨h1, h2⟩ := qMoves_stand env hl
        (fun a b e r => quiescenceSearch env a b (depth + 1) e r) beta depth kNoneMove
        (initNode env alpha (checkSearchLimit env eng).2
          { stats_nodes := result.stats_nodes + 1, stats_tt_hit := result.stats_tt_hit +
              hitCount none, type := result.type, depth := result.depth, score := result.score,
            pv := result.pv, stats_time := result.stats_time, stats_tt_cut := result.stats_tt_cut,
            debug := result.debug }) rfl
      rw [qFinish_score _ _ h1]
      have := h2 (by simpa [initNode] using hleaf)
      simpa [initNode] using this
    | some e =>
      have hno := hcut e hm
      unfold qScoreCut at hno
      simp only [nodeEvaluation, quiescenceMoves, hm] at hleaf ⊢
      rw [if_neg (fun h => hno (Or.inl h)), if_neg (fun h => hno (Or.inr h))]
      obtain ⟨h1, h2⟩ := qMoves_stand env hl
        (fun a b e r => quiescenceSearch env a b (depth + 1) e r) beta depth e.move
        { initNode env alpha (checkSearchLimit env eng).2
          { stats_nodes := result.stats_nodes + 1, stats_tt_hit := result.stats_tt_hit +
              hitCount (some e), type := result.type, depth := result.depth,
            score := result.score, pv := result.pv, stats_time := result.stats_time,
            stats_tt_cut := result.stats_tt_cut, debug := result.debug } with
          evaluation := e.evaluation } rfl
      rw [qFinish_score _ _ h1]
      have := h2 (by simpa [initNode] using hleaf)
      simpa [initNode] using this
  · intro hl hd
    rw [quiescenceSearch_unfold]
    simp only [checkSearchLimit_fst, hl]
    rw [if_neg (by simp), if_pos hd]
    simp

theorem quiescence_stand_pat_witness :
    standPatEnv.limit (startEngine 1).clock = true ∧ (3 : Int) < standPatEnv.kMaxDepth ∧
    standPatEnv.checkers (startEngine 1).position = false ∧
    quiescenceMoves standPatEnv (startEngine 1) = [] ∧
    (quiescenceSearch standPatEnv (-100) 100 3 (startEngine 1) {}).score = 30 ∧
    quiescenceMoves standPatEnv (startEngine 2) = [3, 4] ∧
    nodeEvaluation standPatEnv (startEngine 2) = 10 ∧
    (10 : Int) ≤ (quiescenceSearch standPatEnv (-100) 100 3 (startEngine 2) {}).score ∧
    (quiescenceSearch standPatEnv (-100) 100 64 (startEngine 2) {}).score = 10 :=
  ⟨rfl, by decide, rfl, rfl,
   (quiescence_stand_pat standPatEnv (-100) 100 3 (startEngine 1) {}).1 rfl (by decide) rfl rfl
     rfl,
   rfl, rfl,
   (quiescence_stand_pat standPatEnv (-100) 100 3 (startEngine 2) {}).2.1 (fun _ => rfl)
     (by decide) (fun e h => by simp [standPatEnv, treeEnv] at h) (by decide),
   (quiescence_stand_pat standPatEnv (-100) 100 64 (startEngine 2) {}).2.2 rfl (by decide)⟩

/-- C15 (the window of a quiescence call can be empty): in `search(1)` on
`windowEnv`, entered with the window `(-32001, 32001)`, the quiescence node of
position 3 is entered with `(-32001, 5)`; its static evaluation raises alpha to
0, its first quiescence move scores exactly 5 = beta, which is not a cut
(`beta < score` fails) but raises alpha to 5; the call for its second
quiescence move is entered with `alpha = beta = -5`. The run counts 5 nodes
(the root and the four quiescence nodes) and makes 11 limit checks (one per
call and one after each of the four moves searched in a loop). -/
theorem quiescence_window_can_be_empty :
    -windowEnv.kScoreInf ≤ -32001 ∧ (-32001 : Int) < 32001 ∧ 32001 ≤ windowEnv.kScoreInf ∧
    searchCalls windowEnv 1 (startEngine 1) =
      [{ quiescence := false, alpha := -32001, beta := 32001, depth := 0, frame := 0 },
       { quiescence := false, alpha := -32001, beta := 32001, depth := 1, frame := 1 },
       { quiescence := true, alpha := -32001, beta := 32001, depth := 1, frame := 1 },
       { quiescence := false, alpha := -32001, beta := 5, depth := 1, frame := 1 },
       { quiescence := true, alpha := -32001, beta := 5, depth := 1, frame := 1 },
       { quiescence := true, alpha := -5, beta := 0, depth := 2, frame := 2 },
       { quiescence := true, alpha := -5, beta := -5, depth := 2, frame := 2 }] ∧
    (search windowEnv 1 (startEngine 1)).1.score = -5 ∧
    (search windowEnv 1 (startEngine 1)).1.stats_nodes = 5 ∧
    (search windowEnv 1 (startEngine 1)).2.clock = 11 :=
  ⟨by decide, by decide, by decide, rfl, rfl, rfl, rfl⟩

/-- The frame in which a recursive call is entered is the frame that
`makeMove` advanced to and reset: its index is one more than the caller's. -/
theorem makeMove_frame (env : Env P) (eng : Engine P) (move : Move) :
    (makeMove env eng move).state = eng.state + 1 ∧
    (makeMove env eng move).pv (eng.state + 1) = [] := by
  simp [makeMove, resetState, setAt]

set_option maxRecDepth 100000 in
/-- C19 (the state stack is overrun at `kMaxDepth`): `search(64)` on `lineEnv`
(`depth_end = kMaxDepth = 64`, started at frame 0) makes 66 calls; the node at
depth 63 lies in frame 63, and its `makeMove` advances to frame 64 and resets
it before the call at depth 64 is entered (which only then returns because
`depth >= kMaxDepth`): the frame index 64 is not below `kMaxDepth`. The run
counts 65 nodes (64 interior nodes and the quiescence node) and makes 130
limit checks (one per call and one after each of the 64 moves). -/
theorem state_stack_overrun :
    (64 : Int) ≤ lineEnv.kMaxDepth ∧
    (searchCalls lineEnv 64 (startEngine 1)).length = 66 ∧
    (searchCalls lineEnv 64 (startEngine 1)).map (fun c => c.frame) =
      (List.range 65).map (fun k : Nat => (k : Int)) ++ [64] ∧
    (searchCalls lineEnv 64 (startEngine 1)).getLast? =
      some { quiescence := true, alpha := -32001, beta := 32001, depth := 64, frame := 64 } ∧
    ¬ ((64 : Int) < lineEnv.kMaxDepth) ∧
    (search lineEnv 64 (startEngine 1)).1.stats_nodes = 65 ∧
    (search lineEnv 64 (startEngine 1)).2.clock = 130 :=
  ⟨by decide, rfl, rfl, rfl, by decide, rfl, rfl⟩

theorem roundHalfEven_cases (x : ℚ) :
    roundHalfEven x = ⌊x⌋ ∨ (roundHalfEven x = ⌊x⌋ + 1 ∧ 1 ≤ 2 * Int.fract x) := by
  unfold roundHalfEven
  split_ifs with h1 h2 h3
  · exact Or.inl rfl
  · exact Or.inr ⟨rfl, le_of_lt h2⟩
  · exact Or.inl rfl
  · exact Or.inr ⟨rfl, not_lt.1 h1⟩

theorem roundHalfEven_le (x : ℚ) (n : ℤ) (h : x ≤ n) : roundHalfEven x ≤ n := by
  have hf : ⌊x⌋ ≤ n := by
    have := Int.floor_le x
    exact_mod_cast (Int.floor_le x).trans h |> fun h' => Int.le_of_lt_add_one (by
      have h2 : (⌊x⌋ : ℚ) < n + 1 := lt_of_le_of_lt h' (by linarith)
      exact_mod_cast h2)
  rcases roundHalfEven_cases x with h1 | ⟨h1, h2⟩
  · rw [h1]; exact hf
  · rw [h1]
    by_contra hc
    have hn : n = ⌊x⌋ := by omega
    have hfr : Int.fract x = x - ⌊x⌋ := rfl
    have : (n : ℚ) = ⌊x⌋ := by exact_mod_cast hn
    have hx : x ≤ ⌊x⌋ := by rw [← this]; exact h
    have : Int.fract x ≤ 0 := by rw [hfr]; linarith
    linarith

theorem le_roundHalfEven (x : ℚ) (n : ℤ) (h : (n : ℚ) ≤ x) : n ≤ roundHalfEven x := by
  have hf : n ≤ ⌊x⌋ := Int.le_floor.2 h
  rcases roundHalfEven_cases x with h1 | ⟨h1, _⟩ <;> rw [h1] <;> omega

theorem roundHalfEven_near (x : ℚ) : |(roundHalfEven x : ℚ) - x| ≤ 1 / 2 := by
  have hfr : Int.fract x = x - ⌊x⌋ := rfl
  have h0 := Int.fract_nonneg x
  have h1 := Int.fract_lt_one x
  unfold roundHalfEven
  split_ifs with a b c
  · rw [abs_le]; constructor <;> linarith
  · push_cast; rw [abs_le]; constructor <;> linarith
  · rw [abs_le]; constructor <;> linarith
  · push_cast; rw [abs_le]; constructor <;> linarith

theorem roundHalfEven_eq (x : ℚ) (m : ℤ) (h : |x - m| < 1 / 2) : roundHalfEven x = m := by
  have h1 := roundHalfEven_near x
  rw [abs_lt] at h
  rw [abs_le] at h1
  have h2 : ((roundHalfEven x - m : ℤ) : ℚ) < 1 := by push_cast; linarith
  have h3 : (-1 : ℚ) < ((roundHalfEven x - m : ℤ) : ℚ) := by push_cast; linarith
  have h4 : roundHalfEven x - m < 1 := by exact_mod_cast h2
  have h5 : -1 < roundHalfEven x - m := by exact_mod_cast h3
  omega

theorem zpow_two_succ (e : ℤ) :
    (2 : ℚ) ^ (e + 1) = 9007199254740992 * 2 ^ (e - 52) := by
  have h : e + 1 = 53 + (e - 52) := by ring
  rw [h, zpow_add₀ (by norm_num : (2 : ℚ) ≠ 0)]
  norm_num

theorem zpow_two_self (e : ℤ) :
    (2 : ℚ) ^ e = 4503599627370496 * 2 ^ (e - 52) := by
  have h : e = 52 + (e - 52) := by ring
  conv_lhs => rw [h, zpow_add₀ (by norm_num : (2 : ℚ) ≠ 0)]
  norm_num

theorem binade (q : ℚ) (hq : 0 < q) :
    (2 : ℚ) ^ Int.log 2 q ≤ q ∧ q < (2 : ℚ) ^ (Int.log 2 q + 1) := by
  have h1 := Int.zpow_log_le_self (b := 2) (r := q) (by norm_num) hq
  have h2 := Int.lt_zpow_succ_log_self (b := 2) (by norm_num) q
  simp only [Nat.cast_ofNat] at h1 h2
  exact ⟨h1, h2⟩

theorem log_eq_of_binade (q : ℚ) (e : ℤ) (h1 : (2 : ℚ) ^ e ≤ q) (h2 : q < (2 : ℚ) ^ (e + 1)) :
    Int.log 2 q = e := by
  have hq : 0 < q := lt_of_lt_of_le (zpow_pos (by norm_num) e) h1
  have a1 : e ≤ Int.log 2 q :=
    (Int.zpow_le_iff_le_log (b := 2) (by norm_num) hq).1 (by simpa using h1)
  have a2 : Int.log 2 q < e + 1 :=
    (Int.lt_zpow_iff_log_lt (b := 2) (by norm_num) hq).1 (by simpa using h2)
  omega

theorem representable_scaled (z : ℚ) (e : ℤ) (hz : Representable z) (he : (2 : ℚ) ^ e ≤ z) :
    ∃ n : ℤ, z / 2 ^ (e - 52) = (n : ℚ) := by
  obtain ⟨m, k, rfl, hm⟩ := hz
  have h2k : (0 : ℚ) < 2 ^ k := zpow_pos (by norm_num) k
  have h2e : (0 : ℚ) < 2 ^ e := zpow_pos (by norm_num) e
  have hm1 : (m : ℚ) < 2 ^ 53 := by
    have : m < 2 ^ 53 := lt_of_le_of_lt (le_abs_self m) hm
    exact_mod_cast this
  have hlt : (2 : ℚ) ^ e < 2 ^ (53 + k) := by
    rw [zpow_add₀ (by norm_num : (2 : ℚ) ≠ 0)]
    calc (2 : ℚ) ^ e ≤ (m : ℚ) * 2 ^ k := he
      _ < 2 ^ 53 * 2 ^ k := by
        have := mul_lt_mul_of_pos_right hm1 h2k
        simpa using this
      _ = 2 ^ (53 : ℤ) * 2 ^ k := by norm_num
  have hk : e < 53 + k := (zpow_lt_zpow_iff_right₀ (by norm_num : (1 : ℚ) < 2)).1 hlt
  refine ⟨m * 2 ^ (k - e + 52).toNat, ?_⟩
  have hj : ((k - e + 52).toNat : ℤ) = k - (e - 52) := by omega
  have hp : (2 : ℚ) ^ (k - e + 52).toNat = 2 ^ k / 2 ^ (e - 52) := by
    rw [← zpow_natCast (2 : ℚ), hj, zpow_sub₀ (by norm_num : (2 : ℚ) ≠ 0)]
  rw [Int.cast_mul, Int.cast_pow, Int.cast_ofNat, hp, mul_div_assoc]

theorem roundPos_le (x z : ℚ) (hx : 0 < x) (hxz : x ≤ z) (hz : Representable z) :
    roundPos x ≤ z := by
  obtain ⟨hlo, hhi⟩ := binade x hx
  have hu : (0 : ℚ) < 2 ^ (Int.log 2 x - 52) := zpow_pos (by norm_num) _
  unfold roundPos
  by_cases hc : z < 2 ^ (Int.log 2 x + 1)
  · obtain ⟨n, hn⟩ := representable_scaled z (Int.log 2 x) hz (hlo.trans hxz)
    have h1 : x / 2 ^ (Int.log 2 x - 52) ≤ (n : ℚ) := by
      rw [← hn]; exact div_le_div_of_nonneg_right hxz hu.le
    have h2 := roundHalfEven_le _ n h1
    have h3 : (roundHalfEven (x / 2 ^ (Int.log 2 x - 52)) : ℚ) ≤ (n : ℚ) := by exact_mod_cast h2
    calc (roundHalfEven (x / 2 ^ (Int.log 2 x - 52)) : ℚ) * 2 ^ (Int.log 2 x - 52)
        ≤ (n : ℚ) * 2 ^ (Int.log 2 x - 52) := mul_le_mul_of_nonneg_right h3 hu.le
      _ = z := by rw [← hn]; field_simp
  · have h1 : x / 2 ^ (Int.log 2 x - 52) ≤ ((9007199254740992 : ℤ) : ℚ) := by
      rw [div_le_iff₀ hu, Int.cast_ofNat, ← zpow_two_succ]
      exact hhi.le
    have h2 := roundHalfEven_le _ _ h1
    have h3 : (roundHalfEven (x / 2 ^ (Int.log 2 x - 52)) : ℚ) ≤ 9007199254740992 := by
      exact_mod_cast h2
    calc (roundHalfEven (x / 2 ^ (Int.log 2 x - 52)) : ℚ) * 2 ^ (Int.log 2 x - 52)
        ≤ 9007199254740992 * 2 ^ (Int.log 2 x - 52) := mul_le_mul_of_nonneg_right h3 hu.le
      _ = 2 ^ (Int.log 2 x + 1) := (zpow_two_succ _).symm
      _ ≤ z := not_lt.1 hc

theorem le_roundPos (x z : ℚ) (hz0 : 0 < z) (hzx : z ≤ x) (hz : Representable z) :
    z ≤ roundPos x := by
  have hx : 0 < x := lt_of_lt_of_le hz0 hzx
  obtain ⟨hlo, hhi⟩ := binade x hx
  have hu : (0 : ℚ) < 2 ^ (Int.log 2 x - 52) := zpow_pos (by norm_num) _
  unfold roundPos
  by_cases hc : (2 : ℚ) ^ Int.log 2 x ≤ z
  · obtain ⟨n, hn⟩ := representable_scaled z (Int.log 2 x) hz hc
    have h1 : (n : ℚ) ≤ x / 2 ^ (Int.log 2 x - 52) := by
      rw [← hn]; exact div_le_div_of_nonneg_right hzx hu.le
    have h2 := le_roundHalfEven _ n h1
    have h3 : (n : ℚ) ≤ (roundHalfEven (x / 2 ^ (Int.log 2 x - 52)) : ℚ) := by exact_mod_cast h2
    calc z = (n : ℚ) * 2 ^ (Int.log 2 x - 52) := by rw [← hn]; field_simp
      _ ≤ _ := mul_le_mul_of_nonneg_right h3 hu.le
  · have h1 : ((4503599627370496 : ℤ) : ℚ) ≤ x / 2 ^ (Int.log 2 x - 52) := by
      rw [le_div_iff₀ hu, Int.cast_ofNat, ← zpow_two_self]
      exact hlo
    have h2 := le_roundHalfEven _ _ h1
    have h3 : (4503599627370496 : ℚ) ≤ (roundHalfEven (x / 2 ^ (Int.log 2 x - 52)) : ℚ) := by
      exact_mod_cast h2
    calc z ≤ 2 ^ (Int.log 2 x) := (not_le.1 hc).le
      _ = 4503599627370496 * 2 ^ (Int.log 2 x - 52) := zpow_two_self _
      _ ≤ _ := mul_le_mul_of_nonneg_right h3 hu.le

theorem roundPos_upper (x : ℚ) (hx : 0 < x) : roundPos x ≤ x * (1 + 1 / 2 ^ 53) := by
  obtain ⟨hlo, _⟩ := binade x hx
  have hu : (0 : ℚ) < 2 ^ (Int.log 2 x - 52) := zpow_pos (by norm_num) _
  have hn := roundHalfEven_near (x / 2 ^ (Int.log 2 x - 52))
  rw [abs_le] at hn
  have h1 : (roundHalfEven (x / 2 ^ (Int.log 2 x - 52)) : ℚ) ≤
      x / 2 ^ (Int.log 2 x - 52) + 1 / 2 := by linarith [hn.2]
  have h2 := mul_le_mul_of_nonneg_right h1 hu.le
  rw [add_mul, div_mul_cancel₀ _ hu.ne'] at h2
  rw [zpow_two_self] at hlo
  unfold roundPos
  norm_num at hlo ⊢
  linarith

theorem roundPos_eq (q : ℚ) (e m : ℤ) (h1 : (2 : ℚ) ^ e ≤ q) (h2 : q < (2 : ℚ) ^ (e + 1))
    (h3 : |q / 2 ^ (e - 52) - m| < 1 / 2) : roundPos q = (m : ℚ) * 2 ^ (e - 52) := by
  unfold roundPos
  rw [log_eq_of_binade q e h1 h2, roundHalfEven_eq _ m h3]

theorem roundDouble_of_pos (x : ℚ) (hx : 0 < x) : roundDouble x = roundPos x := by
  unfold roundDouble
  rw [if_neg hx.ne', if_pos hx]

theorem roundDouble_zero : roundDouble 0 = 0 := by
  unfold roundDouble
  rw [if_pos rfl]

theorem roundPos_pos (x : ℚ) (hx : 0 < x) : 0 < roundPos x := by
  obtain ⟨hlo, _⟩ := binade x hx
  have hu : (0 : ℚ) < 2 ^ (Int.log 2 x - 52) := zpow_pos (by norm_num) _
  have h1 : ((1 : ℤ) : ℚ) ≤ x / 2 ^ (Int.log 2 x - 52) := by
    rw [le_div_iff₀ hu, Int.cast_one, one_mul]
    refine le_trans ?_ hlo
    rw [zpow_two_self (Int.log 2 x)]
    nlinarith
  have h2 := le_roundHalfEven _ _ h1
  have h3 : (1 : ℚ) ≤ (roundHalfEven (x / 2 ^ (Int.log 2 x - 52)) : ℚ) := by exact_mod_cast h2
  unfold roundPos
  positivity

theorem roundDouble_nonneg (x : ℚ) (hx : 0 ≤ x) : 0 ≤ roundDouble x := by
  rcases hx.eq_or_lt with h | h
  · rw [← h, roundDouble_zero]
  · rw [roundDouble_of_pos x h]; exact (roundPos_pos x h).le

/-- Rounding does not cross a representable value from below. -/
theorem roundDouble_le (x z : ℚ) (hx : 0 ≤ x) (hxz : x ≤ z) (hz : Representable z) :
    roundDouble x ≤ z := by
  rcases hx.eq_or_lt with h | h
  · rw [← h, roundDouble_zero]; exact hx.trans hxz
  · rw [roundDouble_of_pos x h]; exact roundPos_le x z h hxz hz

/-- Rounding does not cross a representable value from above. -/
theorem le_roundDouble (x z : ℚ) (hz0 : 0 ≤ z) (hzx : z ≤ x) (hz : Representable z) :
    z ≤ roundDouble x := by
  rcases hz0.eq_or_lt with h | h
  · rw [← h]; exact roundDouble_nonneg x (hz0.trans hzx)
  · rw [roundDouble_of_pos x (lt_of_lt_of_le h hzx)]; exact le_roundPos x z h hzx hz

/-- A representable value is not changed by rounding. -/
theorem roundDouble_exact (z : ℚ) (hz0 : 0 ≤ z) (hz : Representable z) : roundDouble z = z :=
  le_antisymm (roundDouble_le z z hz0 le_rfl hz) (le_roundDouble z z hz0 le_rfl hz)

/-- The relative rounding error is at most `2 ^ (-53)`. -/
theorem roundDouble_upper (x : ℚ) (hx : 0 ≤ x) : roundDouble x ≤ x * (1 + 1 / 2 ^ 53) := by
  rcases hx.eq_or_lt with h | h
  · rw [← h, roundDouble_zero]; norm_num
  · rw [roundDouble_of_pos x h]; exact roundPos_upper x h

theorem representable_int (n : ℤ) (h : |n| < 2 ^ 53) : Representable (n : ℚ) :=
  ⟨n, 0, by simp, h⟩

theorem representable_eighths (n : ℤ) (h : |8 * n + 7| < 2 ^ 53) :
    Representable ((n : ℚ) + 7 / 8) :=
  ⟨8 * n + 7, -3, by push_cast; rw [zpow_neg]; norm_num; ring, h⟩

theorem roundDouble_int (n : ℤ) (h0 : 0 ≤ n) (h : n < 2 ^ 53) : roundDouble (n : ℚ) = n :=
  roundDouble_exact _ (by exact_mod_cast h0) (representable_int n (by rw [abs_of_nonneg h0]; exact h))

/-- The `double` nearest to 0.8. -/
theorem roundDouble_four_fifths :
    roundDouble (4 / 5) = 3602879701896397 / 4503599627370496 := by
  rw [roundDouble_of_pos _ (by norm_num),
    roundPos_eq (4 / 5) (-1) 7205759403792794 (by norm_num) (by norm_num)
      (by rw [abs_lt]; constructor <;> norm_num)]
  norm_num

theorem stdMin_eq_min (a b : ℚ) : stdMin a b = min a b := by
  unfold stdMin
  split_ifs with h
  · exact (min_eq_right h.le).symm
  · exact (min_eq_left (not_lt.1 h)).symm

theorem kInfDuration_eq : TimeControl.kInfDuration = 1000000000000 := by
  unfold TimeControl.kInfDuration
  exact_mod_cast roundDouble_int 1000000000000 (by norm_num) (by norm_num)

theorem kSafeFactor_eq :
    TimeControl.kSafeFactor = 3602879701896397 / 4503599627370496 :=
  roundDouble_four_fifths

theorem toInt64_of_nonneg (x : ℚ) (h0 : 0 ≤ x) (h1 : x < 9223372036854775808) :
    toInt64 x = some ⌊x⌋ := by
  unfold toInt64
  simp only [h0, if_true]
  have a1 : (0 : ℤ) ≤ ⌊x⌋ := Int.floor_nonneg.2 h0
  have a2 : ⌊x⌋ < 9223372036854775808 := by
    have : (⌊x⌋ : ℚ) < 9223372036854775808 := lt_of_le_of_lt (Int.floor_le x) h1
    exact_mod_cast this
  rw [if_pos ⟨by omega, a2⟩]

/-- `TimeControl::initialize` in terms of `moveCount`, `budgetShare` and
`openingCap`. -/
theorem initialize_eq (go : GoParameters) (own : Nat) (ply : Int) :
    TimeControl.initialize go own ply =
      (if go.time own ≠ 0 then
        (if ply ≤ 8 then
          (if moveCount go ply = 0 then
            (if 0 ≤ roundDouble (roundDouble (go.time own) +
                roundDouble (roundDouble (go.inc own) *
                  ((wrap32 (moveCount go ply - 1) : Int) : ℚ))) then
              some (if go.movetime ≠ 0 then
                stdMin TimeControl.kInfDuration (roundDouble go.movetime)
                else TimeControl.kInfDuration)
            else none)
          else some (stdMin (if go.movetime ≠ 0 then
                stdMin TimeControl.kInfDuration (roundDouble go.movetime)
                else TimeControl.kInfDuration) (budgetShare go own ply))).map
            (fun duration => stdMin duration (openingCap ply))
        else
          (if moveCount go ply = 0 then
            (if 0 ≤ roundDouble (roundDouble (go.time own) +
                roundDouble (roundDouble (go.inc own) *
                  ((wrap32 (moveCount go ply - 1) : Int) : ℚ))) then
              some (if go.movetime ≠ 0 then
                stdMin TimeControl.kInfDuration (roundDouble go.movetime)
                else TimeControl.kInfDuration)
            else none)
          else some (stdMin (if go.movetime ≠ 0 then
                stdMin TimeControl.kInfDuration (roundDouble go.movetime)
                else TimeControl.kInfDuration) (budgetShare go own ply))))
      else some (if go.movetime ≠ 0 then
        stdMin TimeControl.kInfDuration (roundDouble go.movetime)
        else TimeControl.kInfDuration)).bind
        (fun duration => toInt64 (roundDouble (TimeControl.kSafeFactor * duration))) :=
  rfl

/-- The sequence of `std::min` updates of `TimeControl::initialize` computes the
minimum of `deadlineTerms` and `kInfDuration`. -/
theorem initialize_eq_min (go : GoParameters) (own : Nat) (ply : Int)
    (hcnt : go.time own ≠ 0 → moveCount go ply ≠ 0) :
    TimeControl.initialize go own ply =
      toInt64 (roundDouble (TimeControl.kSafeFactor *
        (deadlineTerms go own ply).foldl min TimeControl.kInfDuration)) := by
  rw [initialize_eq]
  unfold deadlineTerms
  by_cases ht : go.time own = 0
  · rw [if_neg (not_not.2 ht), if_neg (not_not.2 ht)]
    by_cases hm : go.movetime = 0
    · rw [if_neg (not_not.2 hm), if_neg (not_not.2 hm), Option.some_bind, List.append_nil,
        List.foldl_nil]
    · rw [if_pos hm, if_pos hm, stdMin_eq_min, Option.some_bind, List.append_nil,
        List.foldl_cons, List.foldl_nil]
  · have hc := hcnt ht
    rw [if_pos ht, if_pos ht]
    by_cases hp : ply ≤ 8
    · rw [if_pos hp, if_pos hp, if_neg hc]
      by_cases hm : go.movetime = 0
      · rw [if_neg (not_not.2 hm), if_neg (not_not.2 hm), Option.map_some', Option.some_bind,
          List.nil_append, List.foldl_cons, List.foldl_cons, List.foldl_nil, stdMin_eq_min,
          stdMin_eq_min]
      · rw [if_pos hm, if_pos hm, Option.map_some', Option.some_bind,
          List.singleton_append, List.foldl_cons, List.foldl_cons, List.foldl_cons,
          List.foldl_nil, stdMin_eq_min, stdMin_eq_min, stdMin_eq_min]
    · rw [if_neg hp, if_neg hp, if_neg hc]
      by_cases hm : go.movetime = 0
      · rw [if_neg (not_not.2 hm), if_neg (not_not.2 hm), Option.some_bind,
          List.nil_append, List.foldl_cons, List.foldl_nil, stdMin_eq_min]
      · rw [if_pos hm, if_pos hm, Option.some_bind,
          List.singleton_append, List.foldl_cons, List.foldl_cons,
          List.foldl_nil, stdMin_eq_min, stdMin_eq_min]

theorem toInt64_natCast (n : ℕ) (h : (n : ℤ) < 9223372036854775808) :
    toInt64 (n : ℚ) = some (n : ℤ) := by
  rw [toInt64_of_nonneg _ (Nat.cast_nonneg n) (by exact_mod_cast h), Int.floor_natCast]

/-- C13, as stated, fails: for `go movetime 5000` (no clock times) at ply 0
`TimeControl::initialize` allots `int64_t(0.8 * 5000) = 4000` milliseconds; the
opening cap `1000 + 125 * 0` is not applied, with it the duration would be
`0.8 * min(5000, 1000) = 800`. -/
theorem opening_cap_needs_clock_time :
    TimeControl.initialize movetimeOnly 0 0 = some 4000 ∧
    claimedDeadline movetimeOnly 0 0 = 800 := by
  have h5 : roundDouble 5000 = 5000 := by
    exact_mod_cast roundDouble_int 5000 (by norm_num) (by norm_num)
  have hmin : stdMin TimeControl.kInfDuration 5000 = 5000 := by
    rw [stdMin_eq_min, kInfDuration_eq]; norm_num
  have hp : roundDouble (TimeControl.kSafeFactor * 5000) = ((4000 : ℕ) : ℚ) := by
    rw [kSafeFactor_eq, roundDouble_of_pos _ (by norm_num),
      roundPos_eq _ 11 8796093022208000 (by norm_num) (by norm_num)
        (by rw [abs_lt]; constructor <;> norm_num)]
    norm_num
  constructor
  · rw [initialize_eq]
    have e1 : movetimeOnly.time 0 = 0 := rfl
    have e2 : movetimeOnly.movetime = 5000 := rfl
    rw [if_neg (not_not.2 e1), e2, if_pos (by norm_num), Option.some_bind]
    have e3 : ((5000 : ℤ) : ℚ) = 5000 := by norm_num
    rw [e3, h5, hmin, hp, toInt64_natCast _ (by norm_num)]
    rfl
  · simp only [claimedDeadline, movetimeOnly]
    norm_num

theorem clockGo_moveCount : moveCount clockGo 3 = 40 := by
  simp [moveCount, clockGo, wrap32]

theorem stdMin_le_left (a b : ℚ) : stdMin a b ≤ a := by
  rw [stdMin_eq_min]; exact min_le_left _ _

theorem stdMin_le_right (a b : ℚ) : stdMin a b ≤ b := by
  rw [stdMin_eq_min]; exact min_le_right _ _

theorem stdMin_nonneg (a b : ℚ) (ha : 0 ≤ a) (hb : 0 ≤ b) : 0 ≤ stdMin a b := by
  rw [stdMin_eq_min]; exact le_min ha hb

/-- The budget share in `double` arithmetic exceeds the clock time by at most
three roundings when the increment is at most the clock time. -/
theorem share_le (t i c : ℤ) (w : ℚ) (hw : 1 ≤ w)
    (hround : ∀ x : ℚ, 0 ≤ x → roundDouble x ≤ x * w)
    (ht : 0 ≤ t) (hi0 : 0 ≤ i) (hi : i ≤ t) (hc : 1 ≤ c) :
    0 ≤ roundDouble (roundDouble ((t : ℚ) + roundDouble ((i : ℚ) * ((c : ℚ) - 1))) / (c : ℚ)) ∧
    roundDouble (roundDouble ((t : ℚ) + roundDouble ((i : ℚ) * ((c : ℚ) - 1))) / (c : ℚ)) ≤
      (t : ℚ) * w ^ 3 := by
  have ht' : (0 : ℚ) ≤ t := by exact_mod_cast ht
  have hi0' : (0 : ℚ) ≤ i := by exact_mod_cast hi0
  have hi' : (i : ℚ) ≤ t := by exact_mod_cast hi
  have hc' : (1 : ℚ) ≤ c := by exact_mod_cast hc
  have hc0 : (0 : ℚ) < c := by linarith
  have hc1 : (0 : ℚ) ≤ (c : ℚ) - 1 := by linarith
  have hw0 : (0 : ℚ) ≤ w := by linarith
  obtain ⟨prod, hprod⟩ : ∃ prod, roundDouble ((i : ℚ) * ((c : ℚ) - 1)) = prod := ⟨_, rfl⟩
  have hp0 : 0 ≤ prod := hprod ▸ roundDouble_nonneg _ (mul_nonneg hi0' hc1)
  have hp1 : prod ≤ (t : ℚ) * ((c : ℚ) - 1) * w := by
    rw [← hprod]
    exact (hround _ (mul_nonneg hi0' hc1)).trans
      (mul_le_mul_of_nonneg_right (mul_le_mul_of_nonneg_right hi' hc1) hw0)
  rw [hprod]
  obtain ⟨sum, hsum⟩ : ∃ sum, roundDouble ((t : ℚ) + prod) = sum := ⟨_, rfl⟩
  have hs0 : 0 ≤ sum := hsum ▸ roundDouble_nonneg _ (add_nonneg ht' hp0)
  have hs1 : sum ≤ (t : ℚ) * (c : ℚ) * w ^ 2 := by
    rw [← hsum]
    refine (hround _ (add_nonneg ht' hp0)).trans ?_
    have h1 : (t : ℚ) + prod ≤ (t : ℚ) * (c : ℚ) * w := by
      have : (t : ℚ) ≤ (t : ℚ) * w := le_mul_of_one_le_right ht' hw
      nlinarith
    calc ((t : ℚ) + prod) * w ≤ ((t : ℚ) * (c : ℚ) * w) * w :=
          mul_le_mul_of_nonneg_right h1 hw0
      _ = (t : ℚ) * (c : ℚ) * w ^ 2 := by ring
  rw [hsum]
  have hq0 : 0 ≤ sum / (c : ℚ) := div_nonneg hs0 hc0.le
  have hq1 : sum / (c : ℚ) ≤ (t : ℚ) * w ^ 2 := by
    rw [div_le_iff₀ hc0]
    calc sum ≤ (t : ℚ) * (c : ℚ) * w ^ 2 := hs1
      _ = (t : ℚ) * w ^ 2 * (c : ℚ) := by ring
  refine ⟨roundDouble_nonneg _ hq0, (hround _ hq0).trans ?_⟩
  calc sum / (c : ℚ) * w ≤ ((t : ℚ) * w ^ 2) * w := mul_le_mul_of_nonneg_right hq1 hw0
    _ = (t : ℚ) * w ^ 3 := by ring

/-- The conversion of `0.8 * duration` to whole milliseconds stays within 0.8
times an integer bound `B ≤ 1e12` that `duration` exceeds by at most three
roundings. -/
theorem budget_core (d : ℚ) (B : ℤ) (hd0 : 0 ≤ d) (hB0 : 0 ≤ B) (hB : B ≤ 1000000000000)
    (hdB : d ≤ (B : ℚ) * (1 + 1 / 2 ^ 53) ^ 3) :
    ∃ r, toInt64 (roundDouble (TimeControl.kSafeFactor * d)) = some r ∧ 0 ≤ r ∧ 5 * r ≤ 4 * B := by
  have hB0' : (0 : ℚ) ≤ B := by exact_mod_cast hB0
  have hB' : (B : ℚ) ≤ 1000000000000 := by exact_mod_cast hB
  have hN1 : 5 * (4 * B / 5) ≤ 4 * B := by omega
  have hN2 : 4 * B < 5 * (4 * B / 5) + 5 := by omega
  have hN0 : 0 ≤ 4 * B / 5 := by omega
  obtain ⟨N, hN⟩ : ∃ N : ℤ, 4 * B / 5 = N := ⟨_, rfl⟩
  rw [hN] at hN1 hN2 hN0
  have hN2' : 4 * (B : ℚ) ≤ 5 * (N : ℚ) + 4 := by
    have : 4 * B ≤ 5 * N + 4 := by omega
    exact_mod_cast this
  have hN0' : (0 : ℚ) ≤ N := by exact_mod_cast hN0
  have hy0 : 0 ≤ TimeControl.kSafeFactor * d := by
    rw [kSafeFactor_eq]; positivity
  have hk : (3602879701896397 / 4503599627370496 : ℚ) * (1 + 1 / 2 ^ 53) ^ 3 ≤
      4 / 5 + 1 / 1000000000000000 := by norm_num
  have hy1 : TimeControl.kSafeFactor * d ≤ (N : ℚ) + 7 / 8 := by
    rw [kSafeFactor_eq]
    have h1 : (3602879701896397 / 4503599627370496 : ℚ) * d ≤
        (3602879701896397 / 4503599627370496 : ℚ) * ((B : ℚ) * (1 + 1 / 2 ^ 53) ^ 3) :=
      mul_le_mul_of_nonneg_left hdB (by norm_num)
    have h2 : (3602879701896397 / 4503599627370496 : ℚ) * ((B : ℚ) * (1 + 1 / 2 ^ 53) ^ 3) ≤
        (B : ℚ) * (4 / 5 + 1 / 1000000000000000) := by
      calc (3602879701896397 / 4503599627370496 : ℚ) * ((B : ℚ) * (1 + 1 / 2 ^ 53) ^ 3)
          = (B : ℚ) * ((3602879701896397 / 4503599627370496 : ℚ) * (1 + 1 / 2 ^ 53) ^ 3) := by
            ring
        _ ≤ (B : ℚ) * (4 / 5 + 1 / 1000000000000000) := mul_le_mul_of_nonneg_left hk hB0'
    linarith
  have hrep : Representable ((N : ℚ) + 7 / 8) :=
    representable_eighths N (by rw [abs_of_nonneg (by omega)]; omega)
  have hp1 := roundDouble_le _ _ hy0 hy1 hrep
  have hp0 := roundDouble_nonneg _ hy0
  have hN3 : (N : ℚ) ≤ 800000000000 := by
    have : N ≤ 800000000000 := by omega
    exact_mod_cast this
  refine ⟨⌊roundDouble (TimeControl.kSafeFactor * d)⌋,
    toInt64_of_nonneg _ hp0 (by linarith), Int.floor_nonneg.2 hp0, ?_⟩
  have hfl : ⌊roundDouble (TimeControl.kSafeFactor * d)⌋ < N + 1 := by
    rw [Int.floor_lt]
    push_cast
    linarith
  omega

theorem moveCount_bounds (go : GoParameters) (ply : Int)
    (hm0 : 0 ≤ go.movestogo) (hm : go.movestogo < 2147483648) (hp0 : 0 ≤ ply) :
    1 ≤ moveCount go ply ∧ wrap32 (moveCount go ply - 1) = moveCount go ply - 1 := by
  have htd : 0 ≤ Int.tdiv ply 2 := Int.tdiv_nonneg hp0 (by norm_num)
  have hv : 1 ≤ (if go.movestogo ≠ 0 then go.movestogo else max 10 (32 - Int.tdiv ply 2)) ∧
      (if go.movestogo ≠ 0 then go.movestogo else max 10 (32 - Int.tdiv ply 2)) < 2147483648 := by
    split_ifs with h
    · omega
    · constructor
      · exact le_trans (by norm_num) (le_max_left _ _)
      · exact max_lt (by norm_num) (by omega)
  unfold moveCount
  rw [wrap32_of_bounds _ (by omega) hv.2]
  exact ⟨hv.1, wrap32_of_bounds _ (by omega) (by omega)⟩

theorem budgetShare_nonneg (go : GoParameters) (own : Nat) (ply : Int)
    (ht : 0 ≤ go.time own) (hi0 : 0 ≤ go.inc own)
    (hc : 1 ≤ moveCount go ply)
    (hw : wrap32 (moveCount go ply - 1) = moveCount go ply - 1) :
    0 ≤ budgetShare go own ply := by
  unfold budgetShare
  rw [hw]
  have h1 : (0 : ℚ) ≤ roundDouble (go.time own) :=
    roundDouble_nonneg _ (by exact_mod_cast ht)
  have h2 : (0 : ℚ) ≤ roundDouble (go.inc own) :=
    roundDouble_nonneg _ (by exact_mod_cast hi0)
  have h3 : (0 : ℚ) ≤ ((moveCount go ply - 1 : ℤ) : ℚ) := by
    have : 0 ≤ moveCount go ply - 1 := by omega
    exact_mod_cast this
  have h4 : (0 : ℚ) ≤ (moveCount go ply : ℚ) := by
    have : 0 ≤ moveCount go ply := by omega
    exact_mod_cast this
  exact roundDouble_nonneg _ (div_nonneg (roundDouble_nonneg _
    (add_nonneg h1 (roundDouble_nonneg _ (mul_nonneg h2 h3)))) h4)

theorem budgetShare_le (go : GoParameters) (own : Nat) (ply : Int)
    (ht : 0 ≤ go.time own) (ht1 : go.time own < 1000000000000) (hi0 : 0 ≤ go.inc own)
    (hi : go.inc own ≤ go.time own) (hc : 1 ≤ moveCount go ply)
    (hw : wrap32 (moveCount go ply - 1) = moveCount go ply - 1) :
    budgetShare go own ply ≤ (go.time own : ℚ) * (1 + 1 / 2 ^ 53) ^ 3 := by
  unfold budgetShare
  rw [hw, roundDouble_int _ ht (by omega), roundDouble_int _ hi0 (by omega)]
  have := (share_le (go.time own) (go.inc own) (moveCount go ply) (1 + 1 / 2 ^ 53) (by norm_num)
    roundDouble_upper ht hi0 hi hc).2
  push_cast
  exact this

theorem openingCap_nonneg (ply : Int) (hp0 : 0 ≤ ply) : 0 ≤ openingCap ply := by
  unfold openingCap
  have h1 : (0 : ℚ) ≤ roundDouble (1000 / 8) := roundDouble_nonneg _ (by norm_num)
  have h2 : (0 : ℚ) ≤ (ply : ℚ) := by exact_mod_cast hp0
  exact roundDouble_nonneg _ (add_nonneg (by norm_num) (roundDouble_nonneg _ (mul_nonneg h1 h2)))

/-- C20, as amended (the time budget stays within the remaining clock): for
go-parameters with `time[own] > 0`, `0 ≤ inc[own] ≤ time[own]`,
`0 ≤ movestogo < 2 ^ 31` (so that `movestogo` fits the `int cnt` it is stored
in), `movetime ≥ 0` and `ply ≥ 0`, `TimeControl::initialize` allots a defined,
non-negative number of milliseconds that is at most `0.8 * time[own]`. -/
theorem time_budget_within_clock (go : GoParameters) (own : Nat) (ply : Int)
    (ht : 0 < go.time own) (hi0 : 0 ≤ go.inc own) (hi : go.inc own ≤ go.time own)
    (hm0 : 0 ≤ go.movestogo) (hm : go.movestogo < 2147483648)
    (hmt : 0 ≤ go.movetime) (hp0 : 0 ≤ ply) :
    ∃ d, TimeControl.initialize go own ply = some d ∧ 0 ≤ d ∧ 5 * d ≤ 4 * go.time own := by
  obtain ⟨hc, hw⟩ := moveCount_bounds go ply hm0 hm hp0
  have hs0 := budgetShare_nonneg go own ply ht.le hi0 hc hw
  have hcap := openingCap_nonneg ply hp0
  obtain ⟨d1, hd1⟩ : ∃ d1 : ℚ, (if go.movetime ≠ 0 then
      stdMin TimeControl.kInfDuration (roundDouble go.movetime)
      else TimeControl.kInfDuration) = d1 := ⟨_, rfl⟩
  have hd1a : 0 ≤ d1 := by
    rw [← hd1]
    split_ifs
    · exact stdMin_nonneg _ _ (by rw [kInfDuration_eq]; norm_num)
        (roundDouble_nonneg _ (by exact_mod_cast hmt))
    · rw [kInfDuration_eq]; norm_num
  have hd1b : d1 ≤ 1000000000000 := by
    rw [← hd1]
    split_ifs
    · exact (stdMin_le_left _ _).trans kInfDuration_eq.le
    · exact kInfDuration_eq.le
  -- the duration that is scaled by the safety factor
  obtain ⟨d, hd, hd0, hdd1, hds⟩ : ∃ d : ℚ,
      TimeControl.initialize go own ply =
        toInt64 (roundDouble (TimeControl.kSafeFactor * d)) ∧
      0 ≤ d ∧ d ≤ d1 ∧ d ≤ budgetShare go own ply := by
    rw [initialize_eq, if_pos ht.ne', hd1]
    by_cases hp : ply ≤ 8
    · rw [if_pos hp, if_neg (by omega), Option.map_some', Option.some_bind]
      exact ⟨_, rfl, stdMin_nonneg _ _ (stdMin_nonneg _ _ hd1a hs0) hcap,
        (stdMin_le_left _ _).trans (stdMin_le_left _ _),
        (stdMin_le_left _ _).trans (stdMin_le_right _ _)⟩
    · rw [if_neg hp, if_neg (by omega), Option.some_bind]
      exact ⟨_, rfl, stdMin_nonneg _ _ hd1a hs0, stdMin_le_left _ _, stdMin_le_right _ _⟩
  rw [hd]
  have hw1 : (1 : ℚ) ≤ (1 + 1 / 2 ^ 53) ^ 3 := one_le_pow₀ (by norm_num)
  by_cases hbig : go.time own < 1000000000000
  · have hsh := budgetShare_le go own ply ht.le hbig hi0 hi hc hw
    obtain ⟨r, hr, hr0, hr1⟩ := budget_core d (go.time own) hd0 ht.le hbig.le (hds.trans hsh)
    exact ⟨r, hr, hr0, hr1⟩
  · have hB : d ≤ ((1000000000000 : ℤ) : ℚ) * (1 + 1 / 2 ^ 53) ^ 3 := by
      have : (1000000000000 : ℚ) ≤ ((1000000000000 : ℤ) : ℚ) * (1 + 1 / 2 ^ 53) ^ 3 := by
        push_cast
        exact le_mul_of_one_le_right (by norm_num) hw1
      exact (hdd1.trans hd1b).trans this
    obtain ⟨r, hr, hr0, hr1⟩ := budget_core d 1000000000000 hd0 (by norm_num) le_rfl hB
    exact ⟨r, hr, hr0, by omega⟩

theorem time_budget_within_clock_witness :
    0 < clockGo.time 0 ∧ 0 ≤ clockGo.inc 0 ∧ clockGo.inc 0 ≤ clockGo.time 0 ∧
    0 ≤ clockGo.movestogo ∧ clockGo.movestogo < 2147483648 ∧ 0 ≤ clockGo.movetime ∧
    (0 : Int) ≤ 3 ∧
    ∃ d, TimeControl.initialize clockGo 0 3 = some d ∧ 0 ≤ d ∧ 5 * d ≤ 4 * clockGo.time 0 :=
  ⟨by decide, by decide, by decide, by decide, by decide, by decide, by decide,
   time_budget_within_clock clockGo 0 3 (by decide) (by decide) (by decide) (by decide)
     (by decide) (by decide) (by decide)⟩

theorem hugeMovesToGo_moveCount : moveCount hugeMovesToGo 20 = 0 := by
  simp [moveCount, hugeMovesToGo, wrap32]

/-- C20, as stated, fails: the parameters of `go wtime 1000 movestogo 4294967296`
at ply 20 satisfy `time[own] > 0`, `0 ≤ inc[own] ≤ time[own]`, `movestogo ≥ 0`
and `movetime ≥ 0`, but `int cnt = go.movestogo` is 0, the budget share is a
division by zero (`+inf`), `std::min` keeps `1e12`, and
`TimeControl::initialize` allots `int64_t(0.8 * 1e12) = 800000000000`
milliseconds, more than `0.8 * 1000`. -/
theorem budget_exceeds_clock :
    0 < hugeMovesToGo.time 0 ∧ 0 ≤ hugeMovesToGo.inc 0 ∧
    hugeMovesToGo.inc 0 ≤ hugeMovesToGo.time 0 ∧ 0 ≤ hugeMovesToGo.movestogo ∧
    0 ≤ hugeMovesToGo.movetime ∧ (0 : Int) ≤ 20 ∧
    TimeControl.initialize hugeMovesToGo 0 20 = some 800000000000 ∧
    ¬ (5 * (800000000000 : Int) ≤ 4 * hugeMovesToGo.time 0) := by
  have hp : roundDouble (TimeControl.kSafeFactor * TimeControl.kInfDuration) =
      ((800000000000 : ℕ) : ℚ) := by
    rw [kSafeFactor_eq, kInfDuration_eq, roundDouble_of_pos _ (by norm_num),
      roundPos_eq _ 39 6553600000000000 (by norm_num) (by norm_num)
        (by rw [abs_lt]; constructor <;> norm_num)]
    norm_num
  have e1 : hugeMovesToGo.time 0 = 1000 := rfl
  have e2 : hugeMovesToGo.inc 0 = 0 := rfl
  have e3 : hugeMovesToGo.movetime = 0 := rfl
  have hnum : (0 : ℚ) ≤ roundDouble (roundDouble (hugeMovesToGo.time 0) +
      roundDouble (roundDouble (hugeMovesToGo.inc 0) *
        ((wrap32 (moveCount hugeMovesToGo 20 - 1) : Int) : ℚ))) := by
    rw [e2]
    have h0 : roundDouble ((0 : ℤ) : ℚ) = 0 := by
      rw [Int.cast_zero]; exact roundDouble_zero
    rw [h0, zero_mul, roundDouble_zero, add_zero]
    exact roundDouble_nonneg _ (roundDouble_nonneg _ (by rw [e1]; norm_num))
  refine ⟨by decide, by decide, by decide, by decide, by decide, by decide, ?_, by decide⟩
  rw [initialize_eq, if_pos (by rw [e1]; decide), if_neg (by decide),
    if_pos hugeMovesToGo_moveCount, if_pos hnum, if_neg (not_not.2 e3), Option.some_bind, hp,
    toInt64_natCast _ (by norm_num)]
  rfl

theorem kSafeFactor_ge : (4 / 5 : ℚ) ≤ TimeControl.kSafeFactor := by
  rw [kSafeFactor_eq]; norm_num

theorem representable_quarters (N : ℤ) (h0 : 0 ≤ N) (h : N ≤ 1000000000000) :
    Representable (5 / 4 * (N : ℚ)) :=
  ⟨5 * N, -2, by push_cast; rw [zpow_neg]; norm_num; ring,
    by rw [abs_of_nonneg (by omega)]; omega⟩

theorem representable_below_succ (N : ℤ) (h0 : 0 ≤ N) (h : N ≤ 4294967296) :
    Representable ((N : ℚ) + 1 - 1 / 16384) :=
  ⟨16384 * (N + 1) - 1, -14, by push_cast; rw [zpow_neg]; norm_num; ring,
    by rw [abs_of_nonneg (by omega)]; omega⟩

/-- Lower bound of the scaled duration: from `5 N / 4 ≤ d` follows
`N ≤ double(0.8 * d)`. -/
theorem scaled_ge (d : ℚ) (N : ℤ) (hN0 : 0 ≤ N) (hN : N ≤ 1000000000000)
    (hd : 5 / 4 * (N : ℚ) ≤ d) :
    (N : ℚ) ≤ roundDouble (TimeControl.kSafeFactor * d) := by
  have hN0' : (0 : ℚ) ≤ N := by exact_mod_cast hN0
  have hd0 : 0 ≤ d := le_trans (by positivity) hd
  have hks := kSafeFactor_ge
  have hy : (N : ℚ) ≤ TimeControl.kSafeFactor * d := by
    calc (N : ℚ) = 4 / 5 * (5 / 4 * (N : ℚ)) := by ring
      _ ≤ 4 / 5 * d := mul_le_mul_of_nonneg_left hd (by norm_num)
      _ ≤ TimeControl.kSafeFactor * d := mul_le_mul_of_nonneg_right hks hd0
  exact le_roundDouble _ _ hN0' hy (representable_int N (by rw [abs_of_nonneg hN0]; omega))

/-- Upper bound of the scaled duration when the minimum is an integer `X`. -/
theorem scaled_le_of_int (d : ℚ) (X N : ℤ) (hd0 : 0 ≤ d) (hd : d ≤ X)
    (hN0 : 0 ≤ N) (hN : N ≤ 1000000000000) (hX : X ≤ 1000000000000)
    (h4 : 4 * X ≤ 5 * N + 4) :
    roundDouble (TimeControl.kSafeFactor * d) ≤ (N : ℚ) + 7 / 8 := by
  have hX' : (X : ℚ) ≤ 1000000000000 := by exact_mod_cast hX
  have h4' : (4 : ℚ) * X ≤ 5 * (N : ℚ) + 4 := by exact_mod_cast h4
  have hks := kSafeFactor_ge
  have hy0 : 0 ≤ TimeControl.kSafeFactor * d := mul_nonneg (le_trans (by norm_num) hks) hd0
  have hy : TimeControl.kSafeFactor * d ≤ (N : ℚ) + 7 / 8 := by
    have h1 : TimeControl.kSafeFactor * d ≤ TimeControl.kSafeFactor * X :=
      mul_le_mul_of_nonneg_left hd (le_trans (by norm_num) hks)
    rw [kSafeFactor_eq] at h1 ⊢
    have h2 : (3602879701896397 / 4503599627370496 : ℚ) * X ≤ 4 / 5 * (X : ℚ) + 1 / 1000 := by
      have : (3602879701896397 / 4503599627370496 : ℚ) - 4 / 5 ≤ 1 / 1000000000000000 := by
        norm_num
      have hX0 : (0 : ℚ) ≤ X := hd0.trans hd
      nlinarith
    linarith
  exact roundDouble_le _ _ hy0 hy
    (representable_eighths N (by rw [abs_of_nonneg (by omega)]; omega))

/-- Upper bound of the scaled duration when the minimum is a rounded quotient
`q` whose exact scaled value keeps a gap of `1 / 5120` below `N + 1`. -/
theorem scaled_le_of_quotient (d q : ℚ) (N : ℤ) (hd0 : 0 ≤ d)
    (hd : d ≤ q * (1 + 1 / 2 ^ 53)) (hq : q ≤ 4294967296)
    (hN0 : 0 ≤ N) (hN : N ≤ 4294967296) (hgap : (4 / 5 : ℚ) * q ≤ (N : ℚ) + 1 - 1 / 5120) :
    roundDouble (TimeControl.kSafeFactor * d) ≤ (N : ℚ) + 1 - 1 / 16384 := by
  have hks := kSafeFactor_ge
  have hy0 : 0 ≤ TimeControl.kSafeFactor * d := mul_nonneg (le_trans (by norm_num) hks) hd0
  have hy : TimeControl.kSafeFactor * d ≤ (N : ℚ) + 1 - 1 / 16384 := by
    have h1 : TimeControl.kSafeFactor * d ≤ TimeControl.kSafeFactor * (q * (1 + 1 / 2 ^ 53)) :=
      mul_le_mul_of_nonneg_left hd (le_trans (by norm_num) hks)
    rw [kSafeFactor_eq] at h1 ⊢
    have h2 : (3602879701896397 / 4503599627370496 : ℚ) * (q * (1 + 1 / 2 ^ 53)) ≤
        4 / 5 * q + 1 / 1000000 := by
      have : (3602879701896397 / 4503599627370496 : ℚ) * (1 + 1 / 2 ^ 53) - 4 / 5 ≤
          1 / 5000000000000000 := by norm_num
      nlinarith
    linarith
  exact roundDouble_le _ _ hy0 hy (representable_below_succ N hN0 hN)

/-- The scaling by the safety factor and the conversion to whole milliseconds
are exact up to rounding down: for the minimum of an integer `X ≤ 1e12` and the
rounded quotient of `a / c` with `1 ≤ c ≤ 1024` and `0 ≤ a ≤ 2 ^ 32 * c`, the
result is the floor of `4 / 5` times the exact minimum. -/
theorem scale_core (X a c : ℤ) (hX0 : 0 ≤ X) (hX : X ≤ 1000000000000)
    (ha0 : 0 ≤ a) (hc1 : 1 ≤ c) (hc : c ≤ 1024) (ha : a ≤ 4294967296 * c) :
    toInt64 (roundDouble (TimeControl.kSafeFactor * min (X : ℚ) (roundDouble ((a : ℚ) / c)))) =
      some ⌊(4 / 5 : ℚ) * min (X : ℚ) ((a : ℚ) / c)⌋ := by
  have hX0' : (0 : ℚ) ≤ X := by exact_mod_cast hX0
  have hX' : (X : ℚ) ≤ 1000000000000 := by exact_mod_cast hX
  have ha0' : (0 : ℚ) ≤ a := by exact_mod_cast ha0
  have hc1' : (1 : ℚ) ≤ c := by exact_mod_cast hc1
  have hc' : (c : ℚ) ≤ 1024 := by exact_mod_cast hc
  have hc0 : (0 : ℚ) < c := by linarith
  have ha' : (a : ℚ) ≤ 4294967296 * c := by exact_mod_cast ha
  obtain ⟨q, hq⟩ : ∃ q : ℚ, (a : ℚ) / c = q := ⟨_, rfl⟩
  have hq0 : 0 ≤ q := hq ▸ div_nonneg ha0' hc0.le
  have hq1 : q ≤ 4294967296 := by
    rw [← hq, div_le_iff₀ hc0]; exact ha'
  rw [hq]
  obtain ⟨N, hN⟩ : ∃ N : ℤ, ⌊(4 / 5 : ℚ) * min (X : ℚ) q⌋ = N := ⟨_, rfl⟩
  rw [hN]
  have hM0 : 0 ≤ (4 / 5 : ℚ) * min (X : ℚ) q := mul_nonneg (by norm_num) (le_min hX0' hq0)
  have hN0 : 0 ≤ N := hN ▸ Int.floor_nonneg.2 hM0
  have hNle : (N : ℚ) ≤ (4 / 5 : ℚ) * min (X : ℚ) q := hN ▸ Int.floor_le _
  have hNlt : (4 / 5 : ℚ) * min (X : ℚ) q < N + 1 := hN ▸ Int.lt_floor_add_one _
  have hNX : N ≤ 1000000000000 := by
    have h1 := min_le_left (X : ℚ) q
    have : (N : ℚ) ≤ 1000000000000 := by linarith
    exact_mod_cast this
  have hLM : 5 / 4 * (N : ℚ) ≤ min (X : ℚ) q := by linarith
  have hd_lo : 5 / 4 * (N : ℚ) ≤ min (X : ℚ) (roundDouble q) :=
    le_min (hLM.trans (min_le_left _ _))
      (le_roundDouble q _ (by have : (0 : ℚ) ≤ N := by exact_mod_cast hN0
                              positivity)
        (hLM.trans (min_le_right _ _)) (representable_quarters N hN0 hNX))
  have hd0 : 0 ≤ min (X : ℚ) (roundDouble q) := le_min hX0' (roundDouble_nonneg q hq0)
  have hp_lo := scaled_ge _ N hN0 hNX hd_lo
  have hp_hi : roundDouble (TimeControl.kSafeFactor * min (X : ℚ) (roundDouble q)) <
      (N : ℚ) + 1 := by
    by_cases hcase : (X : ℚ) ≤ q
    · rw [min_eq_left hcase] at hNlt
      have h4 : 4 * X ≤ 5 * N + 4 := by
        have : (4 : ℚ) * X < 5 * ((N : ℚ) + 1) := by linarith
        have h5 : 4 * X < 5 * (N + 1) := by exact_mod_cast this
        omega
      have := scaled_le_of_int _ X N hd0 (min_le_left _ _) hN0 hNX hX h4
      linarith
    · have hqX : q < X := not_le.1 hcase
      rw [min_eq_right hqX.le] at hNlt hNle
      have h4' : (4 : ℚ) * a + 1 ≤ 5 * c * ((N : ℚ) + 1) := by
        have : (4 : ℚ) * a < 5 * c * ((N : ℚ) + 1) := by
          have h5 : (4 / 5 : ℚ) * (a / c) < N + 1 := by rw [hq]; exact hNlt
          rw [mul_div_assoc', div_lt_iff₀ hc0] at h5
          linarith
        have h6 : 4 * a < 5 * c * (N + 1) := by exact_mod_cast this
        have h7 : 4 * a + 1 ≤ 5 * c * (N + 1) := by omega
        exact_mod_cast h7
      have hgap : (4 / 5 : ℚ) * q ≤ (N : ℚ) + 1 - 1 / 5120 := by
        rw [← hq]
        have h6 : (4 / 5 : ℚ) * (a / c) = (4 * a) / (5 * c) := by field_simp
        rw [h6, div_le_iff₀ (by positivity)]
        have h7 : (1 : ℚ) / 5120 * (5 * c) ≤ 1 := by linarith
        nlinarith
      have hN32 : N ≤ 4294967296 := by
        have : (N : ℚ) ≤ 4294967296 := by linarith
        exact_mod_cast this
      have := scaled_le_of_quotient _ q N hd0
        ((min_le_right _ _).trans (roundDouble_upper q hq0)) hq1 hN0 hN32 hgap
      linarith
  have hp0 : 0 ≤ roundDouble (TimeControl.kSafeFactor * min (X : ℚ) (roundDouble q)) :=
    le_trans (by exact_mod_cast hN0) hp_lo
  have hN1 : (N : ℚ) ≤ 1000000000000 := by exact_mod_cast hNX
  rw [toInt64_of_nonneg _ hp0 (by linarith)]
  congr 1
  rw [Int.floor_eq_iff]
  exact ⟨hp_lo, hp_hi⟩

theorem scale_int (X : ℤ) (hX0 : 0 ≤ X) (hX : X ≤ 1000000000000) :
    toInt64 (roundDouble (TimeControl.kSafeFactor * (X : ℚ))) = some ⌊(4 / 5 : ℚ) * (X : ℚ)⌋ := by
  have hX0' : (0 : ℚ) ≤ X := by exact_mod_cast hX0
  have hX' : (X : ℚ) ≤ 1000000000000 := by exact_mod_cast hX
  obtain ⟨N, hN⟩ : ∃ N : ℤ, ⌊(4 / 5 : ℚ) * (X : ℚ)⌋ = N := ⟨_, rfl⟩
  rw [hN]
  have hN0 : 0 ≤ N := hN ▸ Int.floor_nonneg.2 (by positivity)
  have hNle : (N : ℚ) ≤ (4 / 5 : ℚ) * (X : ℚ) := hN ▸ Int.floor_le _
  have hNlt : (4 / 5 : ℚ) * (X : ℚ) < N + 1 := hN ▸ Int.lt_floor_add_one _
  have hNX : N ≤ 1000000000000 := by
    have : (N : ℚ) ≤ 1000000000000 := by linarith
    exact_mod_cast this
  have h4 : 4 * X ≤ 5 * N + 4 := by
    have : (4 : ℚ) * X < 5 * ((N : ℚ) + 1) := by linarith
    have h5 : 4 * X < 5 * (N + 1) := by exact_mod_cast this
    omega
  have hp_lo := scaled_ge (X : ℚ) N hN0 hNX (by linarith)
  have hp_hi := scaled_le_of_int (X : ℚ) X N hX0' le_rfl hN0 hNX hX h4
  have hp0 : 0 ≤ roundDouble (TimeControl.kSafeFactor * (X : ℚ)) :=
    le_trans (by exact_mod_cast hN0) hp_lo
  have hN1 : (N : ℚ) ≤ 1000000000000 := by exact_mod_cast hNX
  rw [toInt64_of_nonneg _ hp0 (by linarith)]
  congr 1
  rw [Int.floor_eq_iff]
  exact ⟨hp_lo, by linarith⟩

theorem openingCap_exact (ply : Int) (hp0 : 0 ≤ ply) (hp : ply ≤ 8) :
    openingCap ply = ((1000 + 125 * ply : ℤ) : ℚ) := by
  unfold openingCap
  have h1 : roundDouble (1000 / 8) = ((125 : ℤ) : ℚ) := by
    have : (1000 / 8 : ℚ) = ((125 : ℤ) : ℚ) := by norm_num
    rw [this]; exact roundDouble_int 125 (by norm_num) (by norm_num)
  have h2 : roundDouble (((125 : ℤ) : ℚ) * (ply : ℚ)) = ((125 * ply : ℤ) : ℚ) := by
    rw [← Int.cast_mul]; exact roundDouble_int _ (by omega) (by omega)
  have h3 : roundDouble (1000 + ((125 * ply : ℤ) : ℚ)) = ((1000 + 125 * ply : ℤ) : ℚ) := by
    have : (1000 : ℚ) + ((125 * ply : ℤ) : ℚ) = ((1000 + 125 * ply : ℤ) : ℚ) := by push_cast; ring
    rw [this]; exact roundDouble_int _ (by omega) (by omega)
  rw [h1, h2, h3]

theorem budgetShare_exact (go : GoParameters) (own : Nat) (ply : Int)
    (ht0 : 0 ≤ go.time own) (ht : go.time own < 2147483648)
    (hi0 : 0 ≤ go.inc own) (hi : go.inc own < 2147483648)
    (hc1 : 1 ≤ moveCount go ply) (hc : moveCount go ply ≤ 1024)
    (hw : wrap32 (moveCount go ply - 1) = moveCount go ply - 1) :
    budgetShare go own ply =
      roundDouble (((go.time own + go.inc own * (moveCount go ply - 1) : ℤ) : ℚ) /
        (moveCount go ply : ℚ)) := by
  unfold budgetShare
  have hprod0 : 0 ≤ go.inc own * (moveCount go ply - 1) :=
    Int.mul_nonneg hi0 (by omega)
  have hprod1 : go.inc own * (moveCount go ply - 1) ≤ 2147483648 * 1023 :=
    Int.mul_le_mul (by omega) (by omega) (by omega) (by norm_num)
  rw [hw, roundDouble_int _ ht0 (by omega), roundDouble_int _ hi0 (by omega), ← Int.cast_mul,
    roundDouble_int _ hprod0 (by omega), ← Int.cast_add,
    roundDouble_int _ (by omega) (by omega)]

theorem foldl_min_comm (l : List ℚ) (K s : ℚ) :
    l.foldl min (min K s) = min (l.foldl min K) s := by
  induction l generalizing K with
  | nil => rfl
  | cons x rest ih =>
    simp only [List.foldl_cons]
    rw [min_right_comm, ih]

theorem foldl_min_insert (K s : ℚ) (pre post : List ℚ) :
    (pre ++ s :: post).foldl min K = min ((pre ++ post).foldl min K) s := by
  rw [List.foldl_append, List.foldl_cons, foldl_min_comm, List.foldl_append]

theorem foldl_min_int (l : List ℤ) (K : ℤ) :
    (l.map (fun x : ℤ => (x : ℚ))).foldl min (K : ℚ) = ((l.foldl min K : ℤ) : ℚ) := by
  induction l generalizing K with
  | nil => rfl
  | cons x rest ih =>
    simp only [List.map_cons, List.foldl_cons]
    rw [← Int.cast_min, ih]

theorem foldl_min_bounds (l : List ℤ) (K : ℤ) (hK : 0 ≤ K) (hl : ∀ x ∈ l, 0 ≤ x) :
    0 ≤ l.foldl min K ∧ l.foldl min K ≤ K := by
  induction l generalizing K with
  | nil => exact ⟨hK, le_rfl⟩
  | cons x rest ih =>
    simp only [List.foldl_cons]
    have hx := hl x (List.mem_cons_self _ _)
    obtain ⟨h1, h2⟩ := ih (min K x) (le_min hK hx)
      (fun y hy => hl y (List.mem_cons_of_mem _ hy))
    exact ⟨h1, h2.trans (min_le_left _ _)⟩

theorem moveCount_eq (go : GoParameters) (ply : Int)
    (hm0 : 0 ≤ go.movestogo) (hm : go.movestogo ≤ 1024) (hp0 : 0 ≤ ply) :
    moveCount go ply = (if go.movestogo ≠ 0 then go.movestogo else max 10 (32 - ply / 2)) ∧
    moveCount go ply ≤ 1024 := by
  have htd : Int.tdiv ply 2 = ply / 2 := Int.tdiv_eq_ediv hp0 (by norm_num)
  have hdiv : 0 ≤ ply / 2 := by omega
  unfold moveCount
  rw [htd]
  have hv : 1 ≤ (if go.movestogo ≠ 0 then go.movestogo else max 10 (32 - ply / 2)) ∧
      (if go.movestogo ≠ 0 then go.movestogo else max 10 (32 - ply / 2)) ≤ 1024 := by
    split_ifs with h
    · omega
    · constructor
      · exact le_trans (by norm_num) (le_max_left _ _)
      · exact max_le (by norm_num) (by omega)
  rw [wrap32_of_bounds _ (by omega) (by omega)]
  exact ⟨rfl, hv.2⟩

/-- Within the practical range (times below `2 ^ 31` ms, at most 1024 moves to
go) the `double` arithmetic of `TimeControl::initialize` is exact up to the
final truncation: the result is `0.8` times the exact minimum, rounded down to
whole milliseconds. -/
theorem initialize_exact (go : GoParameters) (own : Nat) (ply : Int)
    (hmt0 : 0 ≤ go.movetime) (hmt : go.movetime < 2147483648)
    (ht0 : 0 ≤ go.time own) (ht : go.time own < 2147483648)
    (hi0 : 0 ≤ go.inc own) (hi : go.inc own < 2147483648)
    (hm0 : 0 ≤ go.movestogo) (hm : go.movestogo ≤ 1024) (hp0 : 0 ≤ ply) :
    TimeControl.initialize go own ply =
      some ⌊(4 / 5 : ℚ) * deadlineMinimum go own ply⌋ := by
  obtain ⟨hc1, hw⟩ := moveCount_bounds go ply hm0 (by omega) hp0
  obtain ⟨hceq, hc⟩ := moveCount_eq go ply hm0 hm hp0
  rw [initialize_eq_min go own ply (fun _ => by omega), kInfDuration_eq]
  have hK : (1000000000000 : ℚ) = ((1000000000000 : ℤ) : ℚ) := by norm_num
  -- the terms other than the budget share are integers
  obtain ⟨pre, hpre⟩ : ∃ pre : List ℤ, pre = if go.movetime ≠ 0 then [go.movetime] else [] :=
    ⟨_, rfl⟩
  obtain ⟨post, hpost⟩ : ∃ post : List ℤ,
      post = if ply ≤ 8 then [1000 + 125 * ply] else [] := ⟨_, rfl⟩
  have hpre0 : ∀ x ∈ pre, 0 ≤ x := by
    intro x hx; rw [hpre] at hx; split_ifs at hx <;> simp at hx; omega
  have hpost0 : ∀ x ∈ post, 0 ≤ x := by
    intro x hx; rw [hpost] at hx; split_ifs at hx <;> simp at hx; omega
  have hpreD : (if go.movetime ≠ 0 then [roundDouble (go.movetime : ℚ)] else []) =
      pre.map (fun x : ℤ => (x : ℚ)) := by
    rw [hpre]; split_ifs
    · rw [roundDouble_int _ hmt0 (by omega)]; rfl
    · rfl
  have hpreE : (if go.movetime ≠ 0 then [(go.movetime : ℚ)] else []) =
      pre.map (fun x : ℤ => (x : ℚ)) := by
    rw [hpre]; split_ifs <;> rfl
  have hpostD : (if ply ≤ 8 then [openingCap ply] else []) =
      post.map (fun x : ℤ => (x : ℚ)) := by
    rw [hpost]; split_ifs with h
    · rw [openingCap_exact ply hp0 h]; rfl
    · rfl
  have hpostE : (if ply ≤ 8 then [(1000 : ℚ) + 125 * (ply : ℚ)] else []) =
      post.map (fun x : ℤ => (x : ℚ)) := by
    rw [hpost]; split_ifs
    · simp
    · rfl
  unfold deadlineTerms deadlineMinimum
  simp only []
  rw [hpreD, hpreE, hpostD, hpostE, ← hceq]
  by_cases hT : go.time own = 0
  · rw [if_neg (not_not.2 hT), if_neg (not_not.2 hT), List.append_nil, hK, foldl_min_int]
    obtain ⟨b1, b2⟩ := foldl_min_bounds pre 1000000000000 (by norm_num) hpre0
    exact scale_int _ b1 b2
  · rw [if_pos hT, if_pos hT, foldl_min_insert, foldl_min_insert, ← List.map_append, hK,
      foldl_min_int, budgetShare_exact go own ply ht0 ht hi0 hi hc1 hc hw]
    obtain ⟨b1, b2⟩ := foldl_min_bounds (pre ++ post) 1000000000000 (by norm_num)
      (fun x hx => (List.mem_append.1 hx).elim (hpre0 x) (hpost0 x))
    have hprod0 : 0 ≤ go.inc own * (moveCount go ply - 1) :=
      Int.mul_nonneg hi0 (by omega)
    have hprod1 : go.inc own * (moveCount go ply - 1) ≤ 2147483648 * (moveCount go ply - 1) :=
      Int.mul_le_mul_of_nonneg_right (by omega) (by omega)
    have h := scale_core ((pre ++ post).foldl min 1000000000000)
      (go.time own + go.inc own * (moveCount go ply - 1)) (moveCount go ply) b1 b2
      (by omega) hc1 hc (by nlinarith)
    rw [h]
    push_cast
    rfl

/-- C13, as amended (deadline formula): whenever `cnt` is not zero (or
`time[own]` is zero), the number of milliseconds that `TimeControl::initialize`
allots is `int64_t(0.8 * m)`, computed in `double` arithmetic, where `m` is the
minimum of `1e12` (no limit), of `movetime` when it is not zero and, only when
`time[own]` is not zero, of the budget share `(time + inc * (cnt - 1)) / cnt`
and, if `ply ≤ 8`, of the opening cap `1000 + 125 * ply`; a search limited only
by `movetime` has no opening cap. Within the practical range (`movetime`,
`time[own]`, `inc[own]` in `[0, 2 ^ 31)`, `0 ≤ movestogo ≤ 1024`, `ply ≥ 0`)
this is `0.8` times the exact minimum, rounded down to whole milliseconds. -/
theorem deadline_formula (go : GoParameters) (own : Nat) (ply : Int) :
    ((go.time own ≠ 0 → moveCount go ply ≠ 0) →
      TimeControl.initialize go own ply =
        toInt64 (roundDouble (TimeControl.kSafeFactor *
          (deadlineTerms go own ply).foldl min TimeControl.kInfDuration))) ∧
    (0 ≤ go.movetime → go.movetime < 2147483648 →
      0 ≤ go.time own → go.time own < 2147483648 →
      0 ≤ go.inc own → go.inc own < 2147483648 →
      0 ≤ go.movestogo → go.movestogo ≤ 1024 → 0 ≤ ply →
      TimeControl.initialize go own ply =
        some ⌊(4 / 5 : ℚ) * deadlineMinimum go own ply⌋) :=
  ⟨initialize_eq_min go own ply, initialize_exact go own ply⟩

theorem clockGo_minimum : deadlineMinimum clockGo 0 3 = 1375 := by
  simp only [deadlineMinimum, clockGo]
  norm_num

theorem deadline_formula_witness :
    (clockGo.time 0 ≠ 0 → moveCount clockGo 3 ≠ 0) ∧
    TimeControl.initialize clockGo 0 3 =
      toInt64 (roundDouble (TimeControl.kSafeFactor *
        (deadlineTerms clockGo 0 3).foldl min TimeControl.kInfDuration)) ∧
    deadlineMinimum clockGo 0 3 = 1375 ∧
    TimeControl.initialize clockGo 0 3 = some 1100 :=
  ⟨fun _ => by rw [clockGo_moveCount]; decide,
   (deadline_formula clockGo 0 3).1 (fun _ => by rw [clockGo_moveCount]; decide),
   clockGo_minimum,
   ((deadline_formula clockGo 0 3).2 (by decide) (by decide) (by decide) (by decide)
      (by decide) (by decide) (by decide) (by decide) (by decide)).trans
     (by rw [clockGo_minimum]; norm_num)⟩

theorem qStep_result (env : Env P) (child : Int → Int → Engine P → SearchResult → Ret P)
    (beta : Int) (n : Node P) (move : Move) :
    (qStep env child beta n move).result =
      (child (-beta) (-n.alpha) (makeMove env n.eng move) n.result).result := by
  unfold qStep
  simp only
  split_ifs <;> rfl

theorem searchStep_result (env : Env P) (child : Int → Int → Engine P → SearchResult → Ret P)
    (beta : Int) (n : Node P) (move : Move) :
    (searchStep env child beta n move).result =
      (child (-beta) (-n.alpha) (makeMove env n.eng move) n.result).result := by
  unfold searchStep
  simp only
  split_ifs <;> rfl

theorem qLoop_count (env : Env P) (child : Int → Int → Engine P → SearchResult → Ret P)
    (sub : Int → Int → Engine P → SearchResult → List CallRecord) (p : CallRecord → Bool)
    (hc : ∀ a b e r, (child a b e r).result.stats_nodes =
      r.stats_nodes + ((sub a b e r).countP p : Int))
    (beta : Int) (moves : List Move) (n : Node P) :
    (qLoop env child beta moves n).result.stats_nodes =
      n.result.stats_nodes +
        ((loopCalls env (qStep env child beta) sub beta moves n).countP p : Int) := by
  induction moves generalizing n with
  | nil => simp [qLoop, loopCalls]
  | cons move rest ih =>
    have hs : (qStep env child beta n move).result.stats_nodes = n.result.stats_nodes +
        ((sub (-beta) (-n.alpha) (makeMove env n.eng move) n.result).countP p : Int) := by
      rw [qStep_result]; exact hc _ _ _ _
    unfold qLoop loopCalls
    simp only
    split_ifs with hret
    · exact hs
    · rw [ih, hs, List.countP_append]
      push_cast
      ring

theorem searchLoop_count (env : Env P) (child : Int → Int → Engine P → SearchResult → Ret P)
    (sub : Int → Int → Engine P → SearchResult → List CallRecord) (p : CallRecord → Bool)
    (hc : ∀ a b e r, (child a b e r).result.stats_nodes =
      r.stats_nodes + ((sub a b e r).countP p : Int))
    (beta : Int) (moves : List Move) (n : Node P) :
    (searchLoop env child beta moves n).result.stats_nodes =
      n.result.stats_nodes +
        ((loopCalls env (searchStep env child beta) sub beta moves n).countP p : Int) := by
  induction moves generalizing n with
  | nil => simp [searchLoop, loopCalls]
  | cons move rest ih =>
    have hs : (searchStep env child beta n move).result.stats_nodes = n.result.stats_nodes +
        ((sub (-beta) (-n.alpha) (makeMove env n.eng move) n.result).countP p : Int) := by
      rw [searchStep_result]; exact hc _ _ _ _
    unfold searchLoop loopCalls
    simp only
    split_ifs with hret
    · exact hs
    · rw [ih, hs, List.countP_append]
      push_cast
      ring

theorem qMoves_count (env : Env P) (child : Int → Int → Engine P → SearchResult → Ret P)
    (sub : Int → Int → Engine P → SearchResult → List CallRecord) (p : CallRecord → Bool)
    (hc : ∀ a b e r, (child a b e r).result.stats_nodes =
      r.stats_nodes + ((sub a b e r).countP p : Int))
    (beta depth : Int) (tt_move : Move) (n : Node P) :
    (qMoves env child beta depth tt_move n).result.stats_nodes =
      n.result.stats_nodes + ((qMovesCalls env child sub beta tt_move n).countP p : Int) := by
  unfold qMoves qMovesCalls
  simp only
  split_ifs <;>
    first
    | exact qLoop_count env child sub p hc beta _ _
    | simp

theorem searchMoves_count (env : Env P) (child : Int → Int → Engine P → SearchResult → Ret P)
    (sub : Int → Int → Engine P → SearchResult → List CallRecord) (p : CallRecord → Bool)
    (hc : ∀ a b e r, (child a b e r).result.stats_nodes =
      r.stats_nodes + ((sub a b e r).countP p : Int))
    (beta depth : Int) (tt_move : Move) (n : Node P) :
    (searchMoves env child beta depth tt_move n).result.stats_nodes =
      n.result.stats_nodes + ((searchMovesCalls env child sub beta tt_move n).countP p : Int) := by
  unfold searchMoves searchMovesCalls
  simp only
  split_ifs <;> exact searchLoop_count env child sub p hc beta _ _

theorem qBody_count (env : Env P) (child : Int → Int → Engine P → SearchResult → Ret P)
    (sub : Int → Int → Engine P → SearchResult → List CallRecord) (p : CallRecord → Bool)
    (hc : ∀ a b e r, (child a b e r).result.stats_nodes =
      r.stats_nodes + ((sub a b e r).countP p : Int))
    (alpha beta depth : Int) (eng : Engine P) (result : SearchResult) :
    (qBody env child alpha beta depth eng result).result.stats_nodes =
      result.stats_nodes + ((qBodyCalls env child sub alpha beta eng result).countP p : Int) := by
  unfold qBody qBodyCalls
  simp only
  cases env.ttGet eng.transposition_table (env.key eng.position) with
  | none =>
    simp only
    rw [qMoves_count env child sub p hc]
    rfl
  | some e =>
    simp only
    split_ifs
    · simp [initNode]
    · simp [initNode]
    · rw [qMoves_count env child sub p hc]
      rfl

theorem searchBody_count (env : Env P) (child : Int → Int → Engine P → SearchResult → Ret P)
    (sub : Int → Int → Engine P → SearchResult → List CallRecord) (p : CallRecord → Bool)
    (hc : ∀ a b e r, (child a b e r).result.stats_nodes =
      r.stats_nodes + ((sub a b e r).countP p : Int))
    (alpha beta depth depth_end : Int) (eng : Engine P) (result : SearchResult) :
    (searchBody env child alpha beta depth depth_end eng result).result.stats_nodes =
      result.stats_nodes +
        ((searchBodyCalls env child sub alpha beta depth depth_end eng result).countP p : Int) := by
  unfold searchBody searchBodyCalls
  simp only
  cases env.ttGet eng.transposition_table (env.key eng.position) with
  | none =>
    simp only
    rw [searchMoves_count env child sub p hc]
    rfl
  | some e =>
    simp only
    split_ifs
    · simp [initNode]
    · simp [initNode]
    · rw [searchMoves_count env child sub p hc]
      rfl

/-- While the limit does not trip, `quiescenceSearch` counts one node for
every call that `quiescenceCallsF` lists. -/
theorem quiescenceCallsF_count (env : Env P) (hlimit : ∀ n, env.limit n = true)
    (depth_end : Int) (fuel : Nat) :
    ∀ (alpha beta depth : Int) (eng : Engine P) (result : SearchResult),
      (quiescenceSearchF env fuel alpha beta depth eng result).result.stats_nodes =
        result.stats_nodes +
          (((quiescenceCallsF env fuel alpha beta depth eng result).countP
            (countsNode depth_end) : Nat) : Int) := by
  induction fuel with
  | zero => intro alpha beta depth eng result; simp [quiescenceSearchF, quiescenceCallsF]
  | succ fuel ih =>
    intro alpha beta depth eng result
    unfold quiescenceSearchF quiescenceCallsF
    simp only [checkSearchLimit_fst, hlimit, Bool.true_eq_false, if_false]
    split_ifs
    · simp [countsNode]
    · rw [qFinish_result,
        qBody_count env _ _ (countsNode depth_end) (fun a b e r => ih a b (depth + 1) e r),
        List.countP_cons]
      simp only [countsNode, Bool.true_or, if_true]
      push_cast
      ring

/-- While the limit does not trip, `searchImpl` counts one node for every
listed call of `quiescenceSearch` and every listed call of `searchImpl` below
`depth_end`: the calls that `searchCallsF` lists are the calls that the search
makes. -/
theorem searchCallsF_count (env : Env P) (hlimit : ∀ n, env.limit n = true)
    (depth_end : Int) (fuel : Nat) :
    ∀ (alpha beta depth : Int) (eng : Engine P) (result : SearchResult),
      (searchImplF env fuel alpha beta depth depth_end eng result).result.stats_nodes =
        result.stats_nodes +
          (((searchCallsF env fuel alpha beta depth depth_end eng result).countP
            (countsNode depth_end) : Nat) : Int) := by
  induction fuel with
  | zero => intro alpha beta depth eng result; simp [searchImplF, searchCallsF]
  | succ fuel ih =>
    intro alpha beta depth eng result
    unfold searchImplF searchCallsF
    simp only [checkSearchLimit_fst, hlimit, Bool.true_eq_false, if_false]
    split_ifs with hd
    · rw [List.countP_cons]
      have hq := quiescenceCallsF_count env hlimit depth_end
        ((env.kMaxDepth - depth).toNat + 1) alpha beta depth (checkSearchLimit env eng).2 result
      unfold quiescenceSearch quiescenceCalls
      rw [hq]
      have : countsNode depth_end
          { quiescence := false, alpha := alpha, beta := beta, depth := depth,
            frame := eng.state } = false := by
        simp [countsNode, hd]
      simp [this]
    · rw [finishNode_result,
        searchBody_count env _ _ (countsNode depth_end) (fun a b e r => ih a b (depth + 1) e r),
        List.countP_cons]
      have : countsNode depth_end
          { quiescence := false, alpha := alpha, beta := beta, depth := depth,
            frame := eng.state } = true := by
        simp [countsNode]; omega
      simp only [this, if_true]
      push_cast
      ring

/-- While the limit does not trip, the node count that `Engine::search` reports
is the number of listed calls of `quiescenceSearch` and of `searchImpl` below
the search depth. -/
theorem searchCalls_count (env : Env P) (hlimit : ∀ n, env.limit n = true)
    (depth : Int) (eng : Engine P) :
    (search env depth eng).1.stats_nodes =
      (((searchCalls env depth eng).countP (countsNode depth) : Nat) : Int) := by
  have h := searchCallsF_count env hlimit depth ((depth - 0).toNat + 1) (-env.kScoreInf)
    env.kScoreInf 0 { eng with state := 0 } { depth := depth }
  unfold search searchCalls searchImpl
  simp only
  rw [h]
  simp

/-- A property of the calls made by a move loop: if an invariant `I` of the
local variables is kept by every step that does not leave the lambda body, and
under `I` every call listed for a child has the property `Q`, then every call
listed for the loop has the property `Q`. -/
theorem loopCalls_forall (env : Env P) (step : Node P → Move → Node P)
    (sub : Int → Int → Engine P → SearchResult → List CallRecord) (beta : Int)
    (Q : CallRecord → Prop) (I : Node P → Prop)
    (hstep : ∀ n move, I n → ¬ (step n move).returned = true → I (step n move))
    (hsub : ∀ n move, I n →
      ∀ c ∈ sub (-beta) (-n.alpha) (makeMove env n.eng move) n.result, Q c) :
    ∀ (moves : List Move) (n : Node P), I n →
      ∀ c ∈ loopCalls env step sub beta moves n, Q c := by
  intro moves
  induction moves with
  | nil => intro n _ c hc; simp [loopCalls] at hc
  | cons move rest ih =>
    intro n hn c hc
    unfold loopCalls at hc
    simp only at hc
    split_ifs at hc with hret
    · exact hsub n move hn c hc
    · rcases List.mem_append.1 hc with h | h
      · exact hsub n move hn c h
      · exact ih _ (hstep n move hn hret) c h

theorem qMovesCalls_frames (env : Env P) (hinv : MakeUnmakeInverse env)
    (child : Int → Int → Engine P → SearchResult → Ret P) (hc : ChildBalanced child)
    (sub : Int → Int → Engine P → SearchResult → List CallRecord) (beta : Int)
    (tt_move : Move) (n : Node P) (depth B : Int) (hn : n.eng.state = depth)
    (hsub : ∀ a b e r, e.state = depth + 1 →
      ∀ c ∈ sub a b e r, c.frame = c.depth ∧ c.depth ≤ B) :
    ∀ c ∈ qMovesCalls env child sub beta tt_move n, c.frame = c.depth ∧ c.depth ≤ B := by
  unfold qMovesCalls
  simp only
  split_ifs <;>
    first
    | (intro c hc'; simp at hc')
    | exact loopCalls_forall env _ sub beta _ (fun m => m.eng.state = depth)
        (fun m move hm _ => (qStep_balanced env hinv child hc beta m move).1.trans hm)
        (fun m move hm => hsub _ _ _ _ (by rw [makeMove_state, hm])) _ _ hn

theorem searchMovesCalls_frames (env : Env P) (hinv : MakeUnmakeInverse env)
    (child : Int → Int → Engine P → SearchResult → Ret P) (hc : ChildBalanced child)
    (sub : Int → Int → Engine P → SearchResult → List CallRecord) (beta : Int)
    (tt_move : Move) (n : Node P) (depth B : Int) (hn : n.eng.state = depth)
    (hsub : ∀ a b e r, e.state = depth + 1 →
      ∀ c ∈ sub a b e r, c.frame = c.depth ∧ c.depth ≤ B) :
    ∀ c ∈ searchMovesCalls env child sub beta tt_move n, c.frame = c.depth ∧ c.depth ≤ B := by
  unfold searchMovesCalls
  simp only
  split_ifs <;>
    exact loopCalls_forall env _ sub beta _ (fun m => m.eng.state = depth)
      (fun m move hm _ => (searchStep_balanced env hinv child hc beta m move).1.trans hm)
      (fun m move hm => hsub _ _ _ _ (by rw [makeMove_state, hm])) _ _ hn

theorem qBodyCalls_frames (env : Env P) (hinv : MakeUnmakeInverse env)
    (child : Int → Int → Engine P → SearchResult → Ret P) (hc : ChildBalanced child)
    (sub : Int → Int → Engine P → SearchResult → List CallRecord) (alpha beta : Int)
    (eng : Engine P) (result : SearchResult) (depth B : Int) (hn : eng.state = depth)
    (hsub : ∀ a b e r, e.state = depth + 1 →
      ∀ c ∈ sub a b e r, c.frame = c.depth ∧ c.depth ≤ B) :
    ∀ c ∈ qBodyCalls env child sub alpha beta eng result, c.frame = c.depth ∧ c.depth ≤ B := by
  unfold qBodyCalls
  simp only
  cases env.ttGet eng.transposition_table (env.key eng.position) with
  | none => exact qMovesCalls_frames env hinv child hc sub beta _ _ depth B hn hsub
  | some e =>
    simp only
    split_ifs
    · intro c hc'; simp at hc'
    · intro c hc'; simp at hc'
    · exact qMovesCalls_frames env hinv child hc sub beta _ _ depth B hn hsub

theorem searchBodyCalls_frames (env : Env P) (hinv : MakeUnmakeInverse env)
    (child : Int → Int → Engine P → SearchResult → Ret P) (hc : ChildBalanced child)
    (sub : Int → Int → Engine P → SearchResult → List CallRecord) (alpha beta : Int)
    (depth0 depth_end : Int) (eng : Engine P) (result : SearchResult) (depth B : Int)
    (hn : eng.state = depth)
    (hsub : ∀ a b e r, e.state = depth + 1 →
      ∀ c ∈ sub a b e r, c.frame = c.depth ∧ c.depth ≤ B) :
    ∀ c ∈ searchBodyCalls env child sub alpha beta depth0 depth_end eng result,
      c.frame = c.depth ∧ c.depth ≤ B := by
  unfold searchBodyCalls
  simp only
  cases env.ttGet eng.transposition_table (env.key eng.position) with
  | none => exact searchMovesCalls_frames env hinv child hc sub beta _ _ depth B hn hsub
  | some e =>
    simp only
    split_ifs
    · intro c hc'; simp at hc'
    · intro c hc'; simp at hc'
    · exact searchMovesCalls_frames env hinv child hc sub beta _ _ depth B hn hsub

theorem quiescenceCallsF_frames (env : Env P) (hinv : MakeUnmakeInverse env) (fuel : Nat) :
    ∀ (alpha beta depth : Int) (eng : Engine P) (result : SearchResult),
      eng.state = depth → depth ≤ env.kMaxDepth →
      ∀ c ∈ quiescenceCallsF env fuel alpha beta depth eng result,
        c.frame = c.depth ∧ c.depth ≤ env.kMaxDepth := by
  induction fuel with
  | zero => intro alpha beta depth eng result _ _ c hc; simp [quiescenceCallsF] at hc
  | succ fuel ih =>
    intro alpha beta depth eng result hs hd c hc
    unfold quiescenceCallsF at hc
    simp only at hc
    split_ifs at hc with h1 h2
    · rw [List.mem_singleton] at hc; subst hc; exact ⟨hs, hd⟩
    · rw [List.mem_singleton] at hc; subst hc; exact ⟨hs, hd⟩
    · rcases List.mem_cons.1 hc with h | h
      · subst h; exact ⟨hs, hd⟩
      · exact qBodyCalls_frames env hinv _
          (fun a b e r => quiescenceSearchF_balanced env hinv fuel a b (depth + 1) e r) _
          alpha beta _ _ depth env.kMaxDepth (by simpa using hs)
          (fun a b e r he => ih a b (depth + 1) e r he (by omega)) c h

/-- Where the frames of a search lie: if make and unmake are inverse, a call
of `searchImpl` entered at `depth` in frame `depth` with
`depth ≤ depth_end ≤ kMaxDepth` only makes calls whose frame index is their
depth, and every such index is at most `kMaxDepth` (not: below it). -/
theorem searchCallsF_frames (env : Env P) (hinv : MakeUnmakeInverse env) (depth_end : Int)
    (hend : depth_end ≤ env.kMaxDepth) (fuel : Nat) :
    ∀ (alpha beta depth : Int) (eng : Engine P) (result : SearchResult),
      eng.state = depth → depth ≤ depth_end →
      ∀ c ∈ searchCallsF env fuel alpha beta depth depth_end eng result,
        c.frame = c.depth ∧ c.depth ≤ env.kMaxDepth := by
  induction fuel with
  | zero => intro alpha beta depth eng result _ _ c hc; simp [searchCallsF] at hc
  | succ fuel ih =>
    intro alpha beta depth eng result hs hd c hc
    unfold searchCallsF at hc
    simp only at hc
    split_ifs at hc with h1 h2
    · rw [List.mem_singleton] at hc; subst hc; exact ⟨hs, show depth ≤ env.kMaxDepth by omega⟩
    · rcases List.mem_cons.1 hc with h | h
      · subst h; exact ⟨hs, show depth ≤ env.kMaxDepth by omega⟩
      · exact quiescenceCallsF_frames env hinv _ alpha beta depth _ result
          (by simpa using hs) (by omega) c h
    · rcases List.mem_cons.1 hc with h | h
      · subst h; exact ⟨hs, show depth ≤ env.kMaxDepth by omega⟩
      · exact searchBodyCalls_frames env hinv _
          (fun a b e r => searchImplF_balanced env hinv fuel a b (depth + 1) depth_end e r) _
          alpha beta depth depth_end _ _ depth env.kMaxDepth (by simpa using hs)
          (fun a b e r he => ih a b (depth + 1) e r he (by omega)) c h

theorem qStep_window (env : Env P) (child : Int → Int → Engine P → SearchResult → Ret P)
    (beta : Int) (n : Node P) (move : Move) (hn : n.alpha ≤ beta)
    (hret : ¬ (qStep env child beta n move).returned = true) :
    (qStep env child beta n move).alpha ≤ beta := by
  unfold qStep at hret ⊢
  simp only at hret ⊢
  split_ifs at hret ⊢ <;>
    first
    | (simp at hret; done)
    | exact hn
    | exact not_lt.1 (by assumption)

theorem searchStep_window (env : Env P) (child : Int → Int → Engine P → SearchResult → Ret P)
    (beta : Int) (n : Node P) (move : Move) (hn : n.alpha < beta)
    (hret : ¬ (searchStep env child beta n move).returned = true) :
    (searchStep env child beta n move).alpha < beta := by
  unfold searchStep at hret ⊢
  simp only at hret ⊢
  split_ifs at hret ⊢ <;>
    first
    | (simp at hret; done)
    | exact hn
    | exact not_le.1 (by assumption)

theorem qMovesCalls_windows (env : Env P)
    (child : Int → Int → Engine P → SearchResult → Ret P)
    (sub : Int → Int → Engine P → SearchResult → List CallRecord) (beta : Int)
    (tt_move : Move) (n : Node P) (Q : CallRecord → Prop) (hn : n.alpha ≤ beta)
    (hsub : ∀ a b e r, a ≤ b → ∀ c ∈ sub a b e r, Q c) :
    ∀ c ∈ qMovesCalls env child sub beta tt_move n, Q c := by
  unfold qMovesCalls
  simp only
  split_ifs with h1 h2 h3 h4 h5 <;>
    first
    | (intro c hc'; simp at hc')
    | exact loopCalls_forall env _ sub beta Q (fun m => m.alpha ≤ beta)
        (fun m move hm hret => qStep_window env child beta m move hm hret)
        (fun m move hm => hsub _ _ _ _ (by omega)) _ _ (by simp only; omega)

theorem searchMovesCalls_windows (env : Env P)
    (child : Int → Int → Engine P → SearchResult → Ret P)
    (sub : Int → Int → Engine P → SearchResult → List CallRecord) (beta : Int)
    (tt_move : Move) (n : Node P) (Q : CallRecord → Prop) (hn : n.alpha < beta)
    (hsub : ∀ a b e r, a < b → ∀ c ∈ sub a b e r, Q c) :
    ∀ c ∈ searchMovesCalls env child sub beta tt_move n, Q c := by
  unfold searchMovesCalls
  simp only
  split_ifs <;>
    exact loopCalls_forall env _ sub beta Q (fun m => m.alpha < beta)
      (fun m move hm hret => searchStep_window env child beta m move hm hret)
      (fun m move hm => hsub _ _ _ _ (by omega)) _ _ hn

theorem qBodyCalls_windows (env : Env P)
    (child : Int → Int → Engine P → SearchResult → Ret P)
    (sub : Int → Int → Engine P → SearchResult → List CallRecord) (alpha beta : Int)
    (eng : Engine P) (result : SearchResult) (Q : CallRecord → Prop) (hn : alpha ≤ beta)
    (hsub : ∀ a b e r, a ≤ b → ∀ c ∈ sub a b e r, Q c) :
    ∀ c ∈ qBodyCalls env child sub alpha beta eng result, Q c := by
  unfold qBodyCalls
  simp only
  cases env.ttGet eng.transposition_table (env.key eng.position) with
  | none => exact qMovesCalls_windows env child sub beta _ _ Q hn hsub
  | some e =>
    simp only
    split_ifs
    · intro c hc'; simp at hc'
    · intro c hc'; simp at hc'
    · exact qMovesCalls_windows env child sub beta _ _ Q hn hsub

theorem searchBodyCalls_windows (env : Env P)
    (child : Int → Int → Engine P → SearchResult → Ret P)
    (sub : Int → Int → Engine P → SearchResult → List CallRecord) (alpha beta : Int)
    (depth depth_end : Int) (eng : Engine P) (result : SearchResult) (Q : CallRecord → Prop)
    (hn : alpha < beta) (hsub : ∀ a b e r, a < b → ∀ c ∈ sub a b e r, Q c) :
    ∀ c ∈ searchBodyCalls env child sub alpha beta depth depth_end eng result, Q c := by
  unfold searchBodyCalls
  simp only
  cases env.ttGet eng.transposition_table (env.key eng.position) with
  | none => exact searchMovesCalls_windows env child sub beta _ _ Q hn hsub
  | some e =>
    simp only
    split_ifs
    · intro c hc'; simp at hc'
    · intro c hc'; simp at hc'
    · exact searchMovesCalls_windows env child sub beta _ _ Q hn hsub

theorem quiescenceCallsF_windows (env : Env P) (fuel : Nat) :
    ∀ (alpha beta depth : Int) (eng : Engine P) (result : SearchResult), alpha ≤ beta →
      ∀ c ∈ quiescenceCallsF env fuel alpha beta depth eng result,
        c.alpha ≤ c.beta ∧ c.quiescence = true := by
  induction fuel with
  | zero => intro alpha beta depth eng result _ c hc; simp [quiescenceCallsF] at hc
  | succ fuel ih =>
    intro alpha beta depth eng result hw c hc
    unfold quiescenceCallsF at hc
    simp only at hc
    split_ifs at hc with h1 h2
    · rw [List.mem_singleton] at hc; subst hc; exact ⟨hw, rfl⟩
    · rw [List.mem_singleton] at hc; subst hc; exact ⟨hw, rfl⟩
    · rcases List.mem_cons.1 hc with h | h
      · subst h; exact ⟨hw, rfl⟩
      · exact qBodyCalls_windows env _ _ alpha beta _ _ _ hw
          (fun a b e r hab => ih a b (depth + 1) e r hab) c h

/-- What holds of the windows of a search: a call of `searchImpl` entered with
`alpha < beta` only makes calls of `searchImpl` with `alpha < beta` and calls of
`quiescenceSearch` with `alpha ≤ beta` (not: `alpha < beta`). -/
theorem searchCallsF_windows (env : Env P) (depth_end : Int) (fuel : Nat) :
    ∀ (alpha beta depth : Int) (eng : Engine P) (result : SearchResult), alpha < beta →
      ∀ c ∈ searchCallsF env fuel alpha beta depth depth_end eng result,
        c.alpha ≤ c.beta ∧ (c.quiescence = false → c.alpha < c.beta) := by
  induction fuel with
  | zero => intro alpha beta depth eng result _ c hc; simp [searchCallsF] at hc
  | succ fuel ih =>
    intro alpha beta depth eng result hw c hc
    unfold searchCallsF at hc
    simp only at hc
    split_ifs at hc with h1 h2
    · rw [List.mem_singleton] at hc; subst hc; exact ⟨hw.le, fun _ => hw⟩
    · rcases List.mem_cons.1 hc with h | h
      · subst h; exact ⟨hw.le, fun _ => hw⟩
      · have := quiescenceCallsF_windows env _ alpha beta depth _ result hw.le c h
        exact ⟨this.1, fun hq => by rw [this.2] at hq; exact absurd hq (by decide)⟩
    · rcases List.mem_cons.1 hc with h | h
      · subst h; exact ⟨hw.le, fun _ => hw⟩
      · exact searchBodyCalls_windows env _ _ alpha beta depth depth_end _ _ _ hw
          (fun a b e r hab => ih a b (depth + 1) e r hab) c h

theorem qStep_ticks (env : Env P) (child : Int → Int → Engine P → SearchResult → Ret P)
    (hc : ∀ a b e r, e.clock ≤ (child a b e r).eng.clock)
    (beta : Int) (n : Node P) (move : Move) :
    n.eng.clock + 1 ≤ (qStep env child beta n move).eng.clock := by
  have h := hc (-beta) (-n.alpha) (makeMove env n.eng move) n.result
  unfold qStep
  simp only
  split_ifs <;> exact Nat.add_le_add_right h 1

theorem qLoop_ticks (env : Env P) (child : Int → Int → Engine P → SearchResult → Ret P)
    (hc : ∀ a b e r, e.clock ≤ (child a b e r).eng.clock)
    (beta : Int) (moves : List Move) (n : Node P) :
    n.eng.clock ≤ (qLoop env child beta moves n).eng.clock := by
  induction moves generalizing n with
  | nil => simp [qLoop]
  | cons move rest ih =>
    have h1 := qStep_ticks env child hc beta n move
    unfold qLoop
    simp only
    split_ifs
    · omega
    · have h2 := ih (qStep env child beta n move)
      omega

theorem qMoves_ticks (env : Env P) (child : Int → Int → Engine P → SearchResult → Ret P)
    (hc : ∀ a b e r, e.clock ≤ (child a b e r).eng.clock)
    (beta : Int) (depth : Int) (tt_move : Move) (n : Node P) :
    n.eng.clock ≤ (qMoves env child beta depth tt_move n).eng.clock := by
  unfold qMoves
  simp only
  split_ifs <;>
    first
      | exact le_refl _
      | (refine le_trans ?_ (qLoop_ticks env child hc beta _ _); exact le_refl _)

theorem qBody_ticks (env : Env P) (child : Int → Int → Engine P → SearchResult → Ret P)
    (hc : ∀ a b e r, e.clock ≤ (child a b e r).eng.clock)
    (alpha beta : Int) (depth : Int) (eng : Engine P) (result : SearchResult) :
    eng.clock ≤ (qBody env child alpha beta depth eng result).eng.clock := by
  unfold qBody
  simp only
  split
  · split_ifs <;>
      first
        | exact le_refl _
        | (refine le_trans ?_ (qMoves_ticks env child hc beta depth _ _); exact le_refl _)
  · refine le_trans ?_ (qMoves_ticks env child hc beta depth _ _)
    exact le_refl _

theorem qFinish_ticks (env : Env P) (n : Node P) :
    (qFinish env n).eng.clock = n.eng.clock := by
  unfold qFinish
  split_ifs <;> rfl

/-- A call of `quiescenceSearch` never turns the count of limit checks back. -/
theorem quiescenceSearchF_ticks (env : Env P) (fuel : Nat) :
    ∀ (alpha beta : Int) (depth : Int) (eng : Engine P) (result : SearchResult),
      eng.clock ≤ (quiescenceSearchF env fuel alpha beta depth eng result).eng.clock := by
  induction fuel with
  | zero => intro alpha beta depth eng result; exact le_refl _
  | succ fuel ih =>
    intro alpha beta depth eng result
    unfold quiescenceSearchF
    simp only
    split_ifs
    · exact Nat.le_succ _
    · exact Nat.le_succ _
    · rw [qFinish_ticks]
      exact le_trans (Nat.le_succ _) (qBody_ticks env _
        (fun a b e r => ih a b (depth + 1) e r) alpha beta depth
        (checkSearchLimit env eng).2 _)

theorem searchStep_ticks (env : Env P) (child : Int → Int → Engine P → SearchResult → Ret P)
    (beta : Int) (n : Node P) (move : Move) :
    (searchStep env child beta n move).eng.clock =
      (child (-beta) (-n.alpha) (makeMove env n.eng move) n.result).eng.clock + 1 := by
  unfold searchStep
  simp only
  split_ifs <;> rfl

theorem searchStep_score (env : Env P) (child : Int → Int → Engine P → SearchResult → Ret P)
    (beta : Int) (n : Node P) (move : Move) :
    (searchStep env child beta n move).score =
      max n.score (-(child (-beta) (-n.alpha) (makeMove env n.eng move) n.result).score) := by
  unfold searchStep
  simp only
  split_ifs <;> rfl

theorem searchStep_exit (env : Env P) (child : Int → Int → Engine P → SearchResult → Ret P)
    (beta : Int) (n : Node P) (move : Move) (hn : n.returned = false)
    (h : (searchStep env child beta n move).returned = true) :
    (searchStep env child beta n move).interrupted = true ∨
      beta ≤ (searchStep env child beta n move).score := by
  unfold searchStep at h ⊢
  simp only at h ⊢
  split_ifs at h ⊢ <;>
    first
      | (left; rfl)
      | (right; assumption)
      | simp [hn] at h

/-- The move loop of `searchImpl` searches the moves it is given in order: it
counts one move and makes at least one limit check per iteration, never lowers
the score, and leaves the list unfinished only for a cancellation or a cut. -/
theorem searchLoop_enumerates (env : Env P)
    (child : Int → Int → Engine P → SearchResult → Ret P)
    (hc : ∀ a b e r, e.clock ≤ (child a b e r).eng.clock) (beta : Int) (moves : List Move) :
    ∀ n : Node P, n.returned = false →
      n.move_cnt ≤ (searchLoop env child beta moves n).move_cnt ∧
      (searchLoop env child beta moves n).move_cnt ≤ n.move_cnt + moves.length ∧
      (moves ≠ [] → n.move_cnt + 1 ≤ (searchLoop env child beta moves n).move_cnt) ∧
      ((searchLoop env child beta moves n).returned = true →
        (searchLoop env child beta moves n).interrupted = true ∨
          beta ≤ (searchLoop env child beta moves n).score) ∧
      ((searchLoop env child beta moves n).returned = false →
        (searchLoop env child beta moves n).move_cnt = n.move_cnt + moves.length) ∧
      n.eng.clock + (searchLoop env child beta moves n).move_cnt ≤
        (searchLoop env child beta moves n).eng.clock + n.move_cnt ∧
      n.score ≤ (searchLoop env child beta moves n).score := by
  induction moves with
  | nil =>
    intro n hn
    simp [searchLoop, hn]
  | cons move rest ih =>
    intro n hn
    have hcnt := searchStep_move_cnt env child beta n move
    have hclk := searchStep_ticks env child beta n move
    have hch := hc (-beta) (-n.alpha) (makeMove env n.eng move) n.result
    rw [makeMove_clock] at hch
    have hsc := searchStep_score env child beta n move
    have hsc2 : n.score ≤ (searchStep env child beta n move).score := by
      rw [hsc]; exact le_max_left _ _
    unfold searchLoop
    simp only
    split_ifs with hret
    · refine ⟨by omega, by simp only [List.length_cons]; omega, fun _ => by omega,
        fun _ => searchStep_exit env child beta n move hn hret,
        fun h => by rw [hret] at h; exact absurd h (by decide), by omega, hsc2⟩
    · have hret2 : (searchStep env child beta n move).returned = false := by
        simpa using hret
      obtain ⟨h1, h2, _, h4, h5, h6, h7⟩ := ih _ hret2
      refine ⟨by omega, by simp only [List.length_cons]; omega, fun _ => by omega, h4,
        fun h => by rw [h5 h]; simp only [List.length_cons]; omega, by omega,
        le_trans hsc2 h7⟩

/-- The first move of the list is searched: the loop runs the recursive call
on the position after it with the window `(-beta, -alpha)`, checks the limit
after it and ends with a score not below the negated score of that call. -/
theorem searchLoop_first (env : Env P)
    (child : Int → Int → Engine P → SearchResult → Ret P)
    (hc : ∀ a b e r, e.clock ≤ (child a b e r).eng.clock) (beta : Int)
    (move : Move) (rest : List Move) (n : Node P) :
    (child (-beta) (-n.alpha) (makeMove env n.eng move) n.result).eng.clock + 1 ≤
      (searchLoop env child beta (move :: rest) n).eng.clock ∧
    -(child (-beta) (-n.alpha) (makeMove env n.eng move) n.result).score ≤
      (searchLoop env child beta (move :: rest) n).score := by
  have hclk := searchStep_ticks env child beta n move
  have hsc := searchStep_score env child beta n move
  have hsc2 : -(child (-beta) (-n.alpha) (makeMove env n.eng move) n.result).score ≤
      (searchStep env child beta n move).score := by
    rw [hsc]; exact le_max_right _ _
  unfold searchLoop
  simp only
  split_ifs with hret
  · exact ⟨by omega, hsc2⟩
  · have hret2 : (searchStep env child beta n move).returned = false := by
      simpa using hret
    obtain ⟨h1, _, _, _, _, h6, h7⟩ := searchLoop_enumerates env child hc beta rest _ hret2
    exact ⟨by omega, le_trans hsc2 h7⟩
theorem searchLoop_ticks (env : Env P) (child : Int → Int → Engine P → SearchResult → Ret P)
    (hc : ∀ a b e r, e.clock ≤ (child a b e r).eng.clock)
    (beta : Int) (moves : List Move) (n : Node P) :
    n.eng.clock ≤ (searchLoop env child beta moves n).eng.clock := by
  induction moves generalizing n with
  | nil => simp [searchLoop]
  | cons move rest ih =>
    have h1 := searchStep_ticks env child beta n move
    have h2 := hc (-beta) (-n.alpha) (makeMove env n.eng move) n.result
    rw [makeMove_clock] at h2
    unfold searchLoop
    simp only
    split_ifs
    · omega
    · have h3 := ih (searchStep env child beta n move)
      omega

/-- What the body of an interior node from the static evaluation on is, in
terms of its move loop `n2`: the move count, the engine and the cancellation
flag are those of the loop; the score is the loop's, or, when the loop ended
without having had a move, the larger of it and the leaf evaluation. -/
theorem searchMoves_loop (env : Env P) (child : Int → Int → Engine P → SearchResult → Ret P)
    (beta : Int) (depth : Int) (tt_move : Move) (n : Node P) (n2 : Node P)
    (h2 : n2 = searchLoop env child beta (interiorMoves env n.eng tt_move)
      { n with evaluation :=
          if n.evaluation = env.kScoreNone then env.evaluate n.eng.position else n.evaluation }) :
    (searchMoves env child beta depth tt_move n).move_cnt = n2.move_cnt ∧
    (searchMoves env child beta depth tt_move n).eng = n2.eng ∧
    (searchMoves env child beta depth tt_move n).interrupted = n2.interrupted ∧
    n2.score ≤ (searchMoves env child beta depth tt_move n).score ∧
    (n2.returned = false → n2.move_cnt = 0 →
      (searchMoves env child beta depth tt_move n).score =
        max n2.score (env.evaluateLeaf n2.eng.position depth)) := by
  unfold searchMoves
  unfold interiorMoves at h2
  simp only
  generalize (if n.evaluation = env.kScoreNone then env.evaluate n.eng.position
    else n.evaluation) = ev at h2 ⊢
  subst h2
  split_ifs with hr h0
  · exact ⟨rfl, rfl, rfl, le_refl _, fun h => by rw [hr] at h; exact absurd h (by decide)⟩
  · exact ⟨rfl, rfl, rfl, le_max_left _ _, fun _ _ => rfl⟩
  · exact ⟨rfl, rfl, rfl, le_refl _, fun _ h => absurd h h0⟩

/-- A node `out` that stands to the move loop of an interior node as the body
`searchMoves` does (`searchMoves_loop`) has searched the moves of the picker
in order: `move_cnt` of them, one limit check at least for each, all of them
unless the loop is left for a cancellation or a cut; the first move is always
searched, and without any move the score is the larger of the initial score
and the leaf evaluation. -/
theorem searchMoves_enumerates (env : Env P)
    (child : Int → Int → Engine P → SearchResult → Ret P)
    (hc : ∀ a b e r, e.clock ≤ (child a b e r).eng.clock)
    (beta : Int) (depth : Int) (tt_move : Move) (n : Node P)
    (hret : n.returned = false) (hcnt : n.move_cnt = 0) (out n2 : Node P)
    (h2 : n2 = searchLoop env child beta (interiorMoves env n.eng tt_move)
      { n with evaluation :=
          if n.evaluation = env.kScoreNone then env.evaluate n.eng.position else n.evaluation })
    (hout : out.move_cnt = n2.move_cnt ∧ out.eng = n2.eng ∧
      out.interrupted = n2.interrupted ∧ n2.score ≤ out.score ∧
      (n2.returned = false → n2.move_cnt = 0 →
        out.score = max n2.score (env.evaluateLeaf n2.eng.position depth))) :
    out.move_cnt ≤ (interiorMoves env n.eng tt_move).length ∧
    (interiorMoves env n.eng tt_move ≠ [] → 1 ≤ out.move_cnt) ∧
    (out.move_cnt < (interiorMoves env n.eng tt_move).length →
      out.interrupted = true ∨ beta ≤ out.score) ∧
    n.eng.clock + out.move_cnt ≤ out.eng.clock ∧
    (∀ m rest, interiorMoves env n.eng tt_move = m :: rest →
      (child (-beta) (-n.alpha) (makeMove env n.eng m) n.result).eng.clock + 1 ≤
        out.eng.clock ∧
      -(child (-beta) (-n.alpha) (makeMove env n.eng m) n.result).score ≤ out.score) ∧
    (interiorMoves env n.eng tt_move = [] →
      out.score = max n.score (env.evaluateLeaf n.eng.position depth) ∧
      out.interrupted = n.interrupted ∧ out.eng = n.eng) := by
  obtain ⟨e1, e2, e3, e4, e5⟩ := hout
  obtain ⟨k1, k2, k3, k4, k5, k6, k7⟩ := searchLoop_enumerates env child hc beta
    (interiorMoves env n.eng tt_move)
    { n with evaluation :=
        if n.evaluation = env.kScoreNone then env.evaluate n.eng.position else n.evaluation }
    hret
  rw [← h2] at k1 k2 k3 k4 k5 k6 k7
  dsimp only at k1 k2 k3 k5 k6 k7
  refine ⟨?_, ?_, ?_, ?_, ?_, ?_⟩
  · rw [e1]; omega
  · intro hne; rw [e1]; have := k3 hne; omega
  · intro hlt
    rw [e1] at hlt
    rw [e3]
    by_cases hr : n2.returned = true
    · rcases k4 hr with h | h
      · exact Or.inl h
      · exact Or.inr (le_trans h e4)
    · have := k5 (by simpa using hr)
      omega
  · rw [e1, e2]
    omega
  · intro m rest hm
    have hf := searchLoop_first env child hc beta m rest
      { n with evaluation :=
          if n.evaluation = env.kScoreNone then env.evaluate n.eng.position else n.evaluation }
    rw [hm] at h2
    rw [← h2] at hf
    rw [e2]
    exact ⟨hf.1, le_trans hf.2 e4⟩
  · intro hnil
    rw [hnil] at h2
    have h3 : n2 = { n with evaluation :=
        if n.evaluation = env.kScoreNone then env.evaluate n.eng.position
        else n.evaluation } := h2
    rw [h3] at e2 e3 e5
    exact ⟨e5 hret hcnt, e3, e2⟩

theorem finishNode_ticks (env : Env P) (d : Int) (n : Node P) :
    (finishNode env d n).eng.clock = n.eng.clock := by
  unfold finishNode
  simp only
  split_ifs <;> simp

theorem searchMoves_ticks (env : Env P) (child : Int → Int → Engine P → SearchResult → Ret P)
    (hc : ∀ a b e r, e.clock ≤ (child a b e r).eng.clock)
    (beta : Int) (depth : Int) (tt_move : Move) (n : Node P) :
    n.eng.clock ≤ (searchMoves env child beta depth tt_move n).eng.clock := by
  rw [(searchMoves_loop env child beta depth tt_move n _ rfl).2.1]
  refine le_trans ?_ (searchLoop_ticks env child hc beta _ _)
  exact le_refl _

theorem searchBody_ticks (env : Env P) (child : Int → Int → Engine P → SearchResult → Ret P)
    (hc : ∀ a b e r, e.clock ≤ (child a b e r).eng.clock)
    (alpha beta : Int) (depth depth_end : Int) (eng : Engine P) (result : SearchResult) :
    eng.clock ≤ (searchBody env child alpha beta depth depth_end eng result).eng.clock := by
  unfold searchBody
  simp only
  split
  · split_ifs <;>
      first
        | exact le_refl _
        | (refine le_trans ?_ (searchMoves_ticks env child hc beta depth _ _); exact le_refl _)
  · refine le_trans ?_ (searchMoves_ticks env child hc beta depth _ _)
    exact le_refl _

/-- A call of `searchImpl` never turns the count of limit checks back. -/
theorem searchImplF_ticks (env : Env P) (fuel : Nat) :
    ∀ (alpha beta : Int) (depth depth_end : Int) (eng : Engine P) (result : SearchResult),
      eng.clock ≤ (searchImplF env fuel alpha beta depth depth_end eng result).eng.clock := by
  induction fuel with
  | zero => intro alpha beta depth depth_end eng result; exact le_refl _
  | succ fuel ih =>
    intro alpha beta depth depth_end eng result
    unfold searchImplF
    simp only
    split_ifs
    · exact Nat.le_succ _
    · exact le_trans (Nat.le_succ _)
        (quiescenceSearchF_ticks env _ alpha beta depth (checkSearchLimit env eng).2 result)
    · rw [finishNode_ticks]
      exact le_trans (Nat.le_succ _) (searchBody_ticks env _
        (fun a b e r => ih a b (depth + 1) depth_end e r) alpha beta depth depth_end
        (checkSearchLimit env eng).2 _)
/-- C8 (probe contract at interior nodes): at an interior node
(`depth < depth_end`, entry check passed) whose probe hits the entry `e`:
if the stored depth is at least the depth-to-go and the bound fits the window
(`ttScoreCut`), `searchImpl` returns the stored score without searching a move:
no further limit check is made, one node is counted, one table cut is counted,
the position is untouched. In every other case the call `ret` is the
post-amble applied to the node `n` that the move enumeration `searchMoves`
leaves, run with the stored move as hint and the stored evaluation (the stored
score is not used), and the moves of the picker are searched: `n.move_cnt` of
them, the first one always, all of them unless the call ends cancelled or with
a score of at least `beta`; each searched move costs at least one limit check;
the first move is searched by the recursive call with the window
`(-beta, -alpha)` at `depth + 1`, after which the limit is checked, and a
completed call returns at least the negated score of that call; without a move
the call returns the larger of `-kScoreInf` and the leaf evaluation, having
made no further limit check. -/
theorem tt_probe_contract (env : Env P) (fuel : Nat) (alpha beta : Int)
    (depth depth_end : Int) (eng : Engine P) (result : SearchResult) (e : TTEntry)
    (hl : env.limit eng.clock = true) (hint : depth < depth_end)
    (hhit : env.ttGet eng.transposition_table (env.key eng.position) = some e) :
    (ttScoreCut alpha beta (depth_end - depth) e →
      (searchImplF env (fuel + 1) alpha beta depth depth_end eng result).score = e.score ∧
      (searchImplF env (fuel + 1) alpha beta depth depth_end eng result).eng.clock
        = eng.clock + 1 ∧
      (searchImplF env (fuel + 1) alpha beta depth depth_end eng result).eng.position
        = eng.position ∧
      (searchImplF env (fuel + 1) alpha beta depth depth_end eng result).result =
        { result with stats_nodes := result.stats_nodes + 1
                      stats_tt_hit := result.stats_tt_hit + 1
                      stats_tt_cut := result.stats_tt_cut + 1 }) ∧
    (¬ ttScoreCut alpha beta (depth_end - depth) e →
      ∀ (n : Node P) (ret first : Ret P),
        n = searchMoves env (fun a b e r => searchImplF env fuel a b (depth + 1) depth_end e r)
          beta depth e.move
          { initNode env alpha (checkSearchLimit env eng).2
              { result with stats_nodes := result.stats_nodes + 1
                            stats_tt_hit := result.stats_tt_hit + 1 } with
            evaluation := e.evaluation } →
        ret = searchImplF env (fuel + 1) alpha beta depth depth_end eng result →
        ret = finishNode env (depth_end - depth) n ∧
        n.move_cnt ≤ (interiorMoves env eng e.move).length ∧
        (interiorMoves env eng e.move ≠ [] → 1 ≤ n.move_cnt) ∧
        (n.move_cnt < (interiorMoves env eng e.move).length →
          ret.score = env.kScoreNone ∨ beta ≤ ret.score) ∧
        eng.clock + 1 + n.move_cnt ≤ ret.eng.clock ∧
        (∀ m rest, interiorMoves env eng e.move = m :: rest →
          first = searchImplF env fuel (-beta) (-alpha) (depth + 1) depth_end
            (makeMove env (checkSearchLimit env eng).2 m)
            { result with stats_nodes := result.stats_nodes + 1
                          stats_tt_hit := result.stats_tt_hit + 1 } →
          first.eng.clock + 1 ≤ ret.eng.clock ∧
          (ret.score = env.kScoreNone ∨ -first.score ≤ ret.score)) ∧
        (interiorMoves env eng e.move = [] →
          ret.score = max (-env.kScoreInf) (env.evaluateLeaf eng.position depth) ∧
          ret.eng.clock = eng.clock + 1)) := by
  have hint2 := searchImplF_interior env fuel alpha beta depth depth_end eng result hl hint
  have hb := searchBody_hit env
    (fun a b e r => searchImplF env fuel a b (depth + 1) depth_end e r) alpha beta depth
    depth_end (checkSearchLimit env eng).2 { result with stats_nodes := result.stats_nodes + 1 }
    e hhit
  constructor
  · intro hcut
    rw [hint2]
    obtain ⟨h1, h2, h3, _, h5⟩ := hb.1 hcut
    have ho := finishNode_own_entry env (depth_end - depth) _ h2
    have hf := finishNode_frame env (depth_end - depth)
      (searchBody env (fun a b e r => searchImplF env fuel a b (depth + 1) depth_end e r)
        alpha beta depth depth_end (checkSearchLimit env eng).2
        { result with stats_nodes := result.stats_nodes + 1 })
    refine ⟨ho.1.trans h1, ?_, ?_, ?_⟩
    · unfold finishNode
      simp only [h2]
      rw [if_neg (by simp)]
      split_ifs <;> simp [h3]
    · rw [hf.2, h3]
      rfl
    · unfold finishNode
      simp only [h2]
      rw [if_neg (by simp)]
      simpa using h5
  · intro hno n ret first hn hret
    have heq : ret = finishNode env (depth_end - depth) n := by
      rw [hret, hint2, hb.2 hno, hn]
    obtain ⟨n2, hn2⟩ : ∃ n2 : Node P, n2 =
        searchLoop env (fun a b e r => searchImplF env fuel a b (depth + 1) depth_end e r) beta
          (interiorMoves env (checkSearchLimit env eng).2 e.move)
          { initNode env alpha (checkSearchLimit env eng).2
              { result with stats_nodes := result.stats_nodes + 1
                            stats_tt_hit := result.stats_tt_hit + 1 } with
            evaluation :=
              if e.evaluation = env.kScoreNone then
                env.evaluate (checkSearchLimit env eng).2.position
              else e.evaluation } := ⟨_, rfl⟩
    have hsm : n =
        if n2.returned = true then n2
        else if n2.move_cnt = 0 then
          { n2 with score := max n2.score (env.evaluateLeaf n2.eng.position depth) }
        else n2 := by
      rw [hn, hn2]
      rfl
    have hout : n.move_cnt = n2.move_cnt ∧ n.eng = n2.eng ∧
        n.interrupted = n2.interrupted ∧ n2.score ≤ n.score ∧
        (n2.returned = false → n2.move_cnt = 0 →
          n.score = max n2.score (env.evaluateLeaf n2.eng.position depth)) := by
      rw [hsm]
      split_ifs with hr h0
      · exact ⟨rfl, rfl, rfl, le_refl _, fun h => by rw [hr] at h; exact absurd h (by decide)⟩
      · exact ⟨rfl, rfl, rfl, le_max_left _ _, fun _ _ => rfl⟩
      · exact ⟨rfl, rfl, rfl, le_refl _, fun _ h => absurd h h0⟩
    obtain ⟨k1, k2, k3, k4, k5, k6⟩ := searchMoves_enumerates env
      (fun a b e r => searchImplF env fuel a b (depth + 1) depth_end e r)
      (fun a b e r => searchImplF_ticks env fuel a b (depth + 1) depth_end e r)
      beta depth e.move
      { initNode env alpha (checkSearchLimit env eng).2
          { result with stats_nodes := result.stats_nodes + 1
                        stats_tt_hit := result.stats_tt_hit + 1 } with
        evaluation := e.evaluation } rfl rfl n n2 hn2 hout
    have hm : interiorMoves env (checkSearchLimit env eng).2 e.move =
        interiorMoves env eng e.move := rfl
    dsimp only [initNode] at k1 k2 k3 k4 k5 k6
    rw [hm] at k1 k2 k3 k5 k6
    rw [checkSearchLimit_clock] at k4
    have hclk : ret.eng.clock = n.eng.clock := by rw [heq, finishNode_ticks]
    have hscore : ret.score = env.kScoreNone ∨ ret.score = n.score := by
      by_cases hi : n.interrupted = true
      · left; rw [heq, finishNode_interrupted env _ n hi]
      · right; rw [heq]; exact finishNode_score env _ n (by simpa using hi)
    refine ⟨heq, k1, k2, ?_, by omega, ?_, ?_⟩
    · intro hlt
      rcases k3 hlt with h | h
      · left; rw [heq, finishNode_interrupted env _ n h]
      · rcases hscore with h2 | h2
        · exact Or.inl h2
        · right; rw [h2]; exact h
    · intro m rest hmr hfirst
      obtain ⟨f1, f2⟩ := k5 m rest hmr
      rw [← hfirst] at f1 f2
      refine ⟨by omega, ?_⟩
      rcases hscore with h2 | h2
      · exact Or.inl h2
      · right; rw [h2]; exact f2
    · intro hnil
      obtain ⟨g1, g2, g3⟩ := k6 hnil
      have hi : n.interrupted = false := g2
      refine ⟨?_, ?_⟩
      · rw [heq, finishNode_score env _ n hi, g1]
        rfl
      · rw [hclk, g3]
        rfl

theorem tt_probe_contract_witness :
    mateEnv.limit probeEngine.clock = true ∧ (0 : Int) < 2 ∧
    mateEnv.ttGet probeEngine.transposition_table (mateEnv.key probeEngine.position) =
      some { node_type := NodeType.kCutNode, move := 2, score := 100, evaluation := 0,
             depth := 5 } ∧
    (searchImplF mateEnv (2 + 1) (-32001) 50 0 2 probeEngine {}).score = 100 ∧
    ¬ ttScoreCut (-32001) 200 (2 - 0)
      { node_type := NodeType.kCutNode, move := 2, score := 100, evaluation := 0, depth := 5 } ∧
    interiorMoves mateEnv probeEngine 2 = [2, 3] ∧
    (searchImplF mateEnv (2 + 1) (-32001) 200 0 2 probeEngine {}).score = 31999 ∧
    (searchImplF mateEnv (2 + 1) (-32001) 200 0 2 probeEngine {}).eng.clock = 8 ∧
    (searchImplF mateEnv 2 (-200) (- -32001) (0 + 1) 2
      (makeMove mateEnv (checkSearchLimit mateEnv probeEngine).2 2)
      { stats_nodes := 0 + 1, stats_tt_hit := 0 + 1 }).eng.clock + 1 ≤
        (searchImplF mateEnv (2 + 1) (-32001) 200 0 2 probeEngine {}).eng.clock ∧
    ((searchImplF mateEnv (2 + 1) (-32001) 200 0 2 probeEngine {}).score = mateEnv.kScoreNone ∨
      -(searchImplF mateEnv 2 (-200) (- -32001) (0 + 1) 2
        (makeMove mateEnv (checkSearchLimit mateEnv probeEngine).2 2)
        { stats_nodes := 0 + 1, stats_tt_hit := 0 + 1 }).score ≤
          (searchImplF mateEnv (2 + 1) (-32001) 200 0 2 probeEngine {}).score) :=
  ⟨rfl, by decide, rfl,
    ((tt_probe_contract mateEnv 2 (-32001) 50 0 2 probeEngine {}
      { node_type := NodeType.kCutNode, move := 2, score := 100, evaluation := 0, depth := 5 }
      rfl (by decide) rfl).1
      ⟨by decide, Or.inl ⟨by decide, Or.inl rfl⟩⟩).1,
    by unfold ttScoreCut; decide, rfl, rfl, rfl,
    (((tt_probe_contract mateEnv 2 (-32001) 200 0 2 probeEngine {}
      { node_type := NodeType.kCutNode, move := 2, score := 100, evaluation := 0, depth := 5 }
      rfl (by decide) rfl).2 (by unfold ttScoreCut; decide) _ _ _ rfl rfl).2.2.2.2.2.1
      2 [3] rfl rfl).1,
    (((tt_probe_contract mateEnv 2 (-32001) 200 0 2 probeEngine {}
      { node_type := NodeType.kCutNode, move := 2, score := 100, evaluation := 0, depth := 5 }
      rfl (by decide) rfl).2 (by unfold ttScoreCut; decide) _ _ _ rfl rfl).2.2.2.2.2.1
      2 [3] rfl rfl).2⟩

end ToyChess
